import Mathlib

/-! # dvtm: clients, tags, arrangement, bar, keyboard input, FIFOs and command line

A shallow embedding of `dvtm.c`: the window/client model with its tags and
arrangement, the strip of the minimized clients, the bar and its position,
the chord buffer and the delivery of keys, the parser of the command FIFO,
the text of the status FIFO, the reading of the editor's output in copy mode,
the number of master windows, and the parsing of the command line.

Representation.  A `Client *` is an address (`Nat`), a nullable pointer is an
`Option Nat`.  Every field of `struct Client` is a map from addresses to
values.  The spatial list is the sequence of addresses reached from `clients`
along `next` (`prev` is the inverse link and is determined by that sequence);
the focus stack is the sequence reached from `stack` along `snext`.  A client
that is not linked has `next == prev == NULL`, which is what `detach` leaves
and what `calloc` returns, so "the clients after `c`" is empty for it.

A `char` buffer is a list of bytes (`Nat`), a pointer into it an index, and a
C string the bytes from an index to the first NUL.  What the operating system
answers (`read`, `malloc`, `realloc`), and the tables of `config.h`, are
arguments.

A function that can dereference `NULL` or loop forever returns `Option`;
`none` stands for that outcome, and for a loop that ran out of fuel.
-/

namespace Dvtm

/-! ## Machine integers and enum values -/

/-- Modulus of `unsigned int`. -/
def U32 : Nat := 2 ^ 32

/-- Modulus of `unsigned short int`. -/
def U16 : Nat := 2 ^ 16

/-- Value of `BAR_TOP` in `enum { BAR_TOP, BAR_BOTTOM, BAR_OFF }`. -/
def BAR_TOP : Nat := 0

/-- Value of `BAR_BOTTOM`. -/
def BAR_BOTTOM : Nat := 1

/-- Value of `BAR_OFF`. -/
def BAR_OFF : Nat := 2

/-! ## Data model -/

/-- The fields of `StatusBar` that the window model reads or writes; `h` and
`y` are `unsigned short`. -/
structure StatusBar where
  fd : Int
  pos : Nat
  lastpos : Nat
  autohide : Bool
  h : Int
  y : Int
  /-- `bar.text`, a buffer of 512 bytes -/
  text : List Nat

/-- The integer fields of `Screen`. -/
structure Screen where
  nmaster : Int
  history : Int
  w : Int
  h : Int

/-- A `Vt *`.  A terminal is named by the `vt_create` call that made it: the
one in `create` for the client at address `c`, or the one in `copymode` for
that client.  A client owns at most one of each at a time. -/
inductive Vt where
  | app (c : Nat)
  | editor (c : Nat)
  deriving DecidableEq

/-- The copy register `Register`: whether `data` is not `NULL`, and the two
`size_t` fields. -/
structure Register where
  data : Bool
  len : Nat
  size : Nat

/-- Program state: the fields of every `struct Client` and the globals of `dvtm.c`. -/
structure State where
  /-- `c->id` (unsigned short) -/
  id : Nat → Nat
  /-- `c->order` (unsigned int) -/
  order : Nat → Nat
  /-- `c->tags` (unsigned int) -/
  tags : Nat → Nat
  /-- `c->minimized` -/
  minimized : Nat → Bool
  /-- `c->urgent` -/
  urgent : Nat → Bool
  /-- `c->has_title_line` -/
  has_title_line : Nat → Bool
  /-- `c->cmd` -/
  cmd : Nat → String
  /-- `c->x` (unsigned short) -/
  x : Nat → Nat
  /-- `c->y` (unsigned short) -/
  y : Nat → Nat
  /-- `c->w` (unsigned short) -/
  w : Nat → Nat
  /-- `c->h` (unsigned short) -/
  h : Nat → Nat
  /-- the spatial list: `clients`, then `next` links -/
  clients : List Nat
  /-- the focus stack: `stack`, then `snext` links -/
  stack : List Nat
  sel : Option Nat
  lastsel : Option Nat
  /-- `seltags`, an index into `tagset[2]`: `false` is 0 and `true` is 1 -/
  seltags : Bool
  /-- `tagset[0]` -/
  tagset0 : Nat
  /-- `tagset[1]` -/
  tagset1 : Nat
  /-- `layout`, as an index into `layouts[]` -/
  layout : Nat
  bar : StatusBar
  screen : Screen
  waw : Int
  wah : Int
  wax : Int
  way : Int
  /-- `cmdfifo.id` (unsigned short) -/
  cmdfifo_id : Nat
  shell : String
  /-- status passed to `exit`, once the process has exited -/
  exited : Option Nat
  runinall : Bool
  /-- `c->app` -/
  app : Nat → Option Vt
  /-- `c->editor` -/
  editor : Nat → Option Vt
  /-- `c->term` -/
  term : Nat → Option Vt
  /-- `c->editor_died` -/
  editor_died : Nat → Bool
  /-- `c->editor_fds[0]` -/
  editor_fds0 : Nat → Int
  /-- `c->editor_fds[1]` -/
  editor_fds1 : Nat → Int
  copyreg : Register

/-- Which arrange function a layout points to, as tested by `isarrange`. -/
inductive LayoutKind where
  | tile
  | bstack
  | grid
  | fullscreen
  deriving DecidableEq

/-- One call `resize(c, x, y, w, h)`. -/
structure ResizeCall where
  c : Nat
  x : Int
  y : Int
  w : Int
  h : Int

/-- An entry of `layouts[]`.  The arrange functions live in the layout files
that `config.h` includes, which are not part of `dvtm.c`; a layout is taken as
a parameter: from the state it reads it yields the `resize` calls it makes, in
order. -/
structure Layout where
  symbol : String
  kind : LayoutKind
  arrange : State → List ResizeCall

/-- What `dvtm.c` takes from `config.h` and from curses: the tag names, the
layout table, `countof(actions)`, and whether `wresize` and `mvwin` succeed
for given arguments. -/
structure Env where
  tags : List String
  layouts : Nat → Layout
  nactions : Nat
  wresize_ok : Int → Int → Bool
  mvwin_ok : Int → Int → Bool

/-- The result of the three allocations at the start of `create`:
`calloc`, `newwin`, `vt_create`. -/
inductive Alloc where
  | calloc_failed
  | newwin_failed
  | vt_create_failed
  | ok (c : Nat)

/-- The part of the state that is not screen geometry: everything except the
client rectangles, `has_title_line`, the bar, the screen and the work area. -/
structure Core where
  id : Nat → Nat
  order : Nat → Nat
  tags : Nat → Nat
  minimized : Nat → Bool
  urgent : Nat → Bool
  cmd : Nat → String
  clients : List Nat
  stack : List Nat
  sel : Option Nat
  lastsel : Option Nat
  seltags : Bool
  tagset0 : Nat
  tagset1 : Nat
  layout : Nat
  cmdfifo_id : Nat
  shell : String
  exited : Option Nat

/-- Projection of a state on its non-geometry part. -/
def core (s : State) : Core :=
  { id := s.id, order := s.order, tags := s.tags, minimized := s.minimized,
    urgent := s.urgent, cmd := s.cmd, clients := s.clients, stack := s.stack,
    sel := s.sel, lastsel := s.lastsel, seltags := s.seltags, tagset0 := s.tagset0,
    tagset1 := s.tagset1, layout := s.layout, cmdfifo_id := s.cmdfifo_id,
    shell := s.shell, exited := s.exited }

/-! ## Helpers on maps and sequences -/

/-- Assignment to one client's field: `f[c] = v`. -/
def upd {α : Type} (f : Nat → α) (c : Nat) (v : α) : Nat → α :=
  fun d => if d = c then v else f d

/-- The clients reached from `c->next`: everything after `c` in the sequence,
nothing when `c` is not linked. -/
def after (c : Nat) : List Nat → List Nat
  | [] => []
  | d :: l => if d = c then l else after c l

/-- The sequence after linking `c` between `a` and `a->next`; unchanged when
`a` is not in it. -/
def insertAfter (a c : Nat) : List Nat → List Nat
  | [] => []
  | d :: l => if d = a then d :: c :: l else d :: insertAfter a c l

/-- The loop `c->order = ++o` over the clients `l`, starting from `o = n`. -/
def setOrders (order : Nat → Nat) : List Nat → Nat → (Nat → Nat)
  | [], _ => order
  | c :: l, n => setOrders (upd order c ((n + 1) % U32)) l ((n + 1) % U32)

/-- The loop `d->order--` over the clients `l`. -/
def decOrders (order : Nat → Nat) : List Nat → (Nat → Nat)
  | [] => order
  | d :: l => decOrders (upd order d ((order d + U32 - 1) % U32)) l

/-! ## Assignments to globals and fields -/

/-- Assignment `sel = v`. -/
def set_sel (v : Option Nat) (s : State) : State :=
  { s with sel := v }

/-- Assignment `lastsel = v`. -/
def set_lastsel (v : Option Nat) (s : State) : State :=
  { s with lastsel := v }

/-- Assignment `c->tags = v`. -/
def set_tags (c v : Nat) (s : State) : State :=
  { s with tags := upd s.tags c v }

/-- The statement `seltags ^= 1`. -/
def flip_seltags (s : State) : State :=
  { s with seltags := !s.seltags }

/-- The process has called `exit(status)`. -/
def set_exited (status : Nat) (s : State) : State :=
  { s with exited := some status }

/-! ## Visibility -/

/-- The current tagset `tagset[seltags]`. -/
def curtagset (s : State) : Nat :=
  if s.seltags then s.tagset1 else s.tagset0

/-- The other tagset `tagset[seltags ^ 1]`, the previous view. -/
def prevtagset (s : State) : Nat :=
  if s.seltags then s.tagset0 else s.tagset1

/-- `isvisible(c)`: `c->tags & tagset[seltags]`. -/
def isvisible (s : State) (c : Nat) : Bool :=
  (s.tags c &&& curtagset s) != 0

/-- `nextvisible(c)`, where `l` is the sequence starting at `c`. -/
def nextvisible (s : State) (l : List Nat) : Option Nat :=
  l.find? (isvisible s)

/-- The clients visited by
`for (c = nextvisible(l); c; c = nextvisible(c->next))`. -/
def visibleOf (s : State) (l : List Nat) : List Nat :=
  l.filter (isvisible s)

/-- `isarrange(fullscreen)`. -/
def isfullscreen (env : Env) (s : State) : Bool :=
  decide ((env.layouts s.layout).kind = LayoutKind.fullscreen)

/-! ## Status bar position -/

/-- `updatebarpos()`. -/
def updatebarpos (s : State) : State :=
  let s0 := { s with bar := { s.bar with y := 0 }, wax := 0, way := 0,
                     wah := s.screen.h, waw := s.screen.w }
  if s0.bar.pos = BAR_TOP then
    { s0 with wah := s0.wah - s0.bar.h, way := s0.way + s0.bar.h }
  else if s0.bar.pos = BAR_BOTTOM then
    { s0 with wah := s0.wah - s0.bar.h, bar := { s0.bar with y := (s0.wah - s0.bar.h) % U16 } }
  else s0

/-- `hidebar()`. -/
def hidebar (s : State) : State :=
  if s.bar.pos ≠ BAR_OFF then
    { s with bar := { s.bar with lastpos := s.bar.pos, pos := BAR_OFF } }
  else s

/-- `showbar()`. -/
def showbar (s : State) : State :=
  if s.bar.pos = BAR_OFF then { s with bar := { s.bar with pos := s.bar.lastpos } } else s

/-- `show_border()`: the bar is on, or the list has at least two clients. -/
def show_border (s : State) : Bool :=
  s.bar.pos != BAR_OFF || decide (2 ≤ s.clients.length)

/-! ## Geometry -/

/-- `resize_client(c, w, h)`. -/
def resize_client (env : Env) (c : Nat) (w h : Int) (s : State) : State :=
  let has_title_line := show_border s
  let resize_window := decide ((s.w c : Int) ≠ w) || decide ((s.h c : Int) ≠ h)
  let s1 :=
    if resize_window && env.wresize_ok h w then
      { s with w := upd s.w c (w % U16).toNat, h := upd s.h c (h % U16).toNat }
    else s
  if resize_window || (s.has_title_line c != has_title_line) then
    { s1 with has_title_line := upd s1.has_title_line c has_title_line }
  else s1

/-- `move_client(c, x, y)`. -/
def move_client (env : Env) (c : Nat) (x y : Int) (s : State) : State :=
  if (s.x c : Int) = x ∧ (s.y c : Int) = y then s
  else if env.mvwin_ok y x then
    { s with x := upd s.x c (x % U16).toNat, y := upd s.y c (y % U16).toNat }
  else s

/-- `resize(c, x, y, w, h)`. -/
def resize (env : Env) (r : ResizeCall) (s : State) : State :=
  move_client env r.c r.x r.y (resize_client env r.c r.w r.h s)

/-- A sequence of `resize` calls, first to last. -/
def resizeAll (env : Env) : List ResizeCall → State → State
  | [], s => s
  | r :: rs, s => resizeAll env rs (resize env r s)

/-- The loop of `arrange` over the visible clients `l` that places the
minimized ones in the bottom row: `i` counts them, `nx` is the next column. -/
def placeMinimized (env : Env) (m nw : Int) : List Nat → Int → Int → State → State
  | [], _, _, s => s
  | c :: l, i, nx, s =>
    if s.minimized c then
      placeMinimized env m nw l (i + 1) (nx + nw)
        (resize env ⟨c, nx, s.way + s.wah, if i + 1 = m then s.waw - nx else nw, 1⟩ s)
    else placeMinimized env m nw l i nx s

/-! ## List and stack primitives -/

/-- `attach(c)`: link `c` at the head and renumber from 1.  `c` is not linked
when this is called. -/
def attach (c : Nat) (s : State) : State :=
  { s with clients := c :: s.clients,
           order := setOrders s.order (c :: visibleOf s s.clients) 0 }

/-- `attachafter(c, a)`: link `c` after `a` (after the last client when `a` is
`NULL`) and renumber from `a->order`. -/
def attachafter (c : Nat) (a : Option Nat) (s : State) : State :=
  if a = some c then s
  else
    match (match a with
           | some a => some a
           | none => s.clients.getLast?) with
    | none => s
    | some a =>
      { s with clients := insertAfter a c s.clients,
               order := setOrders s.order (c :: visibleOf s (after a s.clients)) (s.order a) }

/-- `attachstack(c)`. -/
def attachstack (c : Nat) (s : State) : State :=
  { s with stack := c :: s.stack }

/-- `detach(c)`: decrement the order of the visible clients after `c`, unlink `c`. -/
def detach (c : Nat) (s : State) : State :=
  { s with order := decOrders s.order (visibleOf s (after c s.clients)),
           clients := s.clients.erase c }

/-- `detachstack(c)`.  `c` is on the stack, or has `snext == NULL`. -/
def detachstack (c : Nat) (s : State) : State :=
  { s with stack := s.stack.erase c }

/-- `focus(c)`; the drawing and the terminal title leave the state alone. -/
def focus (c : Option Nat) (s : State) : State :=
  let c :=
    match c with
    | some c => some c
    | none => s.stack.find? (isvisible s)
  if s.sel = c then s
  else
    let s1 := { s with lastsel := s.sel, sel := c }
    let s2 :=
      match s1.lastsel with
      | some l => { s1 with urgent := upd s1.urgent l false }
      | none => s1
    match c with
    | some c =>
      let s3 := attachstack c (detachstack c s2)
      { s3 with urgent := upd s3.urgent c false }
    | none => s2

/-- `draw_all()`: with no visible client `sel` is reset; the rest only draws. -/
def draw_all (s : State) : State :=
  match nextvisible s s.clients with
  | none => set_sel none s
  | some _ => s

/-- The statements `wah--` (`d = -1`) and `wah++` (`d = 1`) of `arrange`. -/
def addwah (d : Int) (s : State) : State :=
  { s with wah := s.wah + d }

/-- First loop of `arrange`: `c->order = ++n` over the visible clients. -/
def renumber (s : State) : State :=
  { s with order := setOrders s.order (visibleOf s s.clients) 0 }

/-- The autohide step of `arrange`, the block
`if (bar.fd < 0 && bar.autohide) { ... updatebarpos(); }`, where `n` is the
number of visible clients counted by the first loop. -/
def autohide (n : Nat) (s : State) : State :=
  if s.bar.fd < 0 ∧ s.bar.autohide = true then
    updatebarpos (if s.clients.length ≤ 1 ∧ n = 1 then hidebar s else showbar s)
  else s

/-- `arrange()`. -/
def arrange (env : Env) (s : State) : State :=
  let vis := visibleOf s s.clients
  let n := vis.length % U32
  let m : Int := (vis.filter s.minimized).length
  let s1 := renumber s
  let s2 := autohide n s1
  let strip := decide (m ≠ 0) && !isfullscreen env s2
  let s3 := if strip then addwah (-1) s2 else s2
  let s4 := resizeAll env ((env.layouts s3.layout).arrange s3) s3
  let s5 :=
    if strip then
      addwah 1 (placeMinimized env m (Int.tdiv s4.waw m) (visibleOf s4 s4.clients) 0 s4.wax s4)
    else s4
  draw_all (focus none s5)

/-! ## Commands on the status bar -/

/-- The assignments `screen.w = w; screen.h = h` of `resize_screen`. -/
def set_screen_size (w h : Int) (s : State) : State :=
  { s with screen := { s.screen with w := w, h := h } }

/-- `resize_screen()`; `w` and `h` are the terminal size that `ioctl` or
`getmaxyx` reports. -/
def resize_screen (env : Env) (w h : Int) (s : State) : State :=
  arrange env (updatebarpos (set_screen_size w h s))

/-- `redraw(args)`: the windows are marked dirty and cleared, then `resize_screen()`. -/
def redraw (env : Env) (w h : Int) (s : State) : State :=
  resize_screen env w h s

/-- Assignment `bar.autohide = v`. -/
def set_autohide (v : Bool) (s : State) : State :=
  { s with bar := { s.bar with autohide := v } }

/-- Assignment `bar.pos = v`. -/
def set_barpos (v : Nat) (s : State) : State :=
  { s with bar := { s.bar with pos := v } }

/-- `togglebar(args)`; `w` and `h` are the terminal size read by `redraw`. -/
def togglebar (env : Env) (w h : Int) (s : State) : State :=
  redraw env w h
    (updatebarpos (set_autohide false (if s.bar.pos = BAR_OFF then showbar s else hidebar s)))

/-- The `switch` of `togglebarpos`, on `bar.pos == BAR_OFF ? bar.lastpos : bar.pos`. -/
def flipbarpos (s : State) : State :=
  let p := if s.bar.pos = BAR_OFF then s.bar.lastpos else s.bar.pos
  if p = BAR_TOP then set_barpos BAR_BOTTOM s
  else if p = BAR_BOTTOM then set_barpos BAR_TOP s
  else s

/-- `togglebarpos(args)`; `w` and `h` are the terminal size read by `redraw`. -/
def togglebarpos (env : Env) (w h : Int) (s : State) : State :=
  redraw env w h (updatebarpos (flipbarpos s))

/-! ## Commands -/

/-- `focusnextnm(NULL)`.  The `do`-`while` walks the visible clients after
`sel`, then from the start of the list, again and again, until it meets one
that is not minimized or is `sel`.  One wrap-around pass holds every visible
client, so the first hit, if any, is in the clients after `sel` followed by
one full pass.  `none`: no client is visible (`NULL` is dereferenced) or the
loop never exits. -/
def focusnextnm (s : State) : Option State :=
  match s.sel with
  | none => some s
  | some p =>
    match (visibleOf s (after p s.clients) ++ visibleOf s s.clients).find?
        (fun c => !s.minimized c || c == p) with
    | none => none
    | some c => some (focus (some c) s)

/-- The loop `for (; c && (t = nextvisible(c->next)) && !t->minimized; c = t)`
of `toggleminimize`, where `l` holds the visible clients after `c`. -/
def lastnm (s : State) (c : Nat) : List Nat → Nat
  | [] => c
  | t :: l => if s.minimized t then c else lastnm s t l

/-- The loop
`for (c = nextvisible(clients); c && (t = nextvisible(c->next)) && !t->minimized; c = t)`
of `toggleminimize`: `NULL` when no client is visible. -/
def lastnm_from (s : State) : Option Nat :=
  match nextvisible s s.clients with
  | none => none
  | some c => some (lastnm s c (visibleOf s (after c s.clients)))

/-- The statement `sel->minimized = !sel->minimized` of `toggleminimize`, with `m = sel`. -/
def flipmin (m : Nat) (s : State) : State :=
  { s with minimized := upd s.minimized m (!s.minimized m) }

/-- `toggleminimize(NULL)`. -/
def toggleminimize (env : Env) (s : State) : Option State :=
  match s.sel with
  | none => some s
  | some m =>
    if s.minimized m = false ∧
        ((visibleOf s s.clients).filter (fun c => !s.minimized c)).length = 1 then
      some s
    else
      let s1 := flipmin m s
      if nextvisible s1 s1.clients = some m ∧ s1.minimized m = true then
        match nextvisible s1 (after m s1.clients) with
        | none => none
        | some c =>
          let s2 := detach m (focus (some c) (attach c (detach c s1)))
          let a := lastnm s2 c (visibleOf s2 (after c s2.clients))
          some (arrange env (attachafter m (some a) s2))
      else if s1.minimized m = true then
        match focusnextnm s1 with
        | none => none
        | some s2 => some (arrange env (attachafter m (lastnm_from (detach m s2)) (detach m s2)))
      else
        some (arrange env (attach m (detach m s1)))

/-- `focusn(args)`, with `n` the value of `(unsigned int)strtoul(args[0], NULL, 10)`. -/
def focusn (env : Env) (n : Nat) (s : State) : Option State :=
  match (visibleOf s s.clients).find? (fun c => s.order c == n) with
  | none => some s
  | some c =>
    let s1 := focus (some c) s
    if s1.minimized c then toggleminimize env s1 else some s1

/-- The client `zoom` promotes: `sel`, or the next visible client when `sel`
is the first visible one (`none` when there is no such client). -/
def zoom_target (s : State) (p : Nat) : Option Nat :=
  if nextvisible s s.clients = some p then nextvisible s (after p s.clients) else some p

/-- `zoom(args)`; `arg` is `none` when `args` or `args[0]` is `NULL`, else the
number `focusn` reads from `args[0]`.  After `focusn` the code reads `sel`
again and dereferences it. -/
def zoom (env : Env) (arg : Option Nat) (s : State) : Option State :=
  match s.sel with
  | none => some s
  | some _ =>
    (match arg with
     | some n => focusn env n s
     | none => some s).bind fun s0 =>
    match s0.sel with
    | none => none
    | some p =>
      match zoom_target s0 p with
      | none => some s0
      | some c =>
        let s1 := focus (some c) (attach c (detach c s0))
        (if s1.minimized c then toggleminimize env s1 else some s1).bind fun s2 =>
        some (arrange env s2)

/-- The start of `create` once the allocations have succeeded: `calloc` has
returned zeroed memory at `c`, then `c->tags = tagset[seltags]`,
`c->id = ++cmdfifo.id`, `c->term = c->app = vt_create(...)`, `c->cmd`,
`c->x = wax`, `c->y = way`. -/
def newclient (cmd : Option String) (c : Nat) (s : State) : State :=
  { s with
    cmdfifo_id := (s.cmdfifo_id + 1) % U16,
    id := upd s.id c ((s.cmdfifo_id + 1) % U16),
    tags := upd s.tags c (curtagset s),
    order := upd s.order c 0,
    minimized := upd s.minimized c false,
    urgent := upd s.urgent c false,
    has_title_line := upd s.has_title_line c false,
    cmd := upd s.cmd c (match cmd with
                        | some a0 => a0
                        | none => s.shell),
    x := upd s.x c (s.wax % U16).toNat,
    y := upd s.y c (s.way % U16).toNat,
    w := upd s.w c 0,
    h := upd s.h c 0,
    app := upd s.app c (some (Vt.app c)),
    term := upd s.term c (some (Vt.app c)),
    editor := upd s.editor c none,
    editor_died := upd s.editor_died c false,
    editor_fds0 := upd s.editor_fds0 c 0,
    editor_fds1 := upd s.editor_fds1 c 0 }

/-- The statement `c->id = ++cmdfifo.id` on a path of `create` that then
frees the client again. -/
def bump_id (s : State) : State :=
  { s with cmdfifo_id := (s.cmdfifo_id + 1) % U16 }

/-- `create(args)` with `cmd = args[0]` (`none` when `args` or `args[0]` is
`NULL`).  The title, the working directory and the forked child do not enter
the window model. -/
def create (env : Env) (cmd : Option String) (a : Alloc) (s : State) : State :=
  match a with
  | Alloc.calloc_failed => s
  | Alloc.newwin_failed => bump_id s
  | Alloc.vt_create_failed => bump_id s
  | Alloc.ok c => arrange env (focus (some c) (attach c (newclient cmd c s)))

/-- The block `if (sel == c) { ... }` of `destroy` that runs after `c` has
been unlinked. -/
def destroy_refocus (env : Env) (c : Nat) (s : State) : Option State :=
  if s.sel = some c then
    match nextvisible s s.clients with
    | some nxt => toggleminimize env (focus (some nxt) s)
    | none => some (set_sel none s)
  else some s

/-- The end of `destroy(c)`: with no client left and start-up actions
configured, `quit(NULL)` (which exits with status 0) when `c` ran the shell,
`create(NULL)` otherwise; then `arrange()`. -/
def destroy_finish (env : Env) (a : Alloc) (c : Nat) (s : State) : State :=
  if s.clients = [] ∧ env.nactions ≠ 0 then
    if s.cmd c = s.shell then set_exited 0 s
    else arrange env (create env none a s)
  else arrange env s

/-- `destroy(c)`.  `a` is the allocation result of the `create(NULL)` that may
run at the end. -/
def destroy (env : Env) (a : Alloc) (c : Nat) (s : State) : Option State :=
  (if s.sel = some c then focusnextnm s else some s).bind fun s1 =>
  (destroy_refocus env c (detachstack c (detach c s1))).bind fun s3 =>
  some (destroy_finish env a c (if s3.lastsel = some c then set_lastsel none s3 else s3))

/-! ## Tags -/

/-- `TAGMASK`: `(1 << countof(tags)) - 1`. -/
def TAGMASK (env : Env) : Nat :=
  (2 ^ env.tags.length - 1) % U32

/-- `bitoftag(tag)`. -/
def bitoftag (env : Env) (tag : Option String) : Nat :=
  match tag with
  | none => U32 - 1
  | some t =>
    if env.tags.indexOf t < env.tags.length then 2 ^ env.tags.indexOf t % U32 else 0

/-- `tagschanged()`. -/
def tagschanged (env : Env) (s : State) : Option State :=
  let allminimized := (visibleOf s s.clients).all s.minimized
  (if allminimized = true ∧ (nextvisible s s.clients).isSome = true
   then toggleminimize env (focus none s) else some s).bind fun s1 =>
  some (arrange env s1)

/-- `tag(args)` with `arg = args[0]`. -/
def tag (env : Env) (arg : Option String) (s : State) : Option State :=
  match s.sel with
  | none => some s
  | some c => tagschanged env (set_tags c (bitoftag env arg &&& TAGMASK env) s)

/-- `toggletag(args)` with `arg = args[0]`. -/
def toggletag (env : Env) (arg : Option String) (s : State) : Option State :=
  match s.sel with
  | none => some s
  | some c =>
    let newtags := s.tags c ^^^ (bitoftag env arg &&& TAGMASK env)
    if newtags ≠ 0 then tagschanged env (set_tags c newtags s) else some s

/-- Assignment `tagset[seltags] = v`. -/
def setcurtagset (v : Nat) (s : State) : State :=
  if s.seltags then { s with tagset1 := v } else { s with tagset0 := v }

/-- `toggleview(args)` with `arg = args[0]`. -/
def toggleview (env : Env) (arg : Option String) (s : State) : Option State :=
  let newtagset := curtagset s ^^^ (bitoftag env arg &&& TAGMASK env)
  if newtagset ≠ 0 then tagschanged env (setcurtagset newtagset s) else some s

/-- `view(args)` with `arg = args[0]`. -/
def view (env : Env) (arg : Option String) (s : State) : Option State :=
  let newtagset := bitoftag env arg &&& TAGMASK env
  if curtagset s ≠ newtagset ∧ newtagset ≠ 0 then
    tagschanged env (setcurtagset newtagset (flip_seltags s))
  else some s

/-- `viewprevtag(args)`. -/
def viewprevtag (env : Env) (s : State) : Option State :=
  tagschanged env (flip_seltags s)

/-! ## Keyboard input -/

/-- `MAX_KEYS`, the length of a `KeyCombo`. -/
def MAX_KEYS : Nat := 3

/-- The chord state of `main`: the buffer `keys` and `key_index`. -/
structure Chord where
  keys : List Nat
  key_index : Nat
  deriving DecidableEq

/-- The chord state after `memset(keys, 0, sizeof(keys))` with `key_index = 0`. -/
def chord0 : Chord :=
  { keys := [0, 0, 0], key_index := 0 }

/-- What `main` does with one key. -/
inductive KeyEvent where
  /-- `getch()` returned a negative code -/
  | idle
  /-- `handle_mouse()` -/
  | mouse
  /-- `bindings[b].action.cmd(bindings[b].action.args)` -/
  | action (b : Nat)
  /-- a binding matches so far, and needs more keys -/
  | pending
  /-- `keypress(code)` -/
  | passthrough (code : Int)
  deriving DecidableEq

/-- The inner loop of `keybinding` for one binding `b`: the first `keycount`
keys agree.  With `keycount == 0` the loop body never runs and nothing is
returned. -/
def chord_matches (keys b : List Nat) (keycount : Nat) : Bool :=
  decide (0 < keycount) && (List.range keycount).all (fun k => keys.getD k 0 == b.getD k 0)

/-- `keybinding(keys, keycount)`: the index of the first binding that matches. -/
def keybinding (bindings : List (List Nat)) (keys : List Nat) (keycount : Nat) : Option Nat :=
  bindings.findIdx? (fun b => chord_matches keys b keycount)

/-- The loop
`while (key_length > 1 && !binding->keys[key_length - 1]) key_length--`
from `key_length = MAX_KEYS`. -/
def key_length (b : List Nat) : Nat :=
  if b.getD 2 0 ≠ 0 then 3 else if b.getD 1 0 ≠ 0 then 2 else 1

/-- The block of `main` that handles one `code = getch()`.  `bindings` is the
table of `config.h`, each `KeyCombo` a sequence of `MAX_KEYS` codes;
`key_mouse` is the curses constant `KEY_MOUSE`.  `none`: the store
`keys[key_index++] = code` is out of bounds. -/
def key_step (key_mouse : Int) (bindings : List (List Nat)) (ch : Chord) (code : Int) :
    Option (Chord × KeyEvent) :=
  if code < 0 then some (ch, KeyEvent.idle)
  else if MAX_KEYS ≤ ch.key_index then none
  else
    let keys := ch.keys.set ch.key_index (code % U32).toNat
    let idx := ch.key_index + 1
    if code = key_mouse then some ({ keys := keys, key_index := 0 }, KeyEvent.mouse)
    else
      match keybinding bindings keys idx with
      | some b =>
        if idx = key_length (bindings.getD b []) then some (chord0, KeyEvent.action b)
        else some ({ keys := keys, key_index := idx }, KeyEvent.pending)
      | none => some (chord0, KeyEvent.passthrough code)

/-- The keys `codes` handled one after the other: the final chord state and
what each key did. -/
def run_keys (key_mouse : Int) (bindings : List (List Nat)) :
    List Int → Chord → Option (Chord × List KeyEvent)
  | [], ch => some (ch, [])
  | code :: codes, ch =>
    (key_step key_mouse bindings ch code).bind fun r =>
    (run_keys key_mouse bindings codes r.1).bind fun r2 =>
    some (r2.1, r.2 :: r2.2)

/-- `is_content_visible(c)`. -/
def is_content_visible (env : Env) (s : State) (c : Option Nat) : Bool :=
  match c with
  | none => false
  | some c =>
    if isfullscreen env s then decide (s.sel = some c)
    else isvisible s c && !s.minimized c

/-- A call that hands input to a client's terminal `c->term`. -/
inductive VtInput where
  /-- `vt_write(c->term, buf, len)` -/
  | write (c : Nat) (buf : List Int)
  /-- `vt_keypress(c->term, code)` -/
  | keypress (c : Nat) (code : Int)
  deriving DecidableEq

/-- The client whose terminal gets the input. -/
def VtInput.client : VtInput → Nat
  | VtInput.write c _ => c
  | VtInput.keypress c _ => c

/-- The code of the escape character. -/
def ESC : Int := 27

/-- The loop of `keypress` that collects what follows an escape: `pending`
holds what the next calls of `getch()` return (`ERR` is -1, and so is running
out of input), `room` is `sizeof(buf) - len`.  Yields the bytes stored in
`buf` and `key`. -/
def read_escape : List Int → Nat → List Int × Int
  | [], _ => ([], -1)
  | _, 0 => ([], -1)
  | t :: ts, room + 1 =>
    if t = -1 then ([], -1)
    else if t > 255 then ([], t)
    else ((read_escape ts room).1.cons t, (read_escape ts room).2)

/-- The calls of `keypress` on one client's terminal. -/
def send_key (code key : Int) (buf : List Int) (c : Nat) : List VtInput :=
  (if code = ESC then [VtInput.write c buf] else [VtInput.keypress c code]) ++
  (if key ≥ 0 then [VtInput.keypress c key] else [])

/-- Assignment `c->urgent = false`. -/
def clear_urgent (c : Nat) (s : State) : State :=
  { s with urgent := upd s.urgent c false }

/-- The loop of `keypress` over the clients `l` that it visits. -/
def keypress_loop (env : Env) (code key : Int) (buf : List Int) :
    List Nat → State → State × List VtInput
  | [], s => (s, [])
  | c :: l, s =>
    if is_content_visible env s (some c) then
      ((keypress_loop env code key buf l (clear_urgent c s)).1,
       send_key code key buf c ++ (keypress_loop env code key buf l (clear_urgent c s)).2)
    else keypress_loop env code key buf l s

/-- `keypress(code)`: the state it leaves and the input it hands to the
terminals, in order.  The loop starts at `nextvisible(clients)` and visits the
visible clients when `runinall` is set; otherwise it visits `sel` alone. -/
def keypress (env : Env) (code : Int) (pending : List Int) (s : State) :
    State × List VtInput :=
  let e := if code = ESC then read_escape pending 7 else ([], -1)
  keypress_loop env code e.2 (ESC :: e.1)
    (if s.runinall then visibleOf s s.clients else s.sel.toList) s

/-- `togglerunall(args)`. -/
def togglerunall (s : State) : State :=
  draw_all { s with runinall := !s.runinall }

/-! ## The status text -/

/-- The newline character. -/
def NL : Nat := 10

/-- The string at offset `p` of a buffer: the bytes before the first NUL. -/
def cstr (buf : List Nat) (p : Nat) : List Nat :=
  (buf.drop p).takeWhile (fun b => b != 0)

/-- The first loop of `handle_statusbar`,
`for (; p >= bar.text && *p == NL; *p-- = 0)`, with `k` one more than the
offset of `p`: the buffer and `k` when the loop ends. -/
def strip_newlines (buf : List Nat) : Nat → List Nat × Nat
  | 0 => (buf, 0)
  | k + 1 => if buf.getD k 0 = NL then strip_newlines (buf.set k 0) k else (buf, k + 1)

/-- The second loop of `handle_statusbar`, `for (; p >= bar.text && *p != NL; p--)`,
with `k` one more than the offset of `p`. -/
def find_newline (buf : List Nat) : Nat → Nat
  | 0 => 0
  | k + 1 => if buf.getD k 0 ≠ NL then find_newline buf k else k + 1

/-- `memmove(buf, buf + i, n)`. -/
def memmove0 (buf : List Nat) (i n : Nat) : List Nat :=
  (buf.drop i).take n ++ buf.drop n

/-- The `else` branch of `handle_statusbar` on the buffer `bar.text`, after
`read` has stored the bytes `chunk` at its start. -/
def statusbar_text (text chunk : List Nat) : List Nat :=
  let r := chunk.length
  let buf0 := (chunk ++ text.drop r).set r 0
  let st := strip_newlines buf0 r
  let k := find_newline st.1 st.2
  if 1 ≤ k then memmove0 st.1 k (cstr st.1 (k - 1)).length else st.1

/-- What `read(fd, buf, n)` returns to `handle_statusbar`: an error (with the
text of `strerror(errno)`), end of file, or at least one byte. -/
inductive BarRead where
  | error (msg : List Nat)
  | eof
  | data (chunk : List Nat)

/-- `strncpy(bar.text, msg, 511); bar.text[511] = 0`. -/
def set_error_text (msg : List Nat) : List Nat :=
  (msg.takeWhile (fun b => b != 0)).take 511 ++
    List.replicate (512 - ((msg.takeWhile (fun b => b != 0)).take 511).length) 0

/-- Assignments to `bar.text` and `bar.fd`. -/
def set_bar_text (text : List Nat) (s : State) : State :=
  { s with bar := { s.bar with text := text } }

/-- Assignment `bar.fd = v`. -/
def set_bar_fd (v : Int) (s : State) : State :=
  { s with bar := { s.bar with fd := v } }

/-- `handle_statusbar()`; `r` is what `read` returns, with at most 511 bytes. -/
def handle_statusbar (r : BarRead) (s : State) : State :=
  match r with
  | BarRead.error msg => set_bar_fd (-1) (set_bar_text (set_error_text msg) s)
  | BarRead.eof => set_bar_fd (-1) s
  | BarRead.data chunk => set_bar_text (statusbar_text s.bar.text chunk) s

/-- The last line of a chunk, in the words of the specification: the chunk
with all trailing newlines removed, then everything after the last remaining
newline. -/
def last_line (chunk : List Nat) : List Nat :=
  (((chunk.reverse.dropWhile (fun b => b == NL)).takeWhile (fun b => b != NL))).reverse

/-! ## Copy mode -/

/-- Modulus of `size_t`. -/
def SIZE_MAX1 : Nat := 2 ^ 64

/-- What one `read` on the `from` pipe returns to `handle_editor`. -/
inductive ReadResult where
  /-- -1 with `errno == EINTR` -/
  | eintr
  /-- -1 with another `errno` -/
  | error
  /-- 0: end of file -/
  | eof
  /-- `k + 1` bytes are ready; `read` returns them, or as many as were asked for -/
  | bytes (k : Nat)
  deriving DecidableEq

/-- The number of bytes a `read` result stands for. -/
def ReadResult.avail : ReadResult → Nat
  | ReadResult.bytes k => k + 1
  | _ => 0

/-- The `while` loop of `handle_editor` once `c->editor_fds[1] >= 0` is known:
`rs` holds what the successive `read` calls return, `realloc_ok n` tells
whether `realloc(copyreg.data, n)` succeeds.  `none`: `rs` ends before the loop
does. -/
def drain (realloc_ok : Nat → Bool) : List ReadResult → Register → Option Register
  | [], r => if r.len < r.size then none else some r
  | x :: rs, r =>
    if r.len < r.size then
      match x with
      | ReadResult.eintr => drain realloc_ok rs r
      | ReadResult.error => some r
      | ReadResult.eof => some r
      | ReadResult.bytes k =>
        if r.len + min (k + 1) (r.size - r.len) = r.size then
          if realloc_ok (r.size * 2 % SIZE_MAX1) then
            drain realloc_ok rs
              { data := true, len := r.len + min (k + 1) (r.size - r.len),
                size := r.size * 2 % SIZE_MAX1 }
          else drain realloc_ok rs { data := false, len := 0, size := 0 }
        else drain realloc_ok rs { r with len := r.len + min (k + 1) (r.size - r.len) }
    else some r

/-- The start of `handle_editor`: the register is allocated if it has no
data yet (`malloc_ok` tells whether `malloc(screen.history)` succeeds), and
`copyreg.len = 0`. -/
def editor_register (malloc_ok : Bool) (s : State) : Register :=
  { data := s.copyreg.data || malloc_ok,
    len := 0,
    size := if !s.copyreg.data && malloc_ok then (s.screen.history % SIZE_MAX1).toNat
            else s.copyreg.size }

/-- The end of `handle_editor(c)`: the register is `r`, then
`c->editor_died = false`, `c->editor_fds[1] = -1`, `c->editor = NULL`,
`c->term = c->app`. -/
def editor_close (c : Nat) (r : Register) (s : State) : State :=
  { s with copyreg := r,
           editor_died := upd s.editor_died c false,
           editor_fds1 := upd s.editor_fds1 c (-1),
           editor := upd s.editor c none,
           term := upd s.term c (s.app c) }

/-- `handle_editor(c)`. -/
def handle_editor (malloc_ok : Bool) (realloc_ok : Nat → Bool) (rs : List ReadResult) (c : Nat)
    (s : State) : Option State :=
  (if 0 ≤ s.editor_fds1 c then drain realloc_ok rs (editor_register malloc_ok s)
   else some (editor_register malloc_ok s)).bind fun r =>
  some (editor_close c r s)

/-- `strstr(s, sub) != NULL`. -/
def strstr (s sub : String) : Bool :=
  s.toList.tails.any (fun t => sub.toList.isPrefixOf t)

/-- The fields `copymode` leaves on the selected client `c` when the editor
runs: `fds` are the descriptors `vt_forkpty` stored in `*to` and `*from`
(`from` is `NULL` unless `args[0]` contains "editor"); the `to` pipe is
written and closed. -/
def editor_open (c : Nat) (arg0 : String) (fds : Int × Int) (s : State) : State :=
  { s with editor := upd s.editor c (some (Vt.editor c)),
           term := upd s.term c (some (Vt.editor c)),
           editor_fds0 := upd s.editor_fds0 c (if 0 ≤ fds.1 then -1 else fds.1),
           editor_fds1 := upd s.editor_fds1 c (if strstr arg0 "editor" then fds.2 else -1) }

/-- `copymode(args)` with `arg0 = args[0]`.  `vt_ok` tells whether `vt_create`
succeeds, `fork` is `none` when `vt_forkpty` fails and holds the two pipe
descriptors otherwise.  On both failure paths `sel->editor` ends `NULL`; the
failed `vt_forkpty` leaves `editor_fds` at -1. -/
def copymode (arg0 : Option String) (vt_ok : Bool) (fork : Option (Int × Int)) (s : State) :
    State :=
  match arg0, s.sel with
  | some a, some c =>
    if (s.editor c).isSome then s
    else if !vt_ok then s
    else
      match fork with
      | none => { s with editor_fds0 := upd s.editor_fds0 c (-1),
                         editor_fds1 := upd s.editor_fds1 c (-1) }
      | some fds => editor_open c a fds s
  | _, _ => s

/-! ## The command FIFO -/

/-- `MAX_ARGS`. -/
def MAX_ARGS : Nat := 8

/-- The space character. -/
def SP : Nat := 32

/-- The backslash. -/
def BSL : Nat := 92

/-- The single quote. -/
def SQ : Nat := 39

/-- The double quote. -/
def DQ : Nat := 34

/-- The bytes of a string of ASCII characters. -/
def bytes (s : String) : List Nat :=
  s.toList.map Char.toNat

/-- An entry of `commands[]` in `config.h`: the name and the three entries of
`action.args` (`none` is `NULL`). -/
structure Cmd where
  name : List Nat
  args : List (Option (List Nat))

/-- One call `cmd->action.cmd(args)` made by `handle_cmdfifo`: the index of
the command in `commands[]` and the array passed, each entry `NULL` or the
string it points to at the time of the call. -/
structure Call where
  cmd : Nat
  args : List (Option (List Nat))
  deriving DecidableEq

/-- `get_cmd_by_name(name)`, as an index into `commands[]`. -/
def get_cmd_by_name (commands : List Cmd) (name : List Nat) : Option Nat :=
  commands.findIdx? (fun c => c.name == name)

/-- A loop `for (; f(*p); p++)`: the offset at which it stops. -/
def scan (f : Nat → Bool) (buf : List Nat) (p : Nat) : Nat :=
  p + ((buf.drop p).takeWhile f).length

/-- The loop `do { t[-1] = *t; } while (*t++)` on the bytes from `t - 1` on:
every byte up to and including the next NUL moves one position to the left. -/
def shift_left : List Nat → List Nat
  | _ :: y :: rest => y :: (if y = 0 then y :: rest else shift_left (y :: rest))
  | l => l

/-- The escape character at offset `p` is removed: `t = p + 1`, then the
loop `do { t[-1] = *t; } while (*t++)`. -/
def unescape (buf : List Nat) (p : Nat) : List Nat :=
  buf.take p ++ shift_left (buf.drop p)

/-- The variables of the argument loop of `handle_cmdfifo`: the buffer
`cmdbuf`, the offsets of `p` and `arg`, `quote`, and `args[0 .. argc)`, as
offsets into the buffer. -/
structure ArgScan where
  buf : List Nat
  p : Nat
  arg : Nat
  quote : Bool
  args : List Nat

/-- The statements at the label `case NL:` of the argument loop: the
argument that ends at `p` is closed and stored, `p` is left on the byte
before the next argument. -/
def end_arg (st : ArgScan) : ArgScan :=
  let b1 :=
    if st.buf.getD (st.p - 1) 0 = SQ ∨ st.buf.getD (st.p - 1) 0 = DQ then st.buf.set (st.p - 1) 0
    else st.buf
  let b2 := b1.set st.p 0
  let arg1 := if b2.getD st.arg 0 = SQ ∨ b2.getD st.arg 0 = DQ then st.arg + 1 else st.arg
  let args1 := if st.args.length < MAX_ARGS then st.args ++ [arg1] else st.args
  let p2 := scan (fun b => b == SP) b2 (st.p + 1)
  { buf := b2, p := p2 - 1, arg := p2, quote := st.quote, args := args1 }

/-- The `switch (*p)` of the argument loop. -/
def arg_switch (st : ArgScan) : ArgScan :=
  let c := st.buf.getD st.p 0
  if c = BSL then
    let n := st.buf.getD (st.p + 1) 0
    if n = BSL ∨ n = SQ ∨ n = DQ then { st with buf := unescape st.buf st.p } else st
  else if c = SQ ∨ c = DQ then { st with quote := !st.quote }
  else if c = SP then (if st.quote then st else end_arg st)
  else if c = NL then end_arg st
  else st

/-- The array `args` as the command sees it: `MAX_ARGS` entries, the first
`argc` of them pointing into the buffer, the others `NULL`. -/
def args_array (st : ArgScan) : List (Option (List Nat)) :=
  st.args.map (fun a => some (cstr st.buf a)) ++ List.replicate (MAX_ARGS - st.args.length) none

/-- The argument loop `for (; (c = *p); p++) { ... }` of `handle_cmdfifo`: the
variables when it ends, and the array the command was called with, if it was
called.  `fuel` bounds the number of iterations. -/
def arg_loop : Nat → ArgScan → Option (ArgScan × Option (List (Option (List Nat))))
  | 0, _ => none
  | fuel + 1, st =>
    if st.buf.getD st.p 0 = 0 then some (st, none)
    else if st.buf.getD st.p 0 = NL ∨
        (arg_switch st).buf.getD (arg_switch st).p 0 = NL then
      some ({ arg_switch st with
                p := if (arg_switch st).buf.getD (arg_switch st).p 0 = 0
                     then (arg_switch st).p + 1 else (arg_switch st).p },
            some (args_array (arg_switch st)))
    else arg_loop fuel { arg_switch st with p := (arg_switch st).p + 1 }

/-- The calls made for one command whose arguments were parsed. -/
def parsed_call (i : Nat) (r : Option (List (Option (List Nat)))) : List Call :=
  match r with
  | some args => [{ cmd := i, args := args }]
  | none => []

/-- The loop `while (*p) { ... }` of `handle_cmdfifo` from offset `p`: the
calls it makes, in order.  `fuel` bounds the number of iterations. -/
def cmd_loop (commands : List Cmd) : Nat → List Nat → Nat → Option (List Call)
  | 0, _, _ => none
  | fuel + 1, buf, p =>
    if buf.getD p 0 = 0 then some []
    else
      let s := scan (fun b => b == SP || b == NL) buf p
      let p2 := scan (fun b => b != 0 && b != SP && b != NL) buf s
      let c := buf.getD p2 0
      let buf1 := if c ≠ 0 then buf.set p2 0 else buf
      let p3 := if c ≠ 0 then p2 + 1 else p2
      match (if buf1.getD s 0 ≠ 0 then get_cmd_by_name commands (cstr buf1 s) else none) with
      | none => cmd_loop commands fuel buf1 p3
      | some i =>
        if ((commands.getD i ⟨[], []⟩).args.getD 0 none).isSome ∨ c = NL then
          (cmd_loop commands fuel buf1 (scan (fun b => b != 0 && b != NL) buf1 p3)).bind
            fun calls => some ({ cmd := i, args := (commands.getD i ⟨[], []⟩).args } :: calls)
        else
          (arg_loop (buf1.length + 1)
            { buf := buf1, p := scan (fun b => b == SP) buf1 p3,
              arg := scan (fun b => b == SP) buf1 p3, quote := false, args := [] }).bind
            fun r =>
          (cmd_loop commands fuel r.1.buf r.1.p).bind fun calls =>
          some (parsed_call i r.2 ++ calls)

/-- `handle_cmdfifo()` after `read` has stored the bytes `chunk` (at least one,
at most 511) in `cmdbuf`: the calls it makes, in order. -/
def handle_cmdfifo (commands : List Cmd) (chunk : List Nat) : Option (List Call) :=
  cmd_loop commands (chunk.length + 1) (chunk ++ [0]) 0

/-- A byte of a plain token: not NUL, space, newline, backslash or a quote. -/
def plain (b : Nat) : Bool :=
  b != 0 && b != SP && b != NL && b != BSL && b != SQ && b != DQ

/-- An array of `MAX_ARGS` entries that holds the first strings of `l`, then `NULL`s. -/
def pad_args (l : List (List Nat)) : List (Option (List Nat)) :=
  (l.take MAX_ARGS).map some ++ List.replicate (MAX_ARGS - l.length) none

/-- The strings an argument array holds before its first `NULL` entry. -/
def arg_strings (arr : List (Option (List Nat))) : List (List Nat) :=
  (arr.takeWhile Option.isSome).filterMap id

/-- A quote character. -/
def isquote (b : Nat) : Bool :=
  b == SQ || b == DQ

/-- One piece of an argument as it is written on a command line: a byte that
stands for itself, or a backslash followed by the byte it stands for. -/
inductive Piece where
  | ch (b : Nat)
  | esc (b : Nat)

/-- The bytes a piece is written with. -/
def Piece.text : Piece → List Nat
  | Piece.ch b => [b]
  | Piece.esc b => [BSL, b]

/-- The byte a piece stands for. -/
def Piece.val : Piece → Nat
  | Piece.ch b => b
  | Piece.esc b => b

/-- The bytes a sequence of pieces is written with. -/
def body_text : List Piece → List Nat
  | [] => []
  | x :: l => x.text ++ body_text l

/-- The bytes that make an escape when they follow a backslash: the backslash
and the two quotes (`case BSL: case SQ: case DQ:` under `switch (p[1])`). -/
def escapable (b : Nat) : Bool :=
  b == BSL || isquote b

/-- The pieces of an argument are well formed.  `inq` says that the argument
stands between quotes, `nxt` is the byte that follows its last piece.  A byte
that stands for itself is a plain byte, a space inside quotes, or a backslash
that the byte after it does not make an escape of; an escape is a backslash
followed by a backslash or a quote. -/
def body_ok (inq : Bool) (nxt : Nat) : List Piece → Bool
  | [] => true
  | Piece.ch b :: l =>
    (plain b || (inq && b == SP) || (b == BSL && !escapable ((body_text l).headD nxt))) &&
      body_ok inq nxt l
  | Piece.esc b :: l => escapable b && body_ok inq nxt l

/-- An argument as it is written on a command line: unquoted (`quote` is
`none`) or between two quote characters `q`, and its pieces. -/
structure Arg where
  quote : Option Nat
  body : List Piece

/-- The bytes an argument is written with. -/
def Arg.text (a : Arg) : List Nat :=
  match a.quote with
  | none => body_text a.body
  | some q => q :: (body_text a.body ++ [q])

/-- The value of an argument: its quotes removed, each escape collapsed to
its second byte. -/
def Arg.val (a : Arg) : List Nat :=
  a.body.map Piece.val

/-- An argument is well formed.  Unquoted: not empty, of plain bytes,
backslashes and escapes, and neither its first nor its last piece is an
escaped quote; a space or the newline follows it.  Quoted: between two quote
characters `q`, of plain bytes, spaces, backslashes and escapes, so that a
quote character inside it is written with a backslash, and no backslash
stands right before the closing quote. -/
def Arg.ok (a : Arg) : Bool :=
  match a.quote with
  | none =>
    !a.body.isEmpty && body_ok false SP a.body &&
      !isquote (a.val.headD 0) && !isquote (a.val.getLastD 0)
  | some q => isquote q && body_ok true q a.body

/-- The text of the arguments of a command line: before each argument `a` of
a pair `(k, a)` stand `k + 1` spaces. -/
def args_text : List (Nat × Arg) → List Nat
  | [] => []
  | x :: l => List.replicate (x.1 + 1) SP ++ (x.2.text ++ args_text l)

/-- The values of the arguments of a command line. -/
def args_vals (l : List (Nat × Arg)) : List (List Nat) :=
  l.map (fun x => x.2.val)

/-- A command line: spaces and newlines `lead`, the command name, the
arguments, each after at least one space, and the newline. -/
def line_text (lead name : List Nat) (args : List (Nat × Arg)) : List Nat :=
  lead ++ (name ++ (args_text args ++ [NL]))

/-- A command line as it is written: the spaces and newlines before the
command name, the name, and the arguments with the number of spaces before
each (see `args_text`). -/
structure Line where
  lead : List Nat
  name : List Nat
  args : List (Nat × Arg)

/-- The bytes of a command line, the newline at its end included. -/
def Line.text (l : Line) : List Nat :=
  line_text l.lead l.name l.args

/-- The bytes of command lines written one after the other. -/
def chunk_text : List Line → List Nat
  | [] => []
  | l :: ls => l.text ++ chunk_text ls

/-- The index in `commands[]` of the command a line names. -/
def Line.cmd (commands : List Cmd) (l : Line) : Nat :=
  (get_cmd_by_name commands l.name).getD 0

/-- A command line is well formed: only spaces and newlines before the name,
the name is not empty, made of plain bytes, and that of a command registered
without preconfigured arguments (`action.args[0]` is `NULL`), and every
argument is well formed. -/
def Line.ok (commands : List Cmd) (l : Line) : Bool :=
  l.lead.all (fun b => b == SP || b == NL) && !l.name.isEmpty && l.name.all plain &&
    (match get_cmd_by_name commands l.name with
     | some i => ((commands.getD i ⟨[], []⟩).args.getD 0 none).isNone
     | none => false) &&
    l.args.all (fun x => x.2.ok)

/-- Example command table: `create`, `focus` and `tag` take their arguments
from the line. -/
def commands0 : List Cmd :=
  [{ name := bytes "create", args := [none, none, none] },
   { name := bytes "focus", args := [none, none, none] },
   { name := bytes "tag", args := [none, none, none] }]

/-- The arguments `"a b"`, `'c\'d'` after two spaces, `e\\f` and `g\h`. -/
def four_args : List (Nat × Arg) :=
  [(0, Arg.mk (some DQ) [Piece.ch 97, Piece.ch SP, Piece.ch 98]),
   (1, Arg.mk (some SQ) [Piece.ch 99, Piece.esc SQ, Piece.ch 100]),
   (0, Arg.mk none [Piece.ch 101, Piece.esc BSL, Piece.ch 102]),
   (0, Arg.mk none [Piece.ch 103, Piece.ch BSL, Piece.ch 104])]

/-- The lines `  create "a b"  'c\'d' e\\f g\h`, `tag 1 2 3 4 5 6 7 8 9` after
two spaces and, after an empty line and a space, `focus`. -/
def three_lines : List Line :=
  [⟨[SP, SP], bytes "create", four_args⟩,
   ⟨[SP, SP], bytes "tag", [49, 50, 51, 52, 53, 54, 55, 56, 57].map
      (fun b => ((0 : Nat), Arg.mk none [Piece.ch b]))⟩,
   ⟨[NL, SP], bytes "focus", []⟩]

/-- The lines `  create "a b"  'c\'d' e\\f g\h`, `tag 2` after a space, and
`focus 1` after an empty line. -/
def argument_lines : List Line :=
  [⟨[SP, SP], bytes "create", four_args⟩,
   ⟨[SP], bytes "tag", [(0, Arg.mk none [Piece.ch 50])]⟩,
   ⟨[NL], bytes "focus", [(0, Arg.mk none [Piece.ch 49])]⟩]

/-! ## The number of master windows -/

/-- `isarrange(grid)`. -/
def isgrid (env : Env) (s : State) : Bool :=
  decide ((env.layouts s.layout).kind = LayoutKind.grid)

/-- The assignment `screen.nmaster = v`. -/
def set_nmaster (v : Int) (s : State) : State :=
  { s with screen := { s.screen with nmaster := v } }

/-- The statements of `incnmaster` that follow a successful `sscanf`: `a` is
`args[0]`, `delta` the number read. -/
def nmaster_delta (a : String) (delta : Int) (s : State) : State :=
  let s1 :=
    if a.toList.head? = some '+' ∨ a.toList.head? = some '-' then
      set_nmaster (s.screen.nmaster + delta) s
    else set_nmaster delta s
  if s1.screen.nmaster < 1 then set_nmaster 1 s1 else s1

/-- `incnmaster(args)` with `arg = args[0]`.  `nmaster0` is `NMASTER` of
`config.h`; `sscanf_d a` is the number that `sscanf(a, "%d", &delta)` reads
when it returns 1.  The first test is `if (args[0])`, so the `sscanf` of the
`else` branch is reached with `args[0] == NULL` only and reads through the
null pointer: `none`. -/
def incnmaster (env : Env) (nmaster0 : Int) (sscanf_d : String → Option Int)
    (arg : Option String) (s : State) : Option State :=
  if isfullscreen env s ∨ isgrid env s then some s
  else
    (if arg.isSome then some (set_nmaster nmaster0 s)
     else
       match arg with
       | none => none
       | some a =>
         match sscanf_d a with
         | some delta => some (nmaster_delta a delta s)
         | none => some s).map (arrange env)

/-! ## The command line -/

/-- `EXIT_SUCCESS`. -/
def EXIT_SUCCESS : Nat := 0

/-- `EXIT_FAILURE`. -/
def EXIT_FAILURE : Nat := 1

/-- What the operating system and the C library answer during `parse_args`:
whether `pipe` and `fcntl` succeed in `setup`, whether `open_or_create_fifo`
returns for a name (it calls `error` otherwise), whether `realpath` finds it,
and what `atoi` reads. -/
structure ArgOs where
  setup_ok : Bool
  fifo_ok : String → Bool
  realpath_ok : String → Bool
  atoi : String → Int

/-- What `parse_args` has done to the program, in order, when it ends. -/
inductive ArgEffect where
  | setup
  | create (cmd : String)
  | togglemouse
  | modifier (mod : String)
  | escdelay (v : Int)
  | history (v : Int)
  | title (t : String)
  | status_fifo (name : String)
  | cmd_fifo (name : String)
  deriving DecidableEq

/-- How `parse_args` ends: in `usage(status)`, which writes the usage text to
`stdout` when `status == EXIT_SUCCESS` and to `stderr` otherwise and calls
`exit(status)`; in the version line on `stdout` and `exit(EXIT_SUCCESS)`; in
`exit(EXIT_FAILURE)` from `setup` or `error`; or by returning `init`. -/
inductive ArgEnd where
  | usage (status : Nat)
  | version
  | failed
  | returned (init : Bool)
  deriving DecidableEq

/-- The status that `parse_args` passes to `exit` when it ends the process;
`none` when it returns. -/
def ArgEnd.exit_arg : ArgEnd → Option Nat
  | ArgEnd.usage status => some status
  | ArgEnd.version => some EXIT_SUCCESS
  | ArgEnd.failed => some EXIT_FAILURE
  | ArgEnd.returned _ => none

/-- The exit status of the process when `parse_args` ends it before `setup()`
has run to its end: no function is registered with `atexit` then, and the
status of the process is the one passed to `exit`.  The last statement of
`setup()` is `atexit(cleanup)`; once it has run, `exit` calls `cleanup`, whose
`destroy` calls reach `quit` and with it `exit(EXIT_SUCCESS)`, so the status
passed to the first `exit` is not the status of the process: the outcome is
`none` there, as it is when `parse_args` returns. -/
def exit_status (r : List ArgEffect × ArgEnd) : Option Nat :=
  if ArgEffect.setup ∈ r.1 then none else r.2.exit_arg

/-- The stream the usage text is written to: `true` is `stdout`. -/
def usage_stdout (status : Nat) : Bool :=
  status == EXIT_SUCCESS

/-- The clamp of `ESCDELAY` after `-d`. -/
def clamp_delay (v : Int) : Int :=
  if v < 50 then 50 else if v > 1000 then 1000 else v

/-- The byte `argv[arg][i]`; past the end of the string it is the NUL. -/
def char_at (a : String) (i : Nat) : Char :=
  a.toList.getD i '\x00'

/-- The cases of the `switch` for the options that take a value,
`v = argv[++arg]`, and the `default` case: what the option does, or how it
ends the process. -/
def option_value (os : ArgOs) (o : Char) (v : String) : Except ArgEnd ArgEffect :=
  if o = 'm' then Except.ok (ArgEffect.modifier v)
  else if o = 'd' then Except.ok (ArgEffect.escdelay (clamp_delay (os.atoi v)))
  else if o = 'h' then Except.ok (ArgEffect.history (os.atoi v))
  else if o = 't' then Except.ok (ArgEffect.title v)
  else if o = 's' then
    if os.fifo_ok v then Except.ok (ArgEffect.status_fifo v) else Except.error ArgEnd.failed
  else if o = 'c' then
    if os.fifo_ok v ∧ os.realpath_ok v then Except.ok (ArgEffect.cmd_fifo v)
    else Except.error ArgEnd.failed
  else Except.error (ArgEnd.usage EXIT_FAILURE)

/-- The loop `for (int arg = 1; arg < argc; arg++)` of `parse_args` over the
arguments from `argv[arg]` on; `tr` holds what has been done so far.  An
option that takes a value reads it with `argv[++arg]`; the test
`(arg + 1) >= argc` before the `switch` has made sure that it exists, so the
case of an empty rest in the last `match` is not reached. -/
def parse_loop (os : ArgOs) : List String → Bool → List ArgEffect → List ArgEffect × ArgEnd
  | [], init, tr => (tr, ArgEnd.returned init)
  | a :: rest, init, tr =>
    if char_at a 0 ≠ '-' then
      if init then parse_loop os rest true (tr ++ [ArgEffect.create a])
      else if os.setup_ok then
        parse_loop os rest true (tr ++ [ArgEffect.setup, ArgEffect.create a])
      else (tr, ArgEnd.failed)
    else if char_at a 1 ≠ 'v' ∧ char_at a 1 ≠ 'M' ∧ rest = [] then
      (tr, ArgEnd.usage EXIT_FAILURE)
    else if char_at a 1 = '?' then (tr, ArgEnd.usage EXIT_SUCCESS)
    else if char_at a 1 = 'v' then (tr, ArgEnd.version)
    else if char_at a 1 = 'M' then parse_loop os rest init (tr ++ [ArgEffect.togglemouse])
    else
      match rest with
      | [] => (tr, ArgEnd.usage EXIT_FAILURE)
      | v :: rest1 =>
        match option_value os (char_at a 1) v with
        | Except.ok e => parse_loop os rest1 init (tr ++ [e])
        | Except.error e => (tr, e)

/-- `parse_args(argc, argv)`: what it did, and how it ended.  `argv` holds
`argv[0]` first.  The name of the program and the default escape delay, which
are set before the loop, do not enter the outcome. -/
def parse_args (os : ArgOs) (argv : List String) : List ArgEffect × ArgEnd :=
  parse_loop os argv.tail false []

/-! ## The strip of the minimized clients -/

/-- The state of `arrange` when it reaches `if (m && !isarrange(fullscreen)) wah--`:
after its first loop and the autohide step. -/
def arrange_start (s : State) : State :=
  autohide ((visibleOf s s.clients).length % U32) (renumber s)

/-- The visible clients that are minimized, in the order of the spatial list:
those the first loop of `arrange` counts in `m`. -/
def minimized_visible (s : State) : List Nat :=
  (visibleOf s s.clients).filter s.minimized

/-- The strip as the specification words it, from the `j`-th of `m` clients
on: the clients `l` side by side in row `y`, the `j`-th one at column
`x0 + j * (waw / m)`, each of height 1 and of width `waw / m` rounded down,
except the last of the `m`, which takes the rest of the width `waw`. -/
def strip_from (waw x0 y : Int) (m : Nat) : List Nat → Nat → List ResizeCall
  | [], _ => []
  | c :: l, j =>
    ⟨c, x0 + j * (waw / m), y, if j + 1 = m then waw - (m - 1 : Nat) * (waw / m) else waw / m, 1⟩ ::
      strip_from waw x0 y m l (j + 1)

/-- The strip of the clients `l` as the specification words it. -/
def strip_spec (waw x0 y : Int) (l : List Nat) : List ResizeCall :=
  strip_from waw x0 y l.length l 0

/-- What the specification says of the `resize` calls `cs` that place the
minimized clients `l`: one call for each client, in order; each of height 1
in row `y`; each of width `waw / m` rounded down, except the last; the first
at column `x0`, each next one where the one before it ends; the widths sum to
`waw`. -/
def StripPlaced (waw x0 y : Int) (l : List Nat) (cs : List ResizeCall) : Prop :=
  cs.map (fun r => r.c) = l ∧
  (∀ r ∈ cs, r.h = 1 ∧ r.y = y) ∧
  (∀ k r, cs[k]? = some r → k + 1 < l.length → r.w = waw / l.length) ∧
  cs.head?.map (fun r => r.x) = some x0 ∧
  (∀ k r r', cs[k]? = some r → cs[k + 1]? = some r' → r'.x = r.x + r.w) ∧
  (cs.map (fun r => r.w)).sum = waw

/-! ## Clients that nothing refers to -/

/-- No pointer of the window model refers to the client `c`: it is not in the
spatial list (neither `clients` nor a `next` or `prev` link points to it), not
on the focus stack (neither `stack` nor an `snext` link points to it), and it
is neither `sel` nor `lastsel`. -/
def Unreferenced (c : Nat) (s : State) : Prop :=
  c ∉ s.clients ∧ c ∉ s.stack ∧ s.sel ≠ some c ∧ s.lastsel ≠ some c

/-! ## The state at launch and example data -/

/-- The globals as `dvtm.c` initialises them, before the first client exists:
`clients`, `stack`, `sel`, `lastsel` are `NULL`, `seltags = 0`,
`tagset = { 1, 1 }`, `layout = layouts`, `bar.fd = -1`, `cmdfifo.id = 0`,
`runinall = false`, `copyreg` and `bar.text` zeroed.
The parameters are what `config.h`, the terminal and `getshell()` supply. -/
def launch (barpos : Nat) (autohide : Bool) (nmaster history w h : Int) (shell : String) :
    State :=
  { id := fun _ => 0, order := fun _ => 0, tags := fun _ => 0, minimized := fun _ => false,
    urgent := fun _ => false, has_title_line := fun _ => false, cmd := fun _ => "",
    x := fun _ => 0, y := fun _ => 0, w := fun _ => 0, h := fun _ => 0,
    clients := [], stack := [], sel := none, lastsel := none,
    seltags := false, tagset0 := 1, tagset1 := 1, layout := 0,
    bar := { fd := -1, pos := barpos, lastpos := barpos, autohide := autohide, h := 1, y := 0,
             text := List.replicate 512 0 },
    screen := { nmaster := nmaster, history := history, w := w, h := h },
    waw := 0, wah := 0, wax := 0, way := 0,
    cmdfifo_id := 0, shell := shell, exited := none, runinall := false,
    app := fun _ => none, editor := fun _ => none, term := fun _ => none,
    editor_died := fun _ => false, editor_fds0 := fun _ => 0, editor_fds1 := fun _ => 0,
    copyreg := { data := false, len := 0, size := 0 } }

/-- Example layout table entry: the fullscreen layout, which gives every
visible client the whole work area. -/
def fullscreen_layout : Layout :=
  { symbol := "[ ]", kind := LayoutKind.fullscreen,
    arrange := fun s => (visibleOf s s.clients).map (fun c => ⟨c, s.wax, s.way, s.waw, s.wah⟩) }

/-- Example configuration: five tags, one layout, one start-up action, curses
calls that succeed. -/
def env0 : Env :=
  { tags := ["1", "2", "3", "4", "5"], layouts := fun _ => fullscreen_layout, nactions := 1,
    wresize_ok := fun _ _ => true, mvwin_ok := fun _ _ => true }

/-- Example launch state: bar on top, no autohide, an 80 x 24 terminal. -/
def launch0 : State :=
  updatebarpos (launch BAR_TOP false 1 500 80 24 "/bin/sh")

/-- `create(NULL)` once for each address of `cs`, first to last. -/
def createAll (env : Env) : List Nat → State → State
  | [], s => s
  | c :: cs, s => createAll env cs (create env none (Alloc.ok c) s)

/-- Example state: ten shells, created at addresses 1 to 10. -/
def ten : State :=
  createAll env0 [1, 2, 3, 4, 5, 6, 7, 8, 9, 10] launch0

/-- Example state: three shells at addresses 1, 2, 3, then `focus` of the first. -/
def three_focused : State :=
  focus (some 1) (createAll env0 [1, 2, 3] launch0)

/-- Example state: `three_focused` after `destroy` of the client at address 3. -/
def three_destroyed : State :=
  (destroy env0 Alloc.calloc_failed 3 three_focused).getD three_focused

/-- Example state: `ten` after `toggletag("2")`; the selected client, at
address 10, is then on the tags "1" and "2". -/
def ten_tagged : State :=
  (toggletag env0 (some "2") ten).getD ten

/-- Example launch state with the bar on top and autohide on. -/
def launch_autohide : State :=
  updatebarpos (launch BAR_TOP true 1 500 80 24 "/bin/sh")

/-- Example state: two shells at addresses 1 and 2 with autohide on, then
`tag("2")`; the client at address 2 is on tag "2", the view shows tag "1". -/
def two_split : State :=
  (tag env0 (some "2") (createAll env0 [1, 2] launch_autohide)).getD launch_autohide

/-- Example state: the launch state after `hidebar` and `togglebarpos`. -/
def bar_flipped : State :=
  togglebarpos env0 80 24 (hidebar launch0)

/-- Example state: `ten` after `togglerunall`, so that broadcast mode is on. -/
def ten_runall : State :=
  togglerunall ten

/-- Example state: `three_focused` after `copymode` with the editor "dvtm-editor",
the two pipes at descriptors 5 and 6. -/
def three_editing : State :=
  copymode (some "dvtm-editor") true (some (5, 6)) three_focused

/-- Example state: `three_focused` after `copymode` with the pager "dvtm-pager",
which has no `from` pipe. -/
def three_paging : State :=
  copymode (some "dvtm-pager") true (some (5, 6)) three_focused

/-- Example layout table entry of the kind `tile`: a stand-in for the layout
function of `config.h`, it gives every visible client that is not minimized
the whole work area. -/
def tile_layout : Layout :=
  { symbol := "[]=", kind := LayoutKind.tile,
    arrange := fun s => ((visibleOf s s.clients).filter (fun c => !s.minimized c)).map
      (fun c => ⟨c, s.wax, s.way, s.waw, s.wah⟩) }

/-- Example configuration: as `env0`, with the one layout of the kind `tile`. -/
def env1 : Env :=
  { tags := ["1", "2", "3", "4", "5"], layouts := fun _ => tile_layout, nactions := 1,
    wresize_ok := fun _ _ => true, mvwin_ok := fun _ _ => true }

/-- Example state: three shells in the `tile` layout, `screen.nmaster` set to 3. -/
def three_masters : State :=
  set_nmaster 3 (createAll env1 [1, 2, 3] launch0)

/-- Example answers of the operating system: every call succeeds. -/
def os0 : ArgOs :=
  { setup_ok := true, fifo_ok := fun _ => true, realpath_ok := fun _ => true,
    atoi := fun _ => 0 }

/-- Example binding table: the chord 7, 7, 9 and, after it, the chord 7, 7. -/
def bindings_overlap : List (List Nat) :=
  [[7, 7, 9], [7, 7, 0]]

/-- Example value of the curses constant `KEY_MOUSE`. -/
def KEY_MOUSE : Int := 409

/-- Example state: two shells at addresses 1 and 2, then `toggleminimize`: the
client at address 2 is minimized, the client at address 1 is selected and is
the only visible client that is not minimized. -/
def two_one_left : State :=
  (toggleminimize env0 (createAll env0 [1, 2] launch0)).getD launch0

/-- Example state: four shells in the `tile` layout, then `toggleminimize`
three times: the clients at addresses 2, 3 and 4 are minimized, the one at
address 1 is selected. -/
def four_three_minimized : State :=
  (((toggleminimize env1 (createAll env1 [1, 2, 3, 4] launch0)).bind
    (toggleminimize env1)).bind (toggleminimize env1)).getD launch0

/-- Example state: three shells at addresses 1, 2, 3, then `focus` of the
second: the spatial list is 3, 2, 1 and the focus stack is 2, 3, 1. -/
def three_stacked : State :=
  focus (some 2) (createAll env0 [1, 2, 3] launch0)

/-! ## Reachable states -/

/-- The empty state: no client, nothing selected, the tagsets as at launch,
the process running. -/
def Initial (s : State) : Prop :=
  s.clients = [] ∧ s.stack = [] ∧ s.sel = none ∧ s.lastsel = none ∧
  s.seltags = false ∧ s.tagset0 = 1 ∧ s.tagset1 = 1 ∧ s.exited = none

/-- The address handed out by a successful `calloc` is not that of a client
of the spatial list. -/
def Fresh (a : Alloc) (s : State) : Prop :=
  ∀ c, a = Alloc.ok c → c ∉ s.clients

/-- States reached from the empty state by `create`, `focus` (of `NULL` or of
a client of the spatial list), `destroy` (of a client of the spatial list)
and `arrange`, while the process runs. -/
inductive Reachable (env : Env) : State → Prop where
  | start (s : State) : Initial s → Reachable env s
  | create (s : State) (cmd : Option String) (a : Alloc) :
      Reachable env s → Fresh a s → Reachable env (create env cmd a s)
  | focus (s : State) (c : Option Nat) :
      Reachable env s → (∀ p, c = some p → p ∈ s.clients) → Reachable env (focus c s)
  | destroy (s s' : State) (a : Alloc) (c : Nat) :
      Reachable env s → c ∈ s.clients → Fresh a s → destroy env a c s = some s' →
      s'.exited = none → Reachable env s'
  | arrange (s : State) : Reachable env s → Reachable env (arrange env s)

/-- The bar as `dvtm.c` initialises it: shown at `BAR_POS`, which is
`BAR_TOP` or `BAR_BOTTOM`, with `bar.lastpos == bar.pos` and `bar.h == 1`. -/
def BarInitial (s : State) : Prop :=
  s.bar.pos = s.bar.lastpos ∧ (s.bar.pos = BAR_TOP ∨ s.bar.pos = BAR_BOTTOM) ∧ s.bar.h = 1

/-- The bar's positions are well-formed: `bar.lastpos` is `BAR_TOP` or
`BAR_BOTTOM`, `bar.pos` is one of the three enum values, `bar.h` is 1. -/
def BarInv (s : State) : Prop :=
  (s.bar.lastpos = BAR_TOP ∨ s.bar.lastpos = BAR_BOTTOM) ∧
  (s.bar.pos = BAR_TOP ∨ s.bar.pos = BAR_BOTTOM ∨ s.bar.pos = BAR_OFF) ∧ s.bar.h = 1

/-- The work area is laid out for the bar: its height is the screen height
less the bar's row when the bar is on, the whole screen height when it is off. -/
def BarRow (s : State) : Prop :=
  (s.wah = s.screen.h - s.bar.h ↔ s.bar.pos ≠ BAR_OFF) ∧
  (s.wah = s.screen.h ↔ s.bar.pos = BAR_OFF)

/-- States reached from `BarInitial` ones by `hidebar`, `showbar`,
`togglebar`, `togglebarpos`, the autohide step of `arrange` and `arrange`
itself. -/
inductive BarReachable (env : Env) : State → Prop where
  | start (s : State) : BarInitial s → BarReachable env s
  | hidebar (s : State) : BarReachable env s → BarReachable env (hidebar s)
  | showbar (s : State) : BarReachable env s → BarReachable env (showbar s)
  | togglebar (s : State) (w h : Int) :
      BarReachable env s → BarReachable env (togglebar env w h s)
  | togglebarpos (s : State) (w h : Int) :
      BarReachable env s → BarReachable env (togglebarpos env w h s)
  | autohide (s : State) (n : Nat) : BarReachable env s → BarReachable env (autohide n s)
  | arrange (s : State) : BarReachable env s → BarReachable env (arrange env s)

/-! ## Well-formedness of the two orderings -/

/-- Every client on the focus stack is linked in the spatial list. -/
def Linked (s : State) : Prop :=
  ∀ p ∈ s.stack, p ∈ s.clients

/-- A selected client is the first visible client of the focus stack. -/
def SelTop (s : State) : Prop :=
  ∀ p, s.sel = some p → s.stack.find? (isvisible s) = some p

/-- Among the visible clients of the spatial list, no minimized client comes
before a client that is not minimized. -/
def MinLast (s : State) : Prop :=
  (visibleOf s s.clients).Pairwise (fun a b => s.minimized a = true → s.minimized b = true)

/-! # Theorems -/

@[simp] theorem upd_same {α : Type} (f : Nat → α) (c : Nat) (v : α) : upd f c v c = v := by
  simp [upd]

theorem upd_other {α : Type} (f : Nat → α) (c d : Nat) (v : α) (h : d ≠ c) :
    upd f c v d = f d := by
  simp [upd, h]

/-! ### Geometry steps leave the core alone -/

theorem core_resize_client (env : Env) (c : Nat) (w h : Int) (s : State) :
    core (resize_client env c w h s) = core s := by
  unfold resize_client
  simp only []
  split_ifs <;> rfl

theorem core_move_client (env : Env) (c : Nat) (x y : Int) (s : State) :
    core (move_client env c x y s) = core s := by
  unfold move_client
  split_ifs <;> rfl

theorem core_resize (env : Env) (r : ResizeCall) (s : State) :
    core (resize env r s) = core s := by
  unfold resize
  rw [core_move_client, core_resize_client]

theorem core_resizeAll (env : Env) (rs : List ResizeCall) (s : State) :
    core (resizeAll env rs s) = core s := by
  induction rs generalizing s with
  | nil => rfl
  | cons r rs ih => simp only [resizeAll]; rw [ih, core_resize]

theorem core_placeMinimized (env : Env) (m nw : Int) (l : List Nat) (i nx : Int) (s : State) :
    core (placeMinimized env m nw l i nx s) = core s := by
  induction l generalizing i nx s with
  | nil => rfl
  | cons c l ih =>
    simp only [placeMinimized]
    split_ifs <;> simp [ih, core_resize]

theorem core_updatebarpos (s : State) : core (updatebarpos s) = core s := by
  unfold updatebarpos
  simp only []
  split_ifs <;> rfl

theorem core_hidebar (s : State) : core (hidebar s) = core s := by
  unfold hidebar
  split_ifs <;> rfl

theorem core_showbar (s : State) : core (showbar s) = core s := by
  unfold showbar
  split_ifs <;> rfl

/-! ### Visibility depends on the core only -/

theorem isvisible_congr {s t : State} (h : core s = core t) : isvisible s = isvisible t := by
  funext c
  have h1 : s.tags = t.tags := congrArg Core.tags h
  have h2 : s.seltags = t.seltags := congrArg Core.seltags h
  have h3 : s.tagset0 = t.tagset0 := congrArg Core.tagset0 h
  have h4 : s.tagset1 = t.tagset1 := congrArg Core.tagset1 h
  simp [isvisible, curtagset, h1, h2, h3, h4]

theorem focus_core_congr {s t : State} (c : Option Nat) (h : core s = core t) :
    core (focus c s) = core (focus c t) := by
  have hv := isvisible_congr h
  have h1 : s.stack = t.stack := congrArg Core.stack h
  have h2 : s.sel = t.sel := congrArg Core.sel h
  have h3 : s.urgent = t.urgent := congrArg Core.urgent h
  simp only [core, Core.mk.injEq] at h
  obtain ⟨a1, a2, a3, a4, a5, a6, a7, a8, a9, a10, a11, a12, a13, a14, a15, a16, a17⟩ := h
  unfold focus
  simp only [hv, h1, h2]
  split_ifs
  · simp [core, *]
  · cases c <;> simp only [] <;> (try split) <;> simp [core, attachstack, detachstack, *]
    all_goals (split <;> simp_all)


theorem draw_all_core_congr {s t : State} (h : core s = core t) :
    core (draw_all s) = core (draw_all t) := by
  have hv := isvisible_congr h
  have h1 : s.clients = t.clients := congrArg Core.clients h
  simp only [core, Core.mk.injEq] at h
  unfold draw_all nextvisible
  rw [hv, h1]
  split <;> simp [core, set_sel, *]

theorem core_addwah (d : Int) (s : State) : core (addwah d s) = core s := rfl

theorem core_arrange (env : Env) (s : State) :
    core (arrange env s) = core (draw_all (focus none (renumber s))) := by
  unfold arrange
  simp only []
  apply draw_all_core_congr
  apply focus_core_congr
  unfold autohide
  split_ifs <;>
    simp only [core_placeMinimized, core_resizeAll, core_updatebarpos, core_hidebar,
      core_showbar, core_addwah]

theorem isvisible_of_eq {s t : State} (h1 : s.tags = t.tags) (h2 : s.seltags = t.seltags)
    (h3 : s.tagset0 = t.tagset0) (h4 : s.tagset1 = t.tagset1) : isvisible s = isvisible t := by
  funext c
  simp [isvisible, curtagset, h1, h2, h3, h4]

/-! ### `focus` -/

theorem focus_core_frame (c : Option Nat) (s : State) :
    (focus c s).id = s.id ∧ (focus c s).order = s.order ∧ (focus c s).tags = s.tags ∧
    (focus c s).minimized = s.minimized ∧ (focus c s).cmd = s.cmd ∧
    (focus c s).clients = s.clients ∧ (focus c s).seltags = s.seltags ∧
    (focus c s).tagset0 = s.tagset0 ∧ (focus c s).tagset1 = s.tagset1 ∧
    (focus c s).layout = s.layout ∧ (focus c s).cmdfifo_id = s.cmdfifo_id ∧
    (focus c s).shell = s.shell ∧ (focus c s).exited = s.exited := by
  unfold focus
  simp only []
  split_ifs
  · simp
  · cases c <;> simp only [] <;> (repeat' split) <;> simp [attachstack, detachstack]

@[simp] theorem focus_id (c : Option Nat) (s : State) : (focus c s).id = s.id :=
  (focus_core_frame c s).1
@[simp] theorem focus_order (c : Option Nat) (s : State) : (focus c s).order = s.order :=
  (focus_core_frame c s).2.1
@[simp] theorem focus_tags (c : Option Nat) (s : State) : (focus c s).tags = s.tags :=
  (focus_core_frame c s).2.2.1
@[simp] theorem focus_minimized (c : Option Nat) (s : State) :
    (focus c s).minimized = s.minimized :=
  (focus_core_frame c s).2.2.2.1
@[simp] theorem focus_cmd (c : Option Nat) (s : State) : (focus c s).cmd = s.cmd :=
  (focus_core_frame c s).2.2.2.2.1
@[simp] theorem focus_clients (c : Option Nat) (s : State) : (focus c s).clients = s.clients :=
  (focus_core_frame c s).2.2.2.2.2.1
@[simp] theorem focus_seltags (c : Option Nat) (s : State) : (focus c s).seltags = s.seltags :=
  (focus_core_frame c s).2.2.2.2.2.2.1
@[simp] theorem focus_tagset0 (c : Option Nat) (s : State) : (focus c s).tagset0 = s.tagset0 :=
  (focus_core_frame c s).2.2.2.2.2.2.2.1
@[simp] theorem focus_tagset1 (c : Option Nat) (s : State) : (focus c s).tagset1 = s.tagset1 :=
  (focus_core_frame c s).2.2.2.2.2.2.2.2.1
@[simp] theorem focus_layout (c : Option Nat) (s : State) : (focus c s).layout = s.layout :=
  (focus_core_frame c s).2.2.2.2.2.2.2.2.2.1
@[simp] theorem focus_cmdfifo_id (c : Option Nat) (s : State) :
    (focus c s).cmdfifo_id = s.cmdfifo_id :=
  (focus_core_frame c s).2.2.2.2.2.2.2.2.2.2.1
@[simp] theorem focus_shell (c : Option Nat) (s : State) : (focus c s).shell = s.shell :=
  (focus_core_frame c s).2.2.2.2.2.2.2.2.2.2.2.1
@[simp] theorem focus_exited (c : Option Nat) (s : State) : (focus c s).exited = s.exited :=
  (focus_core_frame c s).2.2.2.2.2.2.2.2.2.2.2.2

@[simp] theorem isvisible_focus (c : Option Nat) (s : State) :
    isvisible (focus c s) = isvisible s :=
  isvisible_of_eq (focus_tags c s) (focus_seltags c s) (focus_tagset0 c s) (focus_tagset1 c s)

@[simp] theorem focus_some_sel (c : Nat) (s : State) : (focus (some c) s).sel = some c := by
  unfold focus
  simp only []
  split_ifs with h
  · exact h
  · cases hs : s.sel <;> rfl

theorem focus_some_stack (c : Nat) (s : State) :
    (focus (some c) s).stack = if s.sel = some c then s.stack else c :: s.stack.erase c := by
  unfold focus
  simp only []
  split_ifs with h
  · rfl
  · cases hs : s.sel <;> rfl

theorem focus_none_sel (s : State) : (focus none s).sel = s.stack.find? (isvisible s) := by
  unfold focus
  simp only []
  split_ifs with h
  · exact h
  · cases hf : s.stack.find? (isvisible s) <;> cases hs : s.sel <;> rfl

theorem focus_none_stack (s : State) :
    (focus none s).stack =
      if s.sel = s.stack.find? (isvisible s) then s.stack
      else match s.stack.find? (isvisible s) with
        | some c => c :: s.stack.erase c
        | none => s.stack := by
  unfold focus
  simp only []
  split_ifs with h
  · rfl
  · cases hf : s.stack.find? (isvisible s) <;> cases hs : s.sel <;> rfl

/-- After `focus(NULL)` the selected client is the first visible client of the focus stack. -/
theorem focus_none_seltop (s : State) :
    (focus none s).sel = (focus none s).stack.find? (isvisible s) := by
  rw [focus_none_sel, focus_none_stack]
  split_ifs with h
  · rfl
  · cases hf : s.stack.find? (isvisible s) with
    | none => simp [hf]
    | some c =>
      have hc : isvisible s c = true := by
        have := List.find?_some hf
        simpa using this
      simp [List.find?, hc]

/-! ### `draw_all`, `renumber` -/

theorem draw_all_sel (s : State) :
    (draw_all s).sel = if (nextvisible s s.clients).isSome then s.sel else none := by
  unfold draw_all
  split <;> simp [set_sel, *]

theorem draw_all_core_frame (s : State) :
    (draw_all s).id = s.id ∧ (draw_all s).order = s.order ∧ (draw_all s).tags = s.tags ∧
    (draw_all s).minimized = s.minimized ∧ (draw_all s).cmd = s.cmd ∧
    (draw_all s).clients = s.clients ∧ (draw_all s).seltags = s.seltags ∧
    (draw_all s).tagset0 = s.tagset0 ∧ (draw_all s).tagset1 = s.tagset1 ∧
    (draw_all s).layout = s.layout ∧ (draw_all s).cmdfifo_id = s.cmdfifo_id ∧
    (draw_all s).shell = s.shell ∧ (draw_all s).exited = s.exited ∧
    (draw_all s).stack = s.stack ∧ (draw_all s).lastsel = s.lastsel ∧
    (draw_all s).urgent = s.urgent := by
  unfold draw_all
  split <;> simp [set_sel]

/-! ### `arrange` -/

theorem arrange_core_frame (env : Env) (s : State) :
    (arrange env s).id = s.id ∧ (arrange env s).tags = s.tags ∧
    (arrange env s).minimized = s.minimized ∧ (arrange env s).cmd = s.cmd ∧
    (arrange env s).clients = s.clients ∧ (arrange env s).seltags = s.seltags ∧
    (arrange env s).tagset0 = s.tagset0 ∧ (arrange env s).tagset1 = s.tagset1 ∧
    (arrange env s).layout = s.layout ∧ (arrange env s).cmdfifo_id = s.cmdfifo_id ∧
    (arrange env s).shell = s.shell ∧ (arrange env s).exited = s.exited := by
  have h := core_arrange env s
  have d := draw_all_core_frame (focus none (renumber s))
  simp only [core, Core.mk.injEq] at h
  obtain ⟨a1, a2, a3, a4, a5, a6, a7, a8, a9, a10, a11, a12, a13, a14, a15, a16, a17⟩ := h
  obtain ⟨d1, d2, d3, d4, d5, d6, d7, d8, d9, d10, d11, d12, d13, d14, d15, d16⟩ := d
  simp only [focus_id, focus_tags, focus_minimized, focus_cmd, focus_clients, focus_seltags,
    focus_tagset0, focus_tagset1, focus_layout, focus_cmdfifo_id, focus_shell, focus_exited,
    renumber] at d1 d3 d4 d5 d6 d7 d8 d9 d10 d11 d12 d13
  exact ⟨a1.trans d1, a3.trans d3, a4.trans d4, a6.trans d5, a7.trans d6, a11.trans d7,
    a12.trans d8, a13.trans d9, a14.trans d10, a15.trans d11, a16.trans d12, a17.trans d13⟩

@[simp] theorem arrange_id (env : Env) (s : State) : (arrange env s).id = s.id :=
  (arrange_core_frame env s).1
@[simp] theorem arrange_tags (env : Env) (s : State) : (arrange env s).tags = s.tags :=
  (arrange_core_frame env s).2.1
@[simp] theorem arrange_minimized (env : Env) (s : State) :
    (arrange env s).minimized = s.minimized :=
  (arrange_core_frame env s).2.2.1
@[simp] theorem arrange_cmd (env : Env) (s : State) : (arrange env s).cmd = s.cmd :=
  (arrange_core_frame env s).2.2.2.1
@[simp] theorem arrange_clients (env : Env) (s : State) : (arrange env s).clients = s.clients :=
  (arrange_core_frame env s).2.2.2.2.1
@[simp] theorem arrange_seltags (env : Env) (s : State) : (arrange env s).seltags = s.seltags :=
  (arrange_core_frame env s).2.2.2.2.2.1
@[simp] theorem arrange_tagset0 (env : Env) (s : State) : (arrange env s).tagset0 = s.tagset0 :=
  (arrange_core_frame env s).2.2.2.2.2.2.1
@[simp] theorem arrange_tagset1 (env : Env) (s : State) : (arrange env s).tagset1 = s.tagset1 :=
  (arrange_core_frame env s).2.2.2.2.2.2.2.1
@[simp] theorem arrange_layout (env : Env) (s : State) : (arrange env s).layout = s.layout :=
  (arrange_core_frame env s).2.2.2.2.2.2.2.2.1
@[simp] theorem arrange_cmdfifo_id (env : Env) (s : State) :
    (arrange env s).cmdfifo_id = s.cmdfifo_id :=
  (arrange_core_frame env s).2.2.2.2.2.2.2.2.2.1
@[simp] theorem arrange_shell (env : Env) (s : State) : (arrange env s).shell = s.shell :=
  (arrange_core_frame env s).2.2.2.2.2.2.2.2.2.2.1
@[simp] theorem arrange_exited (env : Env) (s : State) : (arrange env s).exited = s.exited :=
  (arrange_core_frame env s).2.2.2.2.2.2.2.2.2.2.2

@[simp] theorem isvisible_arrange (env : Env) (s : State) :
    isvisible (arrange env s) = isvisible s :=
  isvisible_of_eq (arrange_tags env s) (arrange_seltags env s) (arrange_tagset0 env s)
    (arrange_tagset1 env s)

@[simp] theorem isvisible_renumber (s : State) : isvisible (renumber s) = isvisible s :=
  isvisible_of_eq rfl rfl rfl rfl

theorem arrange_order (env : Env) (s : State) :
    (arrange env s).order = setOrders s.order (visibleOf s s.clients) 0 := by
  have h := congrArg Core.order (core_arrange env s)
  simp only [core] at h
  rw [h, (draw_all_core_frame _).2.1, focus_order]
  rfl

theorem arrange_stack (env : Env) (s : State) :
    (arrange env s).stack = (focus none s).stack := by
  have h := congrArg Core.stack (core_arrange env s)
  simp only [core] at h
  rw [h, (draw_all_core_frame _).2.2.2.2.2.2.2.2.2.2.2.2.2.1, focus_none_stack, focus_none_stack]
  simp only [isvisible_renumber]
  rfl

theorem arrange_sel (env : Env) (s : State) :
    (arrange env s).sel =
      if (nextvisible s s.clients).isSome then s.stack.find? (isvisible s) else none := by
  have h := congrArg Core.sel (core_arrange env s)
  simp only [core] at h
  rw [h, draw_all_sel, focus_none_sel]
  simp only [nextvisible, isvisible_focus, isvisible_renumber, focus_clients]
  rfl

/-- After `arrange()` a selected client is the first visible client of the focus stack. -/
theorem arrange_seltop (env : Env) (s : State) (p : Nat)
    (h : (arrange env s).sel = some p) :
    (arrange env s).stack.find? (isvisible (arrange env s)) = some p := by
  rw [arrange_sel] at h
  rw [arrange_stack, isvisible_arrange, ← focus_none_seltop, focus_none_sel]
  split_ifs at h
  exact h

/-! ### Numbering -/

theorem setOrders_not_mem (order : Nat → Nat) (l : List Nat) (n c : Nat) (h : c ∉ l) :
    setOrders order l n c = order c := by
  induction l generalizing order n with
  | nil => rfl
  | cons d l ih =>
    simp only [List.mem_cons, not_or] at h
    simp only [setOrders]
    rw [ih _ _ h.2, upd_other _ _ _ _ h.1]

theorem map_setOrders (order : Nat → Nat) (l : List Nat) (n : Nat) (hnd : l.Nodup)
    (hlt : n + l.length < U32) :
    l.map (setOrders order l n) = List.range' (n + 1) l.length := by
  induction l generalizing order n with
  | nil => rfl
  | cons c l ih =>
    have hc : c ∉ l := (List.nodup_cons.mp hnd).1
    have hl : l.Nodup := (List.nodup_cons.mp hnd).2
    simp only [List.length_cons] at hlt
    have hm : (n + 1) % U32 = n + 1 := Nat.mod_eq_of_lt (by omega)
    simp only [setOrders, List.map_cons, List.length_cons, List.range'_succ, hm]
    rw [setOrders_not_mem _ _ _ _ hc, upd_same, ih _ _ hl (by omega)]

/-! ### Sequences -/

theorem mem_of_mem_after {c p : Nat} {l : List Nat} (h : p ∈ after c l) : p ∈ l := by
  induction l with
  | nil => simp [after] at h
  | cons d l ih =>
    simp only [after] at h
    split_ifs at h with hd
    · exact List.mem_cons_of_mem _ h
    · exact List.mem_cons_of_mem _ (ih h)

theorem after_sublist (c : Nat) (l : List Nat) : (after c l).Sublist l := by
  induction l with
  | nil => simp [after]
  | cons d l ih =>
    simp only [after]
    split_ifs
    · exact List.sublist_cons_self d l
    · exact ih.trans (List.sublist_cons_self d l)

theorem filter_eq_cons_of_find {p : Nat → Bool} {l : List Nat} {m : Nat}
    (h : l.find? p = some m) : l.filter p = m :: (after m l).filter p := by
  induction l with
  | nil => simp at h
  | cons d l ih =>
    by_cases hd : p d = true
    · simp only [List.find?, hd, Option.some.injEq] at h
      subst h
      simp [List.filter, hd, after]
    · have hd' : p d = false := by simpa using hd
      simp only [List.find?, hd'] at h
      have hne : d ≠ m := by
        intro e
        have := List.find?_some h
        rw [← e] at this
        exact hd this
      simp [List.filter, hd', after, hne, ih h]

theorem find_eq_head_filter (p : Nat → Bool) (l : List Nat) :
    l.find? p = (l.filter p).head? := by
  simp only [List.filter_head?]

theorem insertAfter_perm {a : Nat} (c : Nat) {l : List Nat} (h : a ∈ l) :
    (insertAfter a c l).Perm (c :: l) := by
  induction l with
  | nil => simp at h
  | cons d l ih =>
    simp only [insertAfter]
    split_ifs with hd
    · exact List.Perm.swap c d l
    · have ha : a ∈ l := by
        rcases List.mem_cons.mp h with e | e
        · exact absurd e.symm hd
        · exact e
      exact ((ih ha).cons d).trans (List.Perm.swap c d l)

theorem insertAfter_of_not_mem {a : Nat} (c : Nat) {l : List Nat} (h : a ∉ l) :
    insertAfter a c l = l := by
  induction l with
  | nil => rfl
  | cons d l ih =>
    simp only [List.mem_cons, not_or] at h
    simp only [insertAfter]
    rw [if_neg (fun e => h.1 e.symm), ih h.2]

theorem lastnm_mem (s : State) (c : Nat) (l : List Nat) : lastnm s c l ∈ c :: l := by
  induction l generalizing c with
  | nil => simp [lastnm]
  | cons t l ih =>
    simp only [lastnm]
    split_ifs
    · simp
    · exact List.mem_cons_of_mem _ (ih t)

theorem filter_erase_of_pos {p : Nat → Bool} {c : Nat} (l : List Nat) (h : p c = true) :
    (l.erase c).filter p = (l.filter p).erase c := by
  induction l with
  | nil => rfl
  | cons d l ih =>
    by_cases hdc : d = c
    · subst hdc
      simp [List.filter, h]
    · have hne : (d == c) = false := by simpa using hdc
      rw [List.erase_cons_tail (by simpa using hdc)]
      by_cases hd : p d = true
      · simp [List.filter, hd, ih, List.erase_cons_tail, hdc]
      · have hd' : p d = false := by simpa using hd
        simp [List.filter, hd', ih]

theorem filter_erase_of_neg {p : Nat → Bool} {c : Nat} (l : List Nat) (h : p c = false) :
    (l.erase c).filter p = l.filter p := by
  induction l with
  | nil => rfl
  | cons d l ih =>
    by_cases hdc : d = c
    · subst hdc
      simp [List.filter, h]
    · rw [List.erase_cons_tail (by simpa using hdc)]
      by_cases hd : p d = true
      · simp [List.filter, hd, ih]
      · have hd' : p d = false := by simpa using hd
        simp [List.filter, hd', ih]

/-! ### Field lemmas of the list primitives -/

@[simp] theorem isvisible_detach (c : Nat) (s : State) : isvisible (detach c s) = isvisible s :=
  isvisible_of_eq rfl rfl rfl rfl
@[simp] theorem isvisible_attach (c : Nat) (s : State) : isvisible (attach c s) = isvisible s :=
  isvisible_of_eq rfl rfl rfl rfl
@[simp] theorem isvisible_detachstack (c : Nat) (s : State) :
    isvisible (detachstack c s) = isvisible s :=
  isvisible_of_eq rfl rfl rfl rfl
@[simp] theorem isvisible_flipmin (c : Nat) (s : State) : isvisible (flipmin c s) = isvisible s :=
  isvisible_of_eq rfl rfl rfl rfl

@[simp] theorem detach_clients (c : Nat) (s : State) :
    (detach c s).clients = s.clients.erase c := rfl
@[simp] theorem detach_stack (c : Nat) (s : State) : (detach c s).stack = s.stack := rfl
@[simp] theorem detach_sel (c : Nat) (s : State) : (detach c s).sel = s.sel := rfl
@[simp] theorem detach_minimized (c : Nat) (s : State) :
    (detach c s).minimized = s.minimized := rfl
@[simp] theorem detach_tags (c : Nat) (s : State) : (detach c s).tags = s.tags := rfl
@[simp] theorem attach_clients (c : Nat) (s : State) :
    (attach c s).clients = c :: s.clients := rfl
@[simp] theorem attach_stack (c : Nat) (s : State) : (attach c s).stack = s.stack := rfl
@[simp] theorem attach_sel (c : Nat) (s : State) : (attach c s).sel = s.sel := rfl
@[simp] theorem attach_minimized (c : Nat) (s : State) :
    (attach c s).minimized = s.minimized := rfl
@[simp] theorem attach_tags (c : Nat) (s : State) : (attach c s).tags = s.tags := rfl
@[simp] theorem detachstack_clients (c : Nat) (s : State) :
    (detachstack c s).clients = s.clients := rfl
@[simp] theorem detachstack_stack (c : Nat) (s : State) :
    (detachstack c s).stack = s.stack.erase c := rfl
@[simp] theorem detachstack_sel (c : Nat) (s : State) : (detachstack c s).sel = s.sel := rfl
@[simp] theorem detachstack_minimized (c : Nat) (s : State) :
    (detachstack c s).minimized = s.minimized := rfl
@[simp] theorem flipmin_clients (c : Nat) (s : State) : (flipmin c s).clients = s.clients := rfl
@[simp] theorem flipmin_stack (c : Nat) (s : State) : (flipmin c s).stack = s.stack := rfl
@[simp] theorem flipmin_sel (c : Nat) (s : State) : (flipmin c s).sel = s.sel := rfl
@[simp] theorem flipmin_tags (c : Nat) (s : State) : (flipmin c s).tags = s.tags := rfl
theorem flipmin_minimized (c : Nat) (s : State) :
    (flipmin c s).minimized = upd s.minimized c (!s.minimized c) := rfl

theorem attachafter_frame (c : Nat) (a : Option Nat) (s : State) :
    (attachafter c a s).tags = s.tags ∧ (attachafter c a s).seltags = s.seltags ∧
    (attachafter c a s).tagset0 = s.tagset0 ∧ (attachafter c a s).tagset1 = s.tagset1 ∧
    (attachafter c a s).minimized = s.minimized ∧ (attachafter c a s).stack = s.stack ∧
    (attachafter c a s).sel = s.sel ∧ (attachafter c a s).lastsel = s.lastsel := by
  unfold attachafter
  split_ifs
  · simp
  · split <;> simp

@[simp] theorem attachafter_tags (c : Nat) (a : Option Nat) (s : State) :
    (attachafter c a s).tags = s.tags := (attachafter_frame c a s).1
@[simp] theorem attachafter_minimized (c : Nat) (a : Option Nat) (s : State) :
    (attachafter c a s).minimized = s.minimized := (attachafter_frame c a s).2.2.2.2.1
@[simp] theorem attachafter_stack (c : Nat) (a : Option Nat) (s : State) :
    (attachafter c a s).stack = s.stack := (attachafter_frame c a s).2.2.2.2.2.1
@[simp] theorem attachafter_sel (c : Nat) (a : Option Nat) (s : State) :
    (attachafter c a s).sel = s.sel := (attachafter_frame c a s).2.2.2.2.2.2.1
@[simp] theorem isvisible_attachafter (c : Nat) (a : Option Nat) (s : State) :
    isvisible (attachafter c a s) = isvisible s :=
  isvisible_of_eq (attachafter_frame c a s).1 (attachafter_frame c a s).2.1
    (attachafter_frame c a s).2.2.1 (attachafter_frame c a s).2.2.2.1

theorem attachafter_some_clients (c a : Nat) (s : State) (h : a ≠ c) :
    (attachafter c (some a) s).clients = insertAfter a c s.clients := by
  unfold attachafter
  rw [if_neg (by simpa using h)]

/-! ### Branches of `toggleminimize` -/

theorem toggleminimize_restore (env : Env) (s : State) (m : Nat) (hsel : s.sel = some m)
    (hmin : s.minimized m = true) :
    toggleminimize env s = some (arrange env (attach m (detach m (flipmin m s)))) := by
  unfold toggleminimize
  simp [hsel, hmin, flipmin_minimized]

theorem toggleminimize_last (env : Env) (s : State) (m : Nat) (hsel : s.sel = some m)
    (hmin : s.minimized m = false)
    (hone : ((visibleOf s s.clients).filter (fun c => !s.minimized c)).length = 1) :
    toggleminimize env s = some s := by
  unfold toggleminimize
  simp [hsel, hmin, hone]

theorem toggleminimize_master (env : Env) (s : State) (m c : Nat) (hsel : s.sel = some m)
    (hmin : s.minimized m = false)
    (hone : ((visibleOf s s.clients).filter (fun c => !s.minimized c)).length ≠ 1)
    (hfirst : nextvisible s s.clients = some m)
    (hnext : nextvisible s (after m s.clients) = some c) :
    toggleminimize env s =
      some (arrange env (attachafter m
        (some (lastnm (detach m (focus (some c) (attach c (detach c (flipmin m s))))) c
          (visibleOf s (after c (detach m (focus (some c)
            (attach c (detach c (flipmin m s))))).clients))))
        (detach m (focus (some c) (attach c (detach c (flipmin m s))))))) := by
  unfold toggleminimize
  simp only [hsel, hmin, hone, and_false, if_false]
  have h1 : nextvisible (flipmin m s) s.clients = some m := by
    simpa [nextvisible] using hfirst
  have h2 : nextvisible (flipmin m s) (after m s.clients) = some c := by
    simpa [nextvisible] using hnext
  simp [h1, h2, flipmin_minimized, hmin, visibleOf]

theorem not_mem_after_self {m : Nat} {l : List Nat} (h : l.Nodup) : m ∉ after m l := by
  induction l with
  | nil => simp [after]
  | cons d l ih =>
    simp only [after]
    split_ifs with hd
    · subst hd
      exact (List.nodup_cons.mp h).1
    · exact ih (List.nodup_cons.mp h).2

theorem mem_of_nextvisible {s : State} {l : List Nat} {m : Nat}
    (h : nextvisible s l = some m) : m ∈ l ∧ isvisible s m = true :=
  ⟨List.mem_of_find?_eq_some h, by simpa using List.find?_some h⟩

theorem visibleOf_eq_cons {s : State} {l : List Nat} {m : Nat}
    (h : nextvisible s l = some m) : visibleOf s l = m :: visibleOf s (after m l) :=
  filter_eq_cons_of_find h

theorem nextvisible_eq_head (s : State) (l : List Nat) :
    nextvisible s l = (visibleOf s l).head? :=
  find_eq_head_filter _ l

/-- When the selected client is the first visible client of the spatial list,
`toggleminimize` returns, and it permutes the list. -/
theorem toggleminimize_first (env : Env) (s : State) (m : Nat) (hnd : s.clients.Nodup)
    (hsel : s.sel = some m) (hfirst : nextvisible s s.clients = some m) :
    ∃ s', toggleminimize env s = some s' ∧ s'.clients.Perm s.clients ∧
      isvisible s' = isvisible s := by
  obtain ⟨hm, hv⟩ := mem_of_nextvisible hfirst
  cases hmin : s.minimized m with
  | true =>
    refine ⟨_, toggleminimize_restore env s m hsel hmin, ?_, by simp⟩
    simpa using (List.perm_cons_erase hm).symm
  | false =>
    by_cases hone : ((visibleOf s s.clients).filter (fun c => !s.minimized c)).length = 1
    · exact ⟨s, toggleminimize_last env s m hsel hmin hone, List.Perm.refl _, rfl⟩
    · have hV := visibleOf_eq_cons hfirst
      have hne : visibleOf s (after m s.clients) ≠ [] := by
        intro h0
        apply hone
        rw [hV, h0]
        simp [List.filter, hmin]
      obtain ⟨c, hc⟩ : ∃ c, nextvisible s (after m s.clients) = some c := by
        rw [nextvisible_eq_head]
        cases hl : visibleOf s (after m s.clients) with
        | nil => exact absurd hl hne
        | cons c l => exact ⟨c, rfl⟩
      have hcm : c ≠ m := by
        intro e
        have := (mem_of_nextvisible hc).1
        rw [e] at this
        exact not_mem_after_self hnd this
      have hcl : c ∈ s.clients := mem_of_mem_after (mem_of_nextvisible hc).1
      rw [toggleminimize_master env s m c hsel hmin hone hfirst hc]
      have hcl2 : (detach m (focus (some c) (attach c (detach c (flipmin m s))))).clients
          = c :: (s.clients.erase c).erase m := by
        simp [List.erase_cons_tail, hcm]
      have hmnot : m ∉ c :: (s.clients.erase c).erase m := by
        simp only [List.mem_cons, not_or]
        refine ⟨fun e => hcm e.symm, ?_⟩
        exact fun h => ((hnd.erase c).mem_erase_iff.mp h).1 rfl
      have ha := lastnm_mem (detach m (focus (some c) (attach c (detach c (flipmin m s))))) c
        (visibleOf s (after c (detach m (focus (some c)
            (attach c (detach c (flipmin m s))))).clients))
      generalize lastnm (detach m (focus (some c) (attach c (detach c (flipmin m s))))) c
        (visibleOf s (after c (detach m (focus (some c)
            (attach c (detach c (flipmin m s))))).clients)) = a at ha ⊢
      have ha2 : a ∈ c :: (s.clients.erase c).erase m := by
        rw [hcl2] at ha
        rcases List.mem_cons.mp ha with e | e
        · rw [e]; simp
        · have h1 := List.mem_of_mem_filter e
          have h2 := mem_of_mem_after h1
          exact h2
      have ham : a ≠ m := fun e => hmnot (e ▸ ha2)
      refine ⟨_, rfl, ?_, by simp⟩
      rw [arrange_clients, attachafter_some_clients _ _ _ ham, hcl2]
      have hmc : m ∈ s.clients.erase c := (List.mem_erase_of_ne (fun e => hcm e.symm)).mpr hm
      calc insertAfter a m (c :: (s.clients.erase c).erase m)
          |>.Perm (m :: c :: (s.clients.erase c).erase m) := insertAfter_perm m ha2
        _ |>.Perm (c :: m :: (s.clients.erase c).erase m) := List.Perm.swap c m _
        _ |>.Perm (c :: s.clients.erase c) := ((List.perm_cons_erase hmc).symm).cons c
        _ |>.Perm s.clients := (List.perm_cons_erase hcl).symm

/-- With a visible selected client that is linked, `focusnextnm` returns: it
focuses some visible linked client. -/
theorem focusnextnm_visible (s : State) (p : Nat) (hsel : s.sel = some p)
    (hp : p ∈ s.clients) (hv : isvisible s p = true) :
    ∃ c, focusnextnm s = some (focus (some c) s) ∧ c ∈ s.clients ∧ isvisible s c = true ∧
      (s.minimized c = false ∨ c = p) := by
  unfold focusnextnm
  simp only [hsel]
  have hex : ((visibleOf s (after p s.clients) ++ visibleOf s s.clients).find?
      (fun c => !s.minimized c || c == p)).isSome = true := by
    rw [List.find?_isSome]
    refine ⟨p, ?_, by simp⟩
    simp [visibleOf, hp, hv]
  cases hf : (visibleOf s (after p s.clients) ++ visibleOf s s.clients).find?
      (fun c => !s.minimized c || c == p) with
  | none => rw [hf] at hex; simp at hex
  | some c =>
    refine ⟨c, rfl, ?_, ?_, ?_⟩
    · have := List.mem_of_find?_eq_some hf
      rcases List.mem_append.mp this with h | h
      · exact mem_of_mem_after (List.mem_of_mem_filter h)
      · exact List.mem_of_mem_filter h
    · have := List.mem_of_find?_eq_some hf
      rcases List.mem_append.mp this with h | h
      · exact (List.mem_filter.mp h).2
      · exact (List.mem_filter.mp h).2
    · have := List.find?_some hf
      simpa using this

/-! ### The tagsets are left alone -/

@[simp] theorem curtagset_focus (c : Option Nat) (s : State) :
    curtagset (focus c s) = curtagset s := by
  simp [curtagset]

@[simp] theorem curtagset_arrange (env : Env) (s : State) :
    curtagset (arrange env s) = curtagset s := by
  simp [curtagset]

theorem focusnextnm_eq {s s2 : State} (h : focusnextnm s = some s2) :
    s2 = s ∨ ∃ c, s2 = focus (some c) s := by
  unfold focusnextnm at h
  split at h
  · left; exact (Option.some.inj h).symm
  · split at h
    · cases h
    · right; exact ⟨_, (Option.some.inj h).symm⟩

theorem focusnextnm_tags {s s2 : State} (h : focusnextnm s = some s2) :
    s2.tags = s.tags ∧ s2.seltags = s.seltags ∧ s2.tagset0 = s.tagset0 ∧
      s2.tagset1 = s.tagset1 := by
  rcases focusnextnm_eq h with e | ⟨c, e⟩ <;> subst e <;> simp

theorem toggleminimize_tags {env : Env} {s s' : State} (h : toggleminimize env s = some s') :
    s'.tags = s.tags ∧ s'.seltags = s.seltags ∧ s'.tagset0 = s.tagset0 ∧
      s'.tagset1 = s.tagset1 := by
  unfold toggleminimize at h
  split at h
  · cases h; simp
  · split at h
    · cases h; simp
    · dsimp only at h
      split at h
      · split at h
        · cases h
        · cases h
          simp only [arrange_tags, arrange_seltags, arrange_tagset0, arrange_tagset1,
            attachafter_tags, (attachafter_frame _ _ _).2.1, (attachafter_frame _ _ _).2.2.1,
            (attachafter_frame _ _ _).2.2.2.1]
          simp [detach, attach, flipmin]
      · split at h
        · split at h
          · cases h
          · rename_i s2 hf
            cases h
            obtain ⟨t1, t2, t3, t4⟩ := focusnextnm_tags hf
            simp only [arrange_tags, arrange_seltags, arrange_tagset0, arrange_tagset1,
              attachafter_tags, (attachafter_frame _ _ _).2.1, (attachafter_frame _ _ _).2.2.1,
              (attachafter_frame _ _ _).2.2.2.1]
            simp [detach, flipmin, t1, t2, t3, t4]
        · cases h
          simp [detach, attach, flipmin]

/-- `destroy(c)` of a linked client returns (when `c` is selected it has to be
visible): it ends with `destroy_finish` on a state whose spatial list is a
permutation of the old one without `c` and whose tags are unchanged. -/
theorem destroy_shape (env : Env) (a : Alloc) (c : Nat) (s : State) (hnd : s.clients.Nodup)
    (hc : c ∈ s.clients) (hv : s.sel = some c → isvisible s c = true) :
    ∃ t, destroy env a c s = some (destroy_finish env a c t) ∧
      t.clients.Perm (s.clients.erase c) ∧
      (t.tags = s.tags ∧ t.seltags = s.seltags ∧ t.tagset0 = s.tagset0 ∧
        t.tagset1 = s.tagset1) := by
  unfold destroy
  obtain ⟨s1, h1, h1c, h1v⟩ : ∃ s1, (if s.sel = some c then focusnextnm s else some s) = some s1 ∧
      s1.clients = s.clients ∧ (s1.tags = s.tags ∧ s1.seltags = s.seltags ∧
        s1.tagset0 = s.tagset0 ∧ s1.tagset1 = s.tagset1) := by
    split_ifs with hs
    · obtain ⟨c1, hf, -, -, -⟩ := focusnextnm_visible s c hs hc (hv hs)
      exact ⟨_, hf, by simp, by simp⟩
    · exact ⟨s, rfl, rfl, rfl, rfl, rfl, rfl⟩
  rw [h1, Option.some_bind]
  obtain ⟨s3, h3, h3c, h3v⟩ : ∃ s3,
      destroy_refocus env c (detachstack c (detach c s1)) = some s3 ∧
      s3.clients.Perm (s.clients.erase c) ∧ (s3.tags = s.tags ∧ s3.seltags = s.seltags ∧
        s3.tagset0 = s.tagset0 ∧ s3.tagset1 = s.tagset1) := by
    unfold destroy_refocus
    split_ifs with hs
    · cases hn : nextvisible (detachstack c (detach c s1)) (detachstack c (detach c s1)).clients with
      | none =>
        refine ⟨_, rfl, ?_, ?_⟩
        · simp [h1c, set_sel]
        · exact h1v
      | some nxt =>
        simp only []
        have hnd2 : (focus (some nxt) (detachstack c (detach c s1))).clients.Nodup := by
          simp [h1c, hnd.erase c]
        have hfirst : nextvisible (focus (some nxt) (detachstack c (detach c s1)))
            (focus (some nxt) (detachstack c (detach c s1))).clients = some nxt := by
          simpa [nextvisible] using hn
        obtain ⟨s3, e3, p3, -⟩ := toggleminimize_first env _ nxt hnd2 (by simp) hfirst
        obtain ⟨t1, t2, t3, t4⟩ := toggleminimize_tags e3
        refine ⟨s3, e3, ?_, ?_⟩
        · simpa [h1c] using p3
        · rw [t1, t2, t3, t4]
          simpa using h1v
    · refine ⟨_, rfl, ?_, ?_⟩
      · simp [h1c]
      · exact h1v
  rw [h3, Option.some_bind]
  refine ⟨_, rfl, ?_, ?_⟩
  · split_ifs
    · exact h3c
    · exact h3c
  · split_ifs
    · exact h3v
    · exact h3v

/-- When the spatial list does not become empty, or no start-up action is
configured, the last step of `destroy(c)` is `arrange()`. -/
theorem destroy_spec (env : Env) (a : Alloc) (c : Nat) (s : State) (hnd : s.clients.Nodup)
    (hc : c ∈ s.clients) (hv : s.sel = some c → isvisible s c = true)
    (hne : s.clients.erase c ≠ [] ∨ env.nactions = 0) :
    ∃ t, destroy env a c s = some (arrange env t) ∧ t.clients.Perm (s.clients.erase c) ∧
      isvisible t = isvisible s := by
  obtain ⟨t, ht, hp, h1, h2, h3, h4⟩ := destroy_shape env a c s hnd hc hv
  refine ⟨t, ?_, hp, isvisible_of_eq h1 h2 h3 h4⟩
  rw [ht]
  unfold destroy_finish
  have hnot : ¬ (t.clients = [] ∧ env.nactions ≠ 0) := by
    rintro ⟨h0, hn⟩
    rcases hne with h | h
    · rw [h0] at hp
      exact h (List.Perm.nil_eq hp).symm
    · exact hn h
  rw [if_neg hnot]

/-- C1. After `arrange()` the visible clients are the same as before, in the
same spatial order, and their `order` fields are 1, 2, ..., n in that order
(n counts the minimized ones too).  In particular `destroy(c)` of one of ten
visible clients returns, leaves the nine others as the visible clients, and
numbers them 1 to 9 in spatial order.  The spatial list is a list of distinct
clients and n fits the `unsigned int` counter. -/
theorem arrange_orders_dense (env : Env) (s : State) (hnd : s.clients.Nodup)
    (hlen : (visibleOf s s.clients).length < U32) :
    (visibleOf (arrange env s) (arrange env s).clients = visibleOf s s.clients ∧
      (visibleOf (arrange env s) (arrange env s).clients).map (arrange env s).order
        = List.range' 1 (visibleOf s s.clients).length) ∧
    (∀ (a : Alloc) (c : Nat), (visibleOf s s.clients).length = 10 → c ∈ visibleOf s s.clients →
      ∃ s', destroy env a c s = some s' ∧
        (visibleOf s' s'.clients).Perm ((visibleOf s s.clients).erase c) ∧
        (visibleOf s' s'.clients).map s'.order = [1, 2, 3, 4, 5, 6, 7, 8, 9]) := by
  have key : ∀ t : State, t.clients.Nodup → (visibleOf t t.clients).length < U32 →
      visibleOf (arrange env t) (arrange env t).clients = visibleOf t t.clients ∧
      (visibleOf (arrange env t) (arrange env t).clients).map (arrange env t).order
        = List.range' 1 (visibleOf t t.clients).length := by
    intro t htnd htlen
    have hvis : visibleOf (arrange env t) (arrange env t).clients = visibleOf t t.clients := by
      simp [visibleOf]
    refine ⟨hvis, ?_⟩
    rw [hvis, arrange_order]
    exact map_setOrders _ _ 0 (htnd.filter _) (by simpa using htlen)
  refine ⟨key s hnd hlen, ?_⟩
  intro a c hten hc
  have hcl : c ∈ s.clients := List.mem_of_mem_filter hc
  have hcv : isvisible s c = true := (List.mem_filter.mp hc).2
  have herase : visibleOf s (s.clients.erase c) = (visibleOf s s.clients).erase c :=
    filter_erase_of_pos s.clients hcv
  have hlen9 : ((visibleOf s s.clients).erase c).length = 9 := by
    rw [List.length_erase_of_mem hc, hten]
  have hne : s.clients.erase c ≠ [] := by
    intro h0
    rw [← herase, h0] at hlen9
    simp [visibleOf] at hlen9
  obtain ⟨t, ht, hperm, hvt⟩ := destroy_spec env a c s hnd hcl (fun _ => hcv) (Or.inl hne)
  have htnd : t.clients.Nodup := hperm.nodup_iff.mpr (hnd.erase c)
  have hvperm : (visibleOf t t.clients).Perm ((visibleOf s s.clients).erase c) := by
    rw [← herase]
    unfold visibleOf
    rw [hvt]
    exact hperm.filter _
  have htlen : (visibleOf t t.clients).length = 9 := by
    rw [hvperm.length_eq, hlen9]
  obtain ⟨k1, k2⟩ := key t htnd (by rw [htlen]; decide)
  refine ⟨_, ht, ?_, ?_⟩
  · rw [k1]; exact hvperm
  · rw [k2, htlen]; rfl

set_option maxRecDepth 100000 in
/-- Witness for C1: the ten shells of `ten`, and `destroy` of the fifth one. -/
theorem arrange_orders_dense_witness :
    ten.clients.Nodup ∧ (visibleOf ten ten.clients).length < U32 ∧
    (visibleOf (arrange env0 ten) (arrange env0 ten).clients).map (arrange env0 ten).order
        = List.range' 1 (visibleOf ten ten.clients).length ∧
    ∃ s', destroy env0 Alloc.calloc_failed 5 ten = some s' ∧
        (visibleOf s' s'.clients).Perm ((visibleOf ten ten.clients).erase 5) ∧
        (visibleOf s' s'.clients).map s'.order = [1, 2, 3, 4, 5, 6, 7, 8, 9] :=
  ⟨by decide, by decide,
    (arrange_orders_dense env0 ten (by decide) (by decide)).1.2,
    (arrange_orders_dense env0 ten (by decide) (by decide)).2 Alloc.calloc_failed 5
      (by decide) (by decide)⟩

/-- C2. When the spatial list and the focus stack hold the same clients, after
`arrange()` the selected client is `NULL` or a client of the spatial list that
is visible under the current tagset, and it is `NULL` exactly when no client
of the spatial list is visible. -/
theorem arrange_sel_visible (env : Env) (s : State)
    (hsame : ∀ p, p ∈ s.clients ↔ p ∈ s.stack) :
    ((arrange env s).sel = none ∨
      ∃ p, (arrange env s).sel = some p ∧ p ∈ (arrange env s).clients ∧
        isvisible (arrange env s) p = true) ∧
    ((arrange env s).sel = none ↔
      ∀ p ∈ (arrange env s).clients, isvisible (arrange env s) p = false) := by
  rw [arrange_sel, arrange_clients, isvisible_arrange]
  by_cases hex : (nextvisible s s.clients).isSome = true
  · rw [if_pos hex]
    obtain ⟨q, hq, hqv⟩ := List.find?_isSome.mp hex
    have hst : (s.stack.find? (isvisible s)).isSome = true :=
      List.find?_isSome.mpr ⟨q, (hsame q).mp hq, hqv⟩
    obtain ⟨p, hp⟩ := Option.isSome_iff_exists.mp hst
    rw [hp]
    have hpm : p ∈ s.clients := (hsame p).mpr (List.mem_of_find?_eq_some hp)
    have hpv : isvisible s p = true := by simpa using List.find?_some hp
    refine ⟨Or.inr ⟨p, rfl, hpm, hpv⟩, ?_⟩
    constructor
    · intro h; cases h
    · intro h
      have := h p hpm
      rw [hpv] at this
      cases this
  · rw [if_neg hex]
    refine ⟨Or.inl rfl, ?_⟩
    constructor
    · intro _ p hp
      by_contra hv
      exact hex (List.find?_isSome.mpr ⟨p, hp, by simpa using hv⟩)
    · intro _; rfl

set_option maxRecDepth 100000 in
/-- Witness for C2: ten shells after the third one was focused, so that the
focus stack and the spatial list differ in order. -/
theorem arrange_sel_visible_witness :
    (∀ p, p ∈ (focus (some 3) ten).clients ↔ p ∈ (focus (some 3) ten).stack) ∧
    ((arrange env0 (focus (some 3) ten)).sel = none ∨
      ∃ p, (arrange env0 (focus (some 3) ten)).sel = some p ∧
        p ∈ (arrange env0 (focus (some 3) ten)).clients ∧
        isvisible (arrange env0 (focus (some 3) ten)) p = true) ∧
    ((arrange env0 (focus (some 3) ten)).sel = none ↔
      ∀ p ∈ (arrange env0 (focus (some 3) ten)).clients,
        isvisible (arrange env0 (focus (some 3) ten)) p = false) :=
  ⟨fun p => (by decide : (focus (some 3) ten).clients.Perm (focus (some 3) ten).stack).mem_iff,
   arrange_sel_visible env0 (focus (some 3) ten)
      (fun p => (by decide :
        (focus (some 3) ten).clients.Perm (focus (some 3) ten).stack).mem_iff)⟩

/-! ### `newclient` and `create` -/

@[simp] theorem newclient_clients (cmd : Option String) (c : Nat) (s : State) :
    (newclient cmd c s).clients = s.clients := rfl
@[simp] theorem newclient_stack (cmd : Option String) (c : Nat) (s : State) :
    (newclient cmd c s).stack = s.stack := rfl
@[simp] theorem newclient_sel (cmd : Option String) (c : Nat) (s : State) :
    (newclient cmd c s).sel = s.sel := rfl
@[simp] theorem newclient_tags (cmd : Option String) (c : Nat) (s : State) :
    (newclient cmd c s).tags = upd s.tags c (curtagset s) := rfl
@[simp] theorem curtagset_newclient (cmd : Option String) (c : Nat) (s : State) :
    curtagset (newclient cmd c s) = curtagset s := rfl
@[simp] theorem curtagset_attach (c : Nat) (s : State) :
    curtagset (attach c s) = curtagset s := rfl
@[simp] theorem curtagset_bump_id (s : State) : curtagset (bump_id s) = curtagset s := rfl

theorem isvisible_newclient_self (cmd : Option String) (c : Nat) (s : State)
    (h : curtagset s ≠ 0) : isvisible (newclient cmd c s) c = true := by
  simp [isvisible, h]

theorem isvisible_newclient_other (cmd : Option String) (c d : Nat) (s : State)
    (h : d ≠ c) : isvisible (newclient cmd c s) d = isvisible s d := by
  simp [isvisible, upd_other _ _ _ _ h]

theorem create_ok (env : Env) (cmd : Option String) (c : Nat) (s : State) :
    create env cmd (Alloc.ok c) s = arrange env (focus (some c) (attach c (newclient cmd c s))) :=
  rfl

/-! ### C3: the invariant of the reachable states -/

/-- The invariant carried along the reachable states: distinct clients, all
of them visible, a non-empty current tagset, and `SelTop`. -/
theorem reachable_inv (env : Env) (s : State) (h : Reachable env s) :
    s.clients.Nodup ∧ (∀ p ∈ s.clients, isvisible s p = true) ∧ curtagset s ≠ 0 ∧ SelTop s := by
  have create_inv0 : ∀ (t : State) (cmd : Option String) (a : Alloc),
      t.clients.Nodup → (∀ p ∈ t.clients, isvisible t p = true) → curtagset t ≠ 0 →
      Fresh a t →
      (create env cmd a t).clients.Nodup ∧
      (∀ p ∈ (create env cmd a t).clients, isvisible (create env cmd a t) p = true) ∧
      curtagset (create env cmd a t) ≠ 0 ∧ (SelTop t → SelTop (create env cmd a t)) := by
    intro t cmd a hnd hall hts hfr
    cases a with
    | calloc_failed => exact ⟨hnd, hall, hts, fun h => h⟩
    | newwin_failed => exact ⟨hnd, hall, hts, fun h => h⟩
    | vt_create_failed => exact ⟨hnd, hall, hts, fun h => h⟩
    | ok c =>
      have hc : c ∉ t.clients := hfr c rfl
      rw [create_ok]
      refine ⟨?_, ?_, ?_, fun _ p hp => arrange_seltop env _ p hp⟩
      · simpa using ⟨hc, hnd⟩
      · intro p hp
        simp only [arrange_clients, focus_clients, attach_clients, newclient_clients,
          List.mem_cons] at hp
        simp only [isvisible_arrange, isvisible_focus, isvisible_attach]
        rcases hp with e | hp
        · rw [e]; exact isvisible_newclient_self cmd c t hts
        · have hne : p ≠ c := fun e => hc (e ▸ hp)
          rw [isvisible_newclient_other cmd c p t hne]
          exact hall p hp
      · simpa using hts
  induction h with
  | start s hi =>
    obtain ⟨h1, h2, h3, h4, h5, h6, h7, h8⟩ := hi
    refine ⟨by rw [h1]; exact List.nodup_nil, by rw [h1]; simp, ?_, ?_⟩
    · simp [curtagset, h5, h6]
    · intro p hp; rw [h3] at hp; cases hp
  | create s cmd a _ hfr ih =>
    obtain ⟨hnd, hall, hts, hst⟩ := ih
    obtain ⟨k1, k2, k3, k4⟩ := create_inv0 s cmd a hnd hall hts hfr
    exact ⟨k1, k2, k3, k4 hst⟩
  | focus s c _ hc ih =>
    obtain ⟨hnd, hall, hts, hst⟩ := ih
    refine ⟨by simpa using hnd, by simpa using hall, by simpa using hts, ?_⟩
    cases c with
    | none =>
      intro p hp
      rw [isvisible_focus, ← focus_none_seltop]
      exact hp
    | some c =>
      intro p hp
      rw [focus_some_sel] at hp
      cases hp
      rw [isvisible_focus, focus_some_stack]
      split_ifs with hs
      · exact hst c hs
      · simp [List.find?, hall c (hc c rfl)]
  | destroy s s' a c _ hc hfr hd hex ih =>
    obtain ⟨hnd, hall, hts, hst⟩ := ih
    obtain ⟨t, ht, hp, t1, t2, t3, t4⟩ := destroy_shape env a c s hnd hc (fun _ => hall c hc)
    rw [ht] at hd
    have hs' : s' = destroy_finish env a c t := (Option.some.inj hd).symm
    have htv : isvisible t = isvisible s := isvisible_of_eq t1 t2 t3 t4
    have htc : curtagset t = curtagset s := by simp [curtagset, t2, t3, t4]
    have htnd : t.clients.Nodup := hp.nodup_iff.mpr (hnd.erase c)
    have htall : ∀ p ∈ t.clients, isvisible t p = true := by
      intro p hpm
      rw [htv]
      exact hall p (List.mem_of_mem_erase (hp.mem_iff.mp hpm))
    rw [hs'] at hex ⊢
    unfold destroy_finish at hex ⊢
    split_ifs at hex ⊢ with h0 hq
    · simp [set_exited] at hex
    · have hfr' : Fresh a t := by
        intro d _
        rw [h0.1]
        exact List.not_mem_nil d
      obtain ⟨k1, k2, k3, -⟩ := create_inv0 t none a htnd htall (by rw [htc]; exact hts) hfr'
      exact ⟨by simpa using k1, by simpa using k2, by simpa using k3,
        fun p hp => arrange_seltop env _ p hp⟩
    · exact ⟨by simpa using htnd, by simpa using htall, by simpa [htc] using hts,
        fun p hp => arrange_seltop env _ p hp⟩
  | arrange s _ ih =>
    obtain ⟨hnd, hall, hts, hst⟩ := ih
    exact ⟨by simpa using hnd, by simpa using hall, by simpa using hts,
      fun p hp => arrange_seltop env _ p hp⟩

/-- C3. In every state reachable from the empty state by `create`, `focus`,
`destroy` and `arrange`, a selected client is the first client of the focus
stack that is visible under the current tagset. -/
theorem reachable_sel_top (env : Env) (s : State) (h : Reachable env s) (p : Nat)
    (hp : s.sel = some p) : s.stack.find? (isvisible s) = some p :=
  (reachable_inv env s h).2.2.2 p hp

/-- On a reachable state `destroy` of a client of the spatial list returns. -/
theorem reachable_destroy_isSome (env : Env) (s : State) (a : Alloc) (c : Nat)
    (h : Reachable env s) (hc : c ∈ s.clients) : (destroy env a c s).isSome = true := by
  obtain ⟨hnd, hall, -, -⟩ := reachable_inv env s h
  obtain ⟨t, ht, -⟩ := destroy_shape env a c s hnd hc (fun _ => hall c hc)
  rw [ht]
  rfl

theorem eq_some_getD_of_isSome {α : Type} (o : Option α) (d : α) (h : o.isSome = true) :
    o = some (o.getD d) := by
  cases o with
  | none => cases h
  | some v => rfl

theorem create_clients_ok (env : Env) (cmd : Option String) (c : Nat) (s : State) :
    (create env cmd (Alloc.ok c) s).clients = c :: s.clients := by
  simp [create_ok]

theorem reachable_createAll (env : Env) (cs : List Nat) (s : State) (h : Reachable env s)
    (hnd : cs.Nodup) (hdis : ∀ c ∈ cs, c ∉ s.clients) :
    Reachable env (createAll env cs s) := by
  induction cs generalizing s with
  | nil => exact h
  | cons c cs ih =>
    simp only [createAll]
    have hc : c ∉ cs := (List.nodup_cons.mp hnd).1
    apply ih _ (Reachable.create s none (Alloc.ok c) h
      (fun d hd => by cases hd; exact hdis c (List.mem_cons_self c cs)))
      (List.nodup_cons.mp hnd).2
    intro d hd
    rw [create_clients_ok]
    simp only [List.mem_cons, not_or]
    exact ⟨fun e => hc (e ▸ hd), hdis d (List.mem_cons_of_mem c hd)⟩

set_option maxRecDepth 100000 in
/-- Witness for C3: three shells are created, the first is focused, the third
is destroyed; the first stays selected and heads the focus stack. -/
theorem reachable_sel_top_witness :
    Reachable env0 three_destroyed ∧ three_destroyed.sel = some 1 ∧
    three_destroyed.stack.find? (isvisible three_destroyed) = some 1 :=
  have h0 : Reachable env0 launch0 :=
    Reachable.start launch0 ⟨rfl, rfl, rfl, rfl, rfl, rfl, rfl, rfl⟩
  have h3 : Reachable env0 (createAll env0 [1, 2, 3] launch0) :=
    reachable_createAll env0 [1, 2, 3] launch0 h0 (by decide) (by decide)
  have hf : Reachable env0 three_focused :=
    Reachable.focus (createAll env0 [1, 2, 3] launch0) (some 1) h3
      (fun p h => by cases h; decide)
  have hr : Reachable env0 three_destroyed :=
    Reachable.destroy three_focused three_destroyed Alloc.calloc_failed 3 hf
      (by decide) (fun c h => by cases h)
      (eq_some_getD_of_isSome _ _ (by decide)) (by decide)
  ⟨hr, by decide, reachable_sel_top env0 three_destroyed hr 1 (by decide)⟩

@[simp] theorem attach_cmd (c : Nat) (s : State) : (attach c s).cmd = s.cmd := rfl
@[simp] theorem attach_id (c : Nat) (s : State) : (attach c s).id = s.id := rfl
@[simp] theorem newclient_cmd (cmd : Option String) (c : Nat) (s : State) :
    (newclient cmd c s).cmd = upd s.cmd c (match cmd with
                                           | some a0 => a0
                                           | none => s.shell) := rfl
@[simp] theorem newclient_id (cmd : Option String) (c : Nat) (s : State) :
    (newclient cmd c s).id = upd s.id c ((s.cmdfifo_id + 1) % U16) := rfl
@[simp] theorem newclient_cmdfifo_id (cmd : Option String) (c : Nat) (s : State) :
    (newclient cmd c s).cmdfifo_id = (s.cmdfifo_id + 1) % U16 := rfl
@[simp] theorem attach_cmdfifo_id (c : Nat) (s : State) :
    (attach c s).cmdfifo_id = s.cmdfifo_id := rfl

/-- C4. When the allocations succeed, `create()` without arguments links the
new client `c` at the head of the spatial list with `c->order == 1`,
`c->tags` equal to the current tagset and `c->cmd` the shell, puts it on top of
the focus stack and selects it; at launch, where `cmdfifo.id` is 0, the client
gets `id == 1`.  The address `c` is fresh and the current tagset is not empty. -/
theorem create_spec (env : Env) (c : Nat) (s : State) (hfresh : c ∉ s.clients)
    (hsel : s.sel ≠ some c) (hts : curtagset s ≠ 0) :
    (create env none (Alloc.ok c) s).clients.head? = some c ∧
    (create env none (Alloc.ok c) s).order c = 1 ∧
    (create env none (Alloc.ok c) s).tags c = curtagset s ∧
    (create env none (Alloc.ok c) s).cmd c = s.shell ∧
    (create env none (Alloc.ok c) s).stack.head? = some c ∧
    (create env none (Alloc.ok c) s).sel = some c ∧
    (s.cmdfifo_id = 0 → (create env none (Alloc.ok c) s).id c = 1) := by
  rw [create_ok]
  have hvc : isvisible (newclient none c s) c = true := isvisible_newclient_self none c s hts
  have hstack : (focus (some c) (attach c (newclient none c s))).stack
      = c :: s.stack.erase c := by
    rw [focus_some_stack, if_neg (by simpa using hsel)]
    rfl
  have hfind : (focus (some c) (attach c (newclient none c s))).stack.find?
      (isvisible (focus (some c) (attach c (newclient none c s)))) = some c := by
    rw [hstack]
    simp [List.find?, hvc]
  have hnv : nextvisible (focus (some c) (attach c (newclient none c s)))
      (focus (some c) (attach c (newclient none c s))).clients = some c := by
    simp [nextvisible, List.find?, hvc]
  refine ⟨by simp, ?_, by simp, by simp, ?_, ?_, ?_⟩
  · rw [arrange_order, visibleOf_eq_cons hnv]
    have hnot : c ∉ visibleOf (focus (some c) (attach c (newclient none c s)))
        (after c (focus (some c) (attach c (newclient none c s))).clients) := by
      intro h
      have := List.mem_of_mem_filter h
      simp [after, hfresh] at this
    simp only [setOrders]
    rw [setOrders_not_mem _ _ _ _ hnot, upd_same]
    decide
  · rw [arrange_stack, focus_none_stack, if_pos (by rw [hfind]; simp), hstack]
    rfl
  · rw [arrange_sel, hnv, hfind]
    rfl
  · intro h0
    simp [h0, U16]

set_option maxRecDepth 100000 in
/-- Witness for C4: the first `create()` after launch. -/
theorem create_spec_witness :
    (1 ∉ launch0.clients ∧ launch0.sel ≠ some 1 ∧ curtagset launch0 ≠ 0) ∧
    (create env0 none (Alloc.ok 1) launch0).clients.head? = some 1 ∧
    (create env0 none (Alloc.ok 1) launch0).order 1 = 1 ∧
    (create env0 none (Alloc.ok 1) launch0).tags 1 = curtagset launch0 ∧
    (create env0 none (Alloc.ok 1) launch0).cmd 1 = launch0.shell ∧
    (create env0 none (Alloc.ok 1) launch0).stack.head? = some 1 ∧
    (create env0 none (Alloc.ok 1) launch0).sel = some 1 ∧
    (launch0.cmdfifo_id = 0 → (create env0 none (Alloc.ok 1) launch0).id 1 = 1) :=
  ⟨⟨by decide, by decide, by decide⟩,
    create_spec env0 1 launch0 (by decide) (by decide) (by decide)⟩

theorem focus_none_stack_perm (s : State) : (focus none s).stack.Perm s.stack := by
  rw [focus_none_stack]
  split_ifs
  · exact List.Perm.refl _
  · cases hf : s.stack.find? (isvisible s) with
    | none => exact List.Perm.refl _
    | some c => exact (List.perm_cons_erase (List.mem_of_find?_eq_some hf)).symm

theorem focus_none_stack_find (s : State) :
    (focus none s).stack.find? (isvisible s) = s.stack.find? (isvisible s) := by
  rw [← focus_none_seltop, focus_none_sel]

theorem arrange_stack_perm (env : Env) (s : State) : (arrange env s).stack.Perm s.stack := by
  rw [arrange_stack]
  exact focus_none_stack_perm s

theorem arrange_stack_find (env : Env) (s : State) :
    (arrange env s).stack.find? (isvisible s) = s.stack.find? (isvisible s) := by
  rw [arrange_stack]
  exact focus_none_stack_find s

theorem nextvisible_isSome_perm (s : State) {l l' : List Nat} (h : l.Perm l') :
    (nextvisible s l).isSome = (nextvisible s l').isSome := by
  have : (nextvisible s l).isSome = true ↔ (nextvisible s l').isSome = true := by
    unfold nextvisible
    rw [List.find?_isSome, List.find?_isSome]
    constructor
    · rintro ⟨x, hx, hp⟩; exact ⟨x, h.mem_iff.mp hx, hp⟩
    · rintro ⟨x, hx, hp⟩; exact ⟨x, h.mem_iff.mpr hx, hp⟩
  cases h1 : (nextvisible s l).isSome <;> cases h2 : (nextvisible s l').isSome <;> simp_all

@[simp] theorem curtagset_detach (c : Nat) (s : State) :
    curtagset (detach c s) = curtagset s := rfl
@[simp] theorem curtagset_flipmin (c : Nat) (s : State) :
    curtagset (flipmin c s) = curtagset s := rfl
@[simp] theorem detach_seltags (c : Nat) (s : State) : (detach c s).seltags = s.seltags := rfl
@[simp] theorem detach_tagset0 (c : Nat) (s : State) : (detach c s).tagset0 = s.tagset0 := rfl
@[simp] theorem detach_tagset1 (c : Nat) (s : State) : (detach c s).tagset1 = s.tagset1 := rfl
@[simp] theorem attach_seltags (c : Nat) (s : State) : (attach c s).seltags = s.seltags := rfl
@[simp] theorem attach_tagset0 (c : Nat) (s : State) : (attach c s).tagset0 = s.tagset0 := rfl
@[simp] theorem attach_tagset1 (c : Nat) (s : State) : (attach c s).tagset1 = s.tagset1 := rfl
@[simp] theorem flipmin_seltags (c : Nat) (s : State) : (flipmin c s).seltags = s.seltags := rfl
@[simp] theorem flipmin_tagset0 (c : Nat) (s : State) : (flipmin c s).tagset0 = s.tagset0 := rfl
@[simp] theorem flipmin_tagset1 (c : Nat) (s : State) : (flipmin c s).tagset1 = s.tagset1 := rfl

/-- `tagschanged()` returns when every client of the focus stack is linked.
It leaves tags and tagsets alone, permutes the spatial list and the focus
stack, keeps the first visible client of the stack, and selects it when the
spatial list has a visible client. -/
theorem tagschanged_spec (env : Env) (s : State) (hl : Linked s) :
    ∃ s', tagschanged env s = some s' ∧
      (s'.tags = s.tags ∧ s'.seltags = s.seltags ∧ s'.tagset0 = s.tagset0 ∧
        s'.tagset1 = s.tagset1) ∧
      s'.clients.Perm s.clients ∧ s'.stack.Perm s.stack ∧
      s'.stack.find? (isvisible s) = s.stack.find? (isvisible s) ∧
      s'.sel = (if (nextvisible s s.clients).isSome then s.stack.find? (isvisible s)
                else none) := by
  obtain ⟨s1, h1, t1, t2, t3, t4, hc, hs, hf⟩ : ∃ s1,
      (if ((visibleOf s s.clients).all s.minimized) = true ∧
          (nextvisible s s.clients).isSome = true
       then toggleminimize env (focus none s) else some s) = some s1 ∧
      s1.tags = s.tags ∧ s1.seltags = s.seltags ∧ s1.tagset0 = s.tagset0 ∧
      s1.tagset1 = s.tagset1 ∧ s1.clients.Perm s.clients ∧ s1.stack.Perm s.stack ∧
      s1.stack.find? (isvisible s) = s.stack.find? (isvisible s) := by
    split_ifs with hcond
    · cases hsel : (focus none s).sel with
      | none =>
        refine ⟨focus none s, ?_, by simp, by simp, by simp, by simp, by simp,
          focus_none_stack_perm s, focus_none_stack_find s⟩
        unfold toggleminimize
        rw [hsel]
      | some m =>
        have hm0 : s.stack.find? (isvisible s) = some m := by
          rw [← focus_none_sel]; exact hsel
        have hmv : isvisible s m = true := by simpa using List.find?_some hm0
        have hmc : m ∈ s.clients := hl m (List.mem_of_find?_eq_some hm0)
        have hmin : s.minimized m = true := by
          have := List.all_eq_true.mp hcond.1 m (List.mem_filter.mpr ⟨hmc, hmv⟩)
          exact this
        refine ⟨_, toggleminimize_restore env (focus none s) m hsel (by simpa using hmin),
          by simp, by simp, by simp, by simp, ?_, ?_, ?_⟩
        · simpa using (List.perm_cons_erase hmc).symm
        · exact (arrange_stack_perm env _).trans (focus_none_stack_perm s)
        · have := arrange_stack_find env (attach m (detach m (flipmin m (focus none s))))
          simp only [isvisible_attach, isvisible_detach, isvisible_flipmin,
            isvisible_focus] at this
          rw [this]
          exact focus_none_stack_find s
    · exact ⟨s, rfl, rfl, rfl, rfl, rfl, List.Perm.refl _, List.Perm.refl _, rfl⟩
  have hv1 : isvisible s1 = isvisible s := isvisible_of_eq t1 t2 t3 t4
  refine ⟨arrange env s1, ?_, ?_, ?_, ?_, ?_, ?_⟩
  · unfold tagschanged
    simp only []
    rw [h1, Option.some_bind]
  · simp [t1, t2, t3, t4]
  · simpa using hc
  · exact (arrange_stack_perm env s1).trans hs
  · have := arrange_stack_find env s1
    rw [hv1] at this
    rw [this, hf]
  · have hn : nextvisible s1 s1.clients = nextvisible s s1.clients := by
      unfold nextvisible; rw [hv1]
    rw [arrange_sel, hv1, hn, nextvisible_isSome_perm s hc, hf]

/-! ### `view` and `viewprevtag` -/

theorem linked_of_perm {s t : State} (hc : t.clients.Perm s.clients)
    (hs : t.stack.Perm s.stack) (h : Linked s) : Linked t :=
  fun p hp => hc.mem_iff.mpr (h p (hs.mem_iff.mp hp))

theorem setcurtagset_frame (v : Nat) (s : State) :
    (setcurtagset v s).clients = s.clients ∧ (setcurtagset v s).stack = s.stack ∧
    (setcurtagset v s).seltags = s.seltags ∧ curtagset (setcurtagset v s) = v ∧
    prevtagset (setcurtagset v s) = prevtagset s := by
  unfold setcurtagset
  cases h : s.seltags <;> simp [curtagset, prevtagset, h]

theorem tagschanged_tagsets {env : Env} {s s' : State} (hl : Linked s)
    (h : tagschanged env s = some s') :
    curtagset s' = curtagset s ∧ prevtagset s' = prevtagset s ∧ Linked s' := by
  obtain ⟨t, ht, ⟨-, t2, t3, t4⟩, hc, hs, -, -⟩ := tagschanged_spec env s hl
  rw [ht] at h
  cases h
  exact ⟨by simp [curtagset, t2, t3, t4], by simp [prevtagset, t2, t3, t4],
    linked_of_perm hc hs hl⟩

/-- `view(arg)` returns; with a non-empty mask different from the current
tagset it makes the mask the current tagset and the old one the previous
tagset, otherwise it changes neither. -/
theorem view_spec (env : Env) (arg : Option String) (s : State) (hl : Linked s) :
    ∃ s', view env arg s = some s' ∧ Linked s' ∧
      (if curtagset s ≠ (bitoftag env arg &&& TAGMASK env) ∧
          (bitoftag env arg &&& TAGMASK env) ≠ 0
       then curtagset s' = (bitoftag env arg &&& TAGMASK env) ∧ prevtagset s' = curtagset s
       else curtagset s' = curtagset s ∧ prevtagset s' = prevtagset s) := by
  unfold view
  simp only []
  split_ifs with hcond
  · have hl' : Linked (setcurtagset (bitoftag env arg &&& TAGMASK env) (flip_seltags s)) := by
      intro p hp
      rw [(setcurtagset_frame _ _).1]
      rw [(setcurtagset_frame _ _).2.1] at hp
      exact hl p hp
    obtain ⟨s', hs', -⟩ := tagschanged_spec env _ hl'
    obtain ⟨k1, k2, k3⟩ := tagschanged_tagsets hl' hs'
    refine ⟨s', hs', k3, ?_, ?_⟩
    · rw [k1, (setcurtagset_frame _ _).2.2.2.1]
    · rw [k2, (setcurtagset_frame _ _).2.2.2.2]
      cases h : s.seltags <;> simp [prevtagset, curtagset, flip_seltags, h]
  · exact ⟨s, rfl, hl, rfl, rfl⟩

/-- `viewprevtag()` returns and swaps the current and the previous tagset. -/
theorem viewprevtag_spec (env : Env) (s : State) (hl : Linked s) :
    ∃ s', viewprevtag env s = some s' ∧ Linked s' ∧
      curtagset s' = prevtagset s ∧ prevtagset s' = curtagset s := by
  unfold viewprevtag
  have hl' : Linked (flip_seltags s) := hl
  obtain ⟨s', hs', -⟩ := tagschanged_spec env _ hl'
  obtain ⟨k1, k2, k3⟩ := tagschanged_tagsets hl' hs'
  refine ⟨s', hs', k3, ?_, ?_⟩
  · rw [k1]; cases h : s.seltags <;> simp [prevtagset, curtagset, flip_seltags, h]
  · rw [k2]; cases h : s.seltags <;> simp [prevtagset, curtagset, flip_seltags, h]

/-- C8, as amended.  When the masks of `A` and `B` are not empty and differ
from each other, `view(A); view(B); viewprevtag()` all return and leave the
mask of `A` as the current tagset.  Every client of the focus stack is linked
in the spatial list. -/
theorem view_view_viewprevtag (env : Env) (A B : Option String) (s : State) (hl : Linked s)
    (hA : (bitoftag env A &&& TAGMASK env) ≠ 0) (hB : (bitoftag env B &&& TAGMASK env) ≠ 0)
    (hAB : (bitoftag env B &&& TAGMASK env) ≠ (bitoftag env A &&& TAGMASK env)) :
    ∃ s1 s2 s3, view env A s = some s1 ∧ view env B s1 = some s2 ∧
      viewprevtag env s2 = some s3 ∧ curtagset s3 = (bitoftag env A &&& TAGMASK env) := by
  obtain ⟨s1, h1, l1, v1⟩ := view_spec env A s hl
  obtain ⟨s2, h2, l2, v2⟩ := view_spec env B s1 l1
  obtain ⟨s3, h3, -, v3, -⟩ := viewprevtag_spec env s2 l2
  refine ⟨s1, s2, s3, h1, h2, h3, ?_⟩
  have c1 : curtagset s1 = (bitoftag env A &&& TAGMASK env) := by
    split_ifs at v1 with hc
    · exact v1.1
    · rw [v1.1]
      by_contra hne
      exact hc ⟨hne, hA⟩
  have hc2 : curtagset s1 ≠ (bitoftag env B &&& TAGMASK env) ∧
      (bitoftag env B &&& TAGMASK env) ≠ 0 := ⟨by rw [c1]; exact fun e => hAB e.symm, hB⟩
  rw [if_pos hc2] at v2
  rw [v3, v2.2, c1]

set_option maxRecDepth 100000 in
/-- Witness for amended C8: `view("2"); view("3"); viewprevtag()` on ten shells. -/
theorem view_view_viewprevtag_witness :
    Linked ten ∧ (bitoftag env0 (some "2") &&& TAGMASK env0) = 2 ∧
    (bitoftag env0 (some "3") &&& TAGMASK env0) = 4 ∧
    ∃ s1 s2 s3, view env0 (some "2") ten = some s1 ∧ view env0 (some "3") s1 = some s2 ∧
      viewprevtag env0 s2 = some s3 ∧
      curtagset s3 = (bitoftag env0 (some "2") &&& TAGMASK env0) :=
  have hl : Linked ten := fun p hp => by
    rw [show ten.stack = ten.clients from by decide] at hp
    exact hp
  ⟨hl, by decide, by decide,
    view_view_viewprevtag env0 (some "2") (some "3") ten hl (by decide) (by decide) (by decide)⟩

set_option maxRecDepth 100000 in
/-- Counterexample to C8 as stated: with `A = B = "2"` the second `view` changes
nothing, and `viewprevtag()` brings back the tagset of before `view(A)`:
from the launch tagset 1 the sequence ends on tagset 1, not on the mask 2 of `A`. -/
theorem view_twice_viewprevtag :
    (((view env0 (some "2") ten).bind (view env0 (some "2"))).bind (viewprevtag env0)).map
        curtagset = some 1 ∧
    (bitoftag env0 (some "2") &&& TAGMASK env0) = 2 := by
  decide

/-! ### `zoom` -/

theorem zoom_none_eq (env : Env) (s : State) (a c : Nat) (hsel : s.sel = some a)
    (hz : zoom_target s a = some c) :
    zoom env none s =
      (if s.minimized c = true
        then toggleminimize env (focus (some c) (attach c (detach c s)))
        else some (focus (some c) (attach c (detach c s)))).bind
        (fun s2 => some (arrange env s2)) := by
  unfold zoom
  simp only [hsel, Option.some_bind, hz, focus_minimized, attach_minimized, detach_minimized]

theorem zoom_none_of_target_none (env : Env) (s : State) (a : Nat) (hsel : s.sel = some a)
    (hz : zoom_target s a = none) : zoom env none s = some s := by
  unfold zoom
  simp only [hsel, Option.some_bind, hz]

/-- What `zoom()` does once the client `c` to promote is known: it returns,
`c` heads the spatial list, the others keep their order, and `c` is selected
when it is visible and either was not selected or was the first visible
client of the focus stack. -/
theorem zoom_promote (env : Env) (s : State) (a c : Nat) (hsel : s.sel = some a)
    (hz : zoom_target s a = some c) (hcv : isvisible s c = true)
    (htop : c = a → s.stack.find? (isvisible s) = some a) :
    ∃ s', zoom env none s = some s' ∧ s'.clients = c :: s.clients.erase c ∧
      s'.sel = some c ∧ s'.tags = s.tags ∧ curtagset s' = curtagset s ∧
      s'.minimized c = false ∧ (∀ d, d ≠ c → s'.minimized d = s.minimized d) := by
  rw [zoom_none_eq env s a c hsel hz]
  have hfind1 : (focus (some c) (attach c (detach c s))).stack.find? (isvisible s) = some c := by
    rw [focus_some_stack]
    split_ifs with h
    · have hca : c = a := by
        have h' : s.sel = some c := h
        rw [hsel] at h'
        exact (Option.some.inj h').symm
      rw [hca]
      exact htop hca
    · simp [List.find?, hcv]
  obtain ⟨s2, h2, hc2, hf2, ht2, hts2, hm2, hm2'⟩ : ∃ s2,
      (if s.minimized c = true
        then toggleminimize env (focus (some c) (attach c (detach c s)))
        else some (focus (some c) (attach c (detach c s)))) = some s2 ∧
      s2.clients = c :: s.clients.erase c ∧ s2.stack.find? (isvisible s) = some c ∧
      (s2.tags = s.tags ∧ s2.seltags = s.seltags ∧ s2.tagset0 = s.tagset0 ∧
        s2.tagset1 = s.tagset1) ∧ curtagset s2 = curtagset s ∧
      s2.minimized c = false ∧ (∀ d, d ≠ c → s2.minimized d = s.minimized d) := by
    split_ifs with hmin
    · refine ⟨_, toggleminimize_restore env _ c (by simp) (by simpa using hmin), ?_, ?_, ?_,
        ?_, ?_, ?_⟩
      · simp
      · have := arrange_stack_find env
          (attach c (detach c (flipmin c (focus (some c) (attach c (detach c s))))))
        simp only [isvisible_attach, isvisible_detach, isvisible_flipmin,
          isvisible_focus] at this
        rw [this]
        exact hfind1
      · simp
      · simp
      · simp [flipmin_minimized, hmin]
      · intro d hd
        simp [flipmin_minimized, upd_other _ _ _ _ hd]
    · refine ⟨_, rfl, by simp, hfind1, by simp, by simp, by simpa using hmin, ?_⟩
      intro d _
      simp
  rw [h2, Option.some_bind]
  have hv2 : isvisible s2 = isvisible s := isvisible_of_eq ht2.1 ht2.2.1 ht2.2.2.1 ht2.2.2.2
  refine ⟨_, rfl, by simp [hc2], ?_, by simp [ht2.1], by simp [hts2], by simp [hm2], ?_⟩
  · have hn : nextvisible s2 s2.clients = some c := by
      unfold nextvisible
      rw [hv2, hc2]
      simp [List.find?, hcv]
    rw [arrange_sel, hn, hv2, hf2]
    rfl
  · intro d hd
    simp [hm2' d hd]

/-- C7. With a selected client `a` and at least two visible clients, `zoom()`
returns; the spatial list keeps its clients; when `a` was not the first
visible client it is moved to the head, the others keeping their order, and
stays selected; when it was, the next visible client `c` is moved to the head
instead, the others (among them `a`) keeping their order, and `c` is selected.
In both cases the selected client is the head of the spatial list.  The state
is well formed: distinct clients, stacked clients linked, `sel` the first
visible client of the focus stack. -/
theorem zoom_spec (env : Env) (s : State) (a : Nat) (hnd : s.clients.Nodup) (hl : Linked s)
    (hsel : s.sel = some a) (htop : SelTop s) (htwo : 2 ≤ (visibleOf s s.clients).length) :
    ∃ s', zoom env none s = some s' ∧ s'.clients.Perm s.clients ∧
      s'.clients.head? = s'.sel ∧
      (nextvisible s s.clients ≠ some a →
        s'.clients = a :: s.clients.erase a ∧ s'.sel = some a) ∧
      (nextvisible s s.clients = some a →
        ∃ c, nextvisible s (after a s.clients) = some c ∧ c ≠ a ∧
          s'.clients = c :: s.clients.erase c ∧ s'.sel = some c) := by
  have hfa : s.stack.find? (isvisible s) = some a := htop a hsel
  have hav : isvisible s a = true := by simpa using List.find?_some hfa
  have hac : a ∈ s.clients := hl a (List.mem_of_find?_eq_some hfa)
  by_cases hfirst : nextvisible s s.clients = some a
  · have hV := visibleOf_eq_cons hfirst
    obtain ⟨c, hc⟩ : ∃ c, nextvisible s (after a s.clients) = some c := by
      rw [nextvisible_eq_head]
      cases hr : visibleOf s (after a s.clients) with
      | nil => rw [hV, hr] at htwo; simp at htwo
      | cons c l => exact ⟨c, rfl⟩
    obtain ⟨hcm, hcv⟩ := mem_of_nextvisible hc
    have hca : c ≠ a := fun e => not_mem_after_self hnd (e ▸ hcm)
    have hz : zoom_target s a = some c := by
      unfold zoom_target
      rw [if_pos hfirst, hc]
    obtain ⟨s', h1, h2, h3, -⟩ := zoom_promote env s a c hsel hz hcv (fun e => absurd e hca)
    refine ⟨s', h1, ?_, ?_, fun h => absurd hfirst h, fun _ => ⟨c, hc, hca, h2, h3⟩⟩
    · rw [h2]; exact (List.perm_cons_erase (mem_of_mem_after hcm)).symm
    · rw [h2, h3]; rfl
  · have hz : zoom_target s a = some a := by
      unfold zoom_target
      rw [if_neg hfirst]
    obtain ⟨s', h1, h2, h3, -⟩ := zoom_promote env s a a hsel hz hav (fun _ => hfa)
    refine ⟨s', h1, ?_, ?_, fun _ => ⟨h2, h3⟩, fun h => absurd h hfirst⟩
    · rw [h2]; exact (List.perm_cons_erase hac).symm
    · rw [h2, h3]; rfl

theorem linked_of_stack_perm_clients {s : State} (h : s.stack.Perm s.clients) : Linked s :=
  fun _ hp => h.mem_iff.mp hp

theorem seltop_of_find {s : State} (h : s.stack.find? (isvisible s) = s.sel) : SelTop s :=
  fun _ hp => by rw [h]; exact hp

set_option maxRecDepth 100000 in
/-- Witness for C7: three shells in the order 3, 2, 1 with the last one
selected; `zoom()` moves it to the head. -/
theorem zoom_spec_witness :
    (three_focused.clients.Nodup ∧ Linked three_focused ∧ three_focused.sel = some 1 ∧
      SelTop three_focused ∧ 2 ≤ (visibleOf three_focused three_focused.clients).length) ∧
    three_focused.clients = [3, 2, 1] ∧
    ∃ s', zoom env0 none three_focused = some s' ∧ s'.clients.Perm three_focused.clients ∧
      s'.clients.head? = s'.sel ∧
      (nextvisible three_focused three_focused.clients ≠ some 1 →
        s'.clients = 1 :: three_focused.clients.erase 1 ∧ s'.sel = some 1) ∧
      (nextvisible three_focused three_focused.clients = some 1 →
        ∃ c, nextvisible three_focused (after 1 three_focused.clients) = some c ∧ c ≠ 1 ∧
          s'.clients = c :: three_focused.clients.erase c ∧ s'.sel = some c) :=
  ⟨⟨by decide, linked_of_stack_perm_clients (by decide), by decide,
      seltop_of_find (by decide), by decide⟩, by decide,
    zoom_spec env0 three_focused 1 (by decide) (linked_of_stack_perm_clients (by decide))
      (by decide) (seltop_of_find (by decide)) (by decide)⟩

/-! ### Retagging the selected client -/

@[simp] theorem set_tags_clients (c v : Nat) (s : State) :
    (set_tags c v s).clients = s.clients := rfl
@[simp] theorem set_tags_stack (c v : Nat) (s : State) : (set_tags c v s).stack = s.stack := rfl
@[simp] theorem set_tags_sel (c v : Nat) (s : State) : (set_tags c v s).sel = s.sel := rfl
@[simp] theorem set_tags_tags (c v : Nat) (s : State) :
    (set_tags c v s).tags = upd s.tags c v := rfl
@[simp] theorem curtagset_set_tags (c v : Nat) (s : State) :
    curtagset (set_tags c v s) = curtagset s := rfl

/-- Retagging a visible client so that it stays visible changes nobody's visibility. -/
theorem isvisible_set_tags (c v : Nat) (s : State) (hc : isvisible s c = true)
    (hv : (v &&& curtagset s) ≠ 0) : isvisible (set_tags c v s) = isvisible s := by
  funext d
  by_cases hd : d = c
  · subst hd
    rw [hc]
    simp [isvisible, hv]
  · simp [isvisible, upd_other _ _ _ _ hd]

/-- After `tagschanged()` on a state whose stacked clients are linked, the
state is well formed again. -/
theorem tagschanged_wf {env : Env} {s s' : State} (hl : Linked s)
    (h : tagschanged env s = some s') :
    Linked s' ∧ SelTop s' ∧ s'.tags = s.tags ∧ curtagset s' = curtagset s ∧
      s'.clients.Perm s.clients ∧
      s'.sel = (if (nextvisible s s.clients).isSome then s.stack.find? (isvisible s)
                else none) := by
  obtain ⟨t, ht, ⟨t1, t2, t3, t4⟩, hc, hs, hf, hsel⟩ := tagschanged_spec env s hl
  rw [ht] at h
  cases h
  have hv : isvisible s' = isvisible s := isvisible_of_eq t1 t2 t3 t4
  refine ⟨linked_of_perm hc hs hl, ?_, t1, by simp [curtagset, t2, t3, t4], hc, hsel⟩
  intro p hp
  rw [hv, hf]
  rw [hsel] at hp
  split_ifs at hp
  exact hp

/-- `tagschanged()` after retagging the selected client `c` so that it stays
visible: `c` stays selected. -/
theorem tagschanged_set_tags (env : Env) (s : State) (c v : Nat) (hl : Linked s)
    (hsel : s.sel = some c) (htop : SelTop s) (hv : (v &&& curtagset s) ≠ 0) :
    ∃ s', tagschanged env (set_tags c v s) = some s' ∧ Linked s' ∧ SelTop s' ∧
      s'.sel = some c ∧ s'.tags = upd s.tags c v ∧ curtagset s' = curtagset s ∧
      s'.clients.Perm s.clients := by
  have hfa : s.stack.find? (isvisible s) = some c := htop c hsel
  have hcv : isvisible s c = true := by simpa using List.find?_some hfa
  have hcc : c ∈ s.clients := hl c (List.mem_of_find?_eq_some hfa)
  have hl' : Linked (set_tags c v s) := hl
  obtain ⟨s', hs', -⟩ := tagschanged_spec env _ hl'
  obtain ⟨k1, k2, k3, k4, k5, k6⟩ := tagschanged_wf hl' hs'
  refine ⟨s', hs', k1, k2, ?_, k3, k4, k5⟩
  rw [k6]
  have hvis := isvisible_set_tags c v s hcv hv
  have hn : (nextvisible (set_tags c v s) (set_tags c v s).clients).isSome = true := by
    unfold nextvisible
    rw [List.find?_isSome]
    exact ⟨c, hcc, by rw [hvis]; exact hcv⟩
  rw [if_pos hn, hvis]
  exact hfa

/-- C9, as amended.  With a selected client `c`, when the mask produced by the
first `toggletag(X)` is not zero and still meets the current tagset (so that
`c` stays visible and selected), `toggletag(X); toggletag(X)` both return and
leave the tag mask of `c` as it was.  The state is well formed: stacked
clients are linked and `sel` is the first visible client of the focus stack. -/
theorem toggletag_twice (env : Env) (X : Option String) (s : State) (c : Nat)
    (hl : Linked s) (hsel : s.sel = some c) (htop : SelTop s)
    (hnz : (s.tags c ^^^ (bitoftag env X &&& TAGMASK env)) ≠ 0)
    (hvis : ((s.tags c ^^^ (bitoftag env X &&& TAGMASK env)) &&& curtagset s) ≠ 0) :
    ∃ s1 s2, toggletag env X s = some s1 ∧ toggletag env X s1 = some s2 ∧
      s1.tags c = (s.tags c ^^^ (bitoftag env X &&& TAGMASK env)) ∧
      s2.tags c = s.tags c := by
  have hfa : s.stack.find? (isvisible s) = some c := htop c hsel
  have hcv : isvisible s c = true := by simpa using List.find?_some hfa
  have ht0 : s.tags c ≠ 0 := by
    intro h0
    simp [isvisible, h0] at hcv
  obtain ⟨s1, h1, l1, st1, sel1, tg1, ct1, -⟩ :=
    tagschanged_set_tags env s c _ hl hsel htop hvis
  have htc1 : s1.tags c = (s.tags c ^^^ (bitoftag env X &&& TAGMASK env)) := by
    rw [tg1, upd_same]
  have hback : (s1.tags c ^^^ (bitoftag env X &&& TAGMASK env)) = s.tags c := by
    rw [htc1, Nat.xor_cancel_right]
  have hvis2 : (s.tags c &&& curtagset s1) ≠ 0 := by
    rw [ct1]
    simpa [isvisible] using hcv
  obtain ⟨s2, h2, -, -, -, tg2, -, -⟩ :=
    tagschanged_set_tags env s1 c (s.tags c) l1 sel1 st1 hvis2
  refine ⟨s1, s2, ?_, ?_, htc1, ?_⟩
  · unfold toggletag
    simp only [hsel, if_pos hnz]
    exact h1
  · unfold toggletag
    simp only [sel1, hback, if_pos ht0]
    exact h2
  · rw [tg2, upd_same]

set_option maxRecDepth 100000 in
/-- Witness for amended C9: `toggletag("2")` twice on the selected client of `ten`. -/
theorem toggletag_twice_witness :
    (Linked ten ∧ ten.sel = some 10 ∧ SelTop ten ∧
      (ten.tags 10 ^^^ (bitoftag env0 (some "2") &&& TAGMASK env0)) ≠ 0 ∧
      ((ten.tags 10 ^^^ (bitoftag env0 (some "2") &&& TAGMASK env0)) &&& curtagset ten) ≠ 0) ∧
    ∃ s1 s2, toggletag env0 (some "2") ten = some s1 ∧ toggletag env0 (some "2") s1 = some s2 ∧
      s1.tags 10 = (ten.tags 10 ^^^ (bitoftag env0 (some "2") &&& TAGMASK env0)) ∧
      s2.tags 10 = ten.tags 10 :=
  ⟨⟨linked_of_stack_perm_clients (by decide), by decide, seltop_of_find (by decide),
      by decide, by decide⟩,
    toggletag_twice env0 (some "2") ten 10 (linked_of_stack_perm_clients (by decide))
      (by decide) (seltop_of_find (by decide)) (by decide) (by decide)⟩

set_option maxRecDepth 100000 in
/-- Counterexample to C9 as stated: the selected client of `ten_tagged` has
the tags "1" and "2" while tag "1" is viewed.  The first `toggletag("1")`
leaves it the non-zero mask 2, which hides it, so another client is selected
and the second `toggletag("1")` does not act on it: its mask ends as 2, not 3. -/
theorem toggletag_twice_hidden :
    ten_tagged.sel = some 10 ∧ ten_tagged.tags 10 = 3 ∧
    (ten_tagged.tags 10 ^^^ (bitoftag env0 (some "1") &&& TAGMASK env0)) = 2 ∧
    ((toggletag env0 (some "1") ten_tagged).bind (toggletag env0 (some "1"))).map
        (fun t => t.tags 10) = some 2 := by
  decide

/-! ### `tag` followed by `zoom` -/

/-- For a configured tag the mask `bitoftag(X) & TAGMASK` is `bitoftag(X)`
(fewer than 32 tags, so that `1 << countof(tags)` is defined). -/
theorem bitoftag_and_TAGMASK (env : Env) (X : String) (hX : X ∈ env.tags)
    (hcfg : env.tags.length < 32) :
    (bitoftag env (some X) &&& TAGMASK env) = bitoftag env (some X) := by
  have hi : env.tags.indexOf X < env.tags.length := List.indexOf_lt_length.mpr hX
  have hp : 2 ^ env.tags.length < U32 := Nat.pow_lt_pow_right (by norm_num) hcfg
  have hpi : 2 ^ env.tags.indexOf X < 2 ^ env.tags.length :=
    Nat.pow_lt_pow_right (by norm_num) hi
  have hm : TAGMASK env = 2 ^ env.tags.length - 1 := by
    unfold TAGMASK
    exact Nat.mod_eq_of_lt (Nat.lt_of_le_of_lt (Nat.sub_le _ _) hp)
  have hb : bitoftag env (some X) = 2 ^ env.tags.indexOf X := by
    unfold bitoftag
    simp only [if_pos hi]
    exact Nat.mod_eq_of_lt (Nat.lt_trans hpi hp)
  rw [hm, hb, Nat.and_pow_two_sub_one_eq_mod, Nat.mod_eq_of_lt hpi]

theorem tag_eq (env : Env) (arg : Option String) (s : State) (c : Nat) (hsel : s.sel = some c) :
    tag env arg s = tagschanged env (set_tags c (bitoftag env arg &&& TAGMASK env) s) := by
  unfold tag
  simp only [hsel]

/-- `zoom()` on a well-formed state returns and leaves every tag mask alone. -/
theorem zoom_total (env : Env) (s : State) (htop : SelTop s) :
    ∃ s', zoom env none s = some s' ∧ s'.tags = s.tags ∧
      (∀ c, s.sel = some c → nextvisible s s.clients ≠ some c → s'.clients.head? = some c) := by
  cases hsel : s.sel with
  | none =>
    refine ⟨s, ?_, rfl, fun c h => by cases h⟩
    unfold zoom
    rw [hsel]
  | some a =>
    have hfa : s.stack.find? (isvisible s) = some a := htop a hsel
    have hav : isvisible s a = true := by simpa using List.find?_some hfa
    cases hz : zoom_target s a with
    | none =>
      refine ⟨s, zoom_none_of_target_none env s a hsel hz, rfl, ?_⟩
      intro c hc hn
      cases hc
      unfold zoom_target at hz
      rw [if_neg hn] at hz
      cases hz
    | some c =>
      have hcv : isvisible s c = true := by
        unfold zoom_target at hz
        split_ifs at hz
        · exact (mem_of_nextvisible hz).2
        · cases hz; exact hav
      obtain ⟨s', h1, h2, -, h4, -⟩ := zoom_promote env s a c hsel hz hcv (fun _ => hfa)
      refine ⟨s', h1, h4, ?_⟩
      intro d hd hn
      cases hd
      unfold zoom_target at hz
      rw [if_neg hn] at hz
      cases hz
      rw [h2]
      rfl

/-- C10, as amended.  With a selected client `c` and a configured tag `X`,
`tag(X); zoom()` both return and leave `c` with `tags == bitoftag(X)`.  The
client `c` is the head of the spatial list afterwards when, after `tag(X)`, it
is still selected and is not the first visible client; it is still selected
whenever `X` is in the current tagset.  The state is well formed (stacked
clients linked, `sel` the first visible client of the focus stack) and fewer
than 32 tags are configured. -/
theorem tag_zoom (env : Env) (X : String) (s : State) (c : Nat) (hl : Linked s)
    (hsel : s.sel = some c) (htop : SelTop s) (hX : X ∈ env.tags)
    (hcfg : env.tags.length < 32) :
    ∃ s1 s2, tag env (some X) s = some s1 ∧ zoom env none s1 = some s2 ∧
      s2.tags c = bitoftag env (some X) ∧
      (s1.sel = some c → nextvisible s1 s1.clients ≠ some c → s2.clients.head? = some c) ∧
      ((bitoftag env (some X) &&& curtagset s) ≠ 0 → s1.sel = some c) := by
  have hmask := bitoftag_and_TAGMASK env X hX hcfg
  have hl' : Linked (set_tags c (bitoftag env (some X) &&& TAGMASK env) s) := hl
  obtain ⟨s1, h1, -⟩ := tagschanged_spec env _ hl'
  obtain ⟨l1, st1, tg1, -, -, -⟩ := tagschanged_wf hl' h1
  obtain ⟨s2, h2, tg2, hhead⟩ := zoom_total env s1 st1
  refine ⟨s1, s2, ?_, h2, ?_, hhead c, ?_⟩
  · rw [tag_eq env (some X) s c hsel]
    exact h1
  · rw [tg2, tg1, set_tags_tags, upd_same, hmask]
  · intro hv
    obtain ⟨s1', h1', -, -, sel1, -⟩ :=
      tagschanged_set_tags env s c (bitoftag env (some X) &&& TAGMASK env) hl hsel htop
        (by rw [hmask]; exact hv)
    rw [h1] at h1'
    cases h1'
    exact sel1

set_option maxRecDepth 100000 in
/-- Witness for amended C10: three shells in the order 3, 2, 1 with the last
one selected; `tag("1"); zoom()` leaves it on tag "1" and at the head. -/
theorem tag_zoom_witness :
    (Linked three_focused ∧ three_focused.sel = some 1 ∧ SelTop three_focused ∧
      "1" ∈ env0.tags ∧ env0.tags.length < 32) ∧
    ∃ s1 s2, tag env0 (some "1") three_focused = some s1 ∧ zoom env0 none s1 = some s2 ∧
      s2.tags 1 = bitoftag env0 (some "1") ∧
      (s1.sel = some 1 → nextvisible s1 s1.clients ≠ some 1 → s2.clients.head? = some 1) ∧
      ((bitoftag env0 (some "1") &&& curtagset three_focused) ≠ 0 → s1.sel = some 1) :=
  ⟨⟨linked_of_stack_perm_clients (by decide), by decide, seltop_of_find (by decide),
      by decide, by decide⟩,
    tag_zoom env0 "1" three_focused 1 (linked_of_stack_perm_clients (by decide)) (by decide)
      (seltop_of_find (by decide)) (by decide) (by decide)⟩

set_option maxRecDepth 100000 in
/-- Counterexample to C10 as stated, on `ten`, whose selected client, at
address 10, is the head of the spatial list.  After `tag("1"); zoom()` it has
the tags of "1" but `zoom` has promoted the next client, at address 9, over
it.  After `tag("2"); zoom()` it has the tags of "2", is hidden under the
current tagset, and `zoom` has acted on the clients at 9 and 8 instead. -/
theorem tag_zoom_not_head :
    ten.sel = some 10 ∧
    ((tag env0 (some "1") ten).bind (zoom env0 none)).map
        (fun t => (t.clients.head?, t.tags 10)) = some (some 9, bitoftag env0 (some "1")) ∧
    ((tag env0 (some "2") ten).bind (zoom env0 none)).map
        (fun t => (t.clients.head?, t.tags 10)) = some (some 8, bitoftag env0 (some "2")) := by
  decide

/-! ### Sequences: `after` and `insertAfter` under `filter` -/

theorem filter_after {p : Nat → Bool} {c : Nat} (l : List Nat) (h : p c = true) :
    (after c l).filter p = after c (l.filter p) := by
  induction l with
  | nil => rfl
  | cons d l ih =>
    by_cases hdc : d = c
    · subst hdc
      simp [after, List.filter, h]
    · by_cases hd : p d = true
      · simp [after, List.filter, hd, hdc, ih]
      · have hd' : p d = false := by simpa using hd
        simp [after, List.filter, hd', hdc, ih]

theorem filter_insertAfter {p : Nat → Bool} {a m : Nat} (l : List Nat) (ha : p a = true)
    (hm : p m = true) : (insertAfter a m l).filter p = insertAfter a m (l.filter p) := by
  induction l with
  | nil => rfl
  | cons d l ih =>
    by_cases hda : d = a
    · subst hda
      simp [insertAfter, List.filter, ha, hm]
    · by_cases hd : p d = true
      · simp [insertAfter, List.filter, hd, hda, ih]
      · have hd' : p d = false := by simpa using hd
        simp [insertAfter, List.filter, hd', hda, ih]

theorem after_insertAfter {a : Nat} (m : Nat) {l : List Nat} (h : a ∈ l) :
    after a (insertAfter a m l) = m :: after a l := by
  induction l with
  | nil => simp at h
  | cons d l ih =>
    by_cases hda : d = a
    · subst hda
      simp [insertAfter, after]
    · have ha : a ∈ l := by
        rcases List.mem_cons.mp h with e | e
        · exact absurd e.symm hda
        · exact e
      simp [insertAfter, after, hda, ih ha]

theorem pairwise_after {R : Nat → Nat → Prop} {l : List Nat} {x y : Nat}
    (h : l.Pairwise R) (hy : y ∈ after x l) : R x y := by
  induction l with
  | nil => simp [after] at hy
  | cons d l ih =>
    simp only [after] at hy
    split_ifs at hy with hd
    · subst hd
      exact (List.pairwise_cons.mp h).1 y hy
    · exact ih (List.pairwise_cons.mp h).2 hy

/-- A sequence of clients that are not minimized followed by minimized ones
has no minimized client before one that is not. -/
theorem pairwise_append_of_split (μ : Nat → Bool) (N M : List Nat)
    (hN : ∀ x ∈ N, μ x = false) (hM : ∀ y ∈ M, μ y = true) :
    (N ++ M).Pairwise (fun a b => μ a = true → μ b = true) := by
  rw [List.pairwise_append]
  refine ⟨?_, ?_, ?_⟩
  · exact List.Pairwise.imp_of_mem (R := fun _ _ => True)
      (fun {a b} ha _ _ hx => by rw [hN a ha] at hx; cases hx)
      (List.pairwise_of_forall (fun _ _ => trivial))
  · exact List.Pairwise.imp_of_mem (R := fun _ _ => True)
      (fun {a b} _ hb _ _ => hM b hb)
      (List.pairwise_of_forall (fun _ _ => trivial))
  · intro a ha b _ hx
    rw [hN a ha] at hx
    cases hx

/-! ### Putting a newly minimized client back -/

/-- The client found by the loop of `toggleminimize` ends the leading run of
clients that are not minimized, and the newly minimized client goes right
after that run. -/
theorem insert_lastnm (x : State) (m f : Nat) (t : List Nat) (hnd : (f :: t).Nodup)
    (hf : x.minimized f = false)
    (hpw : (f :: t).Pairwise (fun a b => x.minimized a = true → x.minimized b = true)) :
    ∃ N M, f :: t = N ++ M ∧ insertAfter (lastnm x f t) m (f :: t) = N ++ m :: M ∧
      (∀ y ∈ N, x.minimized y = false) ∧ (∀ y ∈ M, x.minimized y = true) ∧
      lastnm x f t ∈ N := by
  induction t generalizing f with
  | nil =>
    refine ⟨[f], [], rfl, ?_, ?_, ?_, ?_⟩
    · simp [lastnm, insertAfter]
    · intro y hy
      rw [List.mem_singleton.mp hy]; exact hf
    · intro y hy; cases hy
    · simp [lastnm]
  | cons t0 ts ih =>
    have hpw' := (List.pairwise_cons.mp hpw).2
    cases h0 : x.minimized t0 with
    | true =>
      refine ⟨[f], t0 :: ts, rfl, ?_, ?_, ?_, ?_⟩
      · simp [lastnm, h0, insertAfter]
      · intro y hy
        rw [List.mem_singleton.mp hy]; exact hf
      · intro y hy
        rcases List.mem_cons.mp hy with e | e
        · rw [e]; exact h0
        · exact (List.pairwise_cons.mp hpw').1 y e h0
      · simp [lastnm, h0]
    | false =>
      obtain ⟨N, M, e1, e2, hN, hM, ha⟩ := ih t0 (List.nodup_cons.mp hnd).2 h0 hpw'
      have hmem : lastnm x t0 ts ∈ t0 :: ts := lastnm_mem x t0 ts
      have hne : f ≠ lastnm x t0 ts := fun e => (List.nodup_cons.mp hnd).1 (e ▸ hmem)
      have hl : lastnm x f (t0 :: ts) = lastnm x t0 ts := by simp [lastnm, h0]
      refine ⟨f :: N, M, by rw [e1]; rfl, ?_, ?_, hM, ?_⟩
      · rw [hl, show insertAfter (lastnm x t0 ts) m (f :: t0 :: ts)
            = f :: insertAfter (lastnm x t0 ts) m (t0 :: ts) from if_neg hne, e2]
        rfl
      · intro y hy
        rcases List.mem_cons.mp hy with e | e
        · rw [e]; exact hf
        · exact hN y e
      · rw [hl]
        exact List.mem_cons_of_mem _ ha

@[simp] theorem attachafter_clients_of_ne (m a : Nat) (x : State) (h : a ≠ m) :
    (attachafter m (some a) x).clients = insertAfter a m x.clients :=
  attachafter_some_clients m a x h

/-- Linking the newly minimized client `m` after the client `a` that the loop
of `toggleminimize` finds keeps the minimized clients last, and puts `m` right
after `a`, which is visible and not minimized. -/
theorem reinsert_spec (x : State) (m f : Nat) (t : List Nat) (hnd : x.clients.Nodup)
    (hm : m ∉ x.clients) (hmv : isvisible x m = true) (hmm : x.minimized m = true)
    (hV : visibleOf x x.clients = f :: t) (hf : x.minimized f = false) (hpw : MinLast x) :
    (attachafter m (some (lastnm x f t)) x).clients.Perm (m :: x.clients) ∧
    MinLast (attachafter m (some (lastnm x f t)) x) ∧
    isvisible x (lastnm x f t) = true ∧ x.minimized (lastnm x f t) = false ∧
    (after (lastnm x f t) (attachafter m (some (lastnm x f t)) x).clients).head? = some m := by
  have hVnd : (f :: t).Nodup := by rw [← hV]; exact hnd.filter _
  have hpw' : (f :: t).Pairwise (fun a b => x.minimized a = true → x.minimized b = true) := by
    rw [← hV]; exact hpw
  obtain ⟨N, M, e1, e2, hN, hM, haN⟩ := insert_lastnm x m f t hVnd hf hpw'
  have hav : lastnm x f t ∈ visibleOf x x.clients := by
    rw [hV]; exact lastnm_mem x f t
  have hac : lastnm x f t ∈ x.clients := List.mem_of_mem_filter hav
  have hap : isvisible x (lastnm x f t) = true := (List.mem_filter.mp hav).2
  have ham : lastnm x f t ≠ m := fun e => hm (e ▸ hac)
  have hcl := attachafter_some_clients m (lastnm x f t) x ham
  refine ⟨?_, ?_, hap, hN _ haN, ?_⟩
  · rw [hcl]; exact insertAfter_perm m hac
  · unfold MinLast visibleOf
    rw [isvisible_attachafter, attachafter_minimized, hcl, filter_insertAfter _ hap hmv]
    have hV' : x.clients.filter (isvisible x) = f :: t := hV
    rw [hV', e2]
    apply pairwise_append_of_split x.minimized N (m :: M) hN
    intro y hy
    rcases List.mem_cons.mp hy with e | e
    · rw [e]; exact hmm
    · exact hM y e
  · rw [hcl, after_insertAfter m hac]
    rfl

/-! ### `toggleminimize` keeps the minimized clients last -/

theorem toggleminimize_other (env : Env) (s s2 : State) (m : Nat) (hsel : s.sel = some m)
    (hmin : s.minimized m = false)
    (hone : ((visibleOf s s.clients).filter (fun c => !s.minimized c)).length ≠ 1)
    (hfirst : nextvisible s s.clients ≠ some m)
    (hf : focusnextnm (flipmin m s) = some s2) :
    toggleminimize env s =
      some (arrange env (attachafter m (lastnm_from (detach m s2)) (detach m s2))) := by
  unfold toggleminimize
  simp only [hsel, hmin, hone, and_false, if_false]
  have h1 : ¬ (nextvisible (flipmin m s) (flipmin m s).clients = some m ∧
      (flipmin m s).minimized m = true) := by
    intro h
    apply hfirst
    simpa [nextvisible] using h.1
  have h2 : (flipmin m s).minimized m = true := by simp [flipmin_minimized, hmin]
  simp only [if_neg h1, if_pos h2, hf]

/-- With the minimized clients last, a visible client that is not minimized
makes the first visible client one that is not minimized. -/
theorem head_not_minimized {μ : Nat → Bool} {f d : Nat} {t : List Nat}
    (hpw : (f :: t).Pairwise (fun a b => μ a = true → μ b = true))
    (hd : d ∈ f :: t) (hdm : μ d = false) : μ f = false := by
  cases hf : μ f with
  | false => rfl
  | true =>
    rcases List.mem_cons.mp hd with e | e
    · rw [e, hf] at hdm; cases hdm
    · have := (List.pairwise_cons.mp hpw).1 d e hf
      rw [this] at hdm; cases hdm

theorem pairwise_upd_of_not_mem {μ : Nat → Bool} {m : Nat} {l : List Nat} (b : Bool)
    (hm : m ∉ l) (hpw : l.Pairwise (fun a b => μ a = true → μ b = true)) :
    l.Pairwise (fun a c => upd μ m b a = true → upd μ m b c = true) := by
  apply List.Pairwise.imp_of_mem _ hpw
  intro a c ha hc h
  have ha' : a ≠ m := fun e => hm (e ▸ ha)
  have hc' : c ≠ m := fun e => hm (e ▸ hc)
  rw [upd_other _ _ _ _ ha', upd_other _ _ _ _ hc']
  exact h

/-- The branch of `toggleminimize` for a selected client `m` that is visible,
not minimized, not the only such client and not the first visible one. -/
theorem toggleminimize_other_spec (env : Env) (s : State) (m : Nat) (hnd : s.clients.Nodup)
    (hsel : s.sel = some m) (hmc : m ∈ s.clients) (hmv : isvisible s m = true)
    (hml : MinLast s) (hmin : s.minimized m = false)
    (hone : ((visibleOf s s.clients).filter (fun c => !s.minimized c)).length ≠ 1)
    (hfirst : nextvisible s s.clients ≠ some m) :
    ∃ a X, toggleminimize env s = some (arrange env X) ∧ X.clients.Perm s.clients ∧
      MinLast X ∧ X.minimized = upd s.minimized m true ∧ isvisible X = isvisible s ∧
      isvisible s a = true ∧ a ≠ m ∧ s.minimized a = false ∧
      (after a X.clients).head? = some m ∧ nextvisible s X.clients = nextvisible s s.clients := by
  obtain ⟨c1, hf, -, -, -⟩ := focusnextnm_visible (flipmin m s) m (by simpa using hsel)
    (by simpa using hmc) (by simpa using hmv)
  rw [toggleminimize_other env s _ m hsel hmin hone hfirst hf]
  -- the visible clients, and the first of them
  have hmV : m ∈ visibleOf s s.clients := List.mem_filter.mpr ⟨hmc, hmv⟩
  cases hV : visibleOf s s.clients with
  | nil => rw [hV] at hmV; cases hmV
  | cons f r =>
    have hnf : nextvisible s s.clients = some f := by
      rw [nextvisible_eq_head, hV]; rfl
    have hfm : f ≠ m := fun e => hfirst (e ▸ hnf)
    have hpw : (f :: r).Pairwise (fun a b => s.minimized a = true → s.minimized b = true) := by
      rw [← hV]; exact hml
    have hfnm : s.minimized f = false := head_not_minimized hpw (hV ▸ hmV) hmin
    have hmr : m ∈ r := by
      rw [hV] at hmV
      rcases List.mem_cons.mp hmV with e | e
      · exact absurd e.symm hfm
      · exact e
    -- the state after `detach(m)`
    have hxc : (detach m (focus (some c1) (flipmin m s))).clients = s.clients.erase m := by simp
    have hxv : isvisible (detach m (focus (some c1) (flipmin m s))) = isvisible s := by simp
    have hxm : (detach m (focus (some c1) (flipmin m s))).minimized = upd s.minimized m true := by
      simp [flipmin_minimized, hmin]
    have hxV : visibleOf (detach m (focus (some c1) (flipmin m s)))
        (detach m (focus (some c1) (flipmin m s))).clients = f :: r.erase m := by
      unfold visibleOf
      rw [hxv, hxc, filter_erase_of_pos _ hmv]
      have : s.clients.filter (isvisible s) = f :: r := hV
      rw [this, List.erase_cons_tail (by simpa using hfm)]
    have hfrom : lastnm_from (detach m (focus (some c1) (flipmin m s)))
        = some (lastnm (detach m (focus (some c1) (flipmin m s))) f (r.erase m)) := by
      have hn : nextvisible (detach m (focus (some c1) (flipmin m s)))
          (detach m (focus (some c1) (flipmin m s))).clients = some f := by
        rw [nextvisible_eq_head, hxV]; rfl
      unfold lastnm_from
      rw [hn]
      simp only []
      have hfv : isvisible (detach m (focus (some c1) (flipmin m s))) f = true :=
        (mem_of_nextvisible hn).2
      have : visibleOf (detach m (focus (some c1) (flipmin m s)))
          (after f (detach m (focus (some c1) (flipmin m s))).clients) = r.erase m := by
        unfold visibleOf
        rw [filter_after _ hfv]
        have h' : (detach m (focus (some c1) (flipmin m s))).clients.filter
            (isvisible (detach m (focus (some c1) (flipmin m s)))) = f :: r.erase m := hxV
        rw [h']
        simp [after]
      rw [this]
    rw [hfrom]
    have hnd' : (detach m (focus (some c1) (flipmin m s))).clients.Nodup := by
      rw [hxc]; exact hnd.erase m
    have hmnot : m ∉ (detach m (focus (some c1) (flipmin m s))).clients := by
      rw [hxc]; exact fun h => (hnd.mem_erase_iff.mp h).1 rfl
    have hmnotV : m ∉ f :: r.erase m := by
      intro h
      have : m ∈ visibleOf (detach m (focus (some c1) (flipmin m s)))
          (detach m (focus (some c1) (flipmin m s))).clients := by rw [hxV]; exact h
      exact hmnot (List.mem_of_mem_filter this)
    have hml' : MinLast (detach m (focus (some c1) (flipmin m s))) := by
      unfold MinLast
      rw [hxV, hxm]
      apply pairwise_upd_of_not_mem true hmnotV
      exact hpw.sublist ((List.erase_sublist m r).cons₂ f)
    obtain ⟨k1, k2, k3, k4, k5⟩ := reinsert_spec (detach m (focus (some c1) (flipmin m s))) m f
      (r.erase m) hnd' hmnot (by rw [hxv]; exact hmv) (by rw [hxm, upd_same]) hxV
      (by rw [hxm, upd_other _ _ _ _ hfm]; exact hfnm) hml'
    have ham : lastnm (detach m (focus (some c1) (flipmin m s))) f (r.erase m) ≠ m := by
      intro e
      have hmem := lastnm_mem (detach m (focus (some c1) (flipmin m s))) f (r.erase m)
      rw [e] at hmem
      exact hmnotV hmem
    refine ⟨_, _, rfl, ?_, k2, ?_, ?_, ?_, ham, ?_, k5, ?_⟩
    · exact k1.trans (by rw [hxc]; exact (List.perm_cons_erase hmc).symm)
    · rw [attachafter_minimized, hxm]
    · rw [isvisible_attachafter, hxv]
    · rw [← hxv]; exact k3
    · rw [hxm, upd_other _ _ _ _ ham] at k4; exact k4
    · rw [nextvisible_eq_head, nextvisible_eq_head]
      unfold visibleOf
      rw [attachafter_some_clients _ _ _ ham,
        filter_insertAfter _ (by rw [← hxv]; exact k3) hmv, hxc, filter_erase_of_pos _ hmv]
      have : s.clients.filter (isvisible s) = f :: r := hV
      rw [this, List.erase_cons_tail (by simpa using hfm)]
      simp only [insertAfter]
      split_ifs <;> rfl

theorem head_insertAfter (a m f : Nat) (l : List Nat) :
    (insertAfter a m (f :: l)).head? = some f := by
  simp only [insertAfter]
  split_ifs <;> rfl

/-- The branch of `toggleminimize` for a selected client `m` that is the first
visible client, is not minimized and is not the only such client. -/
theorem toggleminimize_master_spec (env : Env) (s : State) (m : Nat) (hnd : s.clients.Nodup)
    (hsel : s.sel = some m) (hml : MinLast s) (hmin : s.minimized m = false)
    (hone : ((visibleOf s s.clients).filter (fun c => !s.minimized c)).length ≠ 1)
    (hfirst : nextvisible s s.clients = some m) :
    ∃ c a X, nextvisible s (after m s.clients) = some c ∧
      toggleminimize env s = some (arrange env X) ∧ X.clients.Perm s.clients ∧
      MinLast X ∧ X.minimized = upd s.minimized m true ∧ isvisible X = isvisible s ∧
      isvisible s a = true ∧ a ≠ m ∧ s.minimized a = false ∧
      (after a X.clients).head? = some m ∧ X.clients.head? = some c := by
  obtain ⟨hmc, hmv⟩ := mem_of_nextvisible hfirst
  have hV := visibleOf_eq_cons hfirst
  have hne : visibleOf s (after m s.clients) ≠ [] := by
    intro h0
    apply hone
    rw [hV, h0]
    simp [List.filter, hmin]
  obtain ⟨c, hc⟩ : ∃ c, nextvisible s (after m s.clients) = some c := by
    rw [nextvisible_eq_head]
    cases hl : visibleOf s (after m s.clients) with
    | nil => exact absurd hl hne
    | cons c l => exact ⟨c, rfl⟩
  have hV1 := visibleOf_eq_cons hc
  obtain ⟨hcm1, hcv⟩ := mem_of_nextvisible hc
  have hcm : c ≠ m := fun e => not_mem_after_self hnd (e ▸ hcm1)
  have hcc : c ∈ s.clients := mem_of_mem_after hcm1
  generalize hr : visibleOf s (after c (after m s.clients)) = r at hV1
  rw [hV1] at hV
  have hVf : s.clients.filter (isvisible s) = m :: c :: r := hV
  have hpw : (m :: c :: r).Pairwise
      (fun a b => s.minimized a = true → s.minimized b = true) := by
    rw [← hV]; exact hml
  have hpw1 := (List.pairwise_cons.mp hpw).2
  have hVnd : (m :: c :: r).Nodup := by rw [← hV]; exact hnd.filter _
  have hmnotV : m ∉ c :: r := (List.nodup_cons.mp hVnd).1
  -- `c` is not minimized
  have hcnm : s.minimized c = false := by
    cases hcmin : s.minimized c with
    | false => rfl
    | true =>
      exfalso
      apply hone
      rw [hV]
      have hall : ∀ d ∈ r, s.minimized d = true :=
        fun d hd => (List.pairwise_cons.mp hpw1).1 d hd hcmin
      have : r.filter (fun c => !s.minimized c) = [] := by
        rw [List.filter_eq_nil_iff]
        intro d hd
        simp [hall d hd]
      simp [List.filter, hmin, hcmin, this]
  rw [toggleminimize_master env s m c hsel hmin hone hfirst hc]
  -- the state after `detach(m)`
  have hxc : (detach m (focus (some c) (attach c (detach c (flipmin m s))))).clients
      = c :: (s.clients.erase c).erase m := by
    simp [List.erase_cons_tail, hcm]
  have hxv : isvisible (detach m (focus (some c) (attach c (detach c (flipmin m s)))))
      = isvisible s := by simp
  have hxm : (detach m (focus (some c) (attach c (detach c (flipmin m s))))).minimized
      = upd s.minimized m true := by
    simp [flipmin_minimized, hmin]
  have hrest : ((s.clients.erase c).erase m).filter (isvisible s) = r := by
    rw [filter_erase_of_pos _ hmv, filter_erase_of_pos _ hcv, hVf,
      List.erase_cons_tail (by simpa using fun e => hcm e.symm), List.erase_cons_head,
      List.erase_cons_head]
  have hxV : visibleOf (detach m (focus (some c) (attach c (detach c (flipmin m s)))))
      (detach m (focus (some c) (attach c (detach c (flipmin m s))))).clients = c :: r := by
    unfold visibleOf
    rw [hxv, hxc]
    simp [List.filter, hcv, hrest]
  have harg : visibleOf s (after c (detach m (focus (some c)
      (attach c (detach c (flipmin m s))))).clients) = r := by
    rw [hxc]
    simp only [after, if_true]
    exact hrest
  rw [harg]
  have hnd' : (detach m (focus (some c) (attach c (detach c (flipmin m s))))).clients.Nodup := by
    rw [hxc]
    refine List.nodup_cons.mpr ⟨?_, (hnd.erase c).erase m⟩
    intro h
    exact (hnd.mem_erase_iff.mp (List.mem_of_mem_erase h)).1 rfl
  have hmnot : m ∉ (detach m (focus (some c) (attach c (detach c (flipmin m s))))).clients := by
    rw [hxc]
    simp only [List.mem_cons, not_or]
    exact ⟨fun e => hcm e.symm, fun h => ((hnd.erase c).mem_erase_iff.mp h).1 rfl⟩
  have hml' : MinLast (detach m (focus (some c) (attach c (detach c (flipmin m s))))) := by
    unfold MinLast
    rw [hxV, hxm]
    exact pairwise_upd_of_not_mem true hmnotV hpw1
  obtain ⟨k1, k2, k3, k4, k5⟩ := reinsert_spec
    (detach m (focus (some c) (attach c (detach c (flipmin m s))))) m c r hnd' hmnot
    (by rw [hxv]; exact hmv) (by rw [hxm, upd_same]) hxV
    (by rw [hxm, upd_other _ _ _ _ hcm]; exact hcnm) hml'
  have ham : lastnm (detach m (focus (some c) (attach c (detach c (flipmin m s))))) c r ≠ m := by
    intro e
    have hmem := lastnm_mem (detach m (focus (some c) (attach c (detach c (flipmin m s))))) c r
    rw [e] at hmem
    exact hmnotV hmem
  have hmc2 : m ∈ s.clients.erase c := (List.mem_erase_of_ne (fun e => hcm e.symm)).mpr hmc
  refine ⟨c, _, _, hc, rfl, ?_, k2, ?_, ?_, ?_, ham, ?_, k5, ?_⟩
  · refine k1.trans ?_
    rw [hxc]
    calc m :: c :: (s.clients.erase c).erase m
        |>.Perm (c :: m :: (s.clients.erase c).erase m) := List.Perm.swap c m _
      _ |>.Perm (c :: s.clients.erase c) := ((List.perm_cons_erase hmc2).symm).cons c
      _ |>.Perm s.clients := (List.perm_cons_erase hcc).symm
  · rw [attachafter_minimized, hxm]
  · rw [isvisible_attachafter, hxv]
  · rw [← hxv]; exact k3
  · rw [hxm, upd_other _ _ _ _ ham] at k4; exact k4
  · rw [attachafter_some_clients _ _ _ ham, hxc]
    exact head_insertAfter _ _ _ _

theorem minlast_arrange (env : Env) (X : State) (h : MinLast X) : MinLast (arrange env X) := by
  unfold MinLast visibleOf at h ⊢
  rw [isvisible_arrange, arrange_clients, arrange_minimized]
  exact h

/-- The branch of `toggleminimize` for a selected client that is minimized. -/
theorem toggleminimize_restore_spec (env : Env) (s : State) (m : Nat) (hnd : s.clients.Nodup)
    (hsel : s.sel = some m) (hmc : m ∈ s.clients) (hmv : isvisible s m = true)
    (hml : MinLast s) (hmin : s.minimized m = true) :
    ∃ s', toggleminimize env s = some s' ∧ MinLast s' ∧ s'.clients.Perm s.clients ∧
      s'.minimized m = false ∧ s'.clients = m :: s.clients.erase m := by
  refine ⟨_, toggleminimize_restore env s m hsel hmin, ?_, ?_, ?_, ?_⟩
  · apply minlast_arrange
    unfold MinLast visibleOf
    simp only [isvisible_attach, isvisible_detach, isvisible_flipmin, attach_clients,
      detach_clients, flipmin_clients, attach_minimized, detach_minimized, flipmin_minimized]
    rw [List.filter_cons_of_pos (by simpa using hmv), filter_erase_of_pos _ hmv]
    have hmnot : m ∉ (s.clients.filter (isvisible s)).erase m :=
      fun h => ((hnd.filter _).mem_erase_iff.mp h).1 rfl
    refine List.pairwise_cons.mpr ⟨?_, ?_⟩
    · intro d _ h
      rw [upd_same, hmin] at h
      cases h
    · apply pairwise_upd_of_not_mem _ hmnot
      exact List.Pairwise.sublist (List.erase_sublist m _) hml
  · simpa using (List.perm_cons_erase hmc).symm
  · simp [flipmin_minimized, hmin]
  · simp

/-- C6. With a selected visible client `m` and every visible minimized client
after every visible client that is not minimized, `toggleminimize()` returns
and the same ordering holds afterwards.  A client that was minimized is not
minimized afterwards and heads the spatial list.  A client that becomes
minimized is linked right after a visible client `a` that is not minimized,
and every visible client after it is minimized, so that `a` is the last
visible client that is not minimized; when it was the first visible client,
the next visible client `c` becomes the head of the list and the first visible
client.  The spatial list keeps its clients, which are distinct. -/
theorem toggleminimize_minlast (env : Env) (s : State) (m : Nat) (hnd : s.clients.Nodup)
    (hsel : s.sel = some m) (hmc : m ∈ s.clients) (hmv : isvisible s m = true)
    (hml : MinLast s) :
    ∃ s', toggleminimize env s = some s' ∧ MinLast s' ∧ s'.clients.Perm s.clients ∧
      (s.minimized m = true →
        s'.minimized m = false ∧ s'.clients.head? = some m ∧
        s'.clients = m :: s.clients.erase m) ∧
      (s.minimized m = false → s'.minimized m = true →
        (∃ a, isvisible s' a = true ∧ s'.minimized a = false ∧
          (after a s'.clients).head? = some m) ∧
        (∀ d ∈ visibleOf s' (after m s'.clients), s'.minimized d = true) ∧
        (nextvisible s s.clients = some m →
          ∃ c, nextvisible s (after m s.clients) = some c ∧ s'.clients.head? = some c ∧
            nextvisible s' s'.clients = some c)) := by
  have hafter : ∀ s' : State, MinLast s' → isvisible s' = isvisible s →
      s'.minimized m = true → ∀ d ∈ visibleOf s' (after m s'.clients), s'.minimized d = true := by
    intro s' hml' hv' hm' d hd
    unfold visibleOf at hd
    rw [filter_after _ (by rw [hv']; exact hmv)] at hd
    exact pairwise_after hml' hd hm'
  cases hmin : s.minimized m with
  | true =>
    obtain ⟨s', h1, h2, h3, h4, h5⟩ :=
      toggleminimize_restore_spec env s m hnd hsel hmc hmv hml hmin
    refine ⟨s', h1, h2, h3, fun _ => ⟨h4, (by rw [h5]; rfl), h5⟩, fun h => (by cases h)⟩
  | false =>
    by_cases hone : ((visibleOf s s.clients).filter (fun c => !s.minimized c)).length = 1
    · refine ⟨s, toggleminimize_last env s m hsel hmin hone, hml, List.Perm.refl _,
        fun h => (by cases h), fun _ h => ?_⟩
      rw [hmin] at h
      cases h
    · by_cases hfirst : nextvisible s s.clients = some m
      · obtain ⟨c, a, X, hc, h1, h2, h3, h4, h5, h6, h7, h8, h9, h10⟩ :=
          toggleminimize_master_spec env s m hnd hsel hml hmin hone hfirst
        have hv' : isvisible (arrange env X) = isvisible s := by
          rw [isvisible_arrange, h5]
        refine ⟨arrange env X, h1, minlast_arrange env X h3, by simpa using h2,
          fun h => (by cases h), fun _ hm' => ⟨⟨a, ?_, ?_, ?_⟩, ?_, fun _ => ⟨c, hc, ?_, ?_⟩⟩⟩
        · rw [hv']; exact h6
        · rw [arrange_minimized, h4, upd_other _ _ _ _ h7]; exact h8
        · rw [arrange_clients]; exact h9
        · exact hafter _ (minlast_arrange env X h3) hv' hm'
        · rw [arrange_clients]; exact h10
        · unfold nextvisible
          rw [hv', arrange_clients]
          cases hX : X.clients with
          | nil => rw [hX] at h10; cases h10
          | cons f l =>
            rw [hX] at h10
            cases h10
            simp [List.find?, (mem_of_nextvisible hc).2]
      · obtain ⟨a, X, h1, h2, h3, h4, h5, h6, h7, h8, h9, -⟩ :=
          toggleminimize_other_spec env s m hnd hsel hmc hmv hml hmin hone hfirst
        have hv' : isvisible (arrange env X) = isvisible s := by
          rw [isvisible_arrange, h5]
        refine ⟨arrange env X, h1, minlast_arrange env X h3, by simpa using h2,
          fun h => (by cases h), fun _ hm' => ⟨⟨a, ?_, ?_, ?_⟩, ?_, fun h => absurd h hfirst⟩⟩
        · rw [hv']; exact h6
        · rw [arrange_minimized, h4, upd_other _ _ _ _ h7]; exact h8
        · rw [arrange_clients]; exact h9
        · exact hafter _ (minlast_arrange env X h3) hv' hm'

set_option maxRecDepth 100000 in
/-- Witness for C6: three shells in the order 3, 2, 1, none minimized, the
last one selected. -/
theorem toggleminimize_minlast_witness :
    (three_focused.clients.Nodup ∧ three_focused.sel = some 1 ∧ 1 ∈ three_focused.clients ∧
      isvisible three_focused 1 = true ∧ MinLast three_focused) ∧
    ∃ s', toggleminimize env0 three_focused = some s' ∧ MinLast s' ∧
      s'.clients.Perm three_focused.clients ∧
      (three_focused.minimized 1 = true →
        s'.minimized 1 = false ∧ s'.clients.head? = some 1 ∧
        s'.clients = 1 :: three_focused.clients.erase 1) ∧
      (three_focused.minimized 1 = false → s'.minimized 1 = true →
        (∃ a, isvisible s' a = true ∧ s'.minimized a = false ∧
          (after a s'.clients).head? = some 1) ∧
        (∀ d ∈ visibleOf s' (after 1 s'.clients), s'.minimized d = true) ∧
        (nextvisible three_focused three_focused.clients = some 1 →
          ∃ c, nextvisible three_focused (after 1 three_focused.clients) = some c ∧
            s'.clients.head? = some c ∧ nextvisible s' s'.clients = some c)) :=
  ⟨⟨by decide, by decide, by decide, by decide, by unfold MinLast; decide⟩,
    toggleminimize_minlast env0 three_focused 1 (by decide) (by decide) (by decide) (by decide)
      (by unfold MinLast; decide)⟩

/-! ### Neither tagset is ever empty -/

/-- The commands that write `seltags` or `tagset[]` keep both tagsets
non-empty, as they are at launch (`tagset = { 1, 1 }`). -/
theorem tagsets_nonzero (env : Env) (arg : Option String) (s s' : State) (hl : Linked s)
    (hc : curtagset s ≠ 0) (hp : prevtagset s ≠ 0)
    (h : view env arg s = some s' ∨ toggleview env arg s = some s' ∨
      viewprevtag env s = some s') :
    curtagset s' ≠ 0 ∧ prevtagset s' ≠ 0 := by
  rcases h with h | h | h
  · obtain ⟨t, ht, -, hv⟩ := view_spec env arg s hl
    rw [ht] at h
    cases h
    split_ifs at hv with hcond
    · rw [hv.1, hv.2]; exact ⟨hcond.2, hc⟩
    · rw [hv.1, hv.2]; exact ⟨hc, hp⟩
  · unfold toggleview at h
    simp only [] at h
    split_ifs at h with hcond
    · have hl' : Linked (setcurtagset (curtagset s ^^^ (bitoftag env arg &&& TAGMASK env)) s) := by
        intro p hpm
        rw [(setcurtagset_frame _ _).1]
        rw [(setcurtagset_frame _ _).2.1] at hpm
        exact hl p hpm
      obtain ⟨k1, k2, -⟩ := tagschanged_tagsets hl' h
      rw [k1, k2, (setcurtagset_frame _ _).2.2.2.1, (setcurtagset_frame _ _).2.2.2.2]
      exact ⟨hcond, hp⟩
    · cases h
      exact ⟨hc, hp⟩
  · obtain ⟨t, ht, -, v1, v2⟩ := viewprevtag_spec env s hl
    rw [ht] at h
    cases h
    rw [v1, v2]
    exact ⟨hp, hc⟩

/-! ### The bar, the screen and the work-area height under the geometry steps -/

theorem frame_resize_client (env : Env) (c : Nat) (w h : Int) (s : State) :
    (resize_client env c w h s).bar = s.bar ∧ (resize_client env c w h s).screen = s.screen ∧
    (resize_client env c w h s).wah = s.wah := by
  unfold resize_client
  simp only []
  split_ifs <;> exact ⟨rfl, rfl, rfl⟩

theorem frame_move_client (env : Env) (c : Nat) (x y : Int) (s : State) :
    (move_client env c x y s).bar = s.bar ∧ (move_client env c x y s).screen = s.screen ∧
    (move_client env c x y s).wah = s.wah := by
  unfold move_client
  split_ifs <;> exact ⟨rfl, rfl, rfl⟩

theorem frame_resize (env : Env) (r : ResizeCall) (s : State) :
    (resize env r s).bar = s.bar ∧ (resize env r s).screen = s.screen ∧
    (resize env r s).wah = s.wah := by
  unfold resize
  obtain ⟨a1, a2, a3⟩ := frame_move_client env r.c r.x r.y (resize_client env r.c r.w r.h s)
  obtain ⟨b1, b2, b3⟩ := frame_resize_client env r.c r.w r.h s
  exact ⟨a1.trans b1, a2.trans b2, a3.trans b3⟩

theorem frame_resizeAll (env : Env) (rs : List ResizeCall) (s : State) :
    (resizeAll env rs s).bar = s.bar ∧ (resizeAll env rs s).screen = s.screen ∧
    (resizeAll env rs s).wah = s.wah := by
  induction rs generalizing s with
  | nil => exact ⟨rfl, rfl, rfl⟩
  | cons r rs ih =>
    simp only [resizeAll]
    obtain ⟨a1, a2, a3⟩ := ih (resize env r s)
    obtain ⟨b1, b2, b3⟩ := frame_resize env r s
    exact ⟨a1.trans b1, a2.trans b2, a3.trans b3⟩

theorem frame_placeMinimized (env : Env) (m nw : Int) (l : List Nat) (i nx : Int) (s : State) :
    (placeMinimized env m nw l i nx s).bar = s.bar ∧
    (placeMinimized env m nw l i nx s).screen = s.screen ∧
    (placeMinimized env m nw l i nx s).wah = s.wah := by
  induction l generalizing i nx s with
  | nil => exact ⟨rfl, rfl, rfl⟩
  | cons c l ih =>
    simp only [placeMinimized]
    by_cases hm : s.minimized c = true
    · rw [if_pos hm]
      obtain ⟨a1, a2, a3⟩ := ih (i + 1) (nx + nw)
        (resize env ⟨c, nx, s.way + s.wah, if i + 1 = m then s.waw - nx else nw, 1⟩ s)
      obtain ⟨b1, b2, b3⟩ :=
        frame_resize env ⟨c, nx, s.way + s.wah, if i + 1 = m then s.waw - nx else nw, 1⟩ s
      exact ⟨a1.trans b1, a2.trans b2, a3.trans b3⟩
    · rw [if_neg hm]
      exact ih i nx s

theorem frame_focus (c : Option Nat) (s : State) :
    (focus c s).bar = s.bar ∧ (focus c s).screen = s.screen ∧ (focus c s).wah = s.wah := by
  unfold focus
  simp only []
  split_ifs
  · exact ⟨rfl, rfl, rfl⟩
  · cases c <;> simp only [] <;> (try split) <;> (try split) <;>
      simp [attachstack, detachstack]

theorem frame_draw_all (s : State) :
    (draw_all s).bar = s.bar ∧ (draw_all s).screen = s.screen ∧ (draw_all s).wah = s.wah := by
  unfold draw_all
  split <;> exact ⟨rfl, rfl, rfl⟩

/-- The bar, the screen size and the work-area height after `arrange()` are
those its autohide step leaves: the strip for the minimized clients is taken
from the work area and given back. -/
theorem frame_arrange (env : Env) (s : State) :
    (arrange env s).bar = (autohide ((visibleOf s s.clients).length % U32) (renumber s)).bar ∧
    (arrange env s).screen =
      (autohide ((visibleOf s s.clients).length % U32) (renumber s)).screen ∧
    (arrange env s).wah = (autohide ((visibleOf s s.clients).length % U32) (renumber s)).wah := by
  unfold arrange
  simp only []
  generalize autohide ((visibleOf s s.clients).length % U32) (renumber s) = s2
  rw [(frame_draw_all _).1, (frame_draw_all _).2.1, (frame_draw_all _).2.2,
    (frame_focus _ _).1, (frame_focus _ _).2.1, (frame_focus _ _).2.2]
  split_ifs
  · refine ⟨?_, ?_, ?_⟩
    · show (placeMinimized _ _ _ _ _ _ _).bar = _
      rw [(frame_placeMinimized _ _ _ _ _ _ _).1, (frame_resizeAll _ _ _).1]
      rfl
    · show (placeMinimized _ _ _ _ _ _ _).screen = _
      rw [(frame_placeMinimized _ _ _ _ _ _ _).2.1, (frame_resizeAll _ _ _).2.1]
      rfl
    · show (placeMinimized _ _ _ _ _ _ _).wah + 1 = _
      rw [(frame_placeMinimized _ _ _ _ _ _ _).2.2, (frame_resizeAll _ _ _).2.2]
      show s2.wah + -1 + 1 = s2.wah
      omega
  · exact frame_resizeAll _ _ _

/-! ### The bar positions -/

theorem barinv_of_bar {s t : State} (h : t.bar.pos = s.bar.pos) (h1 : t.bar.lastpos = s.bar.lastpos)
    (h2 : t.bar.h = s.bar.h) (hs : BarInv s) : BarInv t := by
  unfold BarInv at *
  rw [h, h1, h2]
  exact hs

theorem barinv_hidebar (s : State) (hs : BarInv s) : BarInv (hidebar s) := by
  unfold hidebar
  obtain ⟨h1, h2, h3⟩ := hs
  split_ifs with h
  · refine ⟨?_, Or.inr (Or.inr rfl), h3⟩
    show s.bar.pos = BAR_TOP ∨ s.bar.pos = BAR_BOTTOM
    rcases h2 with h2 | h2 | h2
    · exact Or.inl h2
    · exact Or.inr h2
    · exact absurd h2 h
  · exact ⟨h1, h2, h3⟩

theorem barinv_showbar (s : State) (hs : BarInv s) : BarInv (showbar s) := by
  unfold showbar
  obtain ⟨h1, h2, h3⟩ := hs
  split_ifs with h
  · refine ⟨h1, ?_, h3⟩
    show s.bar.lastpos = BAR_TOP ∨ s.bar.lastpos = BAR_BOTTOM ∨ s.bar.lastpos = BAR_OFF
    rcases h1 with h1 | h1
    · exact Or.inl h1
    · exact Or.inr (Or.inl h1)
  · exact ⟨h1, h2, h3⟩

theorem updatebarpos_bar (s : State) :
    (updatebarpos s).bar.pos = s.bar.pos ∧ (updatebarpos s).bar.lastpos = s.bar.lastpos ∧
    (updatebarpos s).bar.h = s.bar.h ∧ (updatebarpos s).bar.fd = s.bar.fd ∧
    (updatebarpos s).bar.autohide = s.bar.autohide ∧ (updatebarpos s).screen = s.screen := by
  unfold updatebarpos
  simp only []
  split_ifs <;> exact ⟨rfl, rfl, rfl, rfl, rfl, rfl⟩

theorem barinv_updatebarpos (s : State) (hs : BarInv s) : BarInv (updatebarpos s) :=
  barinv_of_bar (updatebarpos_bar s).1 (updatebarpos_bar s).2.1 (updatebarpos_bar s).2.2.1 hs

/-- What `updatebarpos()` leaves in `wah`. -/
theorem updatebarpos_wah (s : State) :
    (updatebarpos s).wah =
      if s.bar.pos = BAR_TOP ∨ s.bar.pos = BAR_BOTTOM then s.screen.h - s.bar.h
      else s.screen.h := by
  unfold updatebarpos
  simp only []
  split_ifs with h1 h2 h3 h4 h5 <;> first
    | rfl
    | (exfalso; tauto)

/-- After `updatebarpos()` the work area is laid out for the bar. -/
theorem barrow_updatebarpos (s : State) (hs : BarInv s) : BarRow (updatebarpos s) := by
  obtain ⟨-, h2, h3⟩ := hs
  unfold BarRow
  rw [updatebarpos_wah, (updatebarpos_bar s).1, (updatebarpos_bar s).2.2.1,
    (updatebarpos_bar s).2.2.2.2.2, h3]
  rcases h2 with h | h | h
  · simp [h, BAR_TOP, BAR_OFF]
  · simp [h, BAR_BOTTOM, BAR_OFF]
  · simp [h, BAR_TOP, BAR_BOTTOM, BAR_OFF]
    omega

theorem barinv_autohide (n : Nat) (s : State) (hs : BarInv s) : BarInv (autohide n s) := by
  unfold autohide
  split_ifs
  · exact barinv_updatebarpos _ (barinv_hidebar _ hs)
  · exact barinv_updatebarpos _ (barinv_showbar _ hs)
  · exact hs

theorem barinv_arrange (env : Env) (s : State) (hs : BarInv s) : BarInv (arrange env s) := by
  have h := (frame_arrange env s).1
  have h2 : BarInv (autohide ((visibleOf s s.clients).length % U32) (renumber s)) :=
    barinv_autohide _ _ hs
  unfold BarInv at *
  rw [h]
  exact h2

theorem barinv_flipbarpos (s : State) (hs : BarInv s) : BarInv (flipbarpos s) := by
  unfold flipbarpos
  obtain ⟨h1, h2, h3⟩ := hs
  simp only []
  split_ifs <;> first
    | exact ⟨h1, h2, h3⟩
    | exact (show BarInv (set_barpos BAR_BOTTOM s) from ⟨h1, Or.inr (Or.inl rfl), h3⟩)
    | exact (show BarInv (set_barpos BAR_TOP s) from ⟨h1, Or.inl rfl, h3⟩)

theorem barinv_togglebar (env : Env) (w h : Int) (s : State) (hs : BarInv s) :
    BarInv (togglebar env w h s) := by
  unfold togglebar redraw resize_screen
  apply barinv_arrange
  apply barinv_updatebarpos
  apply barinv_of_bar (s := updatebarpos (set_autohide false
    (if s.bar.pos = BAR_OFF then showbar s else hidebar s))) rfl rfl rfl
  apply barinv_updatebarpos
  apply barinv_of_bar (s := if s.bar.pos = BAR_OFF then showbar s else hidebar s) rfl rfl rfl
  split_ifs
  · exact barinv_showbar _ hs
  · exact barinv_hidebar _ hs

theorem barinv_togglebarpos (env : Env) (w h : Int) (s : State) (hs : BarInv s) :
    BarInv (togglebarpos env w h s) := by
  unfold togglebarpos redraw resize_screen
  apply barinv_arrange
  apply barinv_updatebarpos
  apply barinv_of_bar (s := updatebarpos (flipbarpos s)) rfl rfl rfl
  exact barinv_updatebarpos _ (barinv_flipbarpos _ hs)

theorem barinv_of_reachable (env : Env) (s : State) (h : BarReachable env s) : BarInv s := by
  induction h with
  | start s h0 =>
    obtain ⟨a, b, c⟩ := h0
    refine ⟨?_, ?_, c⟩
    · rw [← a]; exact b
    · rcases b with b | b
      · exact Or.inl b
      · exact Or.inr (Or.inl b)
  | hidebar s _ ih => exact barinv_hidebar s ih
  | showbar s _ ih => exact barinv_showbar s ih
  | togglebar s w h _ ih => exact barinv_togglebar env w h s ih
  | togglebarpos s w h _ ih => exact barinv_togglebarpos env w h s ih
  | autohide s n _ ih => exact barinv_autohide n s ih
  | arrange s _ ih => exact barinv_arrange env s ih

/-- When the autohide step of `arrange` runs it ends in `updatebarpos()`, so
the work area is laid out for the bar. -/
theorem barrow_autohide (n : Nat) (s : State) (hs : BarInv s)
    (h : s.bar.fd < 0 ∧ s.bar.autohide = true) : BarRow (autohide n s) := by
  unfold autohide
  rw [if_pos h]
  split_ifs
  · exact barrow_updatebarpos _ (barinv_hidebar _ hs)
  · exact barrow_updatebarpos _ (barinv_showbar _ hs)

theorem barrow_of_eq {s t : State} (h1 : t.bar = s.bar) (h2 : t.screen = s.screen)
    (h3 : t.wah = s.wah) (hs : BarRow s) : BarRow t := by
  unfold BarRow at *
  rw [h1, h2, h3]
  exact hs

/-- `arrange()` keeps a work area that is laid out for the bar. -/
theorem barrow_arrange (env : Env) (s : State) (hs : BarInv s) (hr : BarRow s) :
    BarRow (arrange env s) := by
  obtain ⟨h1, h2, h3⟩ := frame_arrange env s
  apply barrow_of_eq h1 h2 h3
  by_cases h : s.bar.fd < 0 ∧ s.bar.autohide = true
  · exact barrow_autohide _ _ (barinv_of_bar (s := s) rfl rfl rfl hs) h
  · have h' : ¬((renumber s).bar.fd < 0 ∧ (renumber s).bar.autohide = true) := h
    unfold autohide
    rw [if_neg h']
    exact barrow_of_eq (s := s) rfl rfl rfl hr

theorem barrow_togglebar (env : Env) (w h : Int) (s : State) (hs : BarInv s) :
    BarRow (togglebar env w h s) := by
  unfold togglebar redraw resize_screen
  have h1 : BarInv (if s.bar.pos = BAR_OFF then showbar s else hidebar s) := by
    split_ifs
    · exact barinv_showbar _ hs
    · exact barinv_hidebar _ hs
  have h2 : BarInv (set_screen_size w h (updatebarpos (set_autohide false
      (if s.bar.pos = BAR_OFF then showbar s else hidebar s)))) :=
    barinv_of_bar (s := updatebarpos (set_autohide false
      (if s.bar.pos = BAR_OFF then showbar s else hidebar s))) rfl rfl rfl
      (barinv_updatebarpos _ (barinv_of_bar
        (s := if s.bar.pos = BAR_OFF then showbar s else hidebar s) rfl rfl rfl h1))
  exact barrow_arrange env _ (barinv_updatebarpos _ h2) (barrow_updatebarpos _ h2)

theorem barrow_togglebarpos (env : Env) (w h : Int) (s : State) (hs : BarInv s) :
    BarRow (togglebarpos env w h s) := by
  unfold togglebarpos redraw resize_screen
  have h2 : BarInv (set_screen_size w h (updatebarpos (flipbarpos s))) :=
    barinv_of_bar (s := updatebarpos (flipbarpos s)) rfl rfl rfl
      (barinv_updatebarpos _ (barinv_flipbarpos _ hs))
  exact barrow_arrange env _ (barinv_updatebarpos _ h2) (barrow_updatebarpos _ h2)

/-- C12. From a bar shown at the top or the bottom with `bar.lastpos == bar.pos`,
every state reached by `hidebar`, `showbar`, `togglebar`, `togglebarpos`, the
autohide step of `arrange` (and `arrange` itself) has `bar.lastpos` in
{`BAR_TOP`, `BAR_BOTTOM`} and `bar.pos` in {`BAR_TOP`, `BAR_BOTTOM`, `BAR_OFF`};
`updatebarpos()` there takes the bar's row `bar.h` from the work-area height
exactly when `bar.pos != BAR_OFF` and leaves the whole screen height exactly
when `bar.pos == BAR_OFF`; and the steps that end in `updatebarpos()`
(`togglebar`, `togglebarpos`, the autohide step when it runs) leave the work
area in that shape. -/
theorem bar_reachable_inv (env : Env) (s : State) (h : BarReachable env s) :
    (s.bar.lastpos = BAR_TOP ∨ s.bar.lastpos = BAR_BOTTOM) ∧
    (s.bar.pos = BAR_TOP ∨ s.bar.pos = BAR_BOTTOM ∨ s.bar.pos = BAR_OFF) ∧
    ((updatebarpos s).wah = s.screen.h - s.bar.h ↔ s.bar.pos ≠ BAR_OFF) ∧
    ((updatebarpos s).wah = s.screen.h ↔ s.bar.pos = BAR_OFF) ∧
    (∀ w h, BarRow (togglebar env w h s)) ∧ (∀ w h, BarRow (togglebarpos env w h s)) ∧
    (∀ n, s.bar.fd < 0 ∧ s.bar.autohide = true → BarRow (autohide n s)) := by
  have hi := barinv_of_reachable env s h
  have hr := barrow_updatebarpos s hi
  unfold BarRow at hr
  rw [(updatebarpos_bar s).1, (updatebarpos_bar s).2.2.1, (updatebarpos_bar s).2.2.2.2.2] at hr
  exact ⟨hi.1, hi.2.1, hr.1, hr.2, fun w h => barrow_togglebar env w h s hi,
    fun w h => barrow_togglebarpos env w h s hi, fun n hn => barrow_autohide n s hi hn⟩

/-- C12 at `bar_flipped`, the launch state after `hidebar` and `togglebarpos`. -/
theorem bar_reachable_inv_witness :
    BarReachable env0 bar_flipped ∧
    ((bar_flipped.bar.lastpos = BAR_TOP ∨ bar_flipped.bar.lastpos = BAR_BOTTOM) ∧
     (bar_flipped.bar.pos = BAR_TOP ∨ bar_flipped.bar.pos = BAR_BOTTOM ∨
       bar_flipped.bar.pos = BAR_OFF) ∧
     ((updatebarpos bar_flipped).wah = bar_flipped.screen.h - bar_flipped.bar.h ↔
       bar_flipped.bar.pos ≠ BAR_OFF) ∧
     ((updatebarpos bar_flipped).wah = bar_flipped.screen.h ↔ bar_flipped.bar.pos = BAR_OFF) ∧
     (∀ w h, BarRow (togglebar env0 w h bar_flipped)) ∧
     (∀ w h, BarRow (togglebarpos env0 w h bar_flipped)) ∧
     (∀ n, bar_flipped.bar.fd < 0 ∧ bar_flipped.bar.autohide = true →
       BarRow (autohide n bar_flipped))) :=
  ⟨BarReachable.togglebarpos _ 80 24 (BarReachable.hidebar _
      (BarReachable.start launch0 ⟨rfl, Or.inl rfl, rfl⟩)),
   bar_reachable_inv env0 bar_flipped
    (BarReachable.togglebarpos _ 80 24 (BarReachable.hidebar _
      (BarReachable.start launch0 ⟨rfl, Or.inl rfl, rfl⟩)))⟩

theorem updatebarpos_bar_eq (s : State) :
    (updatebarpos s).bar =
      if s.bar.pos = BAR_BOTTOM ∧ s.bar.pos ≠ BAR_TOP then
        { s.bar with y := (s.screen.h - s.bar.h) % U16 }
      else { s.bar with y := 0 } := by
  unfold updatebarpos
  simp only []
  split_ifs with h1 h2 h3 h4 h5 <;> first
    | rfl
    | (exfalso; tauto)

theorem hidebar_bar (s : State) :
    (hidebar s).bar =
      (if s.bar.pos ≠ BAR_OFF then { s.bar with lastpos := s.bar.pos, pos := BAR_OFF }
       else s.bar) ∧ (hidebar s).screen = s.screen := by
  unfold hidebar
  split_ifs <;> exact ⟨rfl, rfl⟩

theorem showbar_bar (s : State) :
    (showbar s).bar =
      (if s.bar.pos = BAR_OFF then { s.bar with pos := s.bar.lastpos } else s.bar) ∧
    (showbar s).screen = s.screen := by
  unfold showbar
  split_ifs <;> exact ⟨rfl, rfl⟩

/-- The bar after the autohide step depends on the bar, the screen and the
length of the list only. -/
theorem bar_autohide_congr (n : Nat) (s t : State) (h1 : s.bar = t.bar)
    (h2 : s.screen = t.screen) (h3 : s.clients = t.clients) :
    (autohide n s).bar = (autohide n t).bar := by
  unfold autohide
  rw [h1, h3]
  split_ifs
  · rw [updatebarpos_bar_eq, updatebarpos_bar_eq, (hidebar_bar s).1, (hidebar_bar s).2,
      (hidebar_bar t).1, (hidebar_bar t).2, h1, h2]
  · rw [updatebarpos_bar_eq, updatebarpos_bar_eq, (showbar_bar s).1, (showbar_bar s).2,
      (showbar_bar t).1, (showbar_bar t).2, h1, h2]
  · exact h1

theorem bar_autohide_renumber (n : Nat) (s : State) :
    (autohide n (renumber s)).bar = (autohide n s).bar :=
  bar_autohide_congr n (renumber s) s rfl rfl rfl

theorem visible_count_singleton (s : State) (h : s.clients.length ≤ 1) :
    (visibleOf s s.clients).length % U32 = 1 ↔ ∃ c, s.clients = [c] ∧ isvisible s c = true := by
  unfold visibleOf
  match hc : s.clients with
  | [] => simp [U32]
  | [c] =>
    by_cases hv : isvisible s c = true
    · simp [hv, U32]
    · simp [hv, U32]
  | a :: b :: l => rw [hc] at h; simp at h

set_option maxRecDepth 100000 in
/-- C13, as stated, fails on the code.  In `two_split` (no status FIFO,
autohide on) the list holds two clients and one of them is visible: at most
one client is visible, and the autohide step shows the bar.  In the launch
state no client is visible at all, and the bar is shown as well. -/
theorem autohide_shows_bar_for_one_visible :
    two_split.bar.fd = -1 ∧ two_split.bar.autohide = true ∧
    two_split.clients = [2, 1] ∧ visibleOf two_split two_split.clients = [1] ∧
    (autohide ((visibleOf two_split two_split.clients).length % U32) two_split).bar.pos
      = BAR_TOP ∧
    launch_autohide.bar.fd = -1 ∧ launch_autohide.bar.autohide = true ∧
    visibleOf launch_autohide launch_autohide.clients = [] ∧
    (autohide ((visibleOf launch_autohide launch_autohide.clients).length % U32)
      launch_autohide).bar.pos = BAR_TOP := by
  decide

/-- C13 (amended). With no status FIFO (`bar.fd < 0`), autohide on and
`bar.lastpos` not `BAR_OFF`, after the autohide step of `arrange()` the bar is
hidden (`bar.pos == BAR_OFF`) if and only if the spatial list holds exactly
one client and that client is visible; otherwise the bar is shown: `bar.pos`
is the position it had, or `bar.lastpos` when it was off.  The rest of
`arrange()` leaves the bar as this step left it. -/
theorem autohide_spec (env : Env) (s : State) (hfd : s.bar.fd < 0)
    (ha : s.bar.autohide = true) (hl : s.bar.lastpos ≠ BAR_OFF) :
    ((autohide ((visibleOf s s.clients).length % U32) s).bar.pos = BAR_OFF ↔
      ∃ c, s.clients = [c] ∧ isvisible s c = true) ∧
    ((autohide ((visibleOf s s.clients).length % U32) s).bar.pos ≠ BAR_OFF →
      (autohide ((visibleOf s s.clients).length % U32) s).bar.pos =
        if s.bar.pos = BAR_OFF then s.bar.lastpos else s.bar.pos) ∧
    (arrange env s).bar = (autohide ((visibleOf s s.clients).length % U32) s).bar := by
  refine ⟨?_, ?_, (frame_arrange env s).1.trans (bar_autohide_renumber _ s)⟩
  · unfold autohide
    rw [if_pos ⟨hfd, ha⟩, (updatebarpos_bar _).1]
    by_cases hlen : s.clients.length ≤ 1
    · rw [← visible_count_singleton s hlen]
      by_cases hn : (visibleOf s s.clients).length % U32 = 1
      · rw [if_pos ⟨hlen, hn⟩]
        unfold hidebar
        split_ifs with h
        · exact ⟨fun _ => hn, fun _ => rfl⟩
        · exact ⟨fun _ => hn, fun _ => not_not.mp h⟩
      · rw [if_neg (fun h => hn h.2)]
        unfold showbar
        split_ifs with h
        · exact ⟨fun e => absurd e hl, fun e => absurd e hn⟩
        · exact ⟨fun e => absurd e h, fun e => absurd e hn⟩
    · rw [if_neg (fun h => hlen h.1)]
      have hne : ¬ ∃ c, s.clients = [c] ∧ isvisible s c = true := by
        rintro ⟨c, hc, -⟩
        rw [hc] at hlen
        exact hlen (by simp)
      unfold showbar
      split_ifs with h
      · exact ⟨fun e => absurd e hl, fun e => absurd e hne⟩
      · exact ⟨fun e => absurd e h, fun e => absurd e hne⟩
  · unfold autohide
    rw [if_pos ⟨hfd, ha⟩, (updatebarpos_bar _).1]
    split_ifs with h1 h2 h3
    · intro h; unfold hidebar at h; rw [if_neg (by simpa using h2)] at h; exact absurd h2 h
    · intro h; unfold hidebar at h; rw [if_pos h2] at h; exact absurd rfl h
    · intro _; unfold showbar; rw [if_pos h3]
    · intro _; unfold showbar; rw [if_neg h3]

set_option maxRecDepth 100000 in
/-- C13 (amended) at `two_split`: two clients in the list, so the bar stays on. -/
theorem autohide_spec_witness :
    two_split.bar.fd < 0 ∧ two_split.bar.autohide = true ∧ two_split.bar.lastpos ≠ BAR_OFF ∧
    (((autohide ((visibleOf two_split two_split.clients).length % U32) two_split).bar.pos
        = BAR_OFF ↔ ∃ c, two_split.clients = [c] ∧ isvisible two_split c = true) ∧
     ((autohide ((visibleOf two_split two_split.clients).length % U32) two_split).bar.pos
        ≠ BAR_OFF →
      (autohide ((visibleOf two_split two_split.clients).length % U32) two_split).bar.pos =
        if two_split.bar.pos = BAR_OFF then two_split.bar.lastpos else two_split.bar.pos) ∧
     (arrange env0 two_split).bar =
       (autohide ((visibleOf two_split two_split.clients).length % U32) two_split).bar) :=
  ⟨by decide, by decide, by decide,
   autohide_spec env0 two_split (by decide) (by decide) (by decide)⟩

set_option maxRecDepth 100000 in
/-- C11. The second half of the claim fails on the code: on the example state
`ten`, whose selected client (address 10) carries tag "1", the command
`tag("9")` with a name that is not configured computes the empty mask and
still stores it: the selected client ends with tag mask 0 instead of keeping
its mask, and another client is selected. -/
theorem tag_unknown_clears_mask :
    bitoftag env0 (some "9") &&& TAGMASK env0 = 0 ∧
    ten.sel = some 10 ∧ ten.tags 10 = 1 ∧
    (tag env0 (some "9") ten).map (fun t => (t.tags 10, t.sel)) = some (0, some 9) := by
  decide

/-! ### The chord buffer -/

/-- One key that runs a binding's action or is passed through leaves the
chord state empty. -/
theorem key_step_reset (key_mouse : Int) (bindings : List (List Nat)) (ch ch' : Chord)
    (code : Int) (ev : KeyEvent) (h : key_step key_mouse bindings ch code = some (ch', ev))
    (hev : (∃ b, ev = KeyEvent.action b) ∨ ∃ c, ev = KeyEvent.passthrough c) :
    ch' = chord0 := by
  unfold key_step at h
  simp only [] at h
  split_ifs at h with h1 h2 h3
  · simp only [Option.some.injEq, Prod.mk.injEq] at h
    rcases hev with ⟨b, hb⟩ | ⟨c, hc⟩
    · rw [hb] at h; exact absurd h.2 (by simp)
    · rw [hc] at h; exact absurd h.2 (by simp)
  · simp only [Option.some.injEq, Prod.mk.injEq] at h
    rcases hev with ⟨b, hb⟩ | ⟨c, hc⟩
    · rw [hb] at h; exact absurd h.2 (by simp)
    · rw [hc] at h; exact absurd h.2 (by simp)
  · split at h
    · split_ifs at h
      · simp only [Option.some.injEq, Prod.mk.injEq] at h
        exact h.1.symm
      · simp only [Option.some.injEq, Prod.mk.injEq] at h
        rcases hev with ⟨b, hb⟩ | ⟨c, hc⟩
        · rw [hb] at h; exact absurd h.2 (by simp)
        · rw [hc] at h; exact absurd h.2 (by simp)
    · simp only [Option.some.injEq, Prod.mk.injEq] at h
      exact h.1.symm

theorem run_keys_append (key_mouse : Int) (bindings : List (List Nat)) (codes : List Int)
    (code : Int) (ch : Chord) :
    run_keys key_mouse bindings (codes ++ [code]) ch =
      (run_keys key_mouse bindings codes ch).bind fun r =>
      (key_step key_mouse bindings r.1 code).bind fun r2 =>
      some (r2.1, r.2 ++ [r2.2]) := by
  induction codes generalizing ch with
  | nil =>
    simp only [List.nil_append, run_keys, Option.some_bind]
  | cons c codes ih =>
    rw [List.cons_append]
    simp only [run_keys]
    cases h : key_step key_mouse bindings ch c with
    | none => simp
    | some r =>
      simp only [Option.some_bind]
      rw [ih]
      cases run_keys key_mouse bindings codes r.1 with
      | none => simp
      | some r2 =>
        simp only [Option.some_bind]
        cases key_step key_mouse bindings r2.1 code <;> simp

/-- C14. For every binding table and every key sequence handled from any
chord state: when the last key of the sequence has run a binding's action or
has been passed through to `keypress`, the chord state is empty, `key_index`
is 0 and every slot of `keys` is 0, and the next key is handled as it is at
start-up, as the first key of a new chord. -/
theorem chord_empty_after_action (key_mouse : Int) (bindings : List (List Nat))
    (codes : List Int) (ch0 ch : Chord) (evs : List KeyEvent)
    (h : run_keys key_mouse bindings codes ch0 = some (ch, evs))
    (hev : (∃ b, evs.getLast? = some (KeyEvent.action b)) ∨
      ∃ c, evs.getLast? = some (KeyEvent.passthrough c)) :
    ch.key_index = 0 ∧ ch.keys = [0, 0, 0] ∧
    ∀ code, key_step key_mouse bindings ch code = key_step key_mouse bindings chord0 code := by
  have key : ch = chord0 := by
    rcases List.eq_nil_or_concat codes with hnil | ⟨cs, c, hc⟩
    · subst hnil
      simp only [run_keys, Option.some.injEq, Prod.mk.injEq] at h
      rw [← h.2] at hev
      simp at hev
    · subst hc
      rw [List.concat_eq_append, run_keys_append] at h
      cases h1 : run_keys key_mouse bindings cs ch0 with
      | none => rw [h1] at h; simp at h
      | some r =>
        rw [h1, Option.some_bind] at h
        cases h2 : key_step key_mouse bindings r.1 c with
        | none => rw [h2] at h; simp at h
        | some r2 =>
          rw [h2, Option.some_bind] at h
          simp only [Option.some.injEq, Prod.mk.injEq] at h
          obtain ⟨e1, e2⟩ := h
          rw [← e2, List.getLast?_append] at hev
          simp only [List.getLast?_singleton, Option.or, Option.some.injEq] at hev
          rw [← e1]
          exact key_step_reset key_mouse bindings r.1 r2.1 c r2.2 (by rw [h2]) hev
  rw [key]
  exact ⟨rfl, rfl, fun _ => rfl⟩

/-- C14 with the binding table `MOD c`, `MOD x x` (`MOD` is 7): after the keys
`a`, `MOD`, `c` the second chord has run binding 0 and the chord state is empty. -/
theorem chord_empty_after_action_witness :
    run_keys 409 [[7, 99, 0], [7, 120, 120]] [97, 7, 99] chord0 =
      some (chord0, [KeyEvent.passthrough 97, KeyEvent.pending, KeyEvent.action 0]) ∧
    (chord0.key_index = 0 ∧ chord0.keys = [0, 0, 0] ∧
     ∀ code, key_step 409 [[7, 99, 0], [7, 120, 120]] chord0 code =
       key_step 409 [[7, 99, 0], [7, 120, 120]] chord0 code) :=
  ⟨by decide,
   chord_empty_after_action 409 [[7, 99, 0], [7, 120, 120]] [97, 7, 99] chord0 chord0
     [KeyEvent.passthrough 97, KeyEvent.pending, KeyEvent.action 0] (by decide)
     (Or.inl ⟨0, rfl⟩)⟩

/-! ### `keypress` -/

theorem is_content_visible_clear_urgent (env : Env) (d : Nat) (s : State) (c : Option Nat) :
    is_content_visible env (clear_urgent d s) c = is_content_visible env s c := rfl

theorem send_key_client (code key : Int) (buf : List Int) (c : Nat) :
    ∀ v ∈ send_key code key buf c, v.client = c := by
  intro v hv
  unfold send_key at hv
  simp only [List.mem_append] at hv
  rcases hv with hv | hv
  · split_ifs at hv <;> simp only [List.mem_singleton] at hv <;> rw [hv] <;> rfl
  · split_ifs at hv
    · simp only [List.mem_singleton] at hv
      rw [hv]
      rfl
    · simp at hv

theorem send_key_ne_nil (code key : Int) (buf : List Int) (c : Nat) :
    ∃ v, v ∈ send_key code key buf c := by
  unfold send_key
  split_ifs <;> simp

/-- The loop of `keypress` hands input to exactly those of the clients it
visits whose content is visible. -/
theorem keypress_loop_clients (env : Env) (code key : Int) (buf : List Int) (l : List Nat)
    (s : State) (c : Nat) :
    (∃ v ∈ (keypress_loop env code key buf l s).2, v.client = c) ↔
      c ∈ l ∧ is_content_visible env s (some c) = true := by
  induction l generalizing s with
  | nil => simp [keypress_loop]
  | cons d l ih =>
    simp only [keypress_loop]
    by_cases hd : is_content_visible env s (some d) = true
    · rw [if_pos hd]
      simp only [List.mem_append, List.mem_cons]
      constructor
      · rintro ⟨v, hv | hv, hc⟩
        · have := send_key_client code key buf d v hv
          rw [hc] at this
          rw [this]
          exact ⟨Or.inl rfl, hd⟩
        · have h2 := (ih (clear_urgent d s)).1 ⟨v, hv, hc⟩
          rw [is_content_visible_clear_urgent] at h2
          exact ⟨Or.inr h2.1, h2.2⟩
      · rintro ⟨hc | hc, hv⟩
        · obtain ⟨v, hv2⟩ := send_key_ne_nil code key buf d
          exact ⟨v, Or.inl hv2, (send_key_client code key buf d v hv2).trans hc.symm⟩
        · have h2 := (ih (clear_urgent d s)).2 ⟨hc, by rw [is_content_visible_clear_urgent]; exact hv⟩
          obtain ⟨v, hv1, hv2⟩ := h2
          exact ⟨v, Or.inr hv1, hv2⟩
    · rw [if_neg hd, ih s]
      simp only [List.mem_cons]
      constructor
      · rintro ⟨h1, h2⟩
        exact ⟨Or.inr h1, h2⟩
      · rintro ⟨h1 | h1, h2⟩
        · rw [h1] at h2; exact absurd h2 hd
        · exact ⟨h1, h2⟩

set_option maxRecDepth 100000 in
/-- C15, as stated, fails on the code.  In `ten_runall` broadcast mode is on
and the ten clients are all visible under the current tagset, yet the key `a`
(code 97) is handed to the selected client at address 10 only: the layout is
fullscreen, where `is_content_visible` holds for `sel` alone. -/
theorem keypress_broadcast_skips_visible :
    ten_runall.runinall = true ∧
    visibleOf ten_runall ten_runall.clients = [10, 9, 8, 7, 6, 5, 4, 3, 2, 1] ∧
    (keypress env0 97 [] ten_runall).2 = [VtInput.keypress 10 97] := by
  decide

/-- C15 (amended). For every key code, `keypress(code)` hands the key to a
client exactly when: broadcast mode is on, the client is in the list, visible
under the current tagset and its content is visible (`is_content_visible`: in
the fullscreen layout it is `sel`, in any other layout it is not minimized);
or broadcast mode is off, the client is `sel` and its content is visible. -/
theorem keypress_delivery (env : Env) (code : Int) (pending : List Int) (s : State) (c : Nat) :
    (∃ v ∈ (keypress env code pending s).2, v.client = c) ↔
      (if s.runinall = true then c ∈ s.clients ∧ isvisible s c = true else s.sel = some c) ∧
      (if isfullscreen env s = true then s.sel = some c
       else isvisible s c = true ∧ s.minimized c = false) := by
  unfold keypress
  simp only []
  rw [keypress_loop_clients]
  have e : is_content_visible env s (some c) = true ↔
      (if isfullscreen env s = true then s.sel = some c
       else isvisible s c = true ∧ s.minimized c = false) := by
    unfold is_content_visible
    simp only []
    split_ifs <;> simp
  rw [e]
  by_cases h1 : s.runinall = true
  · rw [if_pos h1, if_pos h1]
    unfold visibleOf
    rw [List.mem_filter]
  · rw [if_neg h1, if_neg h1, Option.mem_toList, Option.mem_def]

/-! ### The status text -/

theorem getD_append_length (pre : List Nat) (x : Nat) (post : List Nat) :
    (pre ++ x :: post).getD pre.length 0 = x := by
  induction pre with
  | nil => rfl
  | cons a pre ih => simpa using ih

theorem set_append_length (pre : List Nat) (x y : Nat) (post : List Nat) :
    (pre ++ x :: post).set pre.length y = pre ++ y :: post := by
  induction pre with
  | nil => rfl
  | cons a pre ih => simp [ih]

/-- The first loop of `handle_statusbar` turns the trailing newlines of `pre`
into NUL bytes and stops after the last byte that is not a newline. -/
theorem strip_newlines_spec (pre post : List Nat) :
    strip_newlines (pre ++ post) pre.length =
      ((pre.reverse.dropWhile (fun b => b == NL)).reverse ++
        List.replicate (pre.length - (pre.reverse.dropWhile (fun b => b == NL)).length) 0 ++ post,
       (pre.reverse.dropWhile (fun b => b == NL)).length) := by
  induction pre using List.reverseRecOn generalizing post with
  | nil => simp [strip_newlines]
  | append_singleton pre x ih =>
    rw [List.length_append, List.length_singleton, strip_newlines]
    have hget : ((pre ++ [x]) ++ post).getD pre.length 0 = x := by
      rw [List.append_assoc]
      exact getD_append_length pre x post
    rw [hget]
    by_cases hx : x = NL
    · rw [if_pos hx]
      have hset : ((pre ++ [x]) ++ post).set pre.length 0 = pre ++ (0 :: post) := by
        rw [List.append_assoc]
        exact set_append_length pre x 0 post
      rw [hset, ih (0 :: post)]
      have hd : (pre ++ [x]).reverse.dropWhile (fun b => b == NL) =
          pre.reverse.dropWhile (fun b => b == NL) := by
        rw [List.reverse_append, List.reverse_singleton, List.singleton_append,
          List.dropWhile_cons_of_pos (by simp [hx])]
      rw [hd]
      have hle : (pre.reverse.dropWhile (fun b => b == NL)).length ≤ pre.length := by
        have := (List.dropWhile_sublist (fun b => b == NL) (l := pre.reverse)).length_le
        simpa using this
      have e : pre.length + 1 - (pre.reverse.dropWhile (fun b => b == NL)).length =
          (pre.length - (pre.reverse.dropWhile (fun b => b == NL)).length) + 1 := by omega
      rw [e, List.replicate_succ']
      simp
    · rw [if_neg hx]
      have hd : (pre ++ [x]).reverse.dropWhile (fun b => b == NL) = (pre ++ [x]).reverse := by
        rw [List.reverse_append, List.reverse_singleton, List.singleton_append,
          List.dropWhile_cons_of_neg (by simp [hx])]
      rw [hd]
      simp

/-- The second loop of `handle_statusbar` stops after the last newline of
`pre`, or before the start of the buffer when `pre` has none. -/
theorem find_newline_spec (pre post : List Nat) :
    find_newline (pre ++ post) pre.length =
      (pre.reverse.dropWhile (fun b => b != NL)).length := by
  induction pre using List.reverseRecOn generalizing post with
  | nil => simp [find_newline]
  | append_singleton pre x ih =>
    rw [List.length_append, List.length_singleton, find_newline]
    have hget : ((pre ++ [x]) ++ post).getD pre.length 0 = x := by
      rw [List.append_assoc]
      exact getD_append_length pre x post
    rw [hget, List.reverse_append, List.reverse_singleton, List.singleton_append]
    by_cases hx : x = NL
    · rw [if_neg (not_not.mpr hx), List.dropWhile_cons_of_neg (by simp [hx])]
      simp
    · rw [if_pos hx, List.dropWhile_cons_of_pos (by simp [hx]), List.append_assoc]
      exact ih ([x] ++ post)

/-- The string at the start of a buffer that holds `l`, free of NUL, then a NUL. -/
theorem cstr_append_zero (l rest : List Nat) (h : ∀ b ∈ l, b ≠ 0) :
    cstr (l ++ 0 :: rest) 0 = l := by
  unfold cstr
  rw [List.drop_zero]
  induction l with
  | nil => simp
  | cons a l ih =>
    have ha : a ≠ 0 := h a (List.mem_cons_self a l)
    rw [List.cons_append, List.takeWhile_cons_of_pos (by simp [ha])]
    rw [ih (fun b hb => h b (List.mem_cons_of_mem a hb))]

theorem cstr_drop (pre l rest : List Nat) (h : ∀ b ∈ l, b ≠ 0) :
    cstr (pre ++ (l ++ 0 :: rest)) pre.length = l := by
  have e := cstr_append_zero l rest h
  unfold cstr at *
  rw [List.drop_zero] at e
  rw [List.drop_left]
  exact e

theorem dropWhile_head_not (p : Nat → Bool) (l : List Nat) :
    l.dropWhile p = [] ∨ ∃ x d, l.dropWhile p = x :: d ∧ p x = false := by
  induction l with
  | nil => exact Or.inl rfl
  | cons a l ih =>
    by_cases ha : p a = true
    · rw [List.dropWhile_cons_of_pos ha]; exact ih
    · rw [List.dropWhile_cons_of_neg ha]
      exact Or.inr ⟨a, l, rfl, by simpa using ha⟩

theorem replicate_zero_append_cons (n : Nat) (T : List Nat) :
    List.replicate n 0 ++ 0 :: T = 0 :: (List.replicate n 0 ++ T) := by
  induction n with
  | zero => rfl
  | succ n ih => rw [List.replicate_succ, List.cons_append, ih, List.cons_append]

/-- The buffer `bar.text` after `handle_statusbar` has read `chunk`: the last
line of the chunk, a NUL, and 512 bytes in all. -/
theorem statusbar_text_spec (text chunk : List Nat) (htext : text.length = 512)
    (h2 : chunk.length ≤ 511) (h0 : ∀ b ∈ chunk, b ≠ 0) :
    (∃ rest, statusbar_text text chunk = last_line chunk ++ 0 :: rest) ∧
    (statusbar_text text chunk).length = 512 := by
  have hlt : chunk.length < text.length := by omega
  obtain ⟨T, hT, hTlen⟩ : ∃ T, (chunk ++ text.drop chunk.length).set chunk.length 0 =
      chunk ++ 0 :: T ∧ T.length = 511 - chunk.length := by
    refine ⟨text.drop (chunk.length + 1), ?_, by simp; omega⟩
    rw [List.drop_eq_getElem_cons hlt]
    exact set_append_length chunk _ 0 _
  unfold statusbar_text
  simp only []
  rw [hT, strip_newlines_spec chunk (0 :: T)]
  simp only []
  generalize hS : (chunk.reverse.dropWhile (fun b => b == NL)) = R
  have hRsub : ∀ b ∈ R, b ≠ 0 := by
    intro b hb
    rw [← hS] at hb
    have := (List.dropWhile_sublist (fun b => b == NL) (l := chunk.reverse)).subset hb
    exact h0 b (by simpa using this)
  have hRlen : R.length ≤ chunk.length := by
    rw [← hS]
    have := (List.dropWhile_sublist (fun b => b == NL) (l := chunk.reverse)).length_le
    simpa using this
  obtain ⟨Z, hZ, hZlen⟩ : ∃ Z, List.replicate (chunk.length - R.length) 0 ++ 0 :: T = 0 :: Z ∧
      Z.length = 511 - R.length := by
    refine ⟨List.replicate (chunk.length - R.length) 0 ++ T, ?_, by simp; omega⟩
    exact replicate_zero_append_cons _ T
  rw [List.append_assoc, hZ]
  have hk := find_newline_spec R.reverse (0 :: Z)
  rw [List.length_reverse, List.reverse_reverse] at hk
  rw [hk]
  have hll : last_line chunk = (R.takeWhile (fun b => b != NL)).reverse := by
    unfold last_line
    rw [hS]
  rw [hll]
  have hsplit : R.reverse = (R.dropWhile (fun b => b != NL)).reverse ++
      (R.takeWhile (fun b => b != NL)).reverse := by
    rw [← List.reverse_append, List.takeWhile_append_dropWhile]
  have hWsub : ∀ b ∈ (R.takeWhile (fun b => b != NL)).reverse, b ≠ 0 := by
    intro b hb
    exact hRsub b ((List.takeWhile_sublist _).subset (by simpa using hb))
  have hlenR : (R.dropWhile (fun b => b != NL)).length +
      (R.takeWhile (fun b => b != NL)).length = R.length := by
    have := congrArg List.length (List.takeWhile_append_dropWhile (fun b => b != NL) R)
    rw [List.length_append] at this
    omega
  rcases dropWhile_head_not (fun b => b != NL) R with hD | ⟨x, D, hD, hx⟩
  · rw [hD, List.length_nil, if_neg (by decide)]
    rw [hD] at hsplit
    rw [hsplit]
    simp only [List.reverse_nil, List.nil_append]
    refine ⟨⟨Z, rfl⟩, ?_⟩
    rw [hD] at hlenR
    simp only [List.length_append, List.length_cons, List.length_reverse, hZlen]
    simp only [List.length_nil] at hlenR
    omega
  · have hxNL : x = NL := by simpa using hx
    rw [hD, List.length_cons, if_pos (by omega), Nat.add_sub_cancel]
    rw [hD] at hsplit hlenR
    rw [hsplit, List.reverse_cons, List.append_assoc, List.append_assoc, hxNL]
    generalize hL : (R.takeWhile (fun b => b != NL)).reverse = L at *
    have hLlen : L.length = (R.takeWhile (fun b => b != NL)).length := by
      rw [← hL, List.length_reverse]
    have hc : cstr (D.reverse ++ ([NL] ++ (L ++ 0 :: Z))) D.length = NL :: L := by
      have := cstr_drop D.reverse (NL :: L) Z (by
        intro b hb
        rcases List.mem_cons.mp hb with hb | hb
        · rw [hb]; decide
        · exact hWsub b hb)
      rw [List.length_reverse] at this
      exact this
    rw [hc]
    unfold memmove0
    have hd : (D.reverse ++ ([NL] ++ (L ++ 0 :: Z))).drop (D.length + 1) = L ++ 0 :: Z := by
      have : D.reverse ++ ([NL] ++ (L ++ 0 :: Z)) = (D.reverse ++ [NL]) ++ (L ++ 0 :: Z) := by
        simp
      rw [this]
      have hl : (D.reverse ++ [NL]).length = D.length + 1 := by simp
      rw [← hl, List.drop_left]
    rw [hd]
    have ht : (L ++ 0 :: Z).take (NL :: L).length = L ++ [0] := by
      rw [List.length_cons, List.take_append_eq_append_take]
      simp
    rw [ht, List.append_assoc]
    refine ⟨⟨_, rfl⟩, ?_⟩
    simp only [List.length_append, List.length_cons, List.length_nil, List.length_drop,
      List.length_reverse, hZlen, List.singleton_append]
    simp only [List.length_cons] at hlenR
    omega

/-- C19. For every chunk of 1 to 511 bytes without NUL that `read` stores in
`bar.text` (a buffer of 512 bytes), `handle_statusbar` leaves in `bar.text`
the string that is the last line of the chunk: the chunk with all trailing
newlines removed, then everything after the last remaining newline.  That is
the whole stripped chunk when it holds no newline, and the empty string when
the chunk holds newlines only.  The buffer still has 512 bytes, and `bar.fd`
is left alone. -/
theorem handle_statusbar_last_line (s : State) (chunk : List Nat)
    (htext : s.bar.text.length = 512) (_h1 : 1 ≤ chunk.length) (h2 : chunk.length ≤ 511)
    (h0 : ∀ b ∈ chunk, b ≠ 0) :
    cstr (handle_statusbar (BarRead.data chunk) s).bar.text 0 = last_line chunk ∧
    ((∀ b ∈ (chunk.reverse.dropWhile (fun b => b == NL)), b ≠ NL) →
      last_line chunk = (chunk.reverse.dropWhile (fun b => b == NL)).reverse) ∧
    ((∀ b ∈ chunk, b = NL) → last_line chunk = []) ∧
    (handle_statusbar (BarRead.data chunk) s).bar.text.length = 512 ∧
    (handle_statusbar (BarRead.data chunk) s).bar.fd = s.bar.fd := by
  obtain ⟨⟨rest, hr⟩, hlen⟩ := statusbar_text_spec s.bar.text chunk htext h2 h0
  have hll : ∀ b ∈ last_line chunk, b ≠ 0 := by
    intro b hb
    unfold last_line at hb
    rw [List.mem_reverse] at hb
    have h3 := (List.takeWhile_sublist _).subset hb
    have h4 := (List.dropWhile_sublist _).subset h3
    exact h0 b (by simpa using h4)
  refine ⟨?_, ?_, ?_, hlen, rfl⟩
  · show cstr (statusbar_text s.bar.text chunk) 0 = last_line chunk
    rw [hr]
    exact cstr_append_zero _ _ hll
  · intro h
    unfold last_line
    rw [List.takeWhile_eq_self_iff.mpr (by
      intro b hb
      simpa using h b hb)]
  · intro h
    unfold last_line
    have : chunk.reverse.dropWhile (fun b => b == NL) = [] := by
      rw [List.dropWhile_eq_nil_iff]
      intro b hb
      simpa using h b (by simpa using hb)
    rw [this]
    rfl

set_option maxRecDepth 100000 in
/-- C19 on the chunk "a", newline, "bc", newline, newline read into the
zeroed buffer of the launch state: the text is "bc". -/
theorem handle_statusbar_last_line_witness :
    launch0.bar.text.length = 512 ∧ 1 ≤ [97, 10, 98, 99, 10, 10].length ∧
    [97, 10, 98, 99, 10, 10].length ≤ 511 ∧ (∀ b ∈ [97, 10, 98, 99, 10, 10], b ≠ 0) ∧
    last_line [97, 10, 98, 99, 10, 10] = [98, 99] ∧
    cstr (handle_statusbar (BarRead.data [97, 10, 98, 99, 10, 10]) launch0).bar.text 0 =
      last_line [97, 10, 98, 99, 10, 10] :=
  ⟨by decide, by decide, by decide, by decide, by decide,
   (handle_statusbar_last_line launch0 [97, 10, 98, 99, 10, 10] (by decide) (by decide)
     (by decide) (by decide)).1⟩

/-! ### `handle_editor` -/

theorem drain_nil (realloc_ok : Nat → Bool) (r : Register) :
    drain realloc_ok [] r = if r.len < r.size then none else some r := rfl

theorem drain_done (realloc_ok : Nat → Bool) (rs : List ReadResult) (r : Register)
    (h : ¬ r.len < r.size) : drain realloc_ok rs r = some r := by
  cases rs with
  | nil => rw [drain_nil, if_neg h]
  | cons x rs => simp only [drain]; rw [if_neg h]

theorem drain_eintr (realloc_ok : Nat → Bool) (rs : List ReadResult) (r : Register)
    (h : r.len < r.size) :
    drain realloc_ok (ReadResult.eintr :: rs) r = drain realloc_ok rs r := by
  simp only [drain]; rw [if_pos h]

theorem drain_error (realloc_ok : Nat → Bool) (rs : List ReadResult) (r : Register) :
    drain realloc_ok (ReadResult.error :: rs) r = some r := by
  simp only [drain]; split_ifs <;> rfl

theorem drain_eof (realloc_ok : Nat → Bool) (rs : List ReadResult) (r : Register) :
    drain realloc_ok (ReadResult.eof :: rs) r = some r := by
  simp only [drain]; split_ifs <;> rfl

theorem drain_bytes (realloc_ok : Nat → Bool) (rs : List ReadResult) (r : Register) (k : Nat)
    (h : r.len < r.size) :
    drain realloc_ok (ReadResult.bytes k :: rs) r =
      if r.len + min (k + 1) (r.size - r.len) = r.size then
        if realloc_ok (r.size * 2 % SIZE_MAX1) then
          drain realloc_ok rs
            { data := true, len := r.len + min (k + 1) (r.size - r.len),
              size := r.size * 2 % SIZE_MAX1 }
        else drain realloc_ok rs { data := false, len := 0, size := 0 }
      else drain realloc_ok rs { r with len := r.len + min (k + 1) (r.size - r.len) } := by
  simp only [drain]; rw [if_pos h]

/-- The drain loop keeps `len <= size`, as long as fewer than `2 ^ 63` bytes
arrive, so that `size *= 2` does not wrap. -/
theorem drain_len_le_size (realloc_ok : Nat → Bool) (rs : List ReadResult) (r r' : Register)
    (hr : r.len ≤ r.size) (hb : r.len + (rs.map ReadResult.avail).sum < 2 ^ 63)
    (h : drain realloc_ok rs r = some r') : r'.len ≤ r'.size := by
  induction rs generalizing r with
  | nil =>
    rw [drain_nil] at h
    split_ifs at h
    simp only [Option.some.injEq] at h
    rw [← h]; exact hr
  | cons x rs ih =>
    simp only [List.map_cons, List.sum_cons] at hb
    by_cases h1 : r.len < r.size
    · cases x with
      | eintr =>
        rw [drain_eintr _ _ _ h1] at h
        exact ih r hr (by simp only [ReadResult.avail] at hb; omega) h
      | error =>
        rw [drain_error] at h
        simp only [Option.some.injEq] at h
        rw [← h]; exact hr
      | eof =>
        rw [drain_eof] at h
        simp only [Option.some.injEq] at h
        rw [← h]; exact hr
      | bytes k =>
        simp only [ReadResult.avail] at hb
        rw [drain_bytes _ _ _ _ h1] at h
        by_cases h2 : r.len + min (k + 1) (r.size - r.len) = r.size
        · rw [if_pos h2] at h
          by_cases h3 : realloc_ok (r.size * 2 % SIZE_MAX1) = true
          · rw [if_pos h3] at h
            refine ih _ ?_ ?_ h
            · show r.len + min (k + 1) (r.size - r.len) ≤ r.size * 2 % SIZE_MAX1
              have : r.size * 2 < SIZE_MAX1 := by unfold SIZE_MAX1; omega
              rw [Nat.mod_eq_of_lt this]
              omega
            · show r.len + min (k + 1) (r.size - r.len) + _ < 2 ^ 63
              omega
          · rw [if_neg h3] at h
            refine ih _ (le_refl _) ?_ h
            show 0 + _ < 2 ^ 63
            omega
        · rw [if_neg h2] at h
          refine ih _ ?_ ?_ h
          · show r.len + min (k + 1) (r.size - r.len) ≤ r.size
            omega
          · show r.len + min (k + 1) (r.size - r.len) + _ < 2 ^ 63
            omega
    · rw [drain_done _ _ _ h1] at h
      simp only [Option.some.injEq] at h
      rw [← h]; exact hr

/-- The drain loop ends, at the latest when `read` reports the end of the file. -/
theorem drain_total (realloc_ok : Nat → Bool) (rs : List ReadResult) (r : Register) :
    (drain realloc_ok (rs ++ [ReadResult.eof]) r).isSome = true := by
  induction rs generalizing r with
  | nil =>
    rw [List.nil_append, drain_eof]
    rfl
  | cons x rs ih =>
    rw [List.cons_append]
    by_cases h1 : r.len < r.size
    · cases x with
      | eintr => rw [drain_eintr _ _ _ h1]; exact ih r
      | error => rw [drain_error]; rfl
      | eof => rw [drain_eof]; rfl
      | bytes k =>
        rw [drain_bytes _ _ _ _ h1]
        split_ifs <;> exact ih _
    · rw [drain_done _ _ _ h1]
      rfl

/-- C20. `handle_editor(c)`, given any sequence of `read` results that ends in
the end of the file and in which fewer than `2 ^ 63` bytes arrive, returns;
it leaves `c->term == c->app`, `c->editor == NULL`, `c->editor_died == false`,
`c->editor_fds[1] == -1` and a copy register with `len <= size`; when the
child had no `from` pipe (`c->editor_fds[1] < 0`, a pager) the register is
empty, `len == 0`.  This holds for every client `c`, and so for one in copy
mode. -/
theorem handle_editor_spec (malloc_ok : Bool) (realloc_ok : Nat → Bool) (rs : List ReadResult)
    (c : Nat) (s : State) (hb : (rs.map ReadResult.avail).sum < 2 ^ 63) :
    ∃ s', handle_editor malloc_ok realloc_ok (rs ++ [ReadResult.eof]) c s = some s' ∧
      s'.term c = s'.app c ∧ s'.editor c = none ∧ s'.editor_died c = false ∧
      s'.editor_fds1 c = -1 ∧ s'.copyreg.len ≤ s'.copyreg.size ∧
      (s.editor_fds1 c < 0 → s'.copyreg.len = 0) := by
  unfold handle_editor
  by_cases hfd : 0 ≤ s.editor_fds1 c
  · rw [if_pos hfd]
    have ht := drain_total realloc_ok rs (editor_register malloc_ok s)
    obtain ⟨r, hr⟩ := Option.isSome_iff_exists.mp ht
    rw [hr, Option.some_bind]
    refine ⟨_, rfl, ?_, ?_, ?_, ?_, ?_, ?_⟩
    · simp [editor_close]
    · simp [editor_close]
    · simp [editor_close]
    · simp [editor_close]
    · show r.len ≤ r.size
      refine drain_len_le_size realloc_ok (rs ++ [ReadResult.eof]) _ r ?_ ?_ hr
      · exact Nat.zero_le _
      · show 0 + _ < 2 ^ 63
        simp only [List.map_append, List.sum_append, List.map_cons, List.map_nil, List.sum_cons,
          List.sum_nil, ReadResult.avail]
        omega
    · intro h
      omega
  · rw [if_neg hfd, Option.some_bind]
    refine ⟨_, rfl, ?_, ?_, ?_, ?_, ?_, ?_⟩
    · simp [editor_close]
    · simp [editor_close]
    · simp [editor_close]
    · simp [editor_close]
    · exact Nat.zero_le _
    · intro _
      rfl

set_option maxRecDepth 100000 in
/-- C20 at `three_editing`: the selected client (address 1) is in copy mode
with a `from` pipe; the editor writes 10 and then 5 bytes, with one interrupted
`read` in between, and the register ends with 15 of 500 bytes. -/
theorem handle_editor_spec_witness :
    (three_editing.editor 1 = some (Vt.editor 1) ∧ three_editing.term 1 = three_editing.editor 1 ∧
      three_editing.editor_fds1 1 = 6) ∧
    (handle_editor true (fun _ => true)
        ([ReadResult.bytes 9, ReadResult.eintr, ReadResult.bytes 4] ++ [ReadResult.eof]) 1
        three_editing).map (fun t => (t.copyreg.len, t.copyreg.size)) = some (15, 500) ∧
    (([ReadResult.bytes 9, ReadResult.eintr, ReadResult.bytes 4].map ReadResult.avail).sum
      < 2 ^ 63) ∧
    ∃ s', handle_editor true (fun _ => true)
        ([ReadResult.bytes 9, ReadResult.eintr, ReadResult.bytes 4] ++ [ReadResult.eof]) 1
        three_editing = some s' ∧
      s'.term 1 = s'.app 1 ∧ s'.editor 1 = none ∧ s'.editor_died 1 = false ∧
      s'.editor_fds1 1 = -1 ∧ s'.copyreg.len ≤ s'.copyreg.size ∧
      (three_editing.editor_fds1 1 < 0 → s'.copyreg.len = 0) :=
  ⟨by decide, by decide, by decide,
   handle_editor_spec true (fun _ => true)
     [ReadResult.bytes 9, ReadResult.eintr, ReadResult.bytes 4] 1 three_editing (by decide)⟩

/-! ### The command FIFO: buffers and argument arrays -/

theorem getD_append_left (pre post : List Nat) (i : Nat) (h : i < pre.length) :
    (pre ++ post).getD i 0 = pre.getD i 0 := by
  simp [List.getD_eq_getElem?_getD, List.getElem?_append_left h]

theorem scan_append (f : Nat → Bool) (pre post : List Nat) :
    scan f (pre ++ post) pre.length = pre.length + (post.takeWhile f).length := by
  unfold scan
  rw [List.drop_left]

theorem cstr_append (pre post : List Nat) :
    cstr (pre ++ post) pre.length = post.takeWhile (fun b => b != 0) := by
  unfold cstr
  rw [List.drop_left]

theorem takeWhile_all (f : Nat → Bool) (l : List Nat) (x : Nat) (rest : List Nat)
    (hl : ∀ b ∈ l, f b = true) (hx : f x = false) :
    (l ++ x :: rest).takeWhile f = l := by
  induction l with
  | nil => simp [hx]
  | cons a l ih =>
    rw [List.cons_append, List.takeWhile_cons_of_pos (hl a (List.mem_cons_self a l)),
      ih (fun b hb => hl b (List.mem_cons_of_mem a hb))]

theorem plain_ne (b : Nat) (h : plain b = true) :
    b ≠ 0 ∧ b ≠ SP ∧ b ≠ NL ∧ b ≠ BSL ∧ b ≠ SQ ∧ b ≠ DQ := by
  unfold plain at h
  simp only [Bool.and_eq_true, bne_iff_ne, ne_eq] at h
  tauto

/-- The statements at `case NL:` when the byte before `p` and the first byte
of the argument are not quotes: the byte at `p` becomes NUL, the argument is
stored if there is room, the following spaces are skipped. -/
theorem end_arg_eq (pre rest : List Nat) (x a : Nat) (q : Bool) (A : List Nat)
    (hprev : (pre ++ x :: rest).getD (pre.length - 1) 0 ≠ SQ ∧
      (pre ++ x :: rest).getD (pre.length - 1) 0 ≠ DQ)
    (hfirst : (pre ++ 0 :: rest).getD a 0 ≠ SQ ∧ (pre ++ 0 :: rest).getD a 0 ≠ DQ) :
    end_arg ⟨pre ++ x :: rest, pre.length, a, q, A⟩ =
      ⟨pre ++ 0 :: rest, pre.length + (rest.takeWhile (fun b => b == SP)).length,
       pre.length + 1 + (rest.takeWhile (fun b => b == SP)).length, q,
       if A.length < MAX_ARGS then A ++ [a] else A⟩ := by
  unfold end_arg
  simp only []
  have h1 : ¬((pre ++ x :: rest).getD (pre.length - 1) 0 = SQ ∨
      (pre ++ x :: rest).getD (pre.length - 1) 0 = DQ) := by tauto
  have h2 : ¬((pre ++ 0 :: rest).getD a 0 = SQ ∨ (pre ++ 0 :: rest).getD a 0 = DQ) := by tauto
  rw [if_neg h1, set_append_length, if_neg h2]
  have e : pre ++ 0 :: rest = (pre ++ [0]) ++ rest := by simp
  have hs : scan (fun b => b == SP) (pre ++ 0 :: rest) (pre.length + 1) =
      pre.length + 1 + (rest.takeWhile (fun b => b == SP)).length := by
    have := scan_append (fun b => b == SP) (pre ++ [0]) rest
    rw [List.length_append, List.length_singleton] at this
    rw [e]
    exact this
  rw [hs]
  congr 1
  omega

theorem args_array_eq_pad (st : ArgScan) (h : st.args.length ≤ MAX_ARGS) :
    args_array st = pad_args (st.args.map (fun a => cstr st.buf a)) := by
  unfold args_array pad_args
  rw [List.take_of_length_le (by rw [List.length_map]; exact h), List.map_map, List.length_map]
  rfl

theorem pad_args_push (S : List (List Nat)) (t : List Nat) (rest : List (List Nat))
    (h : S.length ≤ MAX_ARGS) :
    pad_args ((if S.length < MAX_ARGS then S ++ [t] else S) ++ rest) =
      pad_args (S ++ t :: rest) := by
  by_cases h1 : S.length < MAX_ARGS
  · rw [if_pos h1, List.append_assoc]
    rfl
  · rw [if_neg h1]
    have h8 : S.length = MAX_ARGS := by omega
    unfold pad_args
    rw [List.take_append_of_le_length (by omega), List.take_append_of_le_length (by omega)]
    congr 1
    simp only [List.length_append, List.length_cons]
    rw [show MAX_ARGS - (S.length + rest.length) = 0 by omega,
      show MAX_ARGS - (S.length + (rest.length + 1)) = 0 by omega]

theorem cstr_token (pre t rest : List Nat) (ht : ∀ b ∈ t, plain b = true) :
    cstr (pre ++ (t ++ 0 :: rest)) pre.length = t := by
  rw [cstr_append]
  exact takeWhile_all _ t 0 rest (fun b hb => by
    have := (plain_ne b (ht b hb)).1
    simpa using this) (by simp)

theorem push_length_le (A : List Nat) (a : Nat) (h : A.length ≤ MAX_ARGS) :
    (if A.length < MAX_ARGS then A ++ [a] else A).length ≤ MAX_ARGS := by
  split_ifs
  · rw [List.length_append, List.length_singleton]; omega
  · exact h

theorem cmd_loop_done (commands : List Cmd) (fuel : Nat) (buf : List Nat) (p : Nat)
    (h : buf.getD p 0 = 0) : cmd_loop commands (fuel + 1) buf p = some [] := by
  rw [cmd_loop, if_pos h]

theorem scan_zero (f : Nat → Bool) (buf : List Nat) :
    scan f buf 0 = (buf.takeWhile f).length := by
  unfold scan
  rw [List.drop_zero, Nat.zero_add]

theorem pad_args_length (l : List (List Nat)) : (pad_args l).length = MAX_ARGS := by
  unfold pad_args
  simp only [List.length_append, List.length_map, List.length_take, List.length_replicate]
  omega

theorem pad_args_getD (l : List (List Nat)) (k : Nat) (hk : k < MAX_ARGS) :
    (pad_args l).getD k none = l[k]? := by
  unfold pad_args
  rw [List.getD_eq_getElem?_getD]
  by_cases h : k < l.length
  · rw [List.getElem?_append_left (by simp; omega)]
    simp [List.getElem?_take, hk, List.getElem?_eq_getElem h]
  · rw [List.getElem?_append_right (by simp; omega)]
    have : l[k]? = none := List.getElem?_eq_none_iff.mpr (by omega)
    rw [this]
    simp

/-! ### The argument loop on quoted and escaped arguments -/

/-- A byte that the `switch` passes over: not NUL, newline, backslash or a
quote, and a space only inside quotes. -/
theorem arg_loop_inert (fuel : Nat) (st : ArgScan)
    (h0 : st.buf.getD st.p 0 ≠ 0) (hn : st.buf.getD st.p 0 ≠ NL)
    (hb : st.buf.getD st.p 0 ≠ BSL) (hq : isquote (st.buf.getD st.p 0) = false)
    (hs : st.buf.getD st.p 0 = SP → st.quote = true) :
    arg_loop (fuel + 1) st = arg_loop fuel { st with p := st.p + 1 } := by
  have hq' : ¬(st.buf.getD st.p 0 = SQ ∨ st.buf.getD st.p 0 = DQ) := by
    unfold isquote at hq
    simpa using hq
  have hsw : arg_switch st = st := by
    unfold arg_switch
    simp only []
    rw [if_neg hb, if_neg hq', if_neg hn]
    by_cases h : st.buf.getD st.p 0 = SP
    · rw [if_pos h, if_pos (hs h)]
    · rw [if_neg h]
  rw [arg_loop, hsw, if_neg h0, if_neg (by tauto)]

/-- The loop `do { t[-1] = *t; } while (*t++)`: the bytes up to the NUL move
one position to the left, the NUL is copied. -/
theorem shift_left_spec (x : Nat) (R junk : List Nat) (hR : ∀ b ∈ R, b ≠ 0) :
    shift_left (x :: (R ++ 0 :: junk)) = R ++ 0 :: 0 :: junk := by
  induction R generalizing x with
  | nil => simp [shift_left]
  | cons r R ih =>
    have hr : r ≠ 0 := hR r (List.mem_cons_self r R)
    rw [List.cons_append, shift_left, if_neg hr, ih r (fun b hb => hR b (List.mem_cons_of_mem r hb))]
    rfl

theorem unescape_spec (pre R junk : List Nat) (e : Nat) (he : e ≠ 0) (hR : ∀ b ∈ R, b ≠ 0) :
    unescape (pre ++ BSL :: e :: (R ++ 0 :: junk)) pre.length =
      pre ++ e :: (R ++ 0 :: 0 :: junk) := by
  unfold unescape
  rw [List.take_left, List.drop_left]
  have := shift_left_spec BSL (e :: R) junk (by
    intro b hb
    rcases List.mem_cons.mp hb with h | h
    · rw [h]; exact he
    · exact hR b h)
  rw [List.cons_append] at this
  rw [this]
  rfl

/-- The argument loop at an escaped backslash or quote: the backslash is
removed, the escaped byte is passed over. -/
theorem arg_loop_escape (fuel : Nat) (pre R junk : List Nat) (e a : Nat) (q : Bool)
    (A : List Nat) (he : e = BSL ∨ e = SQ ∨ e = DQ) (hR : ∀ b ∈ R, b ≠ 0) :
    arg_loop (fuel + 1) ⟨pre ++ BSL :: e :: (R ++ 0 :: junk), pre.length, a, q, A⟩ =
      arg_loop fuel ⟨(pre ++ [e]) ++ (R ++ 0 :: 0 :: junk), (pre ++ [e]).length, a, q, A⟩ := by
  have he0 : e ≠ 0 := by rcases he with h | h | h <;> rw [h] <;> decide
  have heN : e ≠ NL := by rcases he with h | h | h <;> rw [h] <;> decide
  have hnext : (pre ++ BSL :: e :: (R ++ 0 :: junk)).getD (pre.length + 1) 0 = e := by
    have e1 : pre ++ BSL :: e :: (R ++ 0 :: junk) = (pre ++ [BSL]) ++ e :: (R ++ 0 :: junk) := by
      simp
    have hl : pre.length + 1 = (pre ++ [BSL]).length := by
      simp only [List.length_append, List.length_singleton]
    rw [e1, hl, getD_append_length]
  have hsw : arg_switch ⟨pre ++ BSL :: e :: (R ++ 0 :: junk), pre.length, a, q, A⟩ =
      ⟨pre ++ e :: (R ++ 0 :: 0 :: junk), pre.length, a, q, A⟩ := by
    unfold arg_switch
    simp only []
    rw [getD_append_length, if_pos rfl, hnext, if_pos he, unescape_spec pre R junk e he0 hR]
  rw [arg_loop, hsw]
  simp only []
  rw [getD_append_length, getD_append_length, if_neg (by decide), if_neg (by
    intro h
    rcases h with h | h
    · exact absurd h (by decide)
    · exact heN h)]
  congr 2
  · simp
  · simp only [List.length_append, List.length_singleton]

/-- The argument loop at a quote character: `quote` is flipped. -/
theorem arg_loop_quote (fuel : Nat) (pre rest : List Nat) (x a : Nat) (q : Bool) (A : List Nat)
    (hx : x = SQ ∨ x = DQ) :
    arg_loop (fuel + 1) ⟨pre ++ x :: rest, pre.length, a, q, A⟩ =
      arg_loop fuel ⟨(pre ++ [x]) ++ rest, (pre ++ [x]).length, a, !q, A⟩ := by
  have hx0 : x ≠ 0 := by rcases hx with h | h <;> rw [h] <;> decide
  have hxN : x ≠ NL := by rcases hx with h | h <;> rw [h] <;> decide
  have hxB : x ≠ BSL := by rcases hx with h | h <;> rw [h] <;> decide
  have hsw : arg_switch ⟨pre ++ x :: rest, pre.length, a, q, A⟩ =
      ⟨pre ++ x :: rest, pre.length, a, !q, A⟩ := by
    unfold arg_switch
    simp only []
    rw [getD_append_length, if_neg hxB, if_pos hx]
  rw [arg_loop, hsw]
  simp only []
  rw [getD_append_length, if_neg hx0, if_neg (by tauto)]
  congr 2
  · simp
  · simp only [List.length_append, List.length_singleton]

/-- The argument loop at a backslash that the next byte does not make an
escape of: the backslash is passed over. -/
theorem arg_loop_backslash (fuel : Nat) (pre rest : List Nat) (a : Nat) (q : Bool)
    (A : List Nat) (hnext : escapable (rest.headD 0) = false) :
    arg_loop (fuel + 1) ⟨pre ++ BSL :: rest, pre.length, a, q, A⟩ =
      arg_loop fuel ⟨pre ++ BSL :: rest, pre.length + 1, a, q, A⟩ := by
  have hget : (pre ++ BSL :: rest).getD (pre.length + 1) 0 = rest.headD 0 := by
    have e1 : pre ++ BSL :: rest = (pre ++ [BSL]) ++ rest := by simp
    have hl : pre.length + 1 = (pre ++ [BSL]).length := by
      simp only [List.length_append, List.length_singleton]
    cases rest with
    | nil =>
      rw [List.getD_eq_default _ _ (by simp)]
      rfl
    | cons r rest =>
      rw [e1, hl, getD_append_length]
      rfl
  have hne : ¬(rest.headD 0 = BSL ∨ rest.headD 0 = SQ ∨ rest.headD 0 = DQ) := by
    unfold escapable isquote at hnext
    simpa using hnext
  have hsw : arg_switch ⟨pre ++ BSL :: rest, pre.length, a, q, A⟩ =
      ⟨pre ++ BSL :: rest, pre.length, a, q, A⟩ := by
    unfold arg_switch
    simp only []
    rw [getD_append_length, if_pos rfl, hget, if_neg hne]
  rw [arg_loop, hsw]
  simp only []
  rw [getD_append_length, if_neg (by decide), if_neg (by
    intro h
    rcases h with h | h <;> exact absurd h (by decide))]

theorem body_ok_ch (q : Bool) (nxt b : Nat) (l : List Piece)
    (h : body_ok q nxt (Piece.ch b :: l) = true) :
    b ≠ 0 ∧ b ≠ NL ∧ isquote b = false ∧ (b = SP → q = true) ∧
      (b = BSL → escapable ((body_text l).headD nxt) = false) ∧ body_ok q nxt l = true := by
  unfold body_ok at h
  simp only [Bool.or_eq_true, Bool.and_eq_true, beq_iff_eq, Bool.not_eq_true'] at h
  obtain ⟨h, hl⟩ := h
  rcases h with (h | ⟨h1, h2⟩) | ⟨h1, h2⟩
  · obtain ⟨a0, a1, a2, a3, a4, a5⟩ := plain_ne b h
    refine ⟨a0, a2, ?_, fun e => absurd e a1, fun e => absurd e a3, hl⟩
    unfold isquote
    simp [a4, a5]
  · rw [h2]
    exact ⟨by decide, by decide, by decide, fun _ => h1, fun e => absurd e (by decide), hl⟩
  · rw [h1]
    exact ⟨by decide, by decide, by decide, fun e => absurd e (by decide), fun _ => h2, hl⟩

theorem body_ok_esc (q : Bool) (nxt e : Nat) (l : List Piece)
    (h : body_ok q nxt (Piece.esc e :: l) = true) :
    (e = BSL ∨ e = SQ ∨ e = DQ) ∧ body_ok q nxt l = true := by
  unfold body_ok at h
  simp only [Bool.and_eq_true] at h
  refine ⟨?_, h.2⟩
  have := h.1
  unfold escapable isquote at this
  simpa using this

theorem body_text_ne_zero (q : Bool) (nxt : Nat) (pieces : List Piece)
    (hok : body_ok q nxt pieces = true) : ∀ b ∈ body_text pieces, b ≠ 0 := by
  induction pieces with
  | nil => intro b hb; simp [body_text] at hb
  | cons x pieces ih =>
    intro b hb
    simp only [body_text, List.mem_append] at hb
    cases x with
    | ch c =>
      obtain ⟨c0, -, -, -, -, hl⟩ := body_ok_ch q nxt c pieces hok
      rcases hb with hb | hb
      · simp only [Piece.text, List.mem_singleton] at hb
        rw [hb]
        exact c0
      · exact ih hl b hb
    | esc e =>
      obtain ⟨he, hl⟩ := body_ok_esc q nxt e pieces hok
      rcases hb with hb | hb
      · simp only [Piece.text, List.mem_cons, List.mem_singleton, List.not_mem_nil,
          or_false] at hb
        rcases hb with hb | hb
        · rw [hb]; decide
        · rw [hb]
          rcases he with h | h | h <;> rw [h] <;> decide
      · exact ih hl b hb

/-- The byte after a backslash that stands for itself, in the buffer. -/
theorem next_not_escapable (l : List Piece) (nxt : Nat) (R junk : List Nat)
    (h : escapable ((body_text l).headD nxt) = false)
    (hR1 : escapable nxt = false → escapable ((R ++ [0]).headD 0) = false) :
    escapable ((body_text l ++ (R ++ 0 :: junk)).headD 0) = false := by
  cases hb : body_text l with
  | nil =>
    rw [hb] at h
    have := hR1 h
    cases R with
    | nil => exact this
    | cons r R => exact this
  | cons x t =>
    rw [hb] at h
    exact h

/-- The argument loop runs over the pieces of an argument: the bytes that
stand for themselves are passed over, each escape is collapsed.  What follows
the argument up to the NUL, `R`, moves to the left with each escape. -/
theorem arg_loop_body (pieces : List Piece) (q : Bool) (nxt : Nat)
    (hok : body_ok q nxt pieces = true)
    (fuel : Nat) (pre R junk : List Nat) (a : Nat) (A : List Nat) (hR : ∀ b ∈ R, b ≠ 0)
    (hR1 : escapable nxt = false → escapable ((R ++ [0]).headD 0) = false) :
    ∃ junk', arg_loop (fuel + pieces.length)
        ⟨pre ++ (body_text pieces ++ (R ++ 0 :: junk)), pre.length, a, q, A⟩ =
      arg_loop fuel ⟨(pre ++ pieces.map Piece.val) ++ (R ++ 0 :: junk'),
        (pre ++ pieces.map Piece.val).length, a, q, A⟩ := by
  induction pieces generalizing pre junk with
  | nil =>
    refine ⟨junk, ?_⟩
    simp only [body_text, List.nil_append, List.length_nil, Nat.add_zero, List.map_nil,
      List.append_nil]
  | cons x pieces ih =>
    rw [List.length_cons, ← Nat.add_assoc]
    cases x with
    | ch b =>
      obtain ⟨b0, b1, b3, b4, b5, hok'⟩ := body_ok_ch q nxt b pieces hok
      have e0 : pre ++ (body_text (Piece.ch b :: pieces) ++ (R ++ 0 :: junk)) =
          pre ++ b :: (body_text pieces ++ (R ++ 0 :: junk)) := by
        simp [body_text, Piece.text]
      have hstep : arg_loop (fuel + pieces.length + 1)
          ⟨pre ++ b :: (body_text pieces ++ (R ++ 0 :: junk)), pre.length, a, q, A⟩ =
          arg_loop (fuel + pieces.length)
            ⟨pre ++ b :: (body_text pieces ++ (R ++ 0 :: junk)), pre.length + 1, a, q, A⟩ := by
        by_cases hb : b = BSL
        · rw [hb]
          exact arg_loop_backslash _ pre _ a q A
            (next_not_escapable pieces nxt R junk (b5 hb) hR1)
        · have hget : (pre ++ b :: (body_text pieces ++ (R ++ 0 :: junk))).getD
              pre.length 0 = b := getD_append_length _ _ _
          rw [arg_loop_inert _ _ (by rw [hget]; exact b0) (by rw [hget]; exact b1)
            (by rw [hget]; exact hb) (by rw [hget]; exact b3) (by rw [hget]; exact b4)]
      obtain ⟨junk', hj⟩ := ih hok' (pre ++ [b]) junk
      refine ⟨junk', ?_⟩
      have e1 : pre ++ b :: (body_text pieces ++ (R ++ 0 :: junk)) =
          (pre ++ [b]) ++ (body_text pieces ++ (R ++ 0 :: junk)) := by
        simp
      have e2 : pre ++ List.map Piece.val (Piece.ch b :: pieces) =
          (pre ++ [b]) ++ List.map Piece.val pieces := by
        simp [Piece.val]
      have hl : pre.length + 1 = (pre ++ [b]).length := by
        simp only [List.length_append, List.length_singleton]
      rw [e0, hstep, e2, ← hj, e1, hl]
    | esc e =>
      obtain ⟨he, hok'⟩ := body_ok_esc q nxt e pieces hok
      have hR' : ∀ b ∈ body_text pieces ++ R, b ≠ 0 := by
        intro b hb
        rcases List.mem_append.mp hb with h | h
        · exact body_text_ne_zero q nxt pieces hok' b h
        · exact hR b h
      have e1 : pre ++ (body_text (Piece.esc e :: pieces) ++ (R ++ 0 :: junk)) =
          pre ++ BSL :: e :: ((body_text pieces ++ R) ++ 0 :: junk) := by
        simp [body_text, Piece.text]
      rw [e1, arg_loop_escape _ pre (body_text pieces ++ R) junk e a q A he hR']
      obtain ⟨junk', hj⟩ := ih hok' (pre ++ [e]) (0 :: junk)
      refine ⟨junk', ?_⟩
      have e2 : pre ++ List.map Piece.val (Piece.esc e :: pieces) =
          (pre ++ [e]) ++ List.map Piece.val pieces := by
        simp [Piece.val]
      have e3 : (pre ++ [e]) ++ ((body_text pieces ++ R) ++ 0 :: 0 :: junk) =
          (pre ++ [e]) ++ (body_text pieces ++ (R ++ 0 :: 0 :: junk)) := by
        simp
      rw [e2, ← hj, e3]

theorem set_append_left (pre post : List Nat) (i v : Nat) (h : i < pre.length) :
    (pre ++ post).set i v = pre.set i v ++ post := by
  induction pre generalizing i with
  | nil => simp at h
  | cons a pre ih =>
    cases i with
    | zero => rfl
    | succ i =>
      simp only [List.cons_append, List.set_cons_succ]
      rw [ih i (by simpa using h)]

/-- The statements at `case NL:` for an argument between quotes: the closing
quote and the byte at `p` become NUL, the stored pointer skips the opening
quote. -/
theorem end_arg_quoted (pre v rest : List Nat) (qo qc x : Nat) (q : Bool) (A : List Nat)
    (hqo : isquote qo = true) (hqc : isquote qc = true) :
    end_arg ⟨(pre ++ qo :: (v ++ [qc])) ++ x :: rest, (pre ++ qo :: (v ++ [qc])).length,
        pre.length, q, A⟩ =
      ⟨(pre ++ qo :: (v ++ [0])) ++ 0 :: rest,
       (pre ++ qo :: (v ++ [0])).length + (rest.takeWhile (fun b => b == SP)).length,
       (pre ++ qo :: (v ++ [0])).length + 1 + (rest.takeWhile (fun b => b == SP)).length, q,
       if A.length < MAX_ARGS then A ++ [pre.length + 1] else A⟩ := by
  have hqo' : qo = SQ ∨ qo = DQ := by unfold isquote at hqo; simpa using hqo
  have hqc' : qc = SQ ∨ qc = DQ := by unfold isquote at hqc; simpa using hqc
  have hl : (pre ++ qo :: (v ++ [qc])).length - 1 = (pre ++ qo :: v).length := by
    simp only [List.length_append, List.length_cons, List.length_singleton, List.length_nil]
    omega
  have e1 : (pre ++ qo :: (v ++ [qc])) ++ x :: rest = (pre ++ qo :: v) ++ qc :: (x :: rest) := by
    simp
  have hprev : ((pre ++ qo :: (v ++ [qc])) ++ x :: rest).getD
      ((pre ++ qo :: (v ++ [qc])).length - 1) 0 = qc := by
    rw [hl, e1, getD_append_length]
  have hset1 : ((pre ++ qo :: (v ++ [qc])) ++ x :: rest).set
      ((pre ++ qo :: (v ++ [qc])).length - 1) 0 = (pre ++ qo :: (v ++ [0])) ++ x :: rest := by
    rw [hl, e1, set_append_length]
    simp
  have hlen2 : (pre ++ qo :: (v ++ [qc])).length = (pre ++ qo :: (v ++ [0])).length := by
    simp only [List.length_append, List.length_cons, List.length_singleton]
  have hset2 : ((pre ++ qo :: (v ++ [0])) ++ x :: rest).set
      (pre ++ qo :: (v ++ [qc])).length 0 = (pre ++ qo :: (v ++ [0])) ++ 0 :: rest := by
    rw [hlen2, set_append_length]
  have hfirst : ((pre ++ qo :: (v ++ [0])) ++ 0 :: rest).getD pre.length 0 = qo := by
    have : (pre ++ qo :: (v ++ [0])) ++ 0 :: rest = pre ++ qo :: ((v ++ [0]) ++ 0 :: rest) := by
      simp
    rw [this, getD_append_length]
  have hs : scan (fun b => b == SP) ((pre ++ qo :: (v ++ [0])) ++ 0 :: rest)
      ((pre ++ qo :: (v ++ [qc])).length + 1) =
      (pre ++ qo :: (v ++ [0])).length + 1 + (rest.takeWhile (fun b => b == SP)).length := by
    have := scan_append (fun b => b == SP) ((pre ++ qo :: (v ++ [0])) ++ [0]) rest
    rw [List.length_append, List.length_singleton] at this
    have e2 : (pre ++ qo :: (v ++ [0])) ++ 0 :: rest = ((pre ++ qo :: (v ++ [0])) ++ [0]) ++ rest := by
      simp
    rw [e2, hlen2]
    exact this
  unfold end_arg
  simp only []
  rw [hprev, if_pos hqc', hset1, hset2, hfirst, if_pos hqo', hs]
  congr 1
  omega

/-- The argument loop at a space outside quotes: the argument is closed, and
the loop goes on at the byte after the spaces. -/
theorem arg_loop_sep_space (fuel : Nat) (st : ArgScan) (hc : st.buf.getD st.p 0 = SP)
    (hq : st.quote = false)
    (hn : (end_arg st).buf.getD (end_arg st).p 0 ≠ NL) :
    arg_loop (fuel + 1) st = arg_loop fuel { end_arg st with p := (end_arg st).p + 1 } := by
  have hsw : arg_switch st = end_arg st := by
    unfold arg_switch
    simp only []
    rw [hc, if_neg (by decide), if_neg (by decide), if_pos rfl, hq]
    rfl
  rw [arg_loop, hsw, hc, if_neg (by decide), if_neg (by
    intro h
    rcases h with h | h
    · exact absurd h (by decide)
    · exact hn h)]

/-- The argument loop at the newline: the argument is closed and the command
is called. -/
theorem arg_loop_sep_newline (fuel : Nat) (st : ArgScan) (hc : st.buf.getD st.p 0 = NL) :
    arg_loop (fuel + 1) st =
      some ({ end_arg st with
                p := if (end_arg st).buf.getD (end_arg st).p 0 = 0 then (end_arg st).p + 1
                     else (end_arg st).p },
            some (args_array (end_arg st))) := by
  have hsw : arg_switch st = end_arg st := by
    unfold arg_switch
    simp only []
    rw [hc, if_neg (by decide), if_neg (by decide), if_neg (by decide), if_pos rfl]
  rw [arg_loop, hsw, hc, if_neg (by decide), if_pos (Or.inl rfl)]

theorem body_text_length (pieces : List Piece) : pieces.length ≤ (body_text pieces).length := by
  induction pieces with
  | nil => simp [body_text]
  | cons x pieces ih =>
    cases x <;> simp only [body_text, Piece.text, List.length_append, List.length_cons,
      List.length_nil] <;> omega

theorem vals_ne_zero (q : Bool) (nxt : Nat) (pieces : List Piece)
    (hok : body_ok q nxt pieces = true) : ∀ b ∈ pieces.map Piece.val, b ≠ 0 := by
  induction pieces with
  | nil => intro b hb; simp at hb
  | cons x pieces ih =>
    intro b hb
    rw [List.map_cons] at hb
    cases x with
    | ch c =>
      obtain ⟨c0, -, -, -, -, hl⟩ := body_ok_ch q nxt c pieces hok
      rcases List.mem_cons.mp hb with h | h
      · rw [h]; exact c0
      · exact ih hl b h
    | esc e =>
      obtain ⟨he, hl⟩ := body_ok_esc q nxt e pieces hok
      rcases List.mem_cons.mp hb with h | h
      · rw [h]
        show e ≠ 0
        rcases he with h | h | h <;> rw [h] <;> decide
      · exact ih hl b h

theorem getD_last_of_append (pre v rest : List Nat) (hv : v ≠ []) :
    ((pre ++ v) ++ rest).getD ((pre ++ v).length - 1) 0 = v.getLastD 0 := by
  obtain ⟨v', x, rfl⟩ : ∃ v' x, v = v' ++ [x] := by
    rcases List.eq_nil_or_concat v with h | ⟨v', x, h⟩
    · exact absurd h hv
    · exact ⟨v', x, by rw [h, List.concat_eq_append]⟩
  have e : (pre ++ (v' ++ [x])) ++ rest = (pre ++ v') ++ x :: rest := by simp
  have hl : (pre ++ (v' ++ [x])).length - 1 = (pre ++ v').length := by simp
  rw [e, hl, getD_append_length]
  simp

theorem getD_first_of_append (pre v rest : List Nat) (hv : v ≠ []) :
    ((pre ++ v) ++ rest).getD pre.length 0 = v.headD 0 := by
  cases v with
  | nil => exact absurd rfl hv
  | cons x v =>
    have e : (pre ++ x :: v) ++ rest = pre ++ x :: (v ++ rest) := by simp
    rw [e, getD_append_length]
    rfl

theorem cstr_at (pre v Z : List Nat) (hv : ∀ b ∈ v, b ≠ 0) :
    cstr (pre ++ (v ++ 0 :: Z)) pre.length = v := by
  rw [cstr_append]
  exact takeWhile_all _ v 0 Z (fun b hb => by simpa using hv b hb) (by simp)

/-- The argument loop from the first byte of a well-formed argument to the
byte after it; what the statements at `case NL:` do there; and the string
they store. -/
theorem arg_to_sep (a : Arg) (ha : a.ok = true) (pre : List Nat) :
    ∃ (n : Nat) (B B' : List Nat) (ptr : Nat),
      n ≤ a.text.length ∧
      (∀ Z, cstr ((pre ++ B') ++ 0 :: Z) ptr = a.val) ∧
      (∀ x rest q A,
        end_arg ⟨(pre ++ B) ++ x :: rest, (pre ++ B).length, pre.length, q, A⟩ =
          ⟨(pre ++ B') ++ 0 :: rest,
           (pre ++ B').length + (rest.takeWhile (fun b => b == SP)).length,
           (pre ++ B').length + 1 + (rest.takeWhile (fun b => b == SP)).length, q,
           if A.length < MAX_ARGS then A ++ [ptr] else A⟩) ∧
      (∀ fuel R junk A, (∀ b ∈ R, b ≠ 0) → escapable ((R ++ [0]).headD 0) = false →
        ∃ junk', arg_loop (fuel + n)
            ⟨pre ++ (a.text ++ (R ++ 0 :: junk)), pre.length, pre.length, false, A⟩ =
          arg_loop fuel ⟨(pre ++ B) ++ (R ++ 0 :: junk'), (pre ++ B).length, pre.length,
            false, A⟩) := by
  obtain ⟨quote, body⟩ := a
  cases quote with
  | none =>
    unfold Arg.ok at ha
    simp only [Bool.and_eq_true, Bool.not_eq_true'] at ha
    obtain ⟨⟨⟨hne, hok⟩, hfirst⟩, hlast⟩ := ha
    have hvne : body.map Piece.val ≠ [] := by
      cases body with
      | nil => simp at hne
      | cons x l => simp
    have hv0 := vals_ne_zero false SP body hok
    refine ⟨body.length, body.map Piece.val, body.map Piece.val, pre.length,
      body_text_length body, ?_, ?_, ?_⟩
    · intro Z
      rw [List.append_assoc]
      exact cstr_at pre _ Z hv0
    · intro x rest q A
      refine end_arg_eq (pre ++ body.map Piece.val) rest x pre.length q A ?_ ?_
      · rw [getD_last_of_append pre _ _ hvne]
        have : isquote ((body.map Piece.val).getLastD 0) = false := hlast
        unfold isquote at this
        simpa using this
      · rw [getD_first_of_append pre _ _ hvne]
        have : isquote ((body.map Piece.val).headD 0) = false := hfirst
        unfold isquote at this
        simpa using this
    · intro fuel R junk A hR hR1
      exact arg_loop_body body false SP hok fuel pre R junk pre.length A hR (fun _ => hR1)
  | some qo =>
    unfold Arg.ok at ha
    simp only [Bool.and_eq_true] at ha
    obtain ⟨hq, hok⟩ := ha
    have hq' : qo = SQ ∨ qo = DQ := by unfold isquote at hq; simpa using hq
    have hq0 : qo ≠ 0 := by rcases hq' with h | h <;> rw [h] <;> decide
    have hqe : escapable qo = true := by unfold escapable; rw [hq]; simp
    have hv0 := vals_ne_zero true qo body hok
    refine ⟨body.length + 2, qo :: (body.map Piece.val ++ [qo]),
      qo :: (body.map Piece.val ++ [0]), pre.length + 1, ?_, ?_, ?_, ?_⟩
    · have := body_text_length body
      simp only [Arg.text, List.length_cons, List.length_append, List.length_singleton]
      omega
    · intro Z
      have e : (pre ++ qo :: (body.map Piece.val ++ [0])) ++ 0 :: Z =
          (pre ++ [qo]) ++ (body.map Piece.val ++ 0 :: (0 :: Z)) := by simp
      have hl : pre.length + 1 = (pre ++ [qo]).length := by
        simp only [List.length_append, List.length_singleton]
      rw [e, hl]
      exact cstr_at _ _ _ hv0
    · intro x rest q A
      exact end_arg_quoted pre _ rest qo qo x q A hq hq
    · intro fuel R junk A hR _
      have hR2 : ∀ b ∈ qo :: R, b ≠ 0 := by
        intro b hb
        rcases List.mem_cons.mp hb with h | h
        · rw [h]; exact hq0
        · exact hR b h
      obtain ⟨junk', hj⟩ := arg_loop_body body true qo hok (fuel + 1) (pre ++ [qo]) (qo :: R)
        junk pre.length A hR2 (fun h => by rw [hqe] at h; exact absurd h (by decide))
      refine ⟨junk', ?_⟩
      have e1 : pre ++ (Arg.text ⟨some qo, body⟩ ++ (R ++ 0 :: junk)) =
          pre ++ qo :: (body_text body ++ (qo :: R ++ 0 :: junk)) := by
        simp [Arg.text]
      have f1 : fuel + (body.length + 2) = (fuel + 1 + body.length) + 1 := by omega
      rw [e1, f1, arg_loop_quote _ pre _ qo pre.length false A hq']
      show arg_loop (fuel + 1 + body.length) ⟨(pre ++ [qo]) ++ _, (pre ++ [qo]).length,
        pre.length, true, A⟩ = _
      rw [hj]
      have e2 : (pre ++ [qo] ++ List.map Piece.val body) ++ (qo :: R ++ 0 :: junk') =
          (pre ++ [qo] ++ List.map Piece.val body) ++ qo :: (R ++ 0 :: junk') := by simp
      rw [e2, arg_loop_quote _ _ _ qo pre.length true A hq']
      congr 2
      · simp
      · simp

theorem push_map (A : List Nat) (S : List (List Nat)) (ptr : Nat) (v : List Nat)
    (f : Nat → List Nat) (hA : A.map f = S) (hp : f ptr = v) :
    (if A.length < MAX_ARGS then A ++ [ptr] else A).map f =
      if S.length < MAX_ARGS then S ++ [v] else S := by
  have hlen : S.length = A.length := by rw [← hA, List.length_map]
  rw [hlen]
  split_ifs
  · rw [List.map_append, hA, List.map_singleton, hp]
  · exact hA

theorem arg_text_ne_zero (a : Arg) (ha : a.ok = true) : ∀ b ∈ a.text, b ≠ 0 := by
  obtain ⟨quote, body⟩ := a
  cases quote with
  | none =>
    unfold Arg.ok at ha
    simp only [Bool.and_eq_true, Bool.not_eq_true'] at ha
    exact body_text_ne_zero false SP body ha.1.1.2
  | some qo =>
    unfold Arg.ok at ha
    simp only [Bool.and_eq_true] at ha
    obtain ⟨hq, hok⟩ := ha
    have hq' : qo = SQ ∨ qo = DQ := by unfold isquote at hq; simpa using hq
    have hq0 : qo ≠ 0 := by rcases hq' with h | h <;> rw [h] <;> decide
    intro b hb
    simp only [Arg.text, List.mem_cons, List.mem_append, List.mem_singleton,
      List.not_mem_nil, or_false] at hb
    rcases hb with h | h | h
    · rw [h]; exact hq0
    · exact body_text_ne_zero true qo body hok b h
    · rw [h]; exact hq0

theorem args_text_ne_zero (args : List (Nat × Arg)) (hargs : ∀ x ∈ args, x.2.ok = true) :
    ∀ b ∈ args_text args, b ≠ 0 := by
  induction args with
  | nil => intro b hb; simp [args_text] at hb
  | cons x args ih =>
    intro b hb
    simp only [args_text, List.mem_append] at hb
    rcases hb with h | h | h
    · rw [(List.mem_replicate.mp h).2]; decide
    · exact arg_text_ne_zero x.2 (hargs x (List.mem_cons_self x args)) b h
    · exact ih (fun y hy => hargs y (List.mem_cons_of_mem x hy)) b h

/-- The text of a well-formed argument does not start with a space. -/
theorem arg_text_no_space (a : Arg) (ha : a.ok = true) (X : List Nat) :
    (a.text ++ X).takeWhile (fun b => b == SP) = [] := by
  obtain ⟨quote, body⟩ := a
  cases quote with
  | none =>
    unfold Arg.ok at ha
    simp only [Bool.and_eq_true, Bool.not_eq_true'] at ha
    obtain ⟨⟨⟨hne, hok⟩, -⟩, -⟩ := ha
    cases body with
    | nil => simp at hne
    | cons x l =>
      cases x with
      | ch c =>
        have h := body_ok_ch false SP c l hok
        have hc : c ≠ SP := fun e => by simpa using h.2.2.2.1 e
        simp only [Arg.text, body_text, Piece.text, List.singleton_append, List.cons_append]
        rw [List.takeWhile_cons_of_neg (by simpa using hc)]
      | esc e =>
        simp only [Arg.text, body_text, Piece.text, List.cons_append]
        rw [List.takeWhile_cons_of_neg (by decide)]
  | some qo =>
    unfold Arg.ok at ha
    simp only [Bool.and_eq_true] at ha
    obtain ⟨hq, -⟩ := ha
    have hq' : qo = SQ ∨ qo = DQ := by unfold isquote at hq; simpa using hq
    have hqs : qo ≠ SP := by rcases hq' with h | h <;> rw [h] <;> decide
    simp only [Arg.text, List.cons_append]
    rw [List.takeWhile_cons_of_neg (by simpa using hqs)]

theorem takeWhile_spaces (k : Nat) (T : List Nat)
    (hT : T.takeWhile (fun b => b == SP) = []) :
    ((List.replicate k SP ++ T).takeWhile (fun b => b == SP)).length = k := by
  induction k with
  | zero => simp [hT]
  | succ k ih =>
    rw [List.replicate_succ, List.cons_append, List.takeWhile_cons_of_pos (by simp),
      List.length_cons, ih]

theorem getD_after_spaces (P T : List Nat) (k : Nat) :
    (P ++ 0 :: (List.replicate k SP ++ T)).getD (P.length + k) 0 ≠ NL := by
  cases k with
  | zero =>
    rw [Nat.add_zero, getD_append_length]
    decide
  | succ k =>
    have e : P ++ 0 :: (List.replicate (k + 1) SP ++ T) =
        (P ++ 0 :: List.replicate k SP) ++ SP :: T := by
      rw [List.replicate_succ']
      simp
    have hl : P.length + (k + 1) = (P ++ 0 :: List.replicate k SP).length := by
      simp only [List.length_append, List.length_cons, List.length_replicate]
    rw [e, hl, getD_append_length]
    decide

theorem args_array_push (buf : List Nat) (A : List Nat) (S : List (List Nat)) (ptr : Nat)
    (v : List Nat) (p arg : Nat) (hA : A.map (fun a => cstr buf a) = S)
    (hp : cstr buf ptr = v) (hAlen : A.length ≤ MAX_ARGS) :
    args_array ⟨buf, p, arg, false, if A.length < MAX_ARGS then A ++ [ptr] else A⟩ =
      pad_args (S ++ [v]) := by
  have hSlen : S.length = A.length := by rw [← hA, List.length_map]
  rw [args_array_eq_pad _ (push_length_le A ptr hAlen)]
  show pad_args ((if A.length < MAX_ARGS then A ++ [ptr] else A).map (fun a => cstr buf a)) = _
  rw [push_map A S ptr v _ hA hp]
  have := pad_args_push S v [] (by omega)
  rw [List.append_nil] at this
  exact this

/-- The argument loop on the arguments of a command line, each well formed
and after at least one space, a newline at the end: the command is called
with the strings already stored and the values of the arguments, in order, as
far as the array has room. -/
theorem arg_loop_args (args : List (Nat × Arg)) (a : Arg) (pre : List Nat) (A : List Nat)
    (S : List (List Nat)) (fuel : Nat) (junk : List Nat)
    (ha : a.ok = true) (hargs : ∀ x ∈ args, x.2.ok = true)
    (hA : ∀ Z, A.map (fun p => cstr (pre ++ Z) p) = S)
    (hAlen : A.length ≤ MAX_ARGS)
    (hfuel : (a.text ++ args_text args).length + 1 ≤ fuel) :
    ∃ st, arg_loop fuel ⟨pre ++ (a.text ++ (args_text args ++ NL :: 0 :: junk)), pre.length,
        pre.length, false, A⟩ = some (st, some (pad_args (S ++ a.val :: args_vals args))) ∧
      st.buf.getD st.p 0 = 0 := by
  induction args generalizing a pre A S fuel junk with
  | nil =>
    obtain ⟨n, B, B', ptr, hn, hcstr, hend, hloop⟩ := arg_to_sep a ha pre
    have hSlen : S.length = A.length := by rw [← hA [], List.length_map]
    simp only [args_text, List.append_nil, List.nil_append] at hfuel ⊢
    obtain ⟨f, rfl⟩ : ∃ f, fuel = (f + 1) + n := ⟨fuel - n - 1, by omega⟩
    obtain ⟨junk', hj⟩ := hloop (f + 1) [NL] junk A (by
      intro b hb
      rw [List.mem_singleton.mp hb]
      decide) (by decide)
    have e1 : pre ++ (a.text ++ NL :: 0 :: junk) = pre ++ (a.text ++ ([NL] ++ 0 :: junk)) := by
      simp
    rw [e1, hj]
    have e2 : (pre ++ B) ++ ([NL] ++ 0 :: junk') = (pre ++ B) ++ NL :: (0 :: junk') := by simp
    rw [e2, arg_loop_sep_newline f _ (getD_append_length _ _ _), hend NL (0 :: junk') false A]
    have htw : (0 :: junk').takeWhile (fun b => b == SP) = [] :=
      List.takeWhile_cons_of_neg (by decide)
    rw [htw]
    simp only [List.length_nil, Nat.add_zero]
    rw [getD_append_length, if_pos rfl]
    rw [args_array_push _ A S ptr a.val _ _ (by
        have := hA (B' ++ 0 :: 0 :: junk')
        rw [← List.append_assoc] at this
        exact this) (hcstr (0 :: junk')) hAlen]
    refine ⟨⟨(pre ++ B') ++ 0 :: 0 :: junk', (pre ++ B').length + 1, (pre ++ B').length + 1,
      false, if A.length < MAX_ARGS then A ++ [ptr] else A⟩, rfl, ?_⟩
    show ((pre ++ B') ++ 0 :: 0 :: junk').getD ((pre ++ B').length + 1) 0 = 0
    have e3 : (pre ++ B') ++ 0 :: 0 :: junk' = ((pre ++ B') ++ [0]) ++ 0 :: junk' := by simp
    have hl3 : (pre ++ B').length + 1 = ((pre ++ B') ++ [0]).length := by
      simp only [List.length_append, List.length_singleton]
    rw [e3, hl3, getD_append_length]
  | cons x args ih =>
    obtain ⟨k, b⟩ := x
    have hb := hargs (k, b) (List.mem_cons_self _ args)
    have hargs' : ∀ y ∈ args, y.2.ok = true := fun y hy => hargs y (List.mem_cons_of_mem _ hy)
    obtain ⟨n, B, B', ptr, hn, hcstr, hend, hloop⟩ := arg_to_sep a ha pre
    have hSlen : S.length = A.length := by rw [← hA [], List.length_map]
    simp only [args_text, List.length_append, List.length_replicate] at hfuel
    obtain ⟨f, rfl⟩ : ∃ f, fuel = (f + 1) + n := ⟨fuel - n - 1, by omega⟩
    have hT : (b.text ++ (args_text args ++ [NL])).takeWhile (fun c => c == SP) = [] :=
      arg_text_no_space b hb _
    have hR : ∀ c ∈ SP :: (List.replicate k SP ++ (b.text ++ (args_text args ++ [NL]))),
        c ≠ 0 := by
      intro c hc
      simp only [List.mem_cons, List.mem_append, List.mem_singleton, List.not_mem_nil,
        or_false] at hc
      rcases hc with h | h | h | h | h
      · rw [h]; decide
      · rw [(List.mem_replicate.mp h).2]; decide
      · exact arg_text_ne_zero b hb c h
      · exact args_text_ne_zero args hargs' c h
      · rw [h]; decide
    obtain ⟨junk', hj⟩ := hloop (f + 1) _ junk A hR
      (show escapable SP = false by decide)
    have e1 : pre ++ (a.text ++ (args_text ((k, b) :: args) ++ NL :: 0 :: junk)) =
        pre ++ (a.text ++ ((SP :: (List.replicate k SP ++
          (b.text ++ (args_text args ++ [NL])))) ++ 0 :: junk)) := by
      simp [args_text, List.replicate_succ]
    rw [e1, hj]
    have e2 : (pre ++ B) ++ ((SP :: (List.replicate k SP ++
          (b.text ++ (args_text args ++ [NL])))) ++ 0 :: junk') =
        (pre ++ B) ++ SP :: (List.replicate k SP ++
          ((b.text ++ (args_text args ++ [NL])) ++ 0 :: junk')) := by
      simp
    have hk : ((List.replicate k SP ++ ((b.text ++ (args_text args ++ [NL])) ++ 0 :: junk')
        ).takeWhile (fun c => c == SP)).length = k := by
      apply takeWhile_spaces
      rw [List.append_assoc]
      exact arg_text_no_space b hb _
    rw [e2, arg_loop_sep_space f _ (getD_append_length _ _ _) rfl (by
      rw [hend, hk]
      exact getD_after_spaces _ _ k)]
    rw [hend, hk]
    have e3 : (pre ++ B') ++ 0 :: (List.replicate k SP ++
          ((b.text ++ (args_text args ++ [NL])) ++ 0 :: junk')) =
        ((pre ++ B') ++ 0 :: List.replicate k SP) ++
          (b.text ++ (args_text args ++ NL :: 0 :: junk')) := by
      simp
    have hl3 : (pre ++ B').length + 1 + k = ((pre ++ B') ++ 0 :: List.replicate k SP).length := by
      simp only [List.length_append, List.length_cons, List.length_replicate]
      omega
    have hl4 : (pre ++ B').length + k + 1 = ((pre ++ B') ++ 0 :: List.replicate k SP).length := by
      rw [← hl3]
      omega
    show ∃ st, arg_loop f ⟨_, (pre ++ B').length + k + 1, (pre ++ B').length + 1 + k, false, _⟩ =
      _ ∧ _
    rw [e3, hl3, hl4]
    have := ih b ((pre ++ B') ++ 0 :: List.replicate k SP)
      (if A.length < MAX_ARGS then A ++ [ptr] else A)
      (if S.length < MAX_ARGS then S ++ [a.val] else S) f junk' hb hargs'
      (fun Z => push_map A S ptr a.val _ (by
        have := hA (B' ++ (0 :: List.replicate k SP ++ Z))
        have e : pre ++ (B' ++ (0 :: List.replicate k SP ++ Z)) =
            ((pre ++ B') ++ 0 :: List.replicate k SP) ++ Z := by simp
        rw [e] at this
        exact this) (by
        have := hcstr (List.replicate k SP ++ Z)
        have e : (pre ++ B') ++ 0 :: (List.replicate k SP ++ Z) =
            ((pre ++ B') ++ 0 :: List.replicate k SP) ++ Z := by simp
        rw [e] at this
        exact this))
      (push_length_le A ptr hAlen)
      (by simp only [List.length_append]; omega)
    rw [pad_args_push S a.val (b.val :: args_vals args) (by omega)] at this
    exact this

/-! ### The command loop on one well-formed line -/

/-- The first part of an iteration of the command loop on a buffer that
starts with spaces and newlines, then the name of command `i`, then a space
or a newline. -/
theorem cmd_loop_lead_name (commands : List Cmd) (fuel : Nat) (lead name rest : List Nat)
    (x i : Nat) (hlead : ∀ b ∈ lead, b = SP ∨ b = NL)
    (hname : name ≠ [] ∧ ∀ b ∈ name, plain b = true)
    (hx : x = SP ∨ x = NL) (hcmd : get_cmd_by_name commands name = some i) :
    cmd_loop commands (fuel + 1) (lead ++ (name ++ x :: rest)) 0 =
      if ((commands.getD i ⟨[], []⟩).args.getD 0 none).isSome ∨ x = NL then
        (cmd_loop commands fuel ((lead ++ name) ++ 0 :: rest)
          (scan (fun b => b != 0 && b != NL) ((lead ++ name) ++ 0 :: rest)
            ((lead ++ name).length + 1))).bind
          fun calls => some ({ cmd := i, args := (commands.getD i ⟨[], []⟩).args } :: calls)
      else
        (arg_loop (((lead ++ name) ++ 0 :: rest).length + 1)
          ⟨(lead ++ name) ++ 0 :: rest,
           scan (fun b => b == SP) ((lead ++ name) ++ 0 :: rest) ((lead ++ name).length + 1),
           scan (fun b => b == SP) ((lead ++ name) ++ 0 :: rest) ((lead ++ name).length + 1),
           false, []⟩).bind
          fun r =>
        (cmd_loop commands fuel r.1.buf r.1.p).bind fun calls =>
        some (parsed_call i r.2 ++ calls) := by
  obtain ⟨hne, hpl⟩ := hname
  obtain ⟨y, name', rfl⟩ : ∃ y name', name = y :: name' := by
    cases name with
    | nil => exact absurd rfl hne
    | cons y n => exact ⟨y, n, rfl⟩
  have hy := plain_ne y (hpl y (List.mem_cons_self y name'))
  have hx0 : x ≠ 0 := by rcases hx with h | h <;> rw [h] <;> decide
  have h0 : (lead ++ ((y :: name') ++ x :: rest)).getD 0 0 ≠ 0 := by
    cases lead with
    | nil => exact hy.1
    | cons l lead =>
      show l ≠ 0
      rcases hlead l (List.mem_cons_self l lead) with h | h <;> rw [h] <;> decide
  have hs : scan (fun b => b == SP || b == NL) (lead ++ ((y :: name') ++ x :: rest)) 0 =
      lead.length := by
    rw [scan_zero, List.cons_append, takeWhile_all _ lead y _]
    · intro b hb
      rcases hlead b hb with h | h <;> rw [h] <;> decide
    · simp [hy.2.1, hy.2.2.1]
  have hp2 : scan (fun b => b != 0 && b != SP && b != NL) (lead ++ ((y :: name') ++ x :: rest))
      lead.length = (lead ++ (y :: name')).length := by
    rw [scan_append, takeWhile_all _ (y :: name') x rest, List.length_append]
    · intro b hb
      have := plain_ne b (hpl b hb)
      simp [this.1, this.2.1, this.2.2.1]
    · rcases hx with h | h <;> rw [h] <;> decide
  have ea : lead ++ ((y :: name') ++ x :: rest) = (lead ++ (y :: name')) ++ x :: rest := by simp
  have hc : (lead ++ ((y :: name') ++ x :: rest)).getD (lead ++ (y :: name')).length 0 = x := by
    rw [ea]
    exact getD_append_length _ _ _
  have hset : (lead ++ ((y :: name') ++ x :: rest)).set (lead ++ (y :: name')).length 0 =
      (lead ++ (y :: name')) ++ 0 :: rest := by
    rw [ea]
    exact set_append_length _ _ _ _
  have hb0 : ((lead ++ (y :: name')) ++ 0 :: rest).getD lead.length 0 ≠ 0 := by
    have : (lead ++ (y :: name')) ++ 0 :: rest = lead ++ y :: (name' ++ 0 :: rest) := by simp
    rw [this, getD_append_length]
    exact hy.1
  have hstr : cstr ((lead ++ (y :: name')) ++ 0 :: rest) lead.length = y :: name' := by
    have := cstr_token lead (y :: name') rest hpl
    rw [List.append_assoc]
    exact this
  rw [cmd_loop, if_neg h0]
  simp only []
  rw [hs, hp2, hc, if_pos hx0, if_pos hx0, hset, if_pos hb0, hstr, hcmd]

/-- One well-formed command line: what `handle_cmdfifo` calls. -/
theorem handle_cmdfifo_args (commands : List Cmd) (i : Nat) (lead name : List Nat)
    (args : List (Nat × Arg))
    (hlead : ∀ b ∈ lead, b = SP ∨ b = NL)
    (hname : name ≠ [] ∧ ∀ b ∈ name, plain b = true)
    (hcmd : get_cmd_by_name commands name = some i)
    (hcfg : (commands.getD i ⟨[], []⟩).args.getD 0 none = none)
    (hargs : ∀ x ∈ args, x.2.ok = true) :
    handle_cmdfifo commands (line_text lead name args) =
      some [{ cmd := i,
              args := if args.isEmpty then (commands.getD i ⟨[], []⟩).args
                      else pad_args (args_vals args) }] := by
  unfold handle_cmdfifo line_text
  cases args with
  | nil =>
    simp only [args_text, List.nil_append, List.isEmpty_nil, if_true]
    have e : lead ++ (name ++ [NL]) ++ [0] = lead ++ (name ++ NL :: [0]) := by simp
    rw [e, cmd_loop_lead_name commands _ lead name [0] NL i hlead hname (Or.inr rfl) hcmd,
      if_pos (Or.inr rfl)]
    have hs : scan (fun b => b != 0 && b != NL) ((lead ++ name) ++ 0 :: [0])
        ((lead ++ name).length + 1) = (lead ++ name).length + 1 := by
      have := scan_append (fun b => b != 0 && b != NL) ((lead ++ name) ++ [0]) [0]
      rw [List.length_append _ [0], List.length_singleton] at this
      have e2 : (lead ++ name) ++ 0 :: [0] = ((lead ++ name) ++ [0]) ++ [0] := by simp
      rw [e2, this]
      simp
    rw [hs]
    have hl : (lead ++ (name ++ [NL])).length = (lead ++ name).length + 1 := by
      simp only [List.length_append, List.length_singleton]
      omega
    rw [hl, cmd_loop_done]
    · rfl
    · have e2 : (lead ++ name) ++ 0 :: [0] = ((lead ++ name) ++ [0]) ++ 0 :: [] := by simp
      have hl2 : (lead ++ name).length + 1 = ((lead ++ name) ++ [0]).length := by
        simp only [List.length_append, List.length_singleton]
      rw [e2, hl2, getD_append_length]
  | cons x args =>
    obtain ⟨k, a⟩ := x
    have ha := hargs (k, a) (List.mem_cons_self _ args)
    have hargs' : ∀ y ∈ args, y.2.ok = true := fun y hy => hargs y (List.mem_cons_of_mem _ hy)
    simp only [List.isEmpty_cons, Bool.false_eq_true, if_false]
    have e : lead ++ (name ++ (args_text ((k, a) :: args) ++ [NL])) ++ [0] =
        lead ++ (name ++ SP :: (List.replicate k SP ++
          (a.text ++ (args_text args ++ NL :: 0 :: [])))) := by
      simp [args_text, List.replicate_succ]
    have hcond : ¬(((commands.getD i ⟨[], []⟩).args.getD 0 none).isSome = true ∨ SP = NL) := by
      rw [hcfg]
      simp
      decide
    rw [e, cmd_loop_lead_name commands _ lead name _ SP i hlead hname (Or.inl rfl) hcmd,
      if_neg hcond]
    have e2 : (lead ++ name) ++ 0 :: (List.replicate k SP ++
          (a.text ++ (args_text args ++ NL :: 0 :: []))) =
        ((lead ++ name) ++ 0 :: List.replicate k SP) ++
          (a.text ++ (args_text args ++ NL :: 0 :: [])) := by simp
    have hs : scan (fun b => b == SP) ((lead ++ name) ++ 0 :: (List.replicate k SP ++
          (a.text ++ (args_text args ++ NL :: 0 :: [])))) ((lead ++ name).length + 1) =
        ((lead ++ name) ++ 0 :: List.replicate k SP).length := by
      have e3 : (lead ++ name) ++ 0 :: (List.replicate k SP ++
          (a.text ++ (args_text args ++ NL :: 0 :: []))) =
          ((lead ++ name) ++ [0]) ++ (List.replicate k SP ++
            (a.text ++ (args_text args ++ NL :: 0 :: []))) := by simp
      have hl : (lead ++ name).length + 1 = ((lead ++ name) ++ [0]).length := by
        simp only [List.length_append, List.length_singleton]
      rw [e3, hl, scan_append, takeWhile_spaces k _ (arg_text_no_space a ha _)]
      simp only [List.length_append, List.length_cons, List.length_replicate,
        List.length_singleton, List.length_nil]
      omega
    rw [hs, e2]
    obtain ⟨st, hst, hst0⟩ := arg_loop_args args a ((lead ++ name) ++ 0 :: List.replicate k SP)
      [] [] ((((lead ++ name) ++ 0 :: List.replicate k SP) ++
          (a.text ++ (args_text args ++ NL :: 0 :: []))).length + 1) [] ha hargs'
      (fun _ => rfl) (Nat.zero_le _)
      (by simp only [List.length_append, List.length_cons, List.length_nil]; omega)
    rw [hst, Option.some_bind]
    have hl : (lead ++ (name ++ (args_text ((k, a) :: args) ++ [NL]))).length =
        (lead ++ (name ++ args_text ((k, a) :: args))).length + 1 := by
      simp only [List.length_append, List.length_singleton]
      omega
    rw [hl, cmd_loop_done commands _ st.buf st.p hst0, Option.some_bind]
    rfl

/-! ### The command loop on several well-formed lines -/

/-- The first part of an iteration of the command loop at offset `pre.length`
of a buffer that goes on with spaces and newlines, then the name of command
`i`, then a space or a newline. -/
theorem cmd_loop_at_name (commands : List Cmd) (fuel : Nat) (pre lead name rest : List Nat)
    (x i : Nat) (hlead : ∀ b ∈ lead, b = SP ∨ b = NL)
    (hname : name ≠ [] ∧ ∀ b ∈ name, plain b = true)
    (hx : x = SP ∨ x = NL) (hcmd : get_cmd_by_name commands name = some i) :
    cmd_loop commands (fuel + 1) (pre ++ (lead ++ (name ++ x :: rest))) pre.length =
      if ((commands.getD i ⟨[], []⟩).args.getD 0 none).isSome ∨ x = NL then
        (cmd_loop commands fuel ((pre ++ (lead ++ name)) ++ 0 :: rest)
          (scan (fun b => b != 0 && b != NL) ((pre ++ (lead ++ name)) ++ 0 :: rest)
            ((pre ++ (lead ++ name)).length + 1))).bind
          fun calls => some ({ cmd := i, args := (commands.getD i ⟨[], []⟩).args } :: calls)
      else
        (arg_loop (((pre ++ (lead ++ name)) ++ 0 :: rest).length + 1)
          ⟨(pre ++ (lead ++ name)) ++ 0 :: rest,
           scan (fun b => b == SP) ((pre ++ (lead ++ name)) ++ 0 :: rest)
             ((pre ++ (lead ++ name)).length + 1),
           scan (fun b => b == SP) ((pre ++ (lead ++ name)) ++ 0 :: rest)
             ((pre ++ (lead ++ name)).length + 1),
           false, []⟩).bind
          fun r =>
        (cmd_loop commands fuel r.1.buf r.1.p).bind fun calls =>
        some (parsed_call i r.2 ++ calls) := by
  obtain ⟨hne, hpl⟩ := hname
  obtain ⟨y, name', rfl⟩ : ∃ y name', name = y :: name' := by
    cases name with
    | nil => exact absurd rfl hne
    | cons y n => exact ⟨y, n, rfl⟩
  have hy := plain_ne y (hpl y (List.mem_cons_self y name'))
  have hx0 : x ≠ 0 := by rcases hx with h | h <;> rw [h] <;> decide
  have h0 : (pre ++ (lead ++ ((y :: name') ++ x :: rest))).getD pre.length 0 ≠ 0 := by
    cases lead with
    | nil =>
      rw [List.nil_append, List.cons_append, getD_append_length]
      exact hy.1
    | cons l lead =>
      rw [List.cons_append, getD_append_length]
      rcases hlead l (List.mem_cons_self l lead) with h | h <;> rw [h] <;> decide
  have hs : scan (fun b => b == SP || b == NL) (pre ++ (lead ++ ((y :: name') ++ x :: rest)))
      pre.length = (pre ++ lead).length := by
    rw [scan_append, List.cons_append, takeWhile_all _ lead y _, List.length_append]
    · intro b hb
      rcases hlead b hb with h | h <;> rw [h] <;> decide
    · simp [hy.2.1, hy.2.2.1]
  have eb : pre ++ (lead ++ ((y :: name') ++ x :: rest)) =
      (pre ++ lead) ++ ((y :: name') ++ x :: rest) := by simp
  have hp2 : scan (fun b => b != 0 && b != SP && b != NL)
      (pre ++ (lead ++ ((y :: name') ++ x :: rest))) (pre ++ lead).length =
      (pre ++ (lead ++ (y :: name'))).length := by
    rw [eb, scan_append, takeWhile_all _ (y :: name') x rest]
    · simp only [List.length_append]
      omega
    · intro b hb
      have := plain_ne b (hpl b hb)
      simp [this.1, this.2.1, this.2.2.1]
    · rcases hx with h | h <;> rw [h] <;> decide
  have ea : pre ++ (lead ++ ((y :: name') ++ x :: rest)) =
      (pre ++ (lead ++ (y :: name'))) ++ x :: rest := by simp
  have hc : (pre ++ (lead ++ ((y :: name') ++ x :: rest))).getD
      (pre ++ (lead ++ (y :: name'))).length 0 = x := by
    rw [ea]
    exact getD_append_length _ _ _
  have hset : (pre ++ (lead ++ ((y :: name') ++ x :: rest))).set
      (pre ++ (lead ++ (y :: name'))).length 0 = (pre ++ (lead ++ (y :: name'))) ++ 0 :: rest := by
    rw [ea]
    exact set_append_length _ _ _ _
  have hb0 : ((pre ++ (lead ++ (y :: name'))) ++ 0 :: rest).getD (pre ++ lead).length 0 ≠ 0 := by
    have : (pre ++ (lead ++ (y :: name'))) ++ 0 :: rest =
        (pre ++ lead) ++ y :: (name' ++ 0 :: rest) := by simp
    rw [this, getD_append_length]
    exact hy.1
  have hstr : cstr ((pre ++ (lead ++ (y :: name'))) ++ 0 :: rest) (pre ++ lead).length =
      y :: name' := by
    have := cstr_token (pre ++ lead) (y :: name') rest hpl
    have e : (pre ++ (lead ++ (y :: name'))) ++ 0 :: rest =
        (pre ++ lead) ++ ((y :: name') ++ 0 :: rest) := by simp
    rw [e]
    exact this
  rw [cmd_loop, if_neg h0]
  simp only []
  rw [hs, hp2, hc, if_pos hx0, if_pos hx0, hset, if_pos hb0, hstr, hcmd]

theorem takeWhile_nil_append (T X : List Nat) (hT : T.takeWhile (fun b => b == SP) = []) :
    (T ++ 0 :: X).takeWhile (fun b => b == SP) = [] := by
  cases T with
  | nil => exact List.takeWhile_cons_of_neg (by decide)
  | cons t T =>
    by_cases ht : (t == SP) = true
    · simp [List.takeWhile_cons, ht] at hT
    · simp [List.takeWhile_cons, ht]

/-- The argument loop on the arguments of a command line that other bytes
follow in the buffer, `j` spaces first: the command is called with the values
of the arguments, and the loop leaves `p` at the first byte after the line,
or, when spaces follow the line, at the last of them. -/
theorem arg_loop_args_rest (args : List (Nat × Arg)) (a : Arg) (pre : List Nat) (A : List Nat)
    (S : List (List Nat)) (fuel : Nat) (junk : List Nat) (j : Nat) (T : List Nat)
    (ha : a.ok = true) (hargs : ∀ x ∈ args, x.2.ok = true)
    (hA : ∀ Z, A.map (fun p => cstr (pre ++ Z) p) = S)
    (hAlen : A.length ≤ MAX_ARGS)
    (hfuel : (a.text ++ args_text args).length + 1 ≤ fuel)
    (hT0 : ∀ b ∈ T, b ≠ 0) (hT : T.takeWhile (fun b => b == SP) = []) :
    ∃ (st : ArgScan) (Q junk' : List Nat),
      arg_loop fuel ⟨pre ++ (a.text ++ (args_text args ++
          NL :: ((List.replicate j SP ++ T) ++ 0 :: junk))), pre.length, pre.length, false, A⟩ =
        some (st, some (pad_args (S ++ a.val :: args_vals args))) ∧
      st.buf = Q ++ ((if j = 0 then T else SP :: T) ++ 0 :: junk') ∧ st.p = Q.length := by
  have hrest0 : ∀ c ∈ List.replicate j SP ++ T, c ≠ 0 := by
    intro c hc
    rcases List.mem_append.mp hc with h | h
    · rw [(List.mem_replicate.mp h).2]; decide
    · exact hT0 c h
  induction args generalizing a pre A S fuel junk with
  | nil =>
    obtain ⟨n, B, B', ptr, hn, hcstr, hend, hloop⟩ := arg_to_sep a ha pre
    have hSlen : S.length = A.length := by rw [← hA [], List.length_map]
    simp only [args_text, List.append_nil, List.nil_append] at hfuel ⊢
    obtain ⟨f, rfl⟩ : ∃ f, fuel = (f + 1) + n := ⟨fuel - n - 1, by omega⟩
    obtain ⟨junk', hj⟩ := hloop (f + 1) (NL :: (List.replicate j SP ++ T)) junk A (by
      intro b hb
      rcases List.mem_cons.mp hb with h | h
      · rw [h]; decide
      · exact hrest0 b h) (by show escapable NL = false; decide)
    have e1 : pre ++ (a.text ++ NL :: ((List.replicate j SP ++ T) ++ 0 :: junk)) =
        pre ++ (a.text ++ ((NL :: (List.replicate j SP ++ T)) ++ 0 :: junk)) := by
      simp
    rw [e1, hj]
    have e2 : (pre ++ B) ++ ((NL :: (List.replicate j SP ++ T)) ++ 0 :: junk') =
        (pre ++ B) ++ NL :: (List.replicate j SP ++ (T ++ 0 :: junk')) := by simp
    rw [e2, arg_loop_sep_newline f _ (getD_append_length _ _ _),
      hend NL (List.replicate j SP ++ (T ++ 0 :: junk')) false A]
    have htw : ((List.replicate j SP ++ (T ++ 0 :: junk')).takeWhile
        (fun b => b == SP)).length = j :=
      takeWhile_spaces j _ (takeWhile_nil_append T junk' hT)
    rw [htw]
    rw [args_array_push _ A S ptr a.val _ _ (by
        have := hA (B' ++ 0 :: (List.replicate j SP ++ (T ++ 0 :: junk')))
        rw [← List.append_assoc] at this
        exact this) (hcstr _) hAlen]
    cases j with
    | zero =>
      refine ⟨_, (pre ++ B') ++ [0], junk', rfl, ?_, ?_⟩
      · show (pre ++ B') ++ 0 :: (List.replicate 0 SP ++ (T ++ 0 :: junk')) = _
        simp
      · show (if ((pre ++ B') ++ 0 :: (List.replicate 0 SP ++ (T ++ 0 :: junk'))).getD
            ((pre ++ B').length + 0) 0 = 0 then (pre ++ B').length + 0 + 1
            else (pre ++ B').length + 0) = _
        rw [Nat.add_zero, getD_append_length, if_pos rfl]
        simp only [List.length_append, List.length_singleton]
    | succ j =>
      refine ⟨_, (pre ++ B') ++ 0 :: List.replicate j SP, junk', rfl, ?_, ?_⟩
      · show (pre ++ B') ++ 0 :: (List.replicate (j + 1) SP ++ (T ++ 0 :: junk')) = _
        rw [if_neg (by omega), List.replicate_succ']
        simp
      · show (if ((pre ++ B') ++ 0 :: (List.replicate (j + 1) SP ++ (T ++ 0 :: junk'))).getD
            ((pre ++ B').length + (j + 1)) 0 = 0 then (pre ++ B').length + (j + 1) + 1
            else (pre ++ B').length + (j + 1)) = _
        have e : (pre ++ B') ++ 0 :: (List.replicate (j + 1) SP ++ (T ++ 0 :: junk')) =
            ((pre ++ B') ++ 0 :: List.replicate j SP) ++ SP :: (T ++ 0 :: junk') := by
          rw [List.replicate_succ']
          simp
        have hl : (pre ++ B').length + (j + 1) =
            ((pre ++ B') ++ 0 :: List.replicate j SP).length := by
          simp only [List.length_append, List.length_cons, List.length_replicate]
        rw [e, hl, getD_append_length, if_neg (by decide)]
  | cons x args ih =>
    obtain ⟨k, b⟩ := x
    have hb := hargs (k, b) (List.mem_cons_self _ args)
    have hargs' : ∀ y ∈ args, y.2.ok = true := fun y hy => hargs y (List.mem_cons_of_mem _ hy)
    obtain ⟨n, B, B', ptr, hn, hcstr, hend, hloop⟩ := arg_to_sep a ha pre
    have hSlen : S.length = A.length := by rw [← hA [], List.length_map]
    simp only [args_text, List.length_append, List.length_replicate] at hfuel
    obtain ⟨f, rfl⟩ : ∃ f, fuel = (f + 1) + n := ⟨fuel - n - 1, by omega⟩
    have hR : ∀ c ∈ SP :: (List.replicate k SP ++ (b.text ++ (args_text args ++
        NL :: (List.replicate j SP ++ T)))), c ≠ 0 := by
      intro c hc
      simp only [List.mem_cons, List.mem_append] at hc
      rcases hc with h | h | h | h | h | h
      · rw [h]; decide
      · rw [(List.mem_replicate.mp h).2]; decide
      · exact arg_text_ne_zero b hb c h
      · exact args_text_ne_zero args hargs' c h
      · rw [h]; decide
      · exact hrest0 c (List.mem_append.mpr h)
    obtain ⟨junk', hj⟩ := hloop (f + 1) _ junk A hR
      (show escapable SP = false by decide)
    have e1 : pre ++ (a.text ++ (args_text ((k, b) :: args) ++
          NL :: ((List.replicate j SP ++ T) ++ 0 :: junk))) =
        pre ++ (a.text ++ ((SP :: (List.replicate k SP ++
          (b.text ++ (args_text args ++ NL :: (List.replicate j SP ++ T))))) ++ 0 :: junk)) := by
      simp [args_text, List.replicate_succ]
    rw [e1, hj]
    have e2 : (pre ++ B) ++ ((SP :: (List.replicate k SP ++
          (b.text ++ (args_text args ++ NL :: (List.replicate j SP ++ T))))) ++ 0 :: junk') =
        (pre ++ B) ++ SP :: (List.replicate k SP ++
          (b.text ++ (args_text args ++ NL :: ((List.replicate j SP ++ T) ++ 0 :: junk')))) := by
      simp
    have hk : ((List.replicate k SP ++ (b.text ++ (args_text args ++
        NL :: ((List.replicate j SP ++ T) ++ 0 :: junk')))).takeWhile (fun c => c == SP)).length =
        k := takeWhile_spaces k _ (arg_text_no_space b hb _)
    rw [e2, arg_loop_sep_space f _ (getD_append_length _ _ _) rfl (by
      rw [hend, hk]
      exact getD_after_spaces _ _ k)]
    rw [hend, hk]
    have e3 : (pre ++ B') ++ 0 :: (List.replicate k SP ++
          (b.text ++ (args_text args ++ NL :: ((List.replicate j SP ++ T) ++ 0 :: junk')))) =
        ((pre ++ B') ++ 0 :: List.replicate k SP) ++
          (b.text ++ (args_text args ++ NL :: ((List.replicate j SP ++ T) ++ 0 :: junk'))) := by
      simp
    have hl3 : (pre ++ B').length + 1 + k = ((pre ++ B') ++ 0 :: List.replicate k SP).length := by
      simp only [List.length_append, List.length_cons, List.length_replicate]
      omega
    have hl4 : (pre ++ B').length + k + 1 = ((pre ++ B') ++ 0 :: List.replicate k SP).length := by
      rw [← hl3]
      omega
    show ∃ (st : ArgScan) (Q junk'' : List Nat),
      arg_loop f ⟨_, (pre ++ B').length + k + 1, (pre ++ B').length + 1 + k, false, _⟩ =
      _ ∧ _
    rw [e3, hl3, hl4]
    have := ih b ((pre ++ B') ++ 0 :: List.replicate k SP)
      (if A.length < MAX_ARGS then A ++ [ptr] else A)
      (if S.length < MAX_ARGS then S ++ [a.val] else S) f junk' hb hargs'
      (fun Z => push_map A S ptr a.val _ (by
        have := hA (B' ++ (0 :: List.replicate k SP ++ Z))
        have e : pre ++ (B' ++ (0 :: List.replicate k SP ++ Z)) =
            ((pre ++ B') ++ 0 :: List.replicate k SP) ++ Z := by simp
        rw [e] at this
        exact this) (by
        have := hcstr (List.replicate k SP ++ Z)
        have e : (pre ++ B') ++ 0 :: (List.replicate k SP ++ Z) =
            ((pre ++ B') ++ 0 :: List.replicate k SP) ++ Z := by simp
        rw [e] at this
        exact this))
      (push_length_le A ptr hAlen)
      (by simp only [List.length_append]; omega)
    rw [pad_args_push S a.val (b.val :: args_vals args) (by omega)] at this
    exact this

/-- One iteration of the command loop on a well-formed line with at least one
argument that other bytes follow in the buffer, `j` spaces first: the command
is called with the values of the arguments, and the loop goes on at the first
byte after the line, or, when spaces follow the line, at the last of them. -/
theorem cmd_loop_line (commands : List Cmd) (i fuel : Nat) (pre lead name : List Nat)
    (k : Nat) (a : Arg) (args : List (Nat × Arg)) (j : Nat) (T junk : List Nat)
    (hlead : ∀ b ∈ lead, b = SP ∨ b = NL)
    (hname : name ≠ [] ∧ ∀ b ∈ name, plain b = true)
    (hcmd : get_cmd_by_name commands name = some i)
    (hcfg : (commands.getD i ⟨[], []⟩).args.getD 0 none = none)
    (ha : a.ok = true) (hargs : ∀ x ∈ args, x.2.ok = true)
    (hT0 : ∀ b ∈ T, b ≠ 0) (hT : T.takeWhile (fun b => b == SP) = []) :
    ∃ Q junk' : List Nat,
      cmd_loop commands (fuel + 1)
          (pre ++ ((line_text lead name ((k, a) :: args) ++ (List.replicate j SP ++ T)) ++
            0 :: junk)) pre.length =
        (cmd_loop commands fuel (Q ++ ((if j = 0 then T else SP :: T) ++ 0 :: junk'))
          Q.length).bind fun calls =>
        some ({ cmd := i, args := pad_args (args_vals ((k, a) :: args)) } :: calls) := by
  have e : pre ++ ((line_text lead name ((k, a) :: args) ++ (List.replicate j SP ++ T)) ++
        0 :: junk) =
      pre ++ (lead ++ (name ++ SP :: (List.replicate k SP ++
        (a.text ++ (args_text args ++ NL :: ((List.replicate j SP ++ T) ++ 0 :: junk)))))) := by
    simp [line_text, args_text, List.replicate_succ]
  have hcond : ¬(((commands.getD i ⟨[], []⟩).args.getD 0 none).isSome = true ∨ SP = NL) := by
    rw [hcfg]
    simp
    decide
  rw [e, cmd_loop_at_name commands _ pre lead name _ SP i hlead hname (Or.inl rfl) hcmd,
    if_neg hcond]
  have e2 : (pre ++ (lead ++ name)) ++ 0 :: (List.replicate k SP ++
        (a.text ++ (args_text args ++ NL :: ((List.replicate j SP ++ T) ++ 0 :: junk)))) =
      ((pre ++ (lead ++ name)) ++ 0 :: List.replicate k SP) ++
        (a.text ++ (args_text args ++ NL :: ((List.replicate j SP ++ T) ++ 0 :: junk))) := by
    simp
  have hs : scan (fun b => b == SP) ((pre ++ (lead ++ name)) ++ 0 :: (List.replicate k SP ++
        (a.text ++ (args_text args ++ NL :: ((List.replicate j SP ++ T) ++ 0 :: junk)))))
      ((pre ++ (lead ++ name)).length + 1) =
      ((pre ++ (lead ++ name)) ++ 0 :: List.replicate k SP).length := by
    have e3 : (pre ++ (lead ++ name)) ++ 0 :: (List.replicate k SP ++
        (a.text ++ (args_text args ++ NL :: ((List.replicate j SP ++ T) ++ 0 :: junk)))) =
        ((pre ++ (lead ++ name)) ++ [0]) ++ (List.replicate k SP ++
          (a.text ++ (args_text args ++ NL :: ((List.replicate j SP ++ T) ++ 0 :: junk)))) := by
      simp
    have hl : (pre ++ (lead ++ name)).length + 1 = ((pre ++ (lead ++ name)) ++ [0]).length := by
      simp only [List.length_append, List.length_singleton]
    rw [e3, hl, scan_append, takeWhile_spaces k _ (arg_text_no_space a ha _)]
    simp only [List.length_append, List.length_cons, List.length_replicate,
      List.length_singleton, List.length_nil]
    omega
  rw [hs, e2]
  obtain ⟨st, Q, junk', hst, hbuf, hp⟩ := arg_loop_args_rest args a
    ((pre ++ (lead ++ name)) ++ 0 :: List.replicate k SP) [] []
    ((((pre ++ (lead ++ name)) ++ 0 :: List.replicate k SP) ++
      (a.text ++ (args_text args ++ NL :: ((List.replicate j SP ++ T) ++ 0 :: junk)))).length + 1)
    junk j T ha hargs (fun _ => rfl) (Nat.zero_le _)
    (by simp only [List.length_append, List.length_cons]; omega) hT0 hT
  refine ⟨Q, junk', ?_⟩
  rw [hst, Option.some_bind]
  show (cmd_loop commands fuel st.buf st.p).bind _ = _
  rw [hbuf, hp]
  rfl

/-- The spaces and newlines before a command name: some spaces, then nothing
or a newline and the rest. -/
theorem blank_spaces (lead : List Nat) (h : ∀ b ∈ lead, b = SP ∨ b = NL) :
    ∃ (j : Nat) (lead' : List Nat), lead = List.replicate j SP ++ lead' ∧
      (∀ b ∈ lead', b = SP ∨ b = NL) ∧ lead'.takeWhile (fun b => b == SP) = [] := by
  induction lead with
  | nil => exact ⟨0, [], rfl, h, rfl⟩
  | cons b lead ih =>
    rcases h b (List.mem_cons_self b lead) with hb | hb
    · obtain ⟨j, lead', e, h1, h2⟩ := ih (fun c hc => h c (List.mem_cons_of_mem b hc))
      refine ⟨j + 1, lead', ?_, h1, h2⟩
      rw [hb, List.replicate_succ, List.cons_append, ← e]
    · refine ⟨0, b :: lead, rfl, h, ?_⟩
      rw [hb]
      exact List.takeWhile_cons_of_neg (by decide)

theorem line_ok_spec (commands : List Cmd) (l : Line) (h : l.ok commands = true) :
    (∀ b ∈ l.lead, b = SP ∨ b = NL) ∧ (l.name ≠ [] ∧ ∀ b ∈ l.name, plain b = true) ∧
      get_cmd_by_name commands l.name = some (l.cmd commands) ∧
      (commands.getD (l.cmd commands) ⟨[], []⟩).args.getD 0 none = none ∧
      ∀ x ∈ l.args, x.2.ok = true := by
  unfold Line.ok at h
  simp only [Bool.and_eq_true, List.all_eq_true, Bool.or_eq_true, beq_iff_eq,
    Bool.not_eq_true', List.isEmpty_eq_false] at h
  obtain ⟨⟨⟨⟨h1, h2⟩, h3⟩, h4⟩, h5⟩ := h
  refine ⟨h1, ⟨?_, h3⟩, ?_, ?_, h5⟩
  · intro e
    rw [e] at h2
    simp at h2
  · unfold Line.cmd
    cases hc : get_cmd_by_name commands l.name with
    | none => rw [hc] at h4; simp at h4
    | some i => rfl
  · unfold Line.cmd
    cases hc : get_cmd_by_name commands l.name with
    | none => rw [hc] at h4; simp at h4
    | some i =>
      rw [hc] at h4
      simpa using h4

theorem line_text_ne_zero (lead name : List Nat) (args : List (Nat × Arg))
    (hlead : ∀ b ∈ lead, b = SP ∨ b = NL) (hname : ∀ b ∈ name, plain b = true)
    (hargs : ∀ x ∈ args, x.2.ok = true) : ∀ b ∈ line_text lead name args, b ≠ 0 := by
  intro b hb
  simp only [line_text, List.mem_append, List.mem_singleton] at hb
  rcases hb with h | h | h | h
  · rcases hlead b h with e | e <;> rw [e] <;> decide
  · exact (plain_ne b (hname b h)).1
  · exact args_text_ne_zero args hargs b h
  · rw [h]; decide

theorem chunk_text_ne_zero (commands : List Cmd) (ls : List Line)
    (hok : ∀ l ∈ ls, l.ok commands = true) : ∀ b ∈ chunk_text ls, b ≠ 0 := by
  induction ls with
  | nil => intro b hb; simp [chunk_text] at hb
  | cons l ls ih =>
    intro b hb
    simp only [chunk_text, List.mem_append] at hb
    obtain ⟨h1, h2, -, -, h5⟩ := line_ok_spec commands l (hok l (List.mem_cons_self l ls))
    rcases hb with h | h
    · exact line_text_ne_zero l.lead l.name l.args h1 h2.2 h5 b h
    · exact ih (fun x hx => hok x (List.mem_cons_of_mem l hx)) b h

theorem chunk_text_length (ls : List Line) : ls.length ≤ (chunk_text ls).length := by
  induction ls with
  | nil => exact Nat.zero_le _
  | cons l ls ih =>
    simp only [chunk_text, Line.text, line_text, List.length_cons, List.length_append,
      List.length_singleton, List.length_nil]
    omega

/-- A line whose lead does not start with a space does not start with one. -/
theorem line_text_no_space (lead name : List Nat) (args : List (Nat × Arg)) (X : List Nat)
    (hname : name ≠ [] ∧ ∀ b ∈ name, plain b = true)
    (hlead : lead.takeWhile (fun b => b == SP) = []) :
    (line_text lead name args ++ X).takeWhile (fun b => b == SP) = [] := by
  unfold line_text
  cases lead with
  | nil =>
    obtain ⟨hne, hpl⟩ := hname
    cases name with
    | nil => exact absurd rfl hne
    | cons y name =>
      have hy := (plain_ne y (hpl y (List.mem_cons_self y name))).2.1
      simp only [List.nil_append, List.cons_append]
      exact List.takeWhile_cons_of_neg (by simpa using hy)
  | cons b lead =>
    by_cases hb : (b == SP) = true
    · simp [List.takeWhile_cons, hb] at hlead
    · simp only [List.cons_append]
      exact List.takeWhile_cons_of_neg hb

/-- The command loop on well-formed lines, each but the last with at least
one argument: one call for each line, in order, with the values of its
arguments. -/
theorem cmd_loop_lines (commands : List Cmd) (ls : List Line) :
    ∀ (lead name : List Nat) (args : List (Nat × Arg)) (i : Nat) (pre junk : List Nat)
      (fuel : Nat),
      (∀ b ∈ lead, b = SP ∨ b = NL) → (name ≠ [] ∧ ∀ b ∈ name, plain b = true) →
      get_cmd_by_name commands name = some i →
      (commands.getD i ⟨[], []⟩).args.getD 0 none = none →
      (∀ x ∈ args, x.2.ok = true) → (∀ l ∈ ls, l.ok commands = true) →
      (ls ≠ [] → args ≠ []) → (∀ l ∈ ls.dropLast, l.args ≠ []) → ls.length + 2 ≤ fuel →
      cmd_loop commands fuel (pre ++ ((line_text lead name args ++ chunk_text ls) ++ 0 :: junk))
          pre.length =
        some ({ cmd := i,
                args := if args.isEmpty then (commands.getD i ⟨[], []⟩).args
                        else pad_args (args_vals args) } ::
          ls.map (fun l => { cmd := l.cmd commands,
                             args := if l.args.isEmpty
                                     then (commands.getD (l.cmd commands) ⟨[], []⟩).args
                                     else pad_args (args_vals l.args) })) := by
  induction ls with
  | nil =>
    intro lead name args i pre junk fuel hlead hname hcmd hcfg hargs _ _ _ hfuel
    obtain ⟨f, rfl⟩ : ∃ f, fuel = f + 1 + 1 := ⟨fuel - 2, by simp at hfuel; omega⟩
    cases args with
    | nil =>
      have e : pre ++ ((line_text lead name [] ++ chunk_text []) ++ 0 :: junk) =
          pre ++ (lead ++ (name ++ NL :: (0 :: junk))) := by
        simp [line_text, args_text, chunk_text]
      rw [e, cmd_loop_at_name commands _ pre lead name (0 :: junk) NL i hlead hname
        (Or.inr rfl) hcmd, if_pos (Or.inr rfl)]
      have e2 : (pre ++ (lead ++ name)) ++ 0 :: (0 :: junk) =
          ((pre ++ (lead ++ name)) ++ [0]) ++ 0 :: junk := by simp
      have hl2 : (pre ++ (lead ++ name)).length + 1 = ((pre ++ (lead ++ name)) ++ [0]).length := by
        simp only [List.length_append, List.length_singleton]
      have hs : scan (fun b => b != 0 && b != NL) (((pre ++ (lead ++ name)) ++ [0]) ++ 0 :: junk)
          ((pre ++ (lead ++ name)) ++ [0]).length = ((pre ++ (lead ++ name)) ++ [0]).length := by
        rw [scan_append, List.takeWhile_cons_of_neg (by decide)]
        rfl
      rw [e2, hl2, hs, cmd_loop_done _ _ _ _ (getD_append_length _ _ _)]
      rfl
    | cons x args =>
      obtain ⟨k, a⟩ := x
      have ha := hargs (k, a) (List.mem_cons_self _ args)
      have hargs' : ∀ y ∈ args, y.2.ok = true := fun y hy => hargs y (List.mem_cons_of_mem _ hy)
      obtain ⟨Q, junk', h⟩ := cmd_loop_line commands i (f + 1) pre lead name k a args 0 [] junk
        hlead hname hcmd hcfg ha hargs' (fun b hb => absurd hb (List.not_mem_nil b)) rfl
      have e : pre ++ ((line_text lead name ((k, a) :: args) ++ chunk_text []) ++ 0 :: junk) =
          pre ++ ((line_text lead name ((k, a) :: args) ++ (List.replicate 0 SP ++ [])) ++
            0 :: junk) := by
        simp [chunk_text]
      rw [e, h, if_pos rfl, List.nil_append, cmd_loop_done _ _ _ _ (getD_append_length _ _ _)]
      rfl
  | cons l' ls ih =>
    intro lead name args i pre junk fuel hlead hname hcmd hcfg hargs hok hne hlast hfuel
    obtain ⟨f, rfl⟩ : ∃ f, fuel = f + 1 := ⟨fuel - 1, by omega⟩
    obtain ⟨h1, h2, h3, h4, h5⟩ := line_ok_spec commands l' (hok l' (List.mem_cons_self l' ls))
    have hok' : ∀ x ∈ ls, x.ok commands = true := fun x hx => hok x (List.mem_cons_of_mem l' hx)
    obtain ⟨j, lead', hj, hlead', hsp⟩ := blank_spaces l'.lead h1
    cases args with
    | nil => exact absurd rfl (hne (List.cons_ne_nil l' ls))
    | cons x args =>
      obtain ⟨k, a⟩ := x
      have ha := hargs (k, a) (List.mem_cons_self _ args)
      have hargs' : ∀ y ∈ args, y.2.ok = true := fun y hy => hargs y (List.mem_cons_of_mem _ hy)
      have hT0 : ∀ b ∈ line_text lead' l'.name l'.args ++ chunk_text ls, b ≠ 0 := by
        intro b hb
        rcases List.mem_append.mp hb with h | h
        · exact line_text_ne_zero lead' l'.name l'.args hlead' h2.2 h5 b h
        · exact chunk_text_ne_zero commands ls hok' b h
      obtain ⟨Q, junk', h⟩ := cmd_loop_line commands i f pre lead name k a args j
        (line_text lead' l'.name l'.args ++ chunk_text ls) junk
        hlead hname hcmd hcfg ha hargs' hT0 (line_text_no_space lead' l'.name l'.args _ h2 hsp)
      have e : pre ++ ((line_text lead name ((k, a) :: args) ++ chunk_text (l' :: ls)) ++
            0 :: junk) =
          pre ++ ((line_text lead name ((k, a) :: args) ++ (List.replicate j SP ++
            (line_text lead' l'.name l'.args ++ chunk_text ls))) ++ 0 :: junk) := by
        have : chunk_text (l' :: ls) = List.replicate j SP ++
            (line_text lead' l'.name l'.args ++ chunk_text ls) := by
          simp only [chunk_text, Line.text, line_text]
          rw [hj]
          simp
        rw [this]
      have e2 : (if j = 0 then line_text lead' l'.name l'.args ++ chunk_text ls
          else SP :: (line_text lead' l'.name l'.args ++ chunk_text ls)) =
          line_text (if j = 0 then lead' else SP :: lead') l'.name l'.args ++ chunk_text ls := by
        split_ifs
        · rfl
        · simp [line_text]
      have hlead2 : ∀ b ∈ (if j = 0 then lead' else SP :: lead'), b = SP ∨ b = NL := by
        intro b hb
        split_ifs at hb
        · exact hlead' b hb
        · rcases List.mem_cons.mp hb with h | h
          · exact Or.inl h
          · exact hlead' b h
      have hne' : ls ≠ [] → l'.args ≠ [] := by
        intro hls
        cases ls with
        | nil => exact absurd rfl hls
        | cons y ys => exact hlast l' (List.mem_cons_self l' _)
      have hlast' : ∀ x ∈ ls.dropLast, x.args ≠ [] := by
        intro x hx
        cases ls with
        | nil => simp at hx
        | cons y ys => exact hlast x (List.mem_cons_of_mem l' hx)
      rw [e, h, e2, ih _ l'.name l'.args (l'.cmd commands) Q junk' f hlead2 h2 h3 h4 h5 hok'
        hne' hlast' (by simp only [List.length_cons] at hfuel; omega)]
      rfl

/-- The calls `handle_cmdfifo` makes on a chunk of well-formed lines, each
but the last with at least one argument: one for each line, in order. -/
theorem handle_cmdfifo_lines (commands : List Cmd) (lines : List Line)
    (hok : ∀ l ∈ lines, l.ok commands = true)
    (hargs : ∀ l ∈ lines.dropLast, l.args ≠ []) :
    handle_cmdfifo commands (chunk_text lines) =
      some (lines.map (fun l => { cmd := l.cmd commands,
                                  args := if l.args.isEmpty
                                          then (commands.getD (l.cmd commands) ⟨[], []⟩).args
                                          else pad_args (args_vals l.args) })) := by
  unfold handle_cmdfifo
  cases lines with
  | nil => rfl
  | cons l ls =>
    obtain ⟨h1, h2, h3, h4, h5⟩ := line_ok_spec commands l (hok l (List.mem_cons_self l ls))
    have hne : ls ≠ [] → l.args ≠ [] := by
      intro hls
      cases ls with
      | nil => exact absurd rfl hls
      | cons y ys => exact hargs l (List.mem_cons_self l _)
    have hlast : ∀ x ∈ ls.dropLast, x.args ≠ [] := by
      intro x hx
      cases ls with
      | nil => simp at hx
      | cons y ys => exact hargs x (List.mem_cons_of_mem l hx)
    have := cmd_loop_lines commands ls l.lead l.name l.args (l.cmd commands) [] []
      ((chunk_text (l :: ls)).length + 1) h1 h2 h3 h4 h5
      (fun x hx => hok x (List.mem_cons_of_mem l hx)) hne hlast (by
        have := chunk_text_length ls
        simp only [chunk_text, Line.text, line_text, List.length_append, List.length_singleton]
        omega)
    rw [List.map_cons]
    rw [← this]
    rfl


theorem args_nonempty (lines : List Line)
    (hargs : ∀ l ∈ lines.dropLast, l.args.isEmpty = false) :
    ∀ l ∈ lines.dropLast, l.args ≠ [] := by
  intro l hl e
  have := hargs l hl
  rw [e] at this
  exact absurd this (by decide)

/-! ### The command FIFO: the three claims -/

theorem takeWhile_map_some (l : List (List Nat)) (n : Nat) :
    (l.map some ++ List.replicate n none).takeWhile Option.isSome = l.map some := by
  induction l with
  | nil => cases n <;> rfl
  | cons a l ih => rw [List.map_cons, List.cons_append, List.takeWhile_cons_of_pos rfl, ih]

theorem filterMap_id_map_some (l : List (List Nat)) : (l.map some).filterMap id = l := by
  induction l with
  | nil => rfl
  | cons a l ih =>
    have h : (some a :: l.map some).filterMap id = a :: (l.map some).filterMap id :=
      List.filterMap_cons_some (f := id) rfl
    rw [List.map_cons, h, ih]

theorem arg_strings_pad (l : List (List Nat)) (h : l.length ≤ MAX_ARGS) :
    arg_strings (pad_args l) = l := by
  unfold arg_strings pad_args
  rw [List.take_of_length_le h, takeWhile_map_some, filterMap_id_map_some]

theorem arg_strings_null (arr : List (Option (List Nat))) (h : arr.getD 0 none = none) :
    arg_strings arr = [] := by
  unfold arg_strings
  cases arr with
  | nil => rfl
  | cons a arr =>
    have : a = none := h
    rw [this]
    rfl

set_option maxRecDepth 100000 in
set_option maxHeartbeats 4000000 in
/-- C16, as stated, fails on the code.  The line `create 1 2 3 4 5 6 7 8` has
eight arguments; `create` is registered in `commands0` without preconfigured
arguments.  The array passed holds the eight arguments in its eight slots and
no entry of it is `NULL`.  With a ninth argument on the line the array is the
same.  And a line that follows a line without arguments in the same chunk
gets no array at all: after `focus` and the newline, the line
`create 1 2 3 4 5 6 7 8` is passed over. -/
theorem cmdfifo_eight_args_fill_array :
    handle_cmdfifo commands0 (bytes "create 1 2 3 4 5 6 7 8\n") =
      some [{ cmd := 0, args := [some (bytes "1"), some (bytes "2"), some (bytes "3"),
        some (bytes "4"), some (bytes "5"), some (bytes "6"), some (bytes "7"),
        some (bytes "8")] }] ∧
    handle_cmdfifo commands0 (bytes "create 1 2 3 4 5 6 7 8 9\n") =
      some [{ cmd := 0, args := [some (bytes "1"), some (bytes "2"), some (bytes "3"),
        some (bytes "4"), some (bytes "5"), some (bytes "6"), some (bytes "7"),
        some (bytes "8")] }] ∧
    handle_cmdfifo commands0 (bytes "focus\ncreate 1 2 3 4 5 6 7 8\n") =
      some [{ cmd := 1, args := [none, none, none] }] := by
  decide

/-- C16 (amended). A chunk read from the command FIFO that is made of
well-formed lines, each but the last with at least one argument: every line
names a registered command without preconfigured arguments and has any number
of well-formed arguments (unquoted, or between quotes with the quotes inside
escaped), spaces before each, the newline right after the last.
`handle_cmdfifo` makes one call for each line, in order; line `k` calls its
command.  With no argument on the line the array passed is the command's own
`action.args`, whose first entry is `NULL`.  Otherwise the array has
`MAX_ARGS = 8` entries: entry `m` is the value of argument `m` of the line for
`m` below the number of arguments, and `NULL` from there on, so the excess is
ignored; some entry is `NULL` if and only if the line has fewer than 8
arguments. -/
theorem cmdfifo_args_array (commands : List Cmd) (lines : List Line)
    (hok : ∀ l ∈ lines, l.ok commands = true)
    (hargs : ∀ l ∈ lines.dropLast, l.args.isEmpty = false)
    (_hlen : (chunk_text lines).length ≤ 511) :
    ∃ calls, handle_cmdfifo commands (chunk_text lines) = some calls ∧
      calls.length = lines.length ∧
      ∀ (k : Nat) (l : Line), lines[k]? = some l →
        get_cmd_by_name commands l.name = some (l.cmd commands) ∧
        ∃ arr, calls[k]? = some { cmd := l.cmd commands, args := arr } ∧
          (l.args.isEmpty = true →
            arr = (commands.getD (l.cmd commands) ⟨[], []⟩).args ∧ arr.getD 0 none = none) ∧
          (l.args.isEmpty = false → arr.length = MAX_ARGS ∧
            (∀ m, m < MAX_ARGS → arr.getD m none = (args_vals l.args)[m]?) ∧
            ((∃ m, m < MAX_ARGS ∧ arr.getD m none = none) ↔ l.args.length < MAX_ARGS)) := by
  refine ⟨_, handle_cmdfifo_lines commands lines hok (args_nonempty lines hargs),
    List.length_map _ _, ?_⟩
  intro k l hl
  obtain ⟨-, -, h3, h4, -⟩ := line_ok_spec commands l (hok l (List.getElem?_mem hl))
  refine ⟨h3, _, by rw [List.getElem?_map, hl]; rfl, ?_, ?_⟩
  · intro h
    rw [if_pos h]
    exact ⟨rfl, h4⟩
  · intro h
    rw [if_neg (by rw [h]; decide)]
    have hlen : (args_vals l.args).length = l.args.length := by
      unfold args_vals
      rw [List.length_map]
    refine ⟨pad_args_length _, fun m hm => pad_args_getD _ m hm, ?_⟩
    constructor
    · rintro ⟨m, hm, hn⟩
      rw [pad_args_getD _ m hm] at hn
      have := List.getElem?_eq_none_iff.mp hn
      omega
    · intro hlt
      refine ⟨l.args.length, hlt, ?_⟩
      rw [pad_args_getD _ _ hlt]
      exact List.getElem?_eq_none_iff.mpr (by omega)

set_option maxRecDepth 100000 in
set_option maxHeartbeats 4000000 in
/-- C16 (amended) on the chunk of `three_lines`. -/
theorem cmdfifo_args_array_witness :
    (∀ l ∈ three_lines, l.ok commands0 = true) ∧
    (∀ l ∈ three_lines.dropLast, l.args.isEmpty = false) ∧
    (chunk_text three_lines).length ≤ 511 ∧
    chunk_text three_lines =
      bytes "  create " ++ [DQ] ++ bytes "a b" ++ [DQ, SP, SP, SQ] ++ bytes "c" ++
        [BSL, SQ] ++ bytes "d" ++ [SQ, SP] ++ bytes "e" ++ [BSL, BSL] ++ bytes "f g" ++
        [BSL] ++ bytes "h\n  tag 1 2 3 4 5 6 7 8 9\n\n focus\n" ∧
    ∃ calls, handle_cmdfifo commands0 (chunk_text three_lines) = some calls ∧
      calls.length = three_lines.length ∧
      ∀ (k : Nat) (l : Line), three_lines[k]? = some l →
        get_cmd_by_name commands0 l.name = some (l.cmd commands0) ∧
        ∃ arr, calls[k]? = some { cmd := l.cmd commands0, args := arr } ∧
          (l.args.isEmpty = true →
            arr = (commands0.getD (l.cmd commands0) ⟨[], []⟩).args ∧ arr.getD 0 none = none) ∧
          (l.args.isEmpty = false → arr.length = MAX_ARGS ∧
            (∀ m, m < MAX_ARGS → arr.getD m none = (args_vals l.args)[m]?) ∧
            ((∃ m, m < MAX_ARGS ∧ arr.getD m none = none) ↔ l.args.length < MAX_ARGS)) :=
  ⟨by decide, by decide, by decide, by decide,
   cmdfifo_args_array commands0 three_lines (by decide) (by decide) (by decide)⟩

set_option maxRecDepth 100000 in
/-- C17. The claim fails on the code.  `foo` is not the name of a command of
`commands0`.  On the line `foo create` the word `foo` is skipped and the loop
goes on with the next word of the same line: `create` is called.  On the
lines `foo tag 2` and `focus 1` both `tag` and `focus` are called, `tag` with
the rest of the first line as its argument. -/
theorem cmdfifo_unknown_word_runs_next_word :
    get_cmd_by_name commands0 (bytes "foo") = none ∧
    handle_cmdfifo commands0 (bytes "foo create\n") =
      some [{ cmd := 0, args := [none, none, none] }] ∧
    handle_cmdfifo commands0 (bytes "foo tag 2\nfocus 1\n") =
      some [{ cmd := 2, args := pad_args [bytes "2"] },
            { cmd := 1, args := pad_args [bytes "1"] }] := by
  decide

set_option maxRecDepth 100000 in
set_option maxHeartbeats 4000000 in
/-- C18, as stated, fails on the code.  A string between double quotes that
holds a single quote is not taken as one argument: on the line
`create "it's" x` the one argument passed is `it's" x`.  An unquoted token
that starts with an escaped quote loses it: on the line `create \"x` the
argument passed is `x`.  And whitespace before the newline does add an
argument: on the line `tag 2` followed by one space, `tag` gets the arguments
`2` and the empty string, and `create` followed by one space gets the empty
string, where `create` alone gets no argument.  A line that follows a line
without arguments in the same chunk is not invoked: on the lines `create` and
`tag 2` only `create` is called. -/
theorem cmdfifo_quote_in_string_and_trailing_space :
    handle_cmdfifo commands0
        (bytes "create " ++ [DQ] ++ bytes "it" ++ [SQ] ++ bytes "s" ++ [DQ] ++ bytes " x\n") =
      some [{ cmd := 0,
              args := pad_args [bytes "it" ++ [SQ] ++ bytes "s" ++ [DQ] ++ bytes " x"] }] ∧
    handle_cmdfifo commands0 (bytes "create " ++ [BSL, DQ] ++ bytes "x\n") =
      some [{ cmd := 0, args := pad_args [bytes "x"] }] ∧
    handle_cmdfifo commands0 (bytes "tag 2 \n") =
      some [{ cmd := 2, args := pad_args [bytes "2", []] }] ∧
    handle_cmdfifo commands0 (bytes "create \n") =
      some [{ cmd := 0, args := pad_args [[]] }] ∧
    handle_cmdfifo commands0 (bytes "create\n") =
      some [{ cmd := 0, args := [none, none, none] }] ∧
    handle_cmdfifo commands0 (bytes "create\ntag 2\n") =
      some [{ cmd := 0, args := [none, none, none] }] := by
  decide

/-- C18 (amended). A chunk read from the command FIFO that is made of lines
`WS CMD (WS ARG)* NL`, each with at most 8 arguments and each but the last
with at least one, where `WS` is one or more spaces (before `CMD` also
newlines, or nothing), `CMD` is the name of a registered command without
preconfigured arguments, and each `ARG` is well formed, that is an unquoted
token that neither starts nor ends with an escaped quote, or a string between
two quote characters in which every quote character is written with a
backslash and no backslash stands before the closing quote: `handle_cmdfifo`
calls the command of each line exactly once, in the order of the lines, and
the strings of the array passed are the values of the arguments of the line in
order, each with its surrounding quotes removed, the spaces inside quotes
kept, and each escape collapsed to its second byte. -/
theorem cmdfifo_line_args (commands : List Cmd) (lines : List Line)
    (hok : ∀ l ∈ lines, l.ok commands = true)
    (hargs : ∀ l ∈ lines.dropLast, l.args.isEmpty = false)
    (h8 : ∀ l ∈ lines, l.args.length ≤ MAX_ARGS)
    (_hlen : (chunk_text lines).length ≤ 511) :
    ∃ calls, handle_cmdfifo commands (chunk_text lines) = some calls ∧
      calls.map (fun c => (c.cmd, arg_strings c.args)) =
        lines.map (fun l => (l.cmd commands, args_vals l.args)) ∧
      ∀ l ∈ lines, get_cmd_by_name commands l.name = some (l.cmd commands) := by
  refine ⟨_, handle_cmdfifo_lines commands lines hok (args_nonempty lines hargs), ?_,
    fun l hl => (line_ok_spec commands l (hok l hl)).2.2.1⟩
  rw [List.map_map]
  apply List.map_congr_left
  intro l hl
  obtain ⟨-, -, -, h4, -⟩ := line_ok_spec commands l (hok l hl)
  show (l.cmd commands, arg_strings (if l.args.isEmpty
    then (commands.getD (l.cmd commands) ⟨[], []⟩).args else pad_args (args_vals l.args))) = _
  cases hl' : l.args with
  | nil =>
    rw [List.isEmpty_nil, if_pos rfl, arg_strings_null _ h4]
    rfl
  | cons x args =>
    simp only [List.isEmpty_cons, Bool.false_eq_true, if_false]
    rw [arg_strings_pad]
    unfold args_vals
    rw [List.length_map, ← hl']
    exact h8 l hl

set_option maxRecDepth 100000 in
set_option maxHeartbeats 4000000 in
/-- C18 (amended) on the lines `  create "a b"  'c\'d' e\\f g\h`, `tag 2`
after a space, and `focus 1` after an empty line: the arguments of `create`
are `a b`, `c'd`, `e\f` and `g\h`. -/
theorem cmdfifo_line_args_witness :
    (∀ l ∈ argument_lines, l.ok commands0 = true) ∧
    (∀ l ∈ argument_lines.dropLast, l.args.isEmpty = false) ∧
    (∀ l ∈ argument_lines, l.args.length ≤ MAX_ARGS) ∧
    (chunk_text argument_lines).length ≤ 511 ∧
    chunk_text argument_lines =
      bytes "  create " ++ [DQ] ++ bytes "a b" ++ [DQ, SP, SP, SQ] ++ bytes "c" ++
        [BSL, SQ] ++ bytes "d" ++ [SQ, SP] ++ bytes "e" ++ [BSL, BSL] ++ bytes "f g" ++
        [BSL] ++ bytes "h\n tag 2\n\nfocus 1\n" ∧
    argument_lines.map (fun l => (l.cmd commands0, args_vals l.args)) =
      [(0, [bytes "a b", bytes "c" ++ [SQ] ++ bytes "d", bytes "e" ++ [BSL] ++ bytes "f",
            bytes "g" ++ [BSL] ++ bytes "h"]),
       (2, [bytes "2"]), (1, [bytes "1"])] ∧
    ∃ calls, handle_cmdfifo commands0 (chunk_text argument_lines) = some calls ∧
      calls.map (fun c => (c.cmd, arg_strings c.args)) =
        argument_lines.map (fun l => (l.cmd commands0, args_vals l.args)) ∧
      ∀ l ∈ argument_lines, get_cmd_by_name commands0 l.name = some (l.cmd commands0) :=
  ⟨by decide, by decide, by decide, by decide, by decide, by decide,
   cmdfifo_line_args commands0 argument_lines (by decide) (by decide) (by decide) (by decide)⟩

theorem autohide_screen (n : Nat) (s : State) : (autohide n s).screen = s.screen := by
  unfold autohide
  split_ifs
  · rw [(updatebarpos_bar _).2.2.2.2.2, (hidebar_bar s).2]
  · rw [(updatebarpos_bar _).2.2.2.2.2, (showbar_bar s).2]
  · rfl

theorem arrange_screen (env : Env) (s : State) : (arrange env s).screen = s.screen := by
  rw [(frame_arrange env s).2.1, autohide_screen]
  rfl

set_option maxRecDepth 100000 in
/-- C21. The claim fails on the code.  On the example state `three_masters`
(layout of the kind `tile`, `screen.nmaster == 3`, `NMASTER == 1`):
`incnmaster` with any argument, whatever `sscanf` would read from it, sets
`screen.nmaster` to `NMASTER`, so `+1` gives 1 and not 4, and `5` gives 1 and
not 5; `incnmaster` without argument passes `args[0] == NULL` to `sscanf`
and does not return. -/
theorem incnmaster_argument_resets :
    three_masters.screen.nmaster = 3 ∧
    isfullscreen env1 three_masters = false ∧ isgrid env1 three_masters = false ∧
    (∀ (sscanf_d : String → Option Int) (a : String),
      (incnmaster env1 1 sscanf_d (some a) three_masters).map (fun t => t.screen.nmaster) =
        some 1) ∧
    (∀ (sscanf_d : String → Option Int), incnmaster env1 1 sscanf_d none three_masters = none) := by
  refine ⟨by decide, by decide, by decide, ?_, ?_⟩
  · intro sscanf_d a
    unfold incnmaster
    rw [if_neg (by decide)]
    simp only [Option.isSome_some, if_true, Option.map_some']
    rw [arrange_screen]
    rfl
  · intro sscanf_d
    unfold incnmaster
    rw [if_neg (by decide)]
    rfl

/-- C22. The claim fails on the code at its own example.  For every answer of
the operating system, `dvtm -?` ends in `usage(EXIT_FAILURE)` before `setup()`
has run: the usage text goes to `stderr` and the exit status of the process
is 1, although `-?` is the first option and the line is no bad usage.  With
anything after it, `-?` as first argument ends in `usage(EXIT_SUCCESS)`, also
before `setup()`: the usage text goes to `stdout` and the exit status is 0, as
claimed. -/
theorem parse_args_help_last_fails :
    (∀ os : ArgOs, parse_args os ["dvtm", "-?"] = ([], ArgEnd.usage EXIT_FAILURE) ∧
      exit_status (parse_args os ["dvtm", "-?"]) = some 1) ∧
    usage_stdout EXIT_FAILURE = false ∧
    (∀ (os : ArgOs) (a : String) (rest : List String),
      parse_args os ("dvtm" :: "-?" :: a :: rest) = ([], ArgEnd.usage EXIT_SUCCESS) ∧
      exit_status (parse_args os ("dvtm" :: "-?" :: a :: rest)) = some 0) ∧
    usage_stdout EXIT_SUCCESS = true := by
  have h1 : ∀ os : ArgOs, parse_args os ["dvtm", "-?"] = ([], ArgEnd.usage EXIT_FAILURE) := by
    intro os
    unfold parse_args
    rw [List.tail_cons, parse_loop, if_neg (by decide), if_pos (by decide)]
  have h2 : ∀ (os : ArgOs) (a : String) (rest : List String),
      parse_args os ("dvtm" :: "-?" :: a :: rest) = ([], ArgEnd.usage EXIT_SUCCESS) := by
    intro os a rest
    unfold parse_args
    rw [List.tail_cons, parse_loop, if_neg (by decide), if_neg (by simp), if_pos (by decide)]
  refine ⟨fun os => ⟨h1 os, ?_⟩, by decide, fun os a rest => ⟨h2 os a rest, ?_⟩, by decide⟩
  · rw [h1]; decide
  · rw [h2]; decide

set_option maxRecDepth 100000 in
/-- C25. The claim fails on the code.  With the table `bindings_overlap`, whose
entries are `{7, 7, 9}` and `{7, 7}`, the keys 7, 7, 0 run no action and leave
`key_index == 3`: the third call `keybinding(keys, 3)` returns the binding
`{7, 7, 0}`, whose padding equals the key 0, and its `key_length` is 2, so
that the test `key_index == key_length` fails.  The store
`keys[key_index++]` for the next key, whatever it is, writes `keys[3]`,
outside the buffer of `MAX_KEYS = 3` codes. -/
theorem chord_index_passes_buffer :
    run_keys KEY_MOUSE bindings_overlap [7, 7, 0] chord0 =
      some ({ keys := [7, 7, 0], key_index := 3 },
            [KeyEvent.pending, KeyEvent.pending, KeyEvent.pending]) ∧
    keybinding bindings_overlap [7, 7, 0] 3 = some 1 ∧
    key_length (bindings_overlap.getD 1 []) = 2 ∧
    (∀ code : Int, 0 ≤ code →
      key_step KEY_MOUSE bindings_overlap { keys := [7, 7, 0], key_index := 3 } code = none) ∧
    (∀ code : Int, 0 ≤ code →
      run_keys KEY_MOUSE bindings_overlap [7, 7, 0, code] chord0 = none) := by
  have h4 : ∀ code : Int, 0 ≤ code →
      key_step KEY_MOUSE bindings_overlap { keys := [7, 7, 0], key_index := 3 } code = none := by
    intro code hc
    unfold key_step
    rw [if_neg (by omega), if_pos (by decide)]
  have h1 : run_keys KEY_MOUSE bindings_overlap [7, 7, 0] chord0 =
      some ({ keys := [7, 7, 0], key_index := 3 },
            [KeyEvent.pending, KeyEvent.pending, KeyEvent.pending]) := by decide
  refine ⟨h1, by decide, by decide, h4, ?_⟩
  intro code hc
  have e : ([7, 7, 0, code] : List Int) = [7, 7, 0] ++ [code] := rfl
  rw [e, run_keys_append, h1, Option.some_bind, h4 code hc]
  rfl

/-- A binding that matches three keys of which the last is not 0 has the
length 3. -/
theorem key_length_of_match (keys b : List Nat) (h : chord_matches keys b 3 = true)
    (h2 : keys.getD 2 0 ≠ 0) : key_length b = 3 := by
  unfold chord_matches at h
  simp only [Bool.and_eq_true, decide_eq_true_eq, List.all_eq_true, List.mem_range,
    beq_iff_eq] at h
  have := h.2 2 (by omega)
  unfold key_length
  rw [if_pos (by rw [← this]; exact h2)]

/-- The chord index stays inside the buffer as long as no key has the code 0:
from a chord state with `key_index <= 2` whose stored keys are not 0, every
key with a code from 1 to `UINT_MAX` is handled, and leaves such a state. -/
theorem key_step_index_le (key_mouse : Int) (bindings : List (List Nat)) (ch : Chord)
    (code : Int) (hlen : ch.keys.length = MAX_KEYS) (hi : ch.key_index < MAX_KEYS)
    (hk : ∀ k, k < ch.key_index → ch.keys.getD k 0 ≠ 0)
    (hc : 0 < code ∧ code < U32) :
    ∃ r, key_step key_mouse bindings ch code = some r ∧ r.1.keys.length = MAX_KEYS ∧
      r.1.key_index < MAX_KEYS ∧ ∀ k, k < r.1.key_index → r.1.keys.getD k 0 ≠ 0 := by
  have h0 : chord0.keys.length = MAX_KEYS ∧ chord0.key_index < MAX_KEYS ∧
      ∀ k, k < chord0.key_index → chord0.keys.getD k 0 ≠ 0 :=
    ⟨rfl, by decide, fun k hk => absurd hk (by simp [chord0])⟩
  have hv : (code % U32).toNat ≠ 0 := by
    rw [Int.emod_eq_of_lt (by omega) hc.2]
    omega
  have hset : ∀ k, k < ch.key_index + 1 →
      (ch.keys.set ch.key_index (code % U32).toNat).getD k 0 ≠ 0 := by
    intro k hk1
    by_cases e : k = ch.key_index
    · rw [e, List.getD_eq_getElem _ _ (by rw [List.length_set, hlen]; exact hi),
        List.getElem_set_self]
      exact hv
    · rw [List.getD_eq_getElem?_getD, List.getElem?_set_ne (fun h => e h.symm),
        ← List.getD_eq_getElem?_getD]
      exact hk k (by omega)
  unfold key_step
  rw [if_neg (by omega), if_neg (by omega)]
  simp only []
  split_ifs with hm
  · exact ⟨_, rfl, by simp [hlen], (by decide : 0 < MAX_KEYS), fun k hk => absurd hk (by simp)⟩
  · cases hb : keybinding bindings (ch.keys.set ch.key_index (code % U32).toNat)
        (ch.key_index + 1) with
    | none => exact ⟨_, rfl, h0⟩
    | some b =>
      simp only []
      split_ifs with hl
      · exact ⟨_, rfl, h0⟩
      · refine ⟨_, rfl, by simp [hlen], ?_, hset⟩
        show ch.key_index + 1 < MAX_KEYS
        by_contra hge
        have h3 : ch.key_index + 1 = 3 := by
          have : ch.key_index < 3 := hi
          have : ¬(ch.key_index + 1 < 3) := hge
          omega
        apply hl
        rw [h3]
        unfold keybinding at hb
        rw [List.findIdx?_eq_some_iff_getElem] at hb
        obtain ⟨hlt, hmatch, -⟩ := hb
        rw [h3] at hmatch
        rw [List.getD_eq_getElem _ _ hlt]
        exact (key_length_of_match _ _ hmatch (hset 2 (by omega))).symm

/-- With key codes from 1 to `UINT_MAX` only, every key of a sequence is
stored inside the chord buffer, whatever the binding table is. -/
theorem run_keys_index_le (key_mouse : Int) (bindings : List (List Nat)) (codes : List Int)
    (ch : Chord) (hlen : ch.keys.length = MAX_KEYS) (hi : ch.key_index < MAX_KEYS)
    (hk : ∀ k, k < ch.key_index → ch.keys.getD k 0 ≠ 0)
    (hc : ∀ c ∈ codes, 0 < c ∧ c < U32) :
    ∃ r, run_keys key_mouse bindings codes ch = some r ∧ r.1.key_index < MAX_KEYS := by
  induction codes generalizing ch with
  | nil => exact ⟨_, rfl, hi⟩
  | cons c codes ih =>
    obtain ⟨r, hr, h1, h2, h3⟩ := key_step_index_le key_mouse bindings ch c hlen hi hk
      (hc c (List.mem_cons_self c codes))
    obtain ⟨r2, hr2, h4⟩ := ih r.1 h1 h2 h3 (fun d hd => hc d (List.mem_cons_of_mem c hd))
    refine ⟨(r2.1, r.2 :: r2.2), ?_, h4⟩
    simp only [run_keys, hr, hr2, Option.some_bind]

/-! ### The last window is not minimized -/

theorem mem_insertAfter {a c d : Nat} {l : List Nat} (h : d ∈ l) : d ∈ insertAfter a c l := by
  induction l with
  | nil => simp at h
  | cons x l ih =>
    simp only [insertAfter]
    split_ifs
    · rcases List.mem_cons.mp h with e | e
      · rw [e]; simp
      · simp [e]
    · rcases List.mem_cons.mp h with e | e
      · rw [e]; simp
      · exact List.mem_cons_of_mem _ (ih e)

theorem mem_attachafter {c d : Nat} (a : Option Nat) {s : State} (h : d ∈ s.clients) :
    d ∈ (attachafter c a s).clients := by
  unfold attachafter
  split_ifs
  · exact h
  · split
    · exact h
    · exact mem_insertAfter h

/-- `toggleminimize` keeps every client other than `sel` in the spatial list. -/
theorem toggleminimize_mem {env : Env} {s t : State} {m : Nat}
    (h : toggleminimize env s = some t) (hsel : s.sel = some m) (d : Nat)
    (hd : d ∈ s.clients) (hdm : d ≠ m) : d ∈ t.clients := by
  unfold toggleminimize at h
  rw [hsel] at h
  simp only [] at h
  split at h
  · cases h; exact hd
  · split at h
    · split at h
      · cases h
      · rename_i c hc
        cases h
        rw [arrange_clients]
        apply mem_attachafter
        simp only [detach_clients, focus_clients, attach_clients, flipmin_clients]
        apply (List.mem_erase_of_ne hdm).mpr
        by_cases e : d = c
        · rw [e]; simp
        · exact List.mem_cons_of_mem _ ((List.mem_erase_of_ne e).mpr hd)
    · split at h
      · split at h
        · cases h
        · rename_i s2 hf
          cases h
          rw [arrange_clients]
          apply mem_attachafter
          rw [detach_clients]
          apply (List.mem_erase_of_ne hdm).mpr
          rcases focusnextnm_eq hf with e | ⟨c, e⟩
          · rw [e]; exact hd
          · rw [e, focus_clients]; exact hd
      · cases h
        rw [arrange_clients, attach_clients, detach_clients, flipmin_clients]
        exact List.mem_cons_of_mem _ ((List.mem_erase_of_ne hdm).mpr hd)

/-- `toggleminimize` changes nothing, or flips `sel->minimized` and leaves that
of the other clients alone. -/
theorem toggleminimize_minimized {env : Env} {s t : State} {m : Nat}
    (h : toggleminimize env s = some t) (hsel : s.sel = some m) :
    t = s ∨ t.minimized = upd s.minimized m (!s.minimized m) := by
  unfold toggleminimize at h
  rw [hsel] at h
  simp only [] at h
  split at h
  · cases h; exact Or.inl rfl
  · right
    split at h
    · split at h
      · cases h
      · cases h
        rw [arrange_minimized, (attachafter_frame _ _ _).2.2.2.2.1, detach_minimized,
          focus_minimized]
        rfl
    · split at h
      · split at h
        · cases h
        · rename_i s2 hf
          cases h
          rw [arrange_minimized, (attachafter_frame _ _ _).2.2.2.2.1, detach_minimized]
          rcases focusnextnm_eq hf with e | ⟨c, e⟩
          · rw [e]; rfl
          · rw [e, focus_minimized]; rfl
      · cases h
        rw [arrange_minimized]
        rfl

/-- With a selected client that is linked and visible, `toggleminimize` returns. -/
theorem toggleminimize_total (env : Env) (s : State) (m : Nat) (hnd : s.clients.Nodup)
    (hsel : s.sel = some m) (hmc : m ∈ s.clients) (hmv : isvisible s m = true) :
    ∃ t, toggleminimize env s = some t := by
  by_cases hfirst : nextvisible s s.clients = some m
  · obtain ⟨t, ht, -⟩ := toggleminimize_first env s m hnd hsel hfirst
    exact ⟨t, ht⟩
  · cases hmin : s.minimized m with
    | true => exact ⟨_, toggleminimize_restore env s m hsel hmin⟩
    | false =>
      by_cases hone : ((visibleOf s s.clients).filter (fun c => !s.minimized c)).length = 1
      · exact ⟨s, toggleminimize_last env s m hsel hmin hone⟩
      · obtain ⟨c, hf, -⟩ := focusnextnm_visible (flipmin m s) m hsel hmc hmv
        exact ⟨_, toggleminimize_other env s _ m hsel hmin hone hfirst hf⟩

theorem length_eq_one_of_all_eq {l : List Nat} {m : Nat} (hnd : l.Nodup) (hm : m ∈ l)
    (h : ∀ x ∈ l, x = m) : l.length = 1 := by
  cases l with
  | nil => simp at hm
  | cons x l =>
    cases l with
    | nil => rfl
    | cons y l =>
      have hx := h x (by simp)
      have hy := h y (by simp)
      have := (List.nodup_cons.mp hnd).1
      rw [hx, hy] at this
      simp at this

/-- C24. In a state whose spatial list has distinct nodes and whose `sel` is a
visible client of the list, or is `NULL` with no client visible (what
`arrange` leaves): if `sel` is not minimized and every other visible client
is, `toggleminimize()` returns the state unchanged; and in every case
`toggleminimize()` returns, and if its result has a visible client then it
has a visible client that is not minimized. -/
theorem toggleminimize_last_window (env : Env) (s : State) (hnd : s.clients.Nodup)
    (hsome : ∀ m, s.sel = some m → m ∈ s.clients ∧ isvisible s m = true)
    (hnone : s.sel = none → ∀ c ∈ s.clients, isvisible s c = false) :
    (∀ m, s.sel = some m → s.minimized m = false →
      (∀ c ∈ s.clients, isvisible s c = true → c ≠ m → s.minimized c = true) →
      toggleminimize env s = some s) ∧
    ∃ t, toggleminimize env s = some t ∧
      ((∃ c ∈ t.clients, isvisible t c = true) →
        ∃ c ∈ t.clients, isvisible t c = true ∧ t.minimized c = false) := by
  have hfnd : ((visibleOf s s.clients).filter (fun c => !s.minimized c)).Nodup :=
    (hnd.filter _).filter _
  have hfm : ∀ m, s.sel = some m → s.minimized m = false →
      m ∈ (visibleOf s s.clients).filter (fun c => !s.minimized c) := by
    intro m hsel hmin
    obtain ⟨hmc, hmv⟩ := hsome m hsel
    simp only [visibleOf, List.mem_filter]
    exact ⟨⟨hmc, hmv⟩, by simp [hmin]⟩
  constructor
  · intro m hsel hmin hothers
    apply toggleminimize_last env s m hsel hmin
    apply length_eq_one_of_all_eq hfnd (hfm m hsel hmin)
    intro x hx
    simp only [visibleOf, List.mem_filter, Bool.not_eq_true', ] at hx
    by_contra hne
    have := hothers x hx.1.1 hx.1.2 hne
    rw [this] at hx
    exact absurd hx.2 (by simp)
  · cases hsel : s.sel with
    | none =>
      refine ⟨s, ?_, ?_⟩
      · unfold toggleminimize
        rw [hsel]
      · rintro ⟨c, hc, hv⟩
        rw [hnone hsel c hc] at hv
        exact absurd hv (by simp)
    | some m =>
      obtain ⟨hmc, hmv⟩ := hsome m hsel
      obtain ⟨t, ht⟩ := toggleminimize_total env s m hnd hsel hmc hmv
      refine ⟨t, ht, fun _ => ?_⟩
      have hvis : isvisible t = isvisible s := by
        obtain ⟨t1, t2, t3, t4⟩ := toggleminimize_tags ht
        exact isvisible_of_eq t1 t2 t3 t4
      cases hmin : s.minimized m with
      | true =>
        rw [toggleminimize_restore env s m hsel hmin] at ht
        cases ht
        refine ⟨m, by simp, by rw [hvis]; exact hmv, ?_⟩
        rw [arrange_minimized, attach_minimized, detach_minimized]
        simp [flipmin, upd, hmin]
      | false =>
        by_cases hone : ((visibleOf s s.clients).filter (fun c => !s.minimized c)).length = 1
        · rw [toggleminimize_last env s m hsel hmin hone] at ht
          cases ht
          exact ⟨m, hmc, hmv, hmin⟩
        · obtain ⟨d, hd, hdm⟩ : ∃ d ∈ (visibleOf s s.clients).filter (fun c => !s.minimized c),
              d ≠ m := by
            by_contra hall
            push_neg at hall
            exact hone (length_eq_one_of_all_eq hfnd (hfm m hsel hmin) hall)
          simp only [visibleOf, List.mem_filter, Bool.not_eq_true'] at hd
          refine ⟨d, toggleminimize_mem ht hsel d hd.1.1 hdm, by rw [hvis]; exact hd.1.2, ?_⟩
          rcases toggleminimize_minimized ht hsel with e | e
          · rw [e]; exact hd.2
          · rw [e, upd_other _ _ _ _ hdm]
            exact hd.2

set_option maxRecDepth 100000 in
/-- C24 on the example state `two_one_left`: of its two visible clients the one
at address 2 is minimized and the one at address 1 is selected;
`toggleminimize()` leaves the state as it is. -/
theorem toggleminimize_last_window_witness :
    two_one_left.clients = [1, 2] ∧ two_one_left.sel = some 1 ∧
    two_one_left.minimized 1 = false ∧ two_one_left.minimized 2 = true ∧
    isvisible two_one_left 1 = true ∧ isvisible two_one_left 2 = true ∧
    toggleminimize env0 two_one_left = some two_one_left ∧
    ∃ t, toggleminimize env0 two_one_left = some t ∧
      ((∃ c ∈ t.clients, isvisible t c = true) →
        ∃ c ∈ t.clients, isvisible t c = true ∧ t.minimized c = false) :=
  have hsel : two_one_left.sel = some 1 := by decide
  have hcl : two_one_left.clients = [1, 2] := by decide
  have h := toggleminimize_last_window env0 two_one_left (by rw [hcl]; decide)
    (fun m hm => by
      rw [hsel] at hm
      cases hm
      exact ⟨by rw [hcl]; decide, by decide⟩)
    (fun hn => by rw [hsel] at hn; cases hn)
  ⟨hcl, hsel, by decide, by decide, by decide, by decide,
   h.1 1 hsel (by decide) (fun c hc _ hne => by
     rw [hcl] at hc
     rcases List.mem_cons.mp hc with e | e
     · exact absurd e hne
     · rw [List.mem_singleton.mp e]
       decide),
   h.2⟩

/-! ### The strip of the minimized clients -/

theorem area_resize (env : Env) (r : ResizeCall) (s : State) :
    (resize env r s).waw = s.waw ∧ (resize env r s).wax = s.wax ∧
    (resize env r s).way = s.way ∧ (resize env r s).wah = s.wah ∧
    (resize env r s).minimized = s.minimized := by
  unfold resize move_client resize_client
  simp only []
  split_ifs <;> exact ⟨rfl, rfl, rfl, rfl, rfl⟩

theorem area_resizeAll (env : Env) (rs : List ResizeCall) (s : State) :
    (resizeAll env rs s).waw = s.waw ∧ (resizeAll env rs s).wax = s.wax ∧
    (resizeAll env rs s).way = s.way ∧ (resizeAll env rs s).wah = s.wah ∧
    (resizeAll env rs s).minimized = s.minimized := by
  induction rs generalizing s with
  | nil => exact ⟨rfl, rfl, rfl, rfl, rfl⟩
  | cons r rs ih =>
    simp only [resizeAll]
    obtain ⟨a1, a2, a3, a4, a5⟩ := ih (resize env r s)
    obtain ⟨b1, b2, b3, b4, b5⟩ := area_resize env r s
    exact ⟨a1.trans b1, a2.trans b2, a3.trans b3, a4.trans b4, a5.trans b5⟩

/-- The loop of `arrange` over the minimized clients makes the `resize` calls
of the strip as the specification words it. -/
theorem placeMinimized_eq_strip (env : Env) (m : Nat) (l : List Nat) (i : Nat) (s : State)
    (hwax : s.wax = 0) (hwaw : 0 ≤ s.waw)
    (hm : i + (l.filter s.minimized).length = m) :
    placeMinimized env m (Int.tdiv s.waw m) l i (s.wax + i * (s.waw / m)) s =
      resizeAll env (strip_from s.waw s.wax (s.way + s.wah) m (l.filter s.minimized) i) s := by
  induction l generalizing i s with
  | nil => rfl
  | cons c l ih =>
    have hdiv : Int.tdiv s.waw m = s.waw / m :=
      Int.tdiv_eq_ediv hwaw (Int.ofNat_nonneg m)
    rw [placeMinimized]
    by_cases hc : s.minimized c = true
    · rw [if_pos hc, List.filter_cons_of_pos hc, strip_from, resizeAll]
      rw [List.filter_cons_of_pos hc, List.length_cons] at hm
      obtain ⟨a1, a2, a3, a4, a5⟩ := area_resize env
        ⟨c, s.wax + i * (s.waw / m), s.way + s.wah,
          if (i : Int) + 1 = m then s.waw - (s.wax + i * (s.waw / m)) else Int.tdiv s.waw m, 1⟩ s
      have hw : (if (i : Int) + 1 = m then s.waw - (s.wax + i * (s.waw / m))
          else Int.tdiv s.waw m) =
          (if i + 1 = m then s.waw - ((m - 1 : Nat) : Int) * (s.waw / m) else s.waw / m) := by
        by_cases e : i + 1 = m
        · have e' : (i : Int) + 1 = m := by exact_mod_cast e
          rw [if_pos e, if_pos e', hwax]
          have : m - 1 = i := by omega
          rw [this]
          ring
        · have e' : ¬((i : Int) + 1 = m) := by exact_mod_cast e
          rw [if_neg e, if_neg e', hdiv]
      rw [hw] at a1 a2 a3 a4 a5 ⊢
      have hnx : s.wax + (i : Int) * (s.waw / m) + Int.tdiv s.waw m =
          s.wax + ((i + 1 : Nat) : Int) * (s.waw / m) := by
        rw [hdiv]
        push_cast
        ring
      have := ih (i + 1) (resize env ⟨c, s.wax + i * (s.waw / m), s.way + s.wah,
        if i + 1 = m then s.waw - ((m - 1 : Nat) : Int) * (s.waw / m) else s.waw / m, 1⟩ s)
        (by rw [a2]; exact hwax) (by rw [a1]; exact hwaw) (by rw [a5]; omega)
      rw [a1, a2, a3, a4, a5] at this
      rw [hnx]
      exact_mod_cast this
    · rw [if_neg hc, List.filter_cons_of_neg hc]
      rw [List.filter_cons_of_neg hc] at hm
      exact ih i s hwax hwaw hm

theorem strip_from_get (waw x0 y : Int) (m : Nat) (l : List Nat) (j k : Nat) (c : Nat)
    (h : l[k]? = some c) :
    (strip_from waw x0 y m l j)[k]? =
      some ⟨c, x0 + ((j + k : Nat) : Int) * (waw / m), y,
        if j + k + 1 = m then waw - (m - 1 : Nat) * (waw / m) else waw / m, 1⟩ := by
  induction l generalizing j k with
  | nil => simp at h
  | cons d l ih =>
    cases k with
    | zero =>
      simp only [List.getElem?_cons_zero, Option.some.injEq] at h
      rw [strip_from, List.getElem?_cons_zero, h]
      rfl
    | succ k =>
      rw [List.getElem?_cons_succ] at h
      rw [strip_from, List.getElem?_cons_succ, ih (j + 1) k h]
      have e : j + 1 + k = j + (k + 1) := by omega
      rw [e]

theorem strip_from_length (waw x0 y : Int) (m : Nat) (l : List Nat) (j : Nat) :
    (strip_from waw x0 y m l j).length = l.length := by
  induction l generalizing j with
  | nil => rfl
  | cons d l ih => rw [strip_from, List.length_cons, List.length_cons, ih]

theorem strip_from_sum (waw x0 y : Int) (m : Nat) (l : List Nat) (j : Nat) (hl : l ≠ [])
    (h : j + l.length = m) :
    ((strip_from waw x0 y m l j).map (fun r => r.w)).sum = waw - (j : Int) * (waw / m) := by
  induction l generalizing j with
  | nil => exact absurd rfl hl
  | cons d l ih =>
    rw [strip_from, List.map_cons, List.sum_cons]
    rw [List.length_cons] at h
    cases l with
    | nil =>
      have e : j + 1 = m := by simpa using h
      simp only [strip_from, List.map_nil, List.sum_nil, add_zero]
      rw [if_pos e]
      have : m - 1 = j := by omega
      rw [this]
    | cons d2 l =>
      have e : ¬(j + 1 = m) := by
        rw [List.length_cons] at h
        omega
      show (if j + 1 = m then _ else _) + _ = _
      rw [if_neg e, ih (j + 1) (by simp) (by omega)]
      push_cast
      ring

/-- The strip as the specification words it has the properties the
specification lists. -/
theorem strip_spec_placed (waw x0 y : Int) (l : List Nat) (hl : l ≠ []) :
    StripPlaced waw x0 y l (strip_spec waw x0 y l) := by
  unfold strip_spec
  have hget : ∀ (k : Nat) (r : ResizeCall), (strip_from waw x0 y l.length l 0)[k]? = some r →
      ∃ c, l[k]? = some c ∧ r = ⟨c, x0 + ((0 + k : Nat) : Int) * (waw / l.length), y,
        if 0 + k + 1 = l.length then waw - (l.length - 1 : Nat) * (waw / l.length)
        else waw / l.length, 1⟩ := by
    intro k r hr
    have hk : k < l.length := by
      have := (List.getElem?_eq_some_iff.mp hr).1
      rw [strip_from_length] at this
      exact this
    refine ⟨l[k], List.getElem?_eq_getElem hk, ?_⟩
    have := strip_from_get waw x0 y l.length l 0 k l[k] (List.getElem?_eq_getElem hk)
    rw [this] at hr
    exact (Option.some.inj hr).symm
  refine ⟨?_, ?_, ?_, ?_, ?_, ?_⟩
  · apply List.ext_getElem?
    intro k
    rw [List.getElem?_map]
    cases hk : l[k]? with
    | none =>
      have : l.length ≤ k := List.getElem?_eq_none_iff.mp hk
      rw [List.getElem?_eq_none_iff.mpr (by rw [strip_from_length]; exact this)]
      rfl
    | some c =>
      rw [strip_from_get waw x0 y l.length l 0 k c hk]
      rfl
  · intro r hr
    obtain ⟨k, hk⟩ := List.getElem?_of_mem hr
    obtain ⟨c, -, e⟩ := hget k r hk
    rw [e]
    exact ⟨rfl, rfl⟩
  · intro k r hr hk
    obtain ⟨c, -, e⟩ := hget k r hr
    rw [e]
    show (if 0 + k + 1 = l.length then _ else _) = _
    rw [if_neg (by omega)]
  · cases l with
    | nil => exact absurd rfl hl
    | cons c l =>
      simp [strip_from]
  · intro k r r' hr hr'
    obtain ⟨c, -, e⟩ := hget k r hr
    obtain ⟨c', hc', e'⟩ := hget (k + 1) r' hr'
    have hk : k + 1 < l.length := (List.getElem?_eq_some_iff.mp hc').1
    rw [e, e']
    show x0 + ((0 + (k + 1) : Nat) : Int) * _ = x0 + ((0 + k : Nat) : Int) * _ +
      (if 0 + k + 1 = l.length then _ else _)
    rw [if_neg (by omega)]
    push_cast
    ring
  · rw [strip_from_sum waw x0 y l.length l 0 hl (by omega)]
    simp

theorem core_autohide (n : Nat) (s : State) : core (autohide n s) = core s := by
  unfold autohide
  split_ifs <;> simp only [core_updatebarpos, core_hidebar, core_showbar]

theorem updatebarpos_area (s : State) :
    (updatebarpos s).wax = 0 ∧ (updatebarpos s).waw = s.screen.w := by
  unfold updatebarpos
  simp only []
  split_ifs <;> exact ⟨rfl, rfl⟩

/-- The state when `arrange` reserves the strip: the clients, their tags and
the layout are those at the start; `wax` is 0 and `waw` is not negative when
this holds at the start and the screen width is not negative. -/
theorem arrange_start_frame (s : State) :
    (arrange_start s).clients = s.clients ∧ isvisible (arrange_start s) = isvisible s ∧
    (arrange_start s).minimized = s.minimized ∧ (arrange_start s).layout = s.layout ∧
    (s.wax = 0 → (arrange_start s).wax = 0) ∧
    (0 ≤ s.waw → 0 ≤ s.screen.w → 0 ≤ (arrange_start s).waw) := by
  have hc : core (arrange_start s) = core (renumber s) := core_autohide _ _
  refine ⟨congrArg Core.clients hc, ?_, congrArg Core.minimized hc, congrArg Core.layout hc,
    ?_, ?_⟩
  · rw [isvisible_congr hc, isvisible_renumber]
  · intro h
    unfold arrange_start autohide
    split_ifs
    · exact (updatebarpos_area _).1
    · exact (updatebarpos_area _).1
    · exact h
  · intro h1 h2
    unfold arrange_start autohide
    split_ifs
    · rw [(updatebarpos_area _).2, (hidebar_bar _).2]
      exact h2
    · rw [(updatebarpos_area _).2, (showbar_bar _).2]
      exact h2
    · exact h1

/-- C23. In a state with `wax == 0` (the only value the program gives it) and
no negative width: with at least one visible minimized client and a layout
other than fullscreen, `arrange()` runs the layout function in the state whose
`wah` is one less, then makes the `resize` calls of the strip as the
specification words it, in the row `way + wah` of that state, and these calls
have the properties the specification lists; `wah` is then what it was before
the decrement.  With no visible minimized client, or in the fullscreen
layout, the layout function runs with `wah` as it is and no further `resize`
call is made. -/
theorem arrange_strip (env : Env) (s : State) (hwax : s.wax = 0) (hwaw : 0 ≤ s.waw)
    (hscr : 0 ≤ s.screen.w) :
    (minimized_visible s ≠ [] → isfullscreen env s = false →
      arrange env s = draw_all (focus none (addwah 1
        (resizeAll env
          (strip_spec (arrange_start s).waw (arrange_start s).wax
            ((arrange_start s).way + ((arrange_start s).wah - 1)) (minimized_visible s))
          (resizeAll env ((env.layouts s.layout).arrange (addwah (-1) (arrange_start s)))
            (addwah (-1) (arrange_start s)))))) ∧
      StripPlaced (arrange_start s).waw (arrange_start s).wax
        ((arrange_start s).way + ((arrange_start s).wah - 1)) (minimized_visible s)
        (strip_spec (arrange_start s).waw (arrange_start s).wax
          ((arrange_start s).way + ((arrange_start s).wah - 1)) (minimized_visible s)) ∧
      (addwah (-1) (arrange_start s)).wah = (arrange_start s).wah - 1 ∧
      (arrange env s).wah = (arrange_start s).wah) ∧
    (minimized_visible s = [] ∨ isfullscreen env s = true →
      arrange env s = draw_all (focus none
        (resizeAll env ((env.layouts s.layout).arrange (arrange_start s)) (arrange_start s)))) ∧
    (¬(s.bar.fd < 0 ∧ s.bar.autohide = true) → (arrange_start s).wah = s.wah) := by
  obtain ⟨f1, f2, f3, f4, f5, f6⟩ := arrange_start_frame s
  have hfs : isfullscreen env (arrange_start s) = isfullscreen env s := by
    unfold isfullscreen
    rw [f4]
  refine ⟨?_, ?_, ?_⟩
  · intro hm hnf
    refine ⟨?_, strip_spec_placed _ _ _ _ hm, rfl, (frame_arrange env s).2.2⟩
    have hm0 : ((List.filter s.minimized (visibleOf s s.clients)).length : Int) ≠ 0 := by
      intro h
      apply hm
      unfold minimized_visible
      exact List.length_eq_zero.mp (by exact_mod_cast h)
    unfold arrange
    simp only []
    rw [show autohide ((visibleOf s s.clients).length % U32) (renumber s) = arrange_start s
      from rfl, hfs, hnf]
    simp only [ne_eq, hm0, not_false_eq_true, decide_True, Bool.not_false, Bool.and_self,
      if_true]
    rw [show (addwah (-1) (arrange_start s)).layout = s.layout from f4]
    obtain ⟨a1, a2, a3, a4, a5⟩ := area_resizeAll env
      ((env.layouts s.layout).arrange (addwah (-1) (arrange_start s)))
      (addwah (-1) (arrange_start s))
    have hcore := core_resizeAll env
      ((env.layouts s.layout).arrange (addwah (-1) (arrange_start s)))
      (addwah (-1) (arrange_start s))
    have a4' : (resizeAll env ((env.layouts s.layout).arrange (addwah (-1) (arrange_start s)))
        (addwah (-1) (arrange_start s))).wah = (arrange_start s).wah - 1 := by
      rw [a4]
      show (arrange_start s).wah + -1 = _
      ring
    generalize resizeAll env
      ((env.layouts s.layout).arrange (addwah (-1) (arrange_start s)))
      (addwah (-1) (arrange_start s)) = s4 at a1 a2 a3 a4 a4' a5 hcore ⊢
    have hcl : s4.clients = s.clients := (congrArg Core.clients hcore).trans f1
    have hvis : isvisible s4 = isvisible s := by
      rw [isvisible_congr hcore]
      exact f2
    have hmin : s4.minimized = s.minimized := a5.trans f3
    have hV : visibleOf s4 s4.clients = visibleOf s s.clients := by
      unfold visibleOf
      rw [hcl, hvis]
    have hwax4 : s4.wax = 0 := a2.trans (f5 hwax)
    have hwaw4 : 0 ≤ s4.waw := by
      rw [a1]
      exact f6 hwaw hscr
    have key := placeMinimized_eq_strip env (minimized_visible s).length
      (visibleOf s4 s4.clients) 0 s4 hwax4 hwaw4 (by
        rw [hV, hmin]
        unfold minimized_visible
        omega)
    rw [hV, hmin] at key
    have e0 : s4.wax + ((0 : Nat) : Int) * (s4.waw / ((minimized_visible s).length : Int)) =
        s4.wax := by simp
    rw [e0] at key
    have key2 : placeMinimized env ((List.filter s.minimized (visibleOf s s.clients)).length : Int)
        (Int.tdiv s4.waw ((List.filter s.minimized (visibleOf s s.clients)).length : Int))
        (visibleOf s s.clients) 0 s4.wax s4 =
        resizeAll env (strip_from s4.waw s4.wax (s4.way + s4.wah) (minimized_visible s).length
          (List.filter s.minimized (visibleOf s s.clients)) 0) s4 := by
      exact_mod_cast key
    rw [hV, key2, a1, a2, a3, a4']
    rfl
  · intro h
    have hstrip : (decide (((List.filter s.minimized (visibleOf s s.clients)).length : Int) ≠ 0) &&
        !isfullscreen env (arrange_start s)) = false := by
      rcases h with h | h
      · unfold minimized_visible at h
        rw [h]
        rfl
      · rw [hfs, h]
        simp
    unfold arrange
    simp only []
    rw [show autohide ((visibleOf s s.clients).length % U32) (renumber s) = arrange_start s
      from rfl, hstrip]
    simp only [Bool.false_eq_true, if_false]
    rw [f4]
  · intro h
    unfold arrange_start autohide
    rw [if_neg (by exact h)]
    rfl

set_option maxRecDepth 100000 in
set_option maxHeartbeats 4000000 in
/-- C23 on the example state `four_three_minimized` (80 columns, the bar on
top, three of four clients minimized): the layout runs with 22 rows, the
strip is row 23, and the three minimized clients get the widths 26, 26 and 28
from the columns 0, 26 and 52. -/
theorem arrange_strip_witness :
    four_three_minimized.wax = 0 ∧ 0 ≤ four_three_minimized.waw ∧
    0 ≤ four_three_minimized.screen.w ∧
    minimized_visible four_three_minimized = [2, 3, 4] ∧
    isfullscreen env1 four_three_minimized = false ∧
    (arrange_start four_three_minimized).wah = 23 ∧
    (strip_spec (arrange_start four_three_minimized).waw (arrange_start four_three_minimized).wax
        ((arrange_start four_three_minimized).way + ((arrange_start four_three_minimized).wah - 1))
        (minimized_visible four_three_minimized)).map (fun r => (r.c, r.x, r.y, r.w, r.h)) =
      [(2, 0, 23, 26, 1), (3, 26, 23, 26, 1), (4, 52, 23, 28, 1)] ∧
    (arrange env1 four_three_minimized = draw_all (focus none (addwah 1
        (resizeAll env1
          (strip_spec (arrange_start four_three_minimized).waw
            (arrange_start four_three_minimized).wax
            ((arrange_start four_three_minimized).way +
              ((arrange_start four_three_minimized).wah - 1))
            (minimized_visible four_three_minimized))
          (resizeAll env1
            ((env1.layouts four_three_minimized.layout).arrange
              (addwah (-1) (arrange_start four_three_minimized)))
            (addwah (-1) (arrange_start four_three_minimized)))))) ∧
      StripPlaced (arrange_start four_three_minimized).waw
        (arrange_start four_three_minimized).wax
        ((arrange_start four_three_minimized).way +
          ((arrange_start four_three_minimized).wah - 1))
        (minimized_visible four_three_minimized)
        (strip_spec (arrange_start four_three_minimized).waw
          (arrange_start four_three_minimized).wax
          ((arrange_start four_three_minimized).way +
            ((arrange_start four_three_minimized).wah - 1))
          (minimized_visible four_three_minimized)) ∧
      (addwah (-1) (arrange_start four_three_minimized)).wah =
        (arrange_start four_three_minimized).wah - 1 ∧
      (arrange env1 four_three_minimized).wah = (arrange_start four_three_minimized).wah) ∧
    (List.map (fun c => ((arrange env1 four_three_minimized).x c,
        (arrange env1 four_three_minimized).y c, (arrange env1 four_three_minimized).w c,
        (arrange env1 four_three_minimized).h c)) [1, 2, 3, 4] =
      [(0, 1, 80, 22), (0, 23, 26, 1), (26, 23, 26, 1), (52, 23, 28, 1)]) :=
  ⟨by decide, by decide, by decide, by decide, by decide, by decide, by decide,
   (arrange_strip env1 four_three_minimized (by decide) (by decide) (by decide)).1
     (by decide) (by decide),
   by decide⟩

/-! ### `destroy` unlinks the client -/

theorem focus_none_lastsel (s : State) :
    (focus none s).lastsel =
      if s.sel = s.stack.find? (isvisible s) then s.lastsel else s.sel := by
  unfold focus
  simp only []
  split_ifs with h
  · rfl
  · cases hf : s.stack.find? (isvisible s) <;> cases hs : s.sel <;> rfl

theorem focus_some_lastsel (c : Nat) (s : State) :
    (focus (some c) s).lastsel = if s.sel = some c then s.lastsel else s.sel := by
  unfold focus
  simp only []
  split_ifs with h
  · rfl
  · cases hs : s.sel <;> rfl

theorem arrange_lastsel (env : Env) (s : State) :
    (arrange env s).lastsel = (focus none s).lastsel := by
  have h := congrArg Core.lastsel (core_arrange env s)
  simp only [core] at h
  rw [h, (draw_all_core_frame _).2.2.2.2.2.2.2.2.2.2.2.2.2.2.1, focus_none_lastsel,
    focus_none_lastsel]
  simp only [isvisible_renumber]
  rfl

/-- The focus stack after `arrange()`: unchanged when `sel` is the first
visible client of the stack or the stack has no visible client; otherwise
that client has moved to the top. -/
theorem arrange_stack_cases (env : Env) (s : State) :
    (s.sel = s.stack.find? (isvisible s) ∧ (arrange env s).stack = s.stack) ∨
    (s.sel ≠ none ∧ s.stack.find? (isvisible s) = none ∧ (arrange env s).stack = s.stack) ∨
    ∃ x, s.stack.find? (isvisible s) = some x ∧ s.sel ≠ some x ∧
      (arrange env s).stack = x :: s.stack.erase x := by
  rw [arrange_stack, focus_none_stack]
  by_cases h : s.sel = s.stack.find? (isvisible s)
  · left
    exact ⟨h, by rw [if_pos h]⟩
  · right
    rw [if_neg h]
    cases hf : s.stack.find? (isvisible s) with
    | none =>
      left
      rw [hf] at h
      exact ⟨h, rfl, rfl⟩
    | some x =>
      right
      rw [hf] at h
      exact ⟨x, rfl, h, rfl⟩

theorem unref_arrange (env : Env) (c : Nat) (s : State) (h : Unreferenced c s) :
    Unreferenced c (arrange env s) := by
  obtain ⟨h1, h2, h3, h4⟩ := h
  have hfind : s.stack.find? (isvisible s) ≠ some c := by
    intro e
    exact h2 (List.mem_of_find?_eq_some e)
  refine ⟨by rw [arrange_clients]; exact h1, ?_, ?_, ?_⟩
  · rcases arrange_stack_cases env s with ⟨-, e⟩ | ⟨-, -, e⟩ | ⟨x, hx, -, e⟩
    · rw [e]; exact h2
    · rw [e]; exact h2
    · rw [e]
      intro hm
      rcases List.mem_cons.mp hm with e1 | e1
      · rw [← e1] at hx
        exact hfind hx
      · exact h2 (List.mem_of_mem_erase e1)
  · rw [arrange_sel]
    split_ifs
    · exact hfind
    · simp
  · rw [arrange_lastsel, focus_none_lastsel]
    split_ifs
    · exact h4
    · exact h3

theorem unref_focus_some (c p : Nat) (s : State) (h : Unreferenced c s) (hp : p ≠ c) :
    Unreferenced c (focus (some p) s) := by
  obtain ⟨h1, h2, h3, h4⟩ := h
  refine ⟨by rw [focus_clients]; exact h1, ?_, ?_, ?_⟩
  · rw [focus_some_stack]
    split_ifs
    · exact h2
    · intro hm
      rcases List.mem_cons.mp hm with e1 | e1
      · exact hp e1.symm
      · exact h2 (List.mem_of_mem_erase e1)
  · rw [focus_some_sel]
    intro e
    exact hp (Option.some.inj e)
  · rw [focus_some_lastsel]
    split_ifs
    · exact h4
    · exact h3

theorem unref_create (env : Env) (cmd : Option String) (a : Alloc) (c : Nat) (s : State)
    (h : Unreferenced c s) (hf : ∀ c2, a = Alloc.ok c2 → c2 ≠ c) :
    Unreferenced c (create env cmd a s) := by
  cases a with
  | calloc_failed => exact h
  | newwin_failed => exact h
  | vt_create_failed => exact h
  | ok c2 =>
    have hc2 := hf c2 rfl
    apply unref_arrange
    apply unref_focus_some _ _ _ _ hc2
    obtain ⟨h1, h2, h3, h4⟩ := h
    refine ⟨?_, h2, h3, h4⟩
    show c ∉ c2 :: s.clients
    intro hm
    rcases List.mem_cons.mp hm with e | e
    · exact hc2 e.symm
    · exact h1 e

theorem unref_destroy_finish (env : Env) (a : Alloc) (c : Nat) (s : State)
    (h : Unreferenced c s) (hf : ∀ c2, a = Alloc.ok c2 → c2 ≠ c) :
    Unreferenced c (destroy_finish env a c s) := by
  unfold destroy_finish
  split_ifs
  · exact h
  · exact unref_arrange _ _ _ (unref_create _ _ _ _ _ h hf)
  · exact unref_arrange _ _ _ h

/-- `focusnextnm` from a visible linked `sel`: it focuses another visible
client, or every other visible client is minimized and nothing changes. -/
theorem focusnextnm_cases (s : State) (c : Nat) (hnd : s.clients.Nodup)
    (hsel : s.sel = some c) (hc : c ∈ s.clients) (hv : isvisible s c = true) :
    (∃ d, d ≠ c ∧ d ∈ s.clients ∧ isvisible s d = true ∧
      focusnextnm s = some (focus (some d) s)) ∨
    (focusnextnm s = some s ∧
      ∀ x ∈ s.clients, isvisible s x = true → x ≠ c → s.minimized x = true) := by
  obtain ⟨d, hf, hd, hdv, -⟩ := focusnextnm_visible s c hsel hc hv
  by_cases hdc : d = c
  · right
    have hss : focus (some c) s = s := by
      unfold focus
      simp only []
      rw [if_pos hsel]
    rw [hdc, hss] at hf
    refine ⟨hf, ?_⟩
    have hfind : (visibleOf s (after c s.clients) ++ visibleOf s s.clients).find?
        (fun x => !s.minimized x || x == c) = some c := by
      unfold focusnextnm at hf
      rw [hsel] at hf
      simp only [] at hf
      cases hq : (visibleOf s (after c s.clients) ++ visibleOf s s.clients).find?
          (fun x => !s.minimized x || x == c) with
      | none => rw [hq] at hf; cases hf
      | some e =>
        rw [hq] at hf
        simp only [Option.some.injEq] at hf
        have := congrArg State.sel hf
        rw [focus_some_sel, hsel] at this
        rw [Option.some.inj this]
    rw [List.find?_append] at hfind
    have h1 : (visibleOf s (after c s.clients)).find? (fun x => !s.minimized x || x == c) =
        none := by
      cases hq : (visibleOf s (after c s.clients)).find? (fun x => !s.minimized x || x == c) with
      | none => rfl
      | some e =>
        rw [hq] at hfind
        simp only [Option.or, Option.some.injEq] at hfind
        have hm := List.mem_of_find?_eq_some hq
        rw [hfind] at hm
        exact absurd (List.mem_of_mem_filter hm) (not_mem_after_self hnd)
    rw [h1] at hfind
    simp only [Option.or] at hfind
    have h2 := filter_eq_cons_of_find hfind
    intro x hx hxv hxc
    by_contra hmin
    have hpx : (!s.minimized x || x == c) = true := by
      simp only [Bool.not_eq_true] at hmin
      simp [hmin]
    have hx2 : x ∈ (visibleOf s s.clients).filter (fun x => !s.minimized x || x == c) := by
      simp only [visibleOf, List.mem_filter]
      exact ⟨⟨hx, hxv⟩, hpx⟩
    rw [h2] at hx2
    rcases List.mem_cons.mp hx2 with e | e
    · exact hxc e
    · have hx3 := List.mem_of_mem_filter e
      have hx4 : x ∈ visibleOf s (after c s.clients) := by
        unfold visibleOf at hx3 ⊢
        rw [filter_after _ hv]
        exact hx3
      have := List.find?_eq_none.mp h1 x hx4
      exact this hpx
  · left
    exact ⟨d, hdc, hd, hdv, hf⟩

/-- The statement `if (lastsel == c) lastsel = NULL` leaves the rest alone. -/
theorem clear_lastsel_fields (c : Nat) (s : State) :
    (if s.lastsel = some c then set_lastsel none s else s).clients = s.clients ∧
    (if s.lastsel = some c then set_lastsel none s else s).stack = s.stack ∧
    (if s.lastsel = some c then set_lastsel none s else s).sel = s.sel ∧
    (if s.lastsel = some c then set_lastsel none s else s).minimized = s.minimized ∧
    isvisible (if s.lastsel = some c then set_lastsel none s else s) = isvisible s ∧
    (if s.lastsel = some c then set_lastsel none s else s).lastsel ≠ some c := by
  split_ifs with h
  · exact ⟨rfl, rfl, rfl, rfl, isvisible_of_eq rfl rfl rfl rfl, by simp [set_lastsel]⟩
  · exact ⟨rfl, rfl, rfl, rfl, rfl, h⟩

theorem mem_erase_erase {l : List Nat} (hnd : l.Nodup) (c n p : Nat) :
    p ∈ (l.erase c).erase n ↔ p ≠ n ∧ p ≠ c ∧ p ∈ l := by
  rw [(hnd.erase c).mem_erase_iff, hnd.mem_erase_iff]

/-- The state of `destroy(c)` before its last step: nothing refers to `c`;
the spatial list is the old one without `c`, or that with a client which was
minimized and is no longer so moved to the head; the focus stack is the old
one without `c`, or that with the selected client moved to the top. -/
theorem destroy_mid (env : Env) (a : Alloc) (c : Nat) (s : State) (hnd : s.clients.Nodup)
    (hsnd : s.stack.Nodup) (hc : c ∈ s.clients) (hsame : ∀ p, p ∈ s.stack ↔ p ∈ s.clients)
    (hsel : ∀ p, s.sel = some p → p ∈ s.clients ∧ isvisible s p = true) :
    ∃ u, destroy env a c s = some (destroy_finish env a c u) ∧ Unreferenced c u ∧
      (∀ p, p ∈ u.stack → p ∈ u.clients) ∧ isvisible u = isvisible s ∧
      (∀ p, u.sel = some p → p ∈ u.clients) ∧
      ((u.clients = s.clients.erase c ∧ u.minimized = s.minimized) ∨
        ∃ n, s.minimized n = true ∧ u.minimized = upd s.minimized n false ∧
          u.clients = n :: (s.clients.erase c).erase n) ∧
      (u.stack = s.stack.erase c ∨
        ∃ n, u.sel = some n ∧ isvisible s n = true ∧
          u.stack = n :: (s.stack.erase c).erase n) := by
  have hcE : c ∉ s.clients.erase c := fun h => (hnd.mem_erase_iff.mp h).1 rfl
  have hcS : c ∉ s.stack.erase c := fun h => (hsnd.mem_erase_iff.mp h).1 rfl
  have hlinkE : ∀ p, p ∈ s.stack.erase c → p ∈ s.clients.erase c := by
    intro p hp
    rw [hsnd.mem_erase_iff] at hp
    rw [hnd.mem_erase_iff]
    exact ⟨hp.1, (hsame p).mp hp.2⟩
  unfold destroy
  by_cases hs : s.sel = some c
  · obtain ⟨hcv⟩ : isvisible s c = true ∧ True := ⟨(hsel c hs).2, trivial⟩
    rw [if_pos hs]
    rcases focusnextnm_cases s c hnd hs hc hcv with ⟨d, hdc, hd, hdv, hf⟩ | ⟨hf, hall⟩
    · -- another client is focused
      rw [hf, Option.some_bind]
      have hX : destroy_refocus env c (detachstack c (detach c (focus (some d) s))) =
          some (detachstack c (detach c (focus (some d) s))) := by
        unfold destroy_refocus
        rw [if_neg]
        simp only [detachstack, detach, focus_some_sel]
        intro e
        exact hdc (Option.some.inj e)
      rw [hX, Option.some_bind]
      obtain ⟨k1, k2, k3, k4, k5, k6⟩ :=
        clear_lastsel_fields c (detachstack c (detach c (focus (some d) s)))
      have hstack : (detachstack c (detach c (focus (some d) s))).stack =
          d :: (s.stack.erase c).erase d := by
        rw [detachstack_stack, detach_stack, focus_some_stack,
          if_neg (by rw [hs]; intro e; exact hdc (Option.some.inj e).symm),
          List.erase_cons_tail (by simpa using hdc), List.erase_comm]
      have hclients : (detachstack c (detach c (focus (some d) s))).clients =
          s.clients.erase c := by
        rw [detachstack_clients, detach_clients, focus_clients]
      have hsel' : (detachstack c (detach c (focus (some d) s))).sel = some d := by
        show (focus (some d) s).sel = some d
        exact focus_some_sel d s
      have hdE : d ∈ s.clients.erase c := (List.mem_erase_of_ne hdc).mpr hd
      refine ⟨_, rfl, ⟨?_, ?_, ?_, k6⟩, ?_, ?_, ?_, Or.inl ⟨?_, ?_⟩, Or.inr ⟨d, ?_, hdv, ?_⟩⟩
      · rw [k1, hclients]; exact hcE
      · rw [k2, hstack]
        intro hm
        rcases List.mem_cons.mp hm with e | e
        · exact hdc e.symm
        · exact hcS (List.mem_of_mem_erase e)
      · rw [k3, hsel']
        intro e
        exact hdc (Option.some.inj e)
      · intro p hp
        rw [k2, hstack] at hp
        rw [k1, hclients]
        rcases List.mem_cons.mp hp with e | e
        · rw [e]; exact hdE
        · exact hlinkE p (List.mem_of_mem_erase e)
      · rw [k5]
        simp
      · intro p hp
        rw [k3, hsel'] at hp
        rw [k1, hclients, ← Option.some.inj hp]
        exact hdE
      · rw [k1, hclients]
      · rw [k4]
        simp
      · rw [k3, hsel']
      · rw [k2, hstack]
    · -- every other visible client is minimized
      rw [hf, Option.some_bind]
      have hXsel : (detachstack c (detach c s)).sel = some c := hs
      have hXvis : isvisible (detachstack c (detach c s)) = isvisible s := by simp
      unfold destroy_refocus
      rw [if_pos hXsel]
      cases hn : nextvisible (detachstack c (detach c s)) (detachstack c (detach c s)).clients with
      | none =>
        simp only [Option.some_bind]
        obtain ⟨k1, k2, k3, k4, k5, k6⟩ :=
          clear_lastsel_fields c (set_sel none (detachstack c (detach c s)))
        refine ⟨_, rfl, ⟨?_, ?_, ?_, k6⟩, ?_, ?_, ?_, Or.inl ⟨?_, ?_⟩, Or.inl ?_⟩
        · rw [k1]; exact hcE
        · rw [k2]; exact hcS
        · rw [k3]
          simp [set_sel]
        · intro p hp
          rw [k2] at hp
          rw [k1]
          exact hlinkE p hp
        · rw [k5]
          exact isvisible_of_eq rfl rfl rfl rfl
        · intro p hp
          rw [k3] at hp
          simp [set_sel] at hp
        · rw [k1]; rfl
        · rw [k4]; rfl
        · rw [k2]; rfl
      | some nxt =>
        simp only []
        obtain ⟨hnE, hnv⟩ := mem_of_nextvisible hn
        rw [hXvis] at hnv
        have hnE' : nxt ∈ s.clients.erase c := hnE
        have hnc : nxt ≠ c := fun e => hcE (e ▸ hnE')
        have hnmem : nxt ∈ s.clients := List.mem_of_mem_erase hnE'
        have hnmin : s.minimized nxt = true := hall nxt hnmem hnv hnc
        have hY : toggleminimize env (focus (some nxt) (detachstack c (detach c s))) =
            some (arrange env (attach nxt (detach nxt (flipmin nxt
              (focus (some nxt) (detachstack c (detach c s))))))) :=
          toggleminimize_restore env _ nxt (focus_some_sel _ _) (by
            rw [focus_minimized]
            exact hnmin)
        rw [hY, Option.some_bind]
        generalize hZ : attach nxt (detach nxt (flipmin nxt
              (focus (some nxt) (detachstack c (detach c s))))) = Z
        have hZc : Z.clients = nxt :: (s.clients.erase c).erase nxt := by
          rw [← hZ]
          simp
        have hZs : Z.stack = nxt :: (s.stack.erase c).erase nxt := by
          rw [← hZ]
          show (focus (some nxt) (detachstack c (detach c s))).stack = _
          rw [focus_some_stack, if_neg (by
            rw [hXsel]
            intro e
            exact hnc (Option.some.inj e).symm)]
          rfl
        have hZsel : Z.sel = some nxt := by
          rw [← hZ]
          show (focus (some nxt) (detachstack c (detach c s))).sel = _
          exact focus_some_sel _ _
        have hZv : isvisible Z = isvisible s := by
          rw [← hZ]
          simp
        have hZm : Z.minimized = upd s.minimized nxt false := by
          rw [← hZ]
          show upd (focus (some nxt) (detachstack c (detach c s))).minimized nxt
            (!(focus (some nxt) (detachstack c (detach c s))).minimized nxt) = _
          rw [focus_minimized]
          show upd s.minimized nxt (!s.minimized nxt) = _
          rw [hnmin]
          rfl
        have hZfind : Z.stack.find? (isvisible Z) = some nxt := by
          rw [hZs, hZv]
          simp [List.find?, hnv]
        have hAstack : (arrange env Z).stack = Z.stack := by
          rw [arrange_stack, focus_none_stack, if_pos (by rw [hZsel, hZfind])]
        have hAsel : (arrange env Z).sel = some nxt := by
          rw [arrange_sel, hZfind, if_pos]
          rw [hZc]
          simp [nextvisible, List.find?, hZv, hnv]
        obtain ⟨k1, k2, k3, k4, k5, k6⟩ := clear_lastsel_fields c (arrange env Z)
        have hcZ : c ∉ nxt :: (s.clients.erase c).erase nxt := by
          intro hm
          rcases List.mem_cons.mp hm with e | e
          · exact hnc e.symm
          · exact hcE (List.mem_of_mem_erase e)
        refine ⟨_, rfl, ⟨?_, ?_, ?_, k6⟩, ?_, ?_, ?_, Or.inr ⟨nxt, hnmin, ?_, ?_⟩,
          Or.inr ⟨nxt, ?_, hnv, ?_⟩⟩
        · rw [k1, arrange_clients, hZc]; exact hcZ
        · rw [k2, hAstack, hZs]
          intro hm
          rcases List.mem_cons.mp hm with e | e
          · exact hnc e.symm
          · exact hcS (List.mem_of_mem_erase e)
        · rw [k3, hAsel]
          intro e
          exact hnc (Option.some.inj e)
        · intro p hp
          rw [k2, hAstack, hZs] at hp
          rw [k1, arrange_clients, hZc]
          rcases List.mem_cons.mp hp with e | e
          · rw [e]; simp
          · apply List.mem_cons_of_mem
            rw [(hsnd.erase c).mem_erase_iff] at e
            rw [(hnd.erase c).mem_erase_iff]
            exact ⟨e.1, hlinkE p e.2⟩
        · rw [k5, isvisible_arrange, hZv]
        · intro p hp
          rw [k3, hAsel] at hp
          rw [k1, arrange_clients, hZc, ← Option.some.inj hp]
          simp
        · rw [k4, arrange_minimized, hZm]
        · rw [k1, arrange_clients, hZc]
        · rw [k3, hAsel]
        · rw [k2, hAstack, hZs]
  · -- another client is selected, or none
    rw [if_neg hs, Option.some_bind]
    have hX : destroy_refocus env c (detachstack c (detach c s)) =
        some (detachstack c (detach c s)) := by
      unfold destroy_refocus
      rw [if_neg]
      exact hs
    rw [hX, Option.some_bind]
    obtain ⟨k1, k2, k3, k4, k5, k6⟩ := clear_lastsel_fields c (detachstack c (detach c s))
    refine ⟨_, rfl, ⟨?_, ?_, ?_, k6⟩, ?_, ?_, ?_, Or.inl ⟨?_, ?_⟩, Or.inl ?_⟩
    · rw [k1]; exact hcE
    · rw [k2]; exact hcS
    · rw [k3]; exact hs
    · intro p hp
      rw [k2] at hp
      rw [k1]
      exact hlinkE p hp
    · rw [k5]
      simp
    · intro p hp
      rw [k3] at hp
      have hp' : s.sel = some p := hp
      rw [k1]
      show p ∈ s.clients.erase c
      refine (List.mem_erase_of_ne ?_).mpr (hsel p hp').1
      intro e
      rw [e] at hp'
      exact hs hp'
    · rw [k1]; rfl
    · rw [k4]; rfl
    · rw [k2]; rfl

set_option maxRecDepth 100000 in
/-- C26, as stated, fails on the code.  In the example state `three_stacked`
(spatial list 3, 2, 1; focus stack 2, 3, 1; all three clients visible and none
minimized; `sel` is the client 2), `destroy` of the client 2 selects the
client 1, the next one in the spatial list, and `focus` moves it to the top
of the focus stack: the stack becomes 1, 3, where the client 3 was above the
client 1 before, and no client was un-minimized. -/
theorem destroy_moves_selected_to_stack_top :
    three_stacked.clients = [3, 2, 1] ∧ three_stacked.stack = [2, 3, 1] ∧
    three_stacked.sel = some 2 ∧
    [1, 2, 3].map (isvisible three_stacked) = [true, true, true] ∧
    [1, 2, 3].map three_stacked.minimized = [false, false, false] ∧
    (destroy env0 Alloc.calloc_failed 2 three_stacked).map
        (fun t => (t.clients, t.stack, t.sel, t.lastsel, [1, 3].map t.minimized)) =
      some ([3, 1], [1, 3], some 1, none, [false, false]) := by
  decide

/-- C26 (amended). In a state whose spatial list and focus stack have distinct
nodes and hold the same clients, and whose `sel` is `NULL` or a visible client
of the list: for every client `c` of the list `destroy(c)` returns (the client
that a `create(NULL)` at its end may allocate is not `c`, which is freed
later), and afterwards nothing refers to `c`: it is not in the spatial list,
not on the focus stack, and neither `sel` nor `lastsel`.  When other clients
remain, the spatial list is the old one without `c`, except that a client
which was minimized and is so no longer may have moved to the head; and the
focus stack is the old one without `c`, except that the client selected at
the end may have moved to the top. -/
theorem destroy_unlinks (env : Env) (a : Alloc) (c : Nat) (s : State) (hnd : s.clients.Nodup)
    (hsnd : s.stack.Nodup) (hc : c ∈ s.clients) (hsame : ∀ p, p ∈ s.stack ↔ p ∈ s.clients)
    (hsel : ∀ p, s.sel = some p → p ∈ s.clients ∧ isvisible s p = true)
    (hfresh : ∀ c2, a = Alloc.ok c2 → c2 ≠ c) :
    ∃ t, destroy env a c s = some t ∧ Unreferenced c t ∧
      (s.clients.erase c ≠ [] →
        ((t.clients = s.clients.erase c ∧ t.minimized = s.minimized) ∨
          ∃ n, s.minimized n = true ∧ t.minimized n = false ∧
            t.clients = n :: (s.clients.erase c).erase n) ∧
        (t.stack = s.stack.erase c ∨
          ∃ n, t.sel = some n ∧ t.stack = n :: (s.stack.erase c).erase n)) := by
  obtain ⟨u, hu, hunref, hlink, hvis, hselu, hcl, hst⟩ :=
    destroy_mid env a c s hnd hsnd hc hsame hsel
  refine ⟨_, hu, unref_destroy_finish env a c u hunref hfresh, ?_⟩
  intro hne
  have hne' : u.clients ≠ [] := by
    rcases hcl with ⟨e, -⟩ | ⟨n, -, -, e⟩
    · rw [e]; exact hne
    · rw [e]; simp
  have hfin : destroy_finish env a c u = arrange env u := by
    unfold destroy_finish
    rw [if_neg (fun h => hne' h.1)]
  rw [hfin]
  constructor
  · rcases hcl with ⟨e1, e2⟩ | ⟨n, e1, e2, e3⟩
    · left
      exact ⟨by rw [arrange_clients, e1], by rw [arrange_minimized, e2]⟩
    · right
      refine ⟨n, e1, ?_, by rw [arrange_clients, e3]⟩
      rw [arrange_minimized, e2, upd_same]
  · have hsome : ∀ x, u.stack.find? (isvisible u) = some x →
        (arrange env u).sel = some x := by
      intro x hx
      rw [arrange_sel, hx, if_pos]
      have hxs := List.mem_of_find?_eq_some hx
      have hxv : isvisible u x = true := by simpa using List.find?_some hx
      rw [nextvisible, List.find?_isSome]
      exact ⟨x, hlink x hxs, hxv⟩
    rcases hst with e | ⟨n, e1, e2, e3⟩
    · rcases arrange_stack_cases env u with ⟨-, k⟩ | ⟨-, -, k⟩ | ⟨x, hx, -, k⟩
      · left; rw [k, e]
      · left; rw [k, e]
      · right
        exact ⟨x, hsome x hx, by rw [k, e]⟩
    · right
      have hfind : u.stack.find? (isvisible u) = some n := by
        rw [e3, hvis]
        simp [List.find?, e2]
      refine ⟨n, hsome n hfind, ?_⟩
      rw [arrange_stack, focus_none_stack, if_pos (by rw [e1, hfind]), e3]

set_option maxRecDepth 100000 in
/-- C26 (amended) on the example state `three_stacked` and its client 2. -/
theorem destroy_unlinks_witness :
    three_stacked.clients = [3, 2, 1] ∧ three_stacked.stack = [2, 3, 1] ∧
    three_stacked.sel = some 2 ∧ isvisible three_stacked 2 = true ∧
    ∃ t, destroy env0 Alloc.calloc_failed 2 three_stacked = some t ∧ Unreferenced 2 t ∧
      (three_stacked.clients.erase 2 ≠ [] →
        ((t.clients = three_stacked.clients.erase 2 ∧ t.minimized = three_stacked.minimized) ∨
          ∃ n, three_stacked.minimized n = true ∧ t.minimized n = false ∧
            t.clients = n :: (three_stacked.clients.erase 2).erase n) ∧
        (t.stack = three_stacked.stack.erase 2 ∨
          ∃ n, t.sel = some n ∧ t.stack = n :: (three_stacked.stack.erase 2).erase n)) :=
  have h1 : three_stacked.clients = [3, 2, 1] := by decide
  have h2 : three_stacked.stack = [2, 3, 1] := by decide
  have h3 : three_stacked.sel = some 2 := by decide
  ⟨h1, h2, h3, by decide,
   destroy_unlinks env0 Alloc.calloc_failed 2 three_stacked (by rw [h1]; decide)
     (by rw [h2]; decide) (by rw [h1]; decide)
     (fun p => by
       rw [h1, h2]
       simp only [List.mem_cons, List.mem_singleton, List.not_mem_nil, or_false]
       tauto)
     (fun p hp => by
       rw [h3] at hp
       cases hp
       exact ⟨by rw [h1]; decide, by decide⟩)
     (fun c2 h => by cases h)⟩

end Dvtm
